import Mathlib

/-!
# SuiteSparse:GraphBLAS kernels: a shallow embedding and its properties

Embedded sources:

* `Source/Generated/GB_red__min_int16.c`      (MIN monoid over int16_t)
* `Source/Generated/GB_sel__nonzombie_fp32.c` (non-zombie selector)
* `Source/Generated/GB_AxB__max_first_uint8.c` (MAX_FIRST semiring over uint8_t)
* `Source/Template/GB_AxB_saxpy3_coarseHash_phase1.c`
* `Source/GB_subassign_method13b.c`
* `Source/GB_math.h` (bit shifts, bitget, complex division)

C arrays are functions `Nat → α` (a slot number to its content); `int64_t`
quantities are `Int` or `Nat`; a loop `for (p = a ; p < b ; p++)` is a
recursion on the trip count `b - a`.
-/

namespace GraphBLAS

/-! ## Definitions -/

/-- Write `v` into slot `k` of the array `f`: the C statement `f [k] = v`. -/
def upd {α : Type} (f : Nat → α) (k : Nat) (v : α) : Nat → α :=
  fun q => if q = k then v else f q

/-! ### `GB_red__min_int16.c` -/

/-- The constant INT16_MAX of `<stdint.h>`. -/
def INT16_MAX : Int := 32767

/-- The constant INT16_MIN of `<stdint.h>`. -/
def INT16_MIN : Int := -32768

/-- Modelled from the spec: the macro GB_IMIN of GB.h, which is not among the
sources; it is the integer minimum, the operator of the MIN monoid
(`Reduce: s = GB_IMIN (s, aij)`). -/
def GB_IMIN (x y : Int) : Int := if x < y then x else y

/-- The macro `GB_REDUCE(t,Ax,p)`: `t = GB_IMIN (t, Ax [p])`. -/
def GB_REDUCE (t : Int) (Ax : Nat → Int) (p : Nat) : Int := GB_IMIN t (Ax p)

/-- The macro `GB_IDENTITY`: INT16_MAX. -/
def GB_IDENTITY : Int := INT16_MAX

/-- The macro `GB_REDUCE_INIT(t)`: `int16_t t = INT16_MAX ;`. -/
def GB_REDUCE_INIT : Int := INT16_MAX

/-- The macro `GB_REDUCE_WRAPUP(w,tid,t)`: `w [tid] = t ;`. -/
def GB_REDUCE_WRAPUP (w : Nat → Int) (tid : Nat) (t : Int) : Nat → Int := upd w tid t

/-- The macro `GB_REDUCE_W(s,w,tid)`: `s = GB_IMIN (s, w [tid])`. -/
def GB_REDUCE_W (s : Int) (w : Nat → Int) (tid : Nat) : Int := GB_IMIN s (w tid)

/-- The macro `GB_REDUCE_TERMINAL(t)`: `if (s == INT16_MIN) break ;`.
The body names the variable `s` of the enclosing scope and not the macro
parameter `t`; both are arguments here, and the test reads `s`. -/
def GB_REDUCE_TERMINAL (_t : Int) (s : Int) : Bool := s == INT16_MIN

/-- Modelled from the spec: the reduction loop of GB_reduce_to_scalar_template.c,
which is not among the sources:
`for (p = pstart ; p < pend ; p++) { GB_REDUCE (v, Ax, p) ; GB_REDUCE_TERMINAL (v) ; }`.
The running variable is `v`.  `amb = none` is the single-thread loop, whose
running variable is `s` itself; `amb = some s` is a thread's loop over its
private `t`, with `s` the scalar of the enclosing function.  The trip count is
`n = pend - p`.  The result is the running value on exit and the number of
entries of `Ax` that were read. -/
def GB_reduce_loop (Ax : Nat → Int) (amb : Option Int) : Nat → Nat → Int → Nat → Int × Nat
  | 0, _, v, nread => (v, nread)
  | n + 1, p, v, nread =>
    let v1 := GB_REDUCE v Ax p
    if GB_REDUCE_TERMINAL v1 (amb.getD v1) then (v1, nread + 1)
    else GB_reduce_loop Ax amb n (p + 1) v1 (nread + 1)

/-- Modelled from the spec: the macro GB_PARTITION of GB.h, which is not among
the sources; thread `tid` of `nthreads` gets the contiguous slice
`[tid * anz / nthreads, (tid+1) * anz / nthreads)` of the `anz` entries. -/
def GB_PARTITION (anz tid nthreads : Nat) : Nat × Nat :=
  (tid * anz / nthreads, (tid + 1) * anz / nthreads)

/-- Modelled from the spec: the parallel part of GB_reduce_to_scalar_template.c,
for the threads `tid, tid+1, ..` (`m` of them): each reduces its slice from
`GB_REDUCE_INIT` and stores the result with `GB_REDUCE_WRAPUP`. -/
def GB_reduce_threads (Ax : Nat → Int) (anz nthreads : Nat) (s : Int) :
    Nat → Nat → (Nat → Int) → (Nat → Int)
  | 0, _, w => w
  | m + 1, tid, w =>
    let pr := GB_PARTITION anz tid nthreads
    let t := (GB_reduce_loop Ax (some s) (pr.2 - pr.1) pr.1 GB_REDUCE_INIT 0).1
    GB_reduce_threads Ax anz nthreads s m (tid + 1) (GB_REDUCE_WRAPUP w tid t)

/-- Modelled from the spec: the final loop of GB_reduce_to_scalar_template.c,
`for (tid = 0 ; tid < nthreads ; tid++) GB_REDUCE_W (s, w, tid) ;`. -/
def GB_reduce_combine (w : Nat → Int) : Nat → Nat → Int → Int
  | 0, _, s => s
  | m + 1, tid, s => GB_reduce_combine w m (tid + 1) (GB_REDUCE_W s w tid)

/-- The function `GB_red_scalar__min_int16`: `s = INT16_MAX`, the template, then
`(*result) = s`.  The argument `A` is given by its value array `Ax` and its
number of entries `anz`. -/
def GB_red_scalar__min_int16 (Ax : Nat → Int) (anz : Nat) (nthreads : Nat) : Int :=
  let s := INT16_MAX
  if nthreads = 1 then
    (GB_reduce_loop Ax none anz 0 s 0).1
  else
    let w := GB_reduce_threads Ax anz nthreads s nthreads 0 (fun _ => 0)
    GB_reduce_combine w nthreads 0 s

/-- The reduction that reads every value: `GB_REDUCE` applied to each of the `n`
entries from `p` on, with no terminal test. -/
def reduce_all (Ax : Nat → Int) : Nat → Nat → Int → Int
  | 0, _, v => v
  | n + 1, p, v => reduce_all Ax n (p + 1) (GB_REDUCE v Ax p)

/-- The array that holds the values of the list `l`. -/
def ofList {α : Type} (l : List α) (d : α) : Nat → α := fun p => l.getD p d

/-! ### Zombies and the matrix -/

/-- Modelled from the spec: the macro GB_FLIP of GB.h, which is not among the
sources; the one-to-one flip that marks an index as a zombie.  A flipped index
is negative and a regular index is not (headers_for_doxygen.h, GB_subref_template.c). -/
def GB_FLIP (i : Int) : Int := -i - 2

/-- Modelled from the spec: the macro GB_IS_ZOMBIE of GB.h: the index is flipped. -/
def GB_IS_ZOMBIE (i : Int) : Bool := decide (i < 0)

/-- Modelled from the spec: the macro GB_IS_NOT_ZOMBIE of GB.h: the index is not flipped. -/
def GB_IS_NOT_ZOMBIE (i : Int) : Bool := decide (0 ≤ i)

/-- Modelled from the spec: the macro GB_UNFLIP of GB.h: the absolute index of an entry. -/
def GB_UNFLIP (i : Int) : Int := if i < 0 then GB_FLIP i else i

/-- Modelled from the spec: the matrix of section 3: the dimensions, the number
`nvec` of stored vectors, the hyperlist `h` (absent in standard form), the
offsets `p`, the indices `i`, the values `x` and the zombie count. -/
structure GB_Matrix (α : Type) where
  vlen : Nat
  vdim : Nat
  nvec : Nat
  h : Option (Nat → Nat)
  p : Nat → Nat
  i : Nat → Int
  x : Nat → α
  nzombies : Int

/-- The positions `p [k] .. p [k+1]-1` of the entries of the `k`-th stored vector. -/
def GB_Matrix.vecPos {α : Type} (A : GB_Matrix α) (k : Nat) : List Nat :=
  List.range' (A.p k) (A.p (k + 1) - A.p k)

/-! ### `GB_sel__nonzombie_fp32.c` -/

/-- The macro `GB_SELECT(p)`: `(GB_IS_NOT_ZOMBIE (Ai [p]))`. -/
def GB_SELECT (Ai : Nat → Int) (p : Nat) : Bool := GB_IS_NOT_ZOMBIE (Ai p)

/-- The macro `GB_SELECT_ENTRY(Cx,pC,Ax,pA)`: `Cx [pC] = Ax [pA]`. -/
def GB_SELECT_ENTRY {α : Type} (Cx : Nat → α) (pC : Nat) (Ax : Nat → α) (pA : Nat) : Nat → α :=
  upd Cx pC (Ax pA)

/-- The macros `GB_CAST_ARRAY_TO_SCALAR` and `GB_ADD_CAST_ARRAY_TO_SCALAR`,
`s = GB_SELECT (p)` and `s += GB_SELECT (p)`, run over the `n` positions
from `p` on: the phase-1 count of a vector. -/
def GB_sel_count (Ai : Nat → Int) : Nat → Nat → Nat → Nat
  | 0, _, s => s
  | n + 1, p, s => GB_sel_count Ai n (p + 1) (s + if GB_SELECT Ai p then 1 else 0)

/-- Modelled from the spec: phase 1 of the selection (GB_select_phase1.c is not
among the sources): the cumulative sum `Cp` of the counts of the vectors. -/
def GB_sel_phase1 {α : Type} (A : GB_Matrix α) : Nat → Nat
  | 0 => 0
  | k + 1 => GB_sel_phase1 A k + GB_sel_count A.i (A.p (k + 1) - A.p k) (A.p k) 0

/-- Modelled from the spec: the compaction loop of GB_select_phase2.c, which is
not among the sources ("delete zombies by compaction: skip any entry whose
index is flipped"):
`for (pA ..) if (GB_SELECT (pA)) { Ci [pC] = Ai [pA] ; GB_SELECT_ENTRY (Cx, pC, Ax, pA) ; pC++ ; }`
over the `n` positions from `pA` on. -/
def GB_sel_compact {α : Type} (Ai : Nat → Int) (Ax : Nat → α) :
    Nat → Nat → (Nat → Int) → (Nat → α) → Nat → (Nat → Int) × (Nat → α) × Nat
  | 0, _, Ci, Cx, pC => (Ci, Cx, pC)
  | n + 1, pA, Ci, Cx, pC =>
    if GB_SELECT Ai pA then
      GB_sel_compact Ai Ax n (pA + 1) (upd Ci pC (Ai pA)) (GB_SELECT_ENTRY Cx pC Ax pA) (pC + 1)
    else
      GB_sel_compact Ai Ax n (pA + 1) Ci Cx pC

/-- The function `GB_sel_phase2__nonzombie_fp32`, for the vectors `k, k+1, ..`
(`m` of them): vector `k` of `A` is compacted into `Ci`, `Cx` from `Cp [k]` on. -/
def GB_sel_phase2__nonzombie_fp32 {α : Type} (A : GB_Matrix α) (Cp : Nat → Nat) :
    Nat → Nat → (Nat → Int) → (Nat → α) → (Nat → Int) × (Nat → α)
  | 0, _, Ci, Cx => (Ci, Cx)
  | m + 1, k, Ci, Cx =>
    let r := GB_sel_compact A.i A.x (A.p (k + 1) - A.p k) (A.p k) Ci Cx (Cp k)
    GB_sel_phase2__nonzombie_fp32 A Cp m (k + 1) r.1 r.2.1

/-- The `k`-th vector of the output: the pairs `(Ci [q], Cx [q])` for
`q = Cp [k] .. Cp [k+1]-1`. -/
def outVector {α : Type} (Cp : Nat → Nat) (C : (Nat → Int) × (Nat → α)) (k : Nat) :
    List (Int × α) :=
  (List.range' (Cp k) (Cp (k + 1) - Cp k)).map (fun q => (C.1 q, C.2 q))

/-- The entries of the `k`-th vector of `A` whose index is not flipped, in order. -/
def liveVector {α : Type} (A : GB_Matrix α) (k : Nat) : List (Int × α) :=
  ((A.vecPos k).filter (fun p => GB_IS_NOT_ZOMBIE (A.i p))).map (fun p => (A.i p, A.x p))

/-- The number of flipped indices among the first `n` positions of `Ai`. -/
def countZombies (Ai : Nat → Int) (n : Nat) : Nat :=
  ((List.range n).filter (fun p => GB_IS_ZOMBIE (Ai p))).length

/-- The selector as a whole: phase 1 computes `Cp`, phase 2 fills `Ci` and `Cx`. -/
def GB_sel_nonzombie {α : Type} (A : GB_Matrix α) (Ci0 : Nat → Int) (Cx0 : Nat → α) :
    (Nat → Int) × (Nat → α) :=
  GB_sel_phase2__nonzombie_fp32 A (GB_sel_phase1 A) A.nvec 0 Ci0 Cx0

/-! ### Example inputs -/

/-- A matrix with two vectors, `[3, zombie of 5, 7]` and `[zombie of 0]`, with
the values 10, 20, 30, 40. -/
def selA : GB_Matrix Nat :=
  { vlen := 8, vdim := 2, nvec := 2, h := none,
    p := ofList [0, 3, 4] 0,
    i := ofList [3, GB_FLIP 5, 7, GB_FLIP 0] 0,
    x := ofList [10, 20, 30, 40] 0,
    nzombies := 2 }

/-! ### `GB_AxB__max_first_uint8.c` -/

/-- The constant UINT8_MAX of `<stdint.h>`. -/
def UINT8_MAX : Nat := 255

/-- Modelled from the spec: the macro GB_IMAX of GB.h, which is not among the
sources; the integer maximum, the operator of the MAX monoid
(`Add: cij = GB_IMAX (cij,z)`). -/
def GB_IMAX (x y : Nat) : Nat := if x > y then x else y

/-- The macro `GB_MULTOP(z,x,y)`: `z = x`.  The operand `y` is what `GB_GETB`
loaded, which is nothing. -/
def GB_MULTOP (x : Nat) (_y : Option Nat) : Nat := x

/-- The macro `GB_GETA(aik,Ax,pA,asize)`: `GB_atype aik = Ax [pA] ;`. -/
def GB_GETA (Ax : Nat → Nat) (pA : Nat) : Nat := Ax pA

/-- The macro `GB_GETB(bkj,Bx,pB,bsize)`: `;`, no value of `B` is loaded. -/
def GB_GETB (_Bx : Nat → Nat) (_pB : Nat) : Option Nat := none

/-- The macro `GB_DOT_TERMINAL(cij)`: `if (cij == UINT8_MAX) break ;`. -/
def GB_DOT_TERMINAL (cij : Nat) : Bool := cij == UINT8_MAX

/-- Modelled from the spec: the macro GB_MULTIPLY of GB_AxB_dot_flipxy.c, which
is not among the sources, as the dot product uses it: the product
`A(k,i) ⊗ B(k,j)` of spec 4.5.4, `mult (x,y)`, with no swap of the operands.
The operand `y` is `bkj`, which GB_GETB does not load. -/
def GB_MULTIPLY (_flipxy : Bool) (x : Nat) (y : Option Nat) : Nat := GB_MULTOP x y

/-- The macro `GB_DOT_MULT(aki,bkj)`: `uint8_t t ; GB_MULTIPLY (t, aki, bkj) ;`. -/
def GB_DOT_MULT (flipxy : Bool) (aki : Nat) (bkj : Option Nat) : Nat := GB_MULTIPLY flipxy aki bkj

/-- The macro `GB_DOT_ADD`: `cij = GB_IMAX (cij,t) ;`. -/
def GB_DOT_ADD (cij t : Nat) : Nat := GB_IMAX cij t

/-- The macro `GB_DOT_COPY`: `cij = t ;`. -/
def GB_DOT_COPY (t : Nat) : Nat := t

/-- Modelled from the spec: the dot product of GB_AxB_dot_cij.c, which is not
among the sources: "a merge of the two sorted index streams", with the
short-circuit on the terminal value.
`while (pA < pA_end && pB < pB_end)`: the smaller index advances; on equal
indices `k` the product `t` of `A(k,i)` and `B(k,j)` is taken with GB_DOT_MULT
and is copied into `cij` (GB_DOT_COPY, first match) or added to it (GB_DOT_ADD),
then GB_DOT_TERMINAL may break.  The state is `(cij_exists, cij)`. -/
def GB_AxB_dot_cij (flipxy : Bool) (Ai : Nat → Int) (Ax : Nat → Nat) (Bi : Nat → Int)
    (Bx : Nat → Nat) (pA_end pB_end : Nat) : Nat → Nat → Nat → Bool → Nat → Bool × Nat
  | 0, _, _, cij_exists, cij => (cij_exists, cij)
  | fuel + 1, pA, pB, cij_exists, cij =>
    if pA < pA_end ∧ pB < pB_end then
      let ia := Ai pA
      let ib := Bi pB
      if ia < ib then GB_AxB_dot_cij flipxy Ai Ax Bi Bx pA_end pB_end fuel (pA + 1) pB cij_exists cij
      else if ib < ia then
        GB_AxB_dot_cij flipxy Ai Ax Bi Bx pA_end pB_end fuel pA (pB + 1) cij_exists cij
      else
        let aki := GB_GETA Ax pA
        let bkj := GB_GETB Bx pB
        let t := GB_DOT_MULT flipxy aki bkj
        let cij1 := if cij_exists then GB_DOT_ADD cij t else GB_DOT_COPY t
        if GB_DOT_TERMINAL cij1 then (true, cij1)
        else GB_AxB_dot_cij flipxy Ai Ax Bi Bx pA_end pB_end fuel (pA + 1) (pB + 1) true cij1
    else (cij_exists, cij)

/-- The function `GB_AdotB__max_first_uint8` at one pair `(i,j)` that it
targets: the dot product of `A(:,i)` and `B(:,j)`; `some cij` when `C(i,j)`
is present (`cij_exists`, saved by GB_DOT_SAVE) and `none` when it is not. -/
def GB_AdotB__max_first_uint8 (A B : GB_Matrix Nat) (flipxy : Bool) (i j : Nat) : Option Nat :=
  let r := GB_AxB_dot_cij flipxy A.i A.x B.i B.x (A.p (i + 1)) (B.p (j + 1))
    ((A.p (i + 1) - A.p i) + (B.p (j + 1) - B.p j)) (A.p i) (B.p j) false 0
  if r.1 then some r.2 else none

/-- The position `a` of `A(:,i)` holds an index that `B(:,j)` holds too. -/
def sharedAt (A B : GB_Matrix Nat) (i j a : Nat) : Prop :=
  A.p i ≤ a ∧ a < A.p (i + 1) ∧ ∃ b, B.p j ≤ b ∧ b < B.p (j + 1) ∧ B.i b = A.i a

/-- A matrix with one vector: the indices 1, 3, 4 with the values 7, 9, 2. -/
def dotA : GB_Matrix Nat :=
  { vlen := 5, vdim := 1, nvec := 1, h := none,
    p := ofList [0, 3] 0, i := ofList [1, 3, 4] 0, x := ofList [7, 9, 2] 0, nzombies := 0 }

/-- A matrix with one vector: the indices 0, 3, 4 with the values 1, 1, 1. -/
def dotB : GB_Matrix Nat :=
  { vlen := 5, vdim := 1, nvec := 1, h := none,
    p := ofList [0, 3] 0, i := ofList [0, 3, 4] 0, x := ofList [1, 1, 1] 0, nzombies := 0 }

/-! ### `GB_AxB_saxpy3_coarseHash_phase1.c` -/

/-- Modelled from the spec: the function GB_lookup behind the macro GB_GET_A_k,
which is not among the sources: the positions `[pA_start, pA_end)` of the
vector `A(:,k)`; in standard form `Ap [k]` and `Ap [k+1]`, in hypersparse form
those of the stored vector whose entry of `Ah` is `k`, and an empty range when
there is none. -/
def GB_lookup {α : Type} (A : GB_Matrix α) (k : Nat) : Nat × Nat :=
  match A.h with
  | none => (A.p k, A.p (k + 1))
  | some Ah =>
    match (List.range A.nvec).find? (fun kk => Ah kk == k) with
    | some kk => (A.p kk, A.p (kk + 1))
    | none => (0, 0)

/-- The hash table of a coarse hash task: the flags `Hf`, the indices `Hi`, and
the count `cjnz` of the entries of the current `C(:,j)`. -/
structure HashTable where
  Hf : Nat → Int
  Hi : Nat → Int
  cjnz : Int

/-- The probe loop `for (hash = GB_HASHF (i) ; ; GB_REHASH (hash, i))`, entered
at the slot `hash`: it stops at a slot that holds `i` (`found`) or that is
unmarked, and yields the slot and `marked`.  The loop of the source has no
bound; here it runs at most `fuel` slots and yields `none` beyond.  The macro
GB_REHASH is the parameter `rehash`. -/
def hash_probe (rehash : Nat → Int → Nat) (Hf Hi : Nat → Int) (mark i : Int) :
    Nat → Nat → Option (Nat × Bool)
  | 0, _ => none
  | fuel + 1, hash =>
    let marked := decide (Hf hash = mark)
    let found := marked && decide (Hi hash = i)
    if found || !marked then some (hash, marked)
    else hash_probe rehash Hf Hi mark i fuel (rehash hash i)

/-- The body of the scan of `A(:,k)` for one row index `i`: the probe from
`GB_HASHF (i)` (the parameter `hashf`), then
`if (!marked) { Hf [hash] = mark ; Hi [hash] = i ; cjnz++ ; }`. -/
def hash_insert (hashf : Int → Nat) (rehash : Nat → Int → Nat) (fuel : Nat) (mark : Int)
    (T : HashTable) (i : Int) : Option HashTable :=
  match hash_probe rehash T.Hf T.Hi mark i fuel (hashf i) with
  | none => none
  | some (hash, marked) =>
    if !marked then some { Hf := upd T.Hf hash mark, Hi := upd T.Hi hash i, cjnz := T.cjnz + 1 }
    else some T

/-- The loop `for (pA = pA_start ; pA < pA_end ; pA++)` over `A(:,k)`, with
`i = GBI (Ai, pA, avlen)` read from `Ai [pA]`; `n` is the trip count. -/
def scan_A (hashf : Int → Nat) (rehash : Nat → Int → Nat) (fuel : Nat) (mark : Int)
    (Ai : Nat → Int) : Nat → Nat → HashTable → Option HashTable
  | 0, _, T => some T
  | n + 1, pA, T =>
    match hash_insert hashf rehash fuel mark T (Ai pA) with
    | none => none
    | some T1 => scan_A hashf rehash fuel mark Ai n (pA + 1) T1

/-- The loop `for ( ; pB < pB_end ; pB++)` over `B(:,j)`: `k = GBI (Bi, pB, bvlen)`,
GB_GET_A_k, then the scan of `A(:,k)`; `m` is the trip count. -/
def scan_B {α : Type} (hashf : Int → Nat) (rehash : Nat → Int → Nat) (fuel : Nat) (mark : Int)
    (A B : GB_Matrix α) : Nat → Nat → HashTable → Option HashTable
  | 0, _, T => some T
  | m + 1, pB, T =>
    let k := (B.i pB).toNat
    let pr := GB_lookup A k
    match scan_A hashf rehash fuel mark A.i (pr.2 - pr.1) pr.1 T with
    | none => none
    | some T1 => scan_B hashf rehash fuel mark A B m (pB + 1) T1

/-- The state of a coarse hash task in phase 1: the hash table arrays, `mark`,
and the counts `Cp`. -/
structure HashTask where
  Hf : Nat → Int
  Hi : Nat → Int
  mark : Int
  Cp : Nat → Int

/-- The template `GB_AxB_saxpy3_coarseHash_phase1.c` without GB_CHECK_MASK_ij:
the loop `for (kk = kfirst ; kk <= klast ; kk++)`, with `cnt` the number of
vectors left.  GB_GET_B_j is `pB = Bp [kk]`, `pB_end = Bp [kk+1]`,
`bjnz = pB_end - pB`. -/
def GB_AxB_saxpy3_coarseHash_phase1 {α : Type} (hashf : Int → Nat)
    (rehash : Nat → Int → Nat) (fuel : Nat) (A B : GB_Matrix α) :
    Nat → Nat → HashTask → Option HashTask
  | 0, _, S => some S
  | cnt + 1, kk, S =>
    let pB := B.p kk
    let pB_end := B.p (kk + 1)
    let bjnz : Int := (pB_end : Int) - (pB : Int)
    if bjnz = 0 then
      GB_AxB_saxpy3_coarseHash_phase1 hashf rehash fuel A B cnt (kk + 1)
        { S with Cp := upd S.Cp kk 0 }
    else if bjnz = 1 then
      let k := (B.i pB).toNat
      let pr := GB_lookup A k
      let aknz : Int := (pr.2 : Int) - (pr.1 : Int)
      GB_AxB_saxpy3_coarseHash_phase1 hashf rehash fuel A B cnt (kk + 1)
        { S with Cp := upd S.Cp kk aknz }
    else
      let mark := S.mark + 1
      match scan_B hashf rehash fuel mark A B (pB_end - pB) pB
          { Hf := S.Hf, Hi := S.Hi, cjnz := 0 } with
      | none => none
      | some T =>
        GB_AxB_saxpy3_coarseHash_phase1 hashf rehash fuel A B cnt (kk + 1)
          { Hf := T.Hf, Hi := T.Hi, mark := mark, Cp := upd S.Cp kk T.cjnz }

/-- The slot that the probe for `i` visits at step `t`:
`GB_HASHF (i)`, then `GB_REHASH` applied `t` times. -/
def probeSeq (hashf : Int → Nat) (rehash : Nat → Int → Nat) (i : Int) : Nat → Nat
  | 0 => hashf i
  | t + 1 => rehash (probeSeq hashf rehash i t) i

/-- The row indices of `A(:,k)`, in storage order. -/
def rowsOf {α : Type} (A : GB_Matrix α) (k : Nat) : List Int :=
  (List.range' (GB_lookup A k).1 ((GB_lookup A k).2 - (GB_lookup A k).1)).map A.i

/-- The row indices `i` with `A(i,k)` present, listed for each `k` with
`B(k,j)` present, where `j` is the `kk`-th vector of `B`. -/
def rowsOfProduct {α : Type} (A B : GB_Matrix α) (kk : Nat) : List Int :=
  (B.vecPos kk).flatMap (fun pB => rowsOf A (B.i pB).toNat)

/-- The number of entries in the pattern of `(A*B)(:,j)`: the number of
distinct row indices in `rowsOfProduct`. -/
def patternCount {α : Type} (A B : GB_Matrix α) (kk : Nat) : Nat :=
  (rowsOfProduct A B kk).dedup.length

/-- Feed the row indices of a list to the hash table, one `hash_insert` each. -/
def insertAll (hashf : Int → Nat) (rehash : Nat → Int → Nat) (fuel : Nat) (mark : Int) :
    List Int → HashTable → Option HashTable
  | [], T => some T
  | i :: l, T =>
    match hash_insert hashf rehash fuel mark T i with
    | none => none
    | some T1 => insertAll hashf rehash fuel mark l T1

/-- The invariant of the hash table while `C(:,j)` is counted, for the set `S`
of the row indices inserted so far: `cjnz` counts them; the marked slots are
as many; each index of `S` sits in a marked slot that its probe reaches, in
less than `N` steps, through marked slots holding other indices; and a marked
slot holds an index of `S`.  The table has the slots `0 .. n-1`. -/
def HashInv (hashf : Int → Nat) (rehash : Nat → Int → Nat) (n N : Nat) (mark : Int)
    (T : HashTable) (S : Finset Int) : Prop :=
  T.cjnz = S.card ∧
  ((Finset.range n).filter (fun h => T.Hf h = mark)).card = S.card ∧
  (∀ i, i ∈ S → ∃ t, t < N ∧ T.Hf (probeSeq hashf rehash i t) = mark ∧
    T.Hi (probeSeq hashf rehash i t) = i ∧
    ∀ t', t' < t → T.Hf (probeSeq hashf rehash i t') = mark ∧
      T.Hi (probeSeq hashf rehash i t') ≠ i) ∧
  (∀ h, h < n → T.Hf h = mark → T.Hi h ∈ S)

/-- A 4-by-3 matrix: the rows 0, 2 in column 0, the rows 2, 3 in column 1 and
the row 1 in column 2. -/
def hashA : GB_Matrix Nat :=
  { vlen := 4, vdim := 3, nvec := 3, h := none,
    p := ofList [0, 2, 4, 5] 0, i := ofList [0, 2, 2, 3, 1] 0,
    x := ofList [1, 1, 1, 1, 1] 0, nzombies := 0 }

/-- A 3-by-3 matrix: the rows 0, 1 in column 0, the row 2 in column 1, and an
empty column 2. -/
def hashB : GB_Matrix Nat :=
  { vlen := 3, vdim := 3, nvec := 3, h := none,
    p := ofList [0, 2, 3, 3] 0, i := ofList [0, 1, 2] 0,
    x := ofList [1, 1, 1] 0, nzombies := 0 }

/-- A coarse hash task on entry: every flag is 0 and `mark` is 1. -/
def hashS0 : HashTask :=
  { Hf := fun _ => 0, Hi := fun _ => 0, mark := 1, Cp := fun _ => 0 }

/-! ### `GB_subassign_method13b.c` -/

/-- Modelled from the spec: the kinds of an index list (GB_ALL, GB_RANGE,
GB_STRIDE, GB_LIST of GB.h): the entire axis, a colon expression with
increment 1, a colon expression `begin:inc:end`, an explicit list. -/
inductive GB_Ikind where
  | GB_ALL
  | GB_RANGE
  | GB_STRIDE
  | GB_LIST

/-- Modelled from the spec: the position GxB_BEGIN of a colon expression. -/
def GxB_BEGIN : Nat := 0

/-- Modelled from the spec: the position GxB_INC of a colon expression. -/
def GxB_INC : Nat := 2

/-- Modelled from the spec: the function GB_ijlist of GB.h, which is not among
the sources: the `k`-th index of an index list, `I [k]` or the value of the
colon expression. -/
def GB_ijlist (I : Nat → Int) (k : Int) (Ikind : GB_Ikind) (Icolon : Nat → Int) : Int :=
  match Ikind with
  | GB_Ikind.GB_ALL => k
  | GB_Ikind.GB_RANGE => Icolon GxB_BEGIN + k
  | GB_Ikind.GB_STRIDE => Icolon GxB_BEGIN + k * Icolon GxB_INC
  | GB_Ikind.GB_LIST => I k.toNat

/-- Modelled from the spec: a task of the slicing GB_SUBASSIGN_2_SLICE, which
is not among the sources: a coarse task owns the vectors `kfirst .. klast`, a
fine task owns the slice `[pA, pA_end)` of `A(:,j)` and the slice
`[pB, pB_end)` of `S(:,j)` of one vector `kfirst`. -/
inductive GB_task where
  | coarse (kfirst klast : Nat)
  | fine (kfirst : Nat) (pA pA_end pB pB_end : Nat)

/-- The arguments of GB_subassign_method13b other than `C`: the index lists
`I` and `J`, the mask `M`, the matrix `A`, the symbolic pattern `S` whose
values are positions in `C`, the typecasts `cast_A_to_C` (of GB_GET_A) and
`cast_M` (of GB_GET_MASK), and the result of GB_SUBASSIGN_2_SLICE: the
hyperlist `Zh` of the vectors of `A+S` and the task list. -/
structure GB_subassign_args (α γ μ : Type) where
  I : Nat → Int
  nI : Nat
  Ikind : GB_Ikind
  Icolon : Nat → Int
  J : Nat → Int
  nJ : Nat
  Jkind : GB_Ikind
  Jcolon : Nat → Int
  M : GB_Matrix μ
  A : GB_Matrix α
  S : GB_Matrix Nat
  cast_A_to_C : α → γ
  cast_M : μ → Bool
  Zh : Option (Nat → Nat)
  TaskList : List GB_task

/-- What GB_GET_C takes from `C` and the method changes: `Ci`, `Cx`, `nzombies`. -/
structure GB_C_state (γ : Type) where
  Ci : Nat → Int
  Cx : Nat → γ
  nzombies : Int

/-- Modelled from the spec: the macro GB_MIJ_BINARY_SEARCH of GB_subassign.h,
which is not among the sources: the search for the index `i` in `M(:,j)`, the
positions `[pM_start, pM_end)`; `mij` is the entry cast to bool when it is
found and false when it is not ("true iff stored and non-zero"). -/
def GB_MIJ_BINARY_SEARCH {μ : Type} (M : GB_Matrix μ) (cast_M : μ → Bool)
    (pM_start pM_end : Nat) (i : Int) : Bool :=
  match (List.range' pM_start (pM_end - pM_start)).find? (fun pM => M.i pM == i) with
  | some pM => cast_M (M.x pM)
  | none => false

/-- Modelled from the spec: the macro GB_C_S_LOOKUP of GB_subassign.h:
`pC = Sx [pS] ; iC = Ci [pC] ; is_zombie = GB_IS_ZOMBIE (iC) ;
if (is_zombie) iC = GB_FLIP (iC) ;`.  The result is `(pC, iC, is_zombie)`. -/
def GB_C_S_LOOKUP (Sx : Nat → Nat) (Ci : Nat → Int) (pS : Nat) : Nat × Int × Bool :=
  let pC := Sx pS
  let iC := Ci pC
  let is_zombie := GB_IS_ZOMBIE iC
  (pC, if is_zombie then GB_FLIP iC else iC, is_zombie)

/-- Modelled from the spec: the macro GB_DELETE_ENTRY of GB_subassign.h
(`[C . 1]`: delete, make a zombie; `[X . 1]`: no-op on an existing zombie):
`if (!is_zombie) { nzombies++ ; Ci [pC] = GB_FLIP (iC) ; }`. -/
def GB_DELETE_ENTRY {γ : Type} (st : GB_C_state γ) (l : Nat × Int × Bool) : GB_C_state γ :=
  if !l.2.2 then { st with nzombies := st.nzombies + 1, Ci := upd st.Ci l.1 (GB_FLIP l.2.1) }
  else st

/-- Modelled from the spec: the macro GB_UNDELETE of GB_subassign.h (resurrect a
zombie): `Ci [pC] = iC ; nzombies-- ;`. -/
def GB_UNDELETE {γ : Type} (st : GB_C_state γ) (l : Nat × Int × Bool) : GB_C_state γ :=
  { st with Ci := upd st.Ci l.1 l.2.1, nzombies := st.nzombies - 1 }

/-- Modelled from the spec: the macro GB_COPY_aij_to_C of GB_subassign.h:
`C(iC,jC) = A(i,j)` with typecasting, `Cx [pC] = cast (Ax [pA])`. -/
def GB_COPY_aij_to_C {α γ : Type} (cast_A_to_C : α → γ) (st : GB_C_state γ) (pC : Nat)
    (Ax : Nat → α) (pA : Nat) : GB_C_state γ :=
  { st with Cx := upd st.Cx pC (cast_A_to_C (Ax pA)) }

/-- Modelled from the spec: the macro GB_noaccum_C_A_1_matrix of GB_subassign.h
(`[X A 1]`: resurrect a zombie and overwrite; `[C A 1]`: overwrite):
`if (is_zombie) GB_UNDELETE ; GB_COPY_aij_to_C ;`. -/
def GB_noaccum_C_A_1_matrix {α γ : Type} (cast_A_to_C : α → γ) (st : GB_C_state γ)
    (l : Nat × Int × Bool) (Ax : Nat → α) (pA : Nat) : GB_C_state γ :=
  GB_COPY_aij_to_C cast_A_to_C (if l.2.2 then GB_UNDELETE st l else st) l.1 Ax pA

/-- Phase 1, `while (pS < pS_end && pA < pA_end)`: the 2-way merge of `S(:,j)`
and `A(:,j)`.  The state is `pS`, `pA`, the arrays of `C` with nzombies, and
`task_pending`; `fuel` bounds the number of iterations. -/
def phase1_both {α γ μ : Type} (g : GB_subassign_args α γ μ) (pM_start pM_end pS_end pA_end : Nat) :
    Nat → Nat → Nat → GB_C_state γ → Int → Nat × Nat × GB_C_state γ × Int
  | 0, pS, pA, st, task_pending => (pS, pA, st, task_pending)
  | fuel + 1, pS, pA, st, task_pending =>
    if pS < pS_end ∧ pA < pA_end then
      let iS := g.S.i pS
      let iA := g.A.i pA
      if iS < iA then
        -- S (i,j) is present but A (i,j) is not
        let mij := !(GB_MIJ_BINARY_SEARCH g.M g.cast_M pM_start pM_end iS)
        let st1 := if mij then GB_DELETE_ENTRY st (GB_C_S_LOOKUP g.S.x st.Ci pS) else st
        phase1_both g pM_start pM_end pS_end pA_end fuel (pS + 1) pA st1 task_pending
      else if iA < iS then
        -- S (i,j) is not present, A (i,j) is present
        let mij := !(GB_MIJ_BINARY_SEARCH g.M g.cast_M pM_start pM_end iA)
        phase1_both g pM_start pM_end pS_end pA_end fuel pS (pA + 1) st
          (if mij then task_pending + 1 else task_pending)
      else
        -- both S (i,j) and A (i,j) present
        let mij := !(GB_MIJ_BINARY_SEARCH g.M g.cast_M pM_start pM_end iA)
        let st1 := if mij then
            GB_noaccum_C_A_1_matrix g.cast_A_to_C st (GB_C_S_LOOKUP g.S.x st.Ci pS) g.A.x pA
          else st
        phase1_both g pM_start pM_end pS_end pA_end fuel (pS + 1) (pA + 1) st1 task_pending
    else (pS, pA, st, task_pending)

/-- Phase 1, `while (pS < pS_end)`: list `A(:,j)` exhausted; `n` is the trip count. -/
def phase1_S_tail {α γ μ : Type} (g : GB_subassign_args α γ μ) (pM_start pM_end : Nat) :
    Nat → Nat → GB_C_state γ → GB_C_state γ
  | 0, _, st => st
  | n + 1, pS, st =>
    let iS := g.S.i pS
    let mij := !(GB_MIJ_BINARY_SEARCH g.M g.cast_M pM_start pM_end iS)
    let st1 := if mij then GB_DELETE_ENTRY st (GB_C_S_LOOKUP g.S.x st.Ci pS) else st
    phase1_S_tail g pM_start pM_end n (pS + 1) st1

/-- Phase 1, `while (pA < pA_end)`: list `S(:,j)` exhausted; `n` is the trip count. -/
def phase1_A_tail {α γ μ : Type} (g : GB_subassign_args α γ μ) (pM_start pM_end : Nat) :
    Nat → Nat → Int → Int
  | 0, _, task_pending => task_pending
  | n + 1, pA, task_pending =>
    let iA := g.A.i pA
    let mij := !(GB_MIJ_BINARY_SEARCH g.M g.cast_M pM_start pM_end iA)
    phase1_A_tail g pM_start pM_end n (pA + 1) (if mij then task_pending + 1 else task_pending)

/-- The work of a task on one vector: the vector `j` and the positions
`[pA, pA_end)` of `A(:,j)` and `[pS, pS_end)` of `S(:,j)` that
GB_GET_MAPPED_VECTOR yields. -/
structure GB_vector_work where
  j : Nat
  pA : Nat
  pA_end : Nat
  pS : Nat
  pS_end : Nat

/-- The statement `int64_t j = (Zh == NULL) ? k : Zh [k] ;`. -/
def GB_Zj (Zh : Option (Nat → Nat)) (k : Nat) : Nat :=
  match Zh with
  | none => k
  | some h => h k

/-- Modelled from the spec: GB_GET_TASK_DESCRIPTOR and GB_GET_MAPPED_VECTOR of
GB_subassign.h, which are not among the sources: the vectors of a task and
their parts of `A` and `S`; a coarse task gets all of `A(:,j)` and `S(:,j)`
for `k = kfirst .. klast`, a fine task gets its slices of one vector. -/
def GB_task_work {α γ μ : Type} (g : GB_subassign_args α γ μ) : GB_task → List GB_vector_work
  | GB_task.coarse kfirst klast =>
    (List.range' kfirst (klast + 1 - kfirst)).map (fun k =>
      { j := GB_Zj g.Zh k,
        pA := (GB_lookup g.A (GB_Zj g.Zh k)).1, pA_end := (GB_lookup g.A (GB_Zj g.Zh k)).2,
        pS := (GB_lookup g.S (GB_Zj g.Zh k)).1, pS_end := (GB_lookup g.S (GB_Zj g.Zh k)).2 })
  | GB_task.fine kfirst pA pA_end pB pB_end =>
    [{ j := GB_Zj g.Zh kfirst, pA := pA, pA_end := pA_end, pS := pB, pS_end := pB_end }]

/-- Phase 1 on the rest of a vector, from the positions `pS` and `pA` on: the
three loops of the merge, one after the other. -/
def phase1_merge {α γ μ : Type} (g : GB_subassign_args α γ μ)
    (pM_start pM_end pS_end pA_end : Nat) (fuel pS pA : Nat) (st : GB_C_state γ)
    (task_pending : Int) : GB_C_state γ × Int :=
  let r := phase1_both g pM_start pM_end pS_end pA_end fuel pS pA st task_pending
  (phase1_S_tail g pM_start pM_end (pS_end - r.1) r.1 r.2.2.1,
   phase1_A_tail g pM_start pM_end (pA_end - r.2.1) r.2.1 r.2.2.2)

/-- Phase 1 on one vector of a task: GB_VECTOR_LOOKUP of `M(:,j)`, then the
merge of `S(:,j)` and `A(:,j)`. -/
def phase1_vector {α γ μ : Type} (g : GB_subassign_args α γ μ) (w : GB_vector_work)
    (s : GB_C_state γ × Int) : GB_C_state γ × Int :=
  phase1_merge g (GB_lookup g.M w.j).1 (GB_lookup g.M w.j).2 w.pS_end w.pA_end
    ((w.pS_end - w.pS) + (w.pA_end - w.pA)) w.pS w.pA s.1 s.2

/-- Phase 1 of one task: `task_pending` starts at 0, the vectors of the task
are computed, and GB_PHASE1_TASK_WRAPUP keeps `task_pending` for the task. -/
def phase1_task {α γ μ : Type} (g : GB_subassign_args α γ μ) (t : GB_task)
    (st : GB_C_state γ) : GB_C_state γ × Int :=
  (GB_task_work g t).foldl (fun s w => phase1_vector g w s) (st, 0)

/-- Phase 1: `for (taskid = 0 ; taskid < ntasks ; taskid++)`, the tasks taken in
the order of the list; the result is the state of `C` and the `task_pending`
of every task. -/
def phase1 {α γ μ : Type} (g : GB_subassign_args α γ μ) :
    List GB_task → GB_C_state γ → GB_C_state γ × List Int
  | [], st => (st, [])
  | t :: ts, st =>
    let r := phase1_task g t st
    let rest := phase1 g ts r.1
    (rest.1, r.2 :: rest.2)

/-- Modelled from the spec: the macro GB_PENDING_INSERT of GB_subassign.h
(`[. A 1]`: new entry, append to pending tuples): the tuple `(iC, jC, value)`
is appended to the pending tuples of the task. -/
def GB_PENDING_INSERT {α : Type} (pending : List (Int × Int × α)) (iC jC : Int) (b : α) :
    List (Int × Int × α) :=
  pending ++ [(iC, jC, b)]

/-- Phase 2, `while (pS < pS_end && pA < pA_end)`; the state is `pS`, `pA` and
the pending tuples of the task. -/
def phase2_both {α γ μ : Type} (g : GB_subassign_args α γ μ) (pM_start pM_end pS_end pA_end : Nat)
    (jC : Int) : Nat → Nat → Nat → List (Int × Int × α) → Nat × Nat × List (Int × Int × α)
  | 0, pS, pA, pending => (pS, pA, pending)
  | fuel + 1, pS, pA, pending =>
    if pS < pS_end ∧ pA < pA_end then
      let iS := g.S.i pS
      let iA := g.A.i pA
      if iS < iA then
        -- S (i,j) is present but A (i,j) is not
        phase2_both g pM_start pM_end pS_end pA_end jC fuel (pS + 1) pA pending
      else if iA < iS then
        -- S (i,j) is not present, A (i,j) is present
        let mij := !(GB_MIJ_BINARY_SEARCH g.M g.cast_M pM_start pM_end iA)
        let pending1 := if mij then
            GB_PENDING_INSERT pending (GB_ijlist g.I iA g.Ikind g.Icolon) jC (g.A.x pA)
          else pending
        phase2_both g pM_start pM_end pS_end pA_end jC fuel pS (pA + 1) pending1
      else
        -- both S (i,j) and A (i,j) present
        phase2_both g pM_start pM_end pS_end pA_end jC fuel (pS + 1) (pA + 1) pending
    else (pS, pA, pending)

/-- Phase 2, `while (pA < pA_end)`: list `S(:,j)` exhausted; `n` is the trip count. -/
def phase2_A_tail {α γ μ : Type} (g : GB_subassign_args α γ μ) (pM_start pM_end : Nat)
    (jC : Int) : Nat → Nat → List (Int × Int × α) → List (Int × Int × α)
  | 0, _, pending => pending
  | n + 1, pA, pending =>
    let iA := g.A.i pA
    let mij := !(GB_MIJ_BINARY_SEARCH g.M g.cast_M pM_start pM_end iA)
    let pending1 := if mij then
        GB_PENDING_INSERT pending (GB_ijlist g.I iA g.Ikind g.Icolon) jC (g.A.x pA)
      else pending
    phase2_A_tail g pM_start pM_end jC n (pA + 1) pending1

/-- Phase 2 on the rest of a vector, from the positions `pS` and `pA` on: the
two loops, one after the other. -/
def phase2_merge {α γ μ : Type} (g : GB_subassign_args α γ μ)
    (pM_start pM_end pS_end pA_end : Nat) (jC : Int) (fuel pS pA : Nat)
    (pending : List (Int × Int × α)) : List (Int × Int × α) :=
  let r := phase2_both g pM_start pM_end pS_end pA_end jC fuel pS pA pending
  phase2_A_tail g pM_start pM_end jC (pA_end - r.2.1) r.2.1 r.2.2

/-- Phase 2 on one vector of a task: GB_VECTOR_LOOKUP of `M(:,j)`,
`jC = GB_ijlist (J, j, Jkind, Jcolon)`, then the merge. -/
def phase2_vector {α γ μ : Type} (g : GB_subassign_args α γ μ) (w : GB_vector_work)
    (pending : List (Int × Int × α)) : List (Int × Int × α) :=
  phase2_merge g (GB_lookup g.M w.j).1 (GB_lookup g.M w.j).2 w.pS_end w.pA_end
    (GB_ijlist g.J (w.j : Int) g.Jkind g.Jcolon)
    ((w.pS_end - w.pS) + (w.pA_end - w.pA)) w.pS w.pA pending

/-- Phase 2 of one task: the pending tuples that the task inserts. -/
def phase2_task {α γ μ : Type} (g : GB_subassign_args α γ μ) (t : GB_task) :
    List (Int × Int × α) :=
  (GB_task_work g t).foldl (fun pending w => phase2_vector g w pending) []

/-- Phase 2: the pending tuples of all tasks, concatenated in the order of the
tasks. -/
def phase2 {α γ μ : Type} (g : GB_subassign_args α γ μ) (ts : List GB_task) :
    List (Int × Int × α) :=
  ts.flatMap (phase2_task g)

/-- The function `GB_subassign_method13b`: phase 1 on `C`, phase 2, and
GB_SUBASSIGN_WRAPUP (`C->nzombies = nzombies`).  The result is `C` and the
pending tuples appended to it. -/
def GB_subassign_method13b {α γ μ : Type} (C : GB_Matrix γ) (g : GB_subassign_args α γ μ) :
    GB_Matrix γ × List (Int × Int × α) :=
  let r := phase1 g g.TaskList { Ci := C.i, Cx := C.x, nzombies := C.nzombies }
  ({ C with i := r.1.Ci, x := r.1.Cx, nzombies := r.1.nzombies }, phase2 g g.TaskList)

/-! ### The contents of the matrices and the conditions on the arguments -/

/-- The positions of the entries of the vector `A(:,j)`. -/
def GB_Matrix.vec {α : Type} (A : GB_Matrix α) (j : Nat) : List Nat :=
  List.range' (GB_lookup A j).1 ((GB_lookup A j).2 - (GB_lookup A j).1)

/-- The entry `A(i,j)`: the value of the live entry of `A(:,j)` with the index
`i`, and `none` when there is none (a zombie is absent). -/
def GB_Matrix.get {α : Type} (A : GB_Matrix α) (i : Int) (j : Nat) : Option α :=
  ((A.vec j).find? (fun p => GB_IS_NOT_ZOMBIE (A.i p) && A.i p == i)).map A.x

/-- The row `iC = GB_ijlist (I, i, Ikind, Icolon)` of `C` for the row `i` of the
submatrix. -/
def GB_subassign_args.iC {α γ μ : Type} (g : GB_subassign_args α γ μ) (i : Int) : Int :=
  GB_ijlist g.I i g.Ikind g.Icolon

/-- The vector `jC = GB_ijlist (J, j, Jkind, Jcolon)` of `C` for the vector `j`
of the submatrix. -/
def GB_subassign_args.jC {α γ μ : Type} (g : GB_subassign_args α γ μ) (j : Nat) : Int :=
  GB_ijlist g.J (j : Int) g.Jkind g.Jcolon

/-- The mask at a position of the submatrix: `M(i,j)` is true. -/
def GB_subassign_args.mask {α γ μ : Type} (g : GB_subassign_args α γ μ) (i : Int) (j : Nat) :
    Bool :=
  GB_MIJ_BINARY_SEARCH g.M g.cast_M (GB_lookup g.M j).1 (GB_lookup g.M j).2 i

/-- All the work of the task list, vector by vector, in the order of the tasks. -/
def GB_subassign_args.work {α γ μ : Type} (g : GB_subassign_args α γ μ) :
    List GB_vector_work :=
  g.TaskList.flatMap (GB_task_work g)

/-- The positions `pA` of `[pA, pA_end)` whose entry `A(i,j)` has `M(i,j)` false
and no entry of `S` with the same index among the positions `[pS, pS_end)`. -/
def newEntries {α γ μ : Type} (g : GB_subassign_args α γ μ) (pM_start pM_end : Nat)
    (pS pS_end pA pA_end : Nat) : List Nat :=
  (List.range' pA (pA_end - pA)).filter (fun a =>
    !(GB_MIJ_BINARY_SEARCH g.M g.cast_M pM_start pM_end (g.A.i a)) &&
    (List.range' pS (pS_end - pS)).all (fun s => g.S.i s != g.A.i a))

/-- The positions of a task's part of `A(:,j)` with `A(i,j)` present, `S(i,j)`
absent (in all of `S(:,j)`) and `M(i,j)` false. -/
def insertPositions {α γ μ : Type} (g : GB_subassign_args α γ μ) (w : GB_vector_work) :
    List Nat :=
  (List.range' w.pA (w.pA_end - w.pA)).filter (fun a =>
    !(g.mask (g.A.i a) w.j) && (g.S.vec w.j).all (fun s => g.S.i s != g.A.i a))

/-- A well-formed piece of work: the slices lie in the vectors `A(:,j)` and
`S(:,j)`, whose indices strictly increase, and an entry of `A` and an entry
of `S` with the same index are both in the slices or both outside. -/
structure GB_work_ok {α γ μ : Type} (g : GB_subassign_args α γ μ) (w : GB_vector_work) :
    Prop where
  A_in : (GB_lookup g.A w.j).1 ≤ w.pA ∧ w.pA_end ≤ (GB_lookup g.A w.j).2
  S_in : (GB_lookup g.S w.j).1 ≤ w.pS ∧ w.pS_end ≤ (GB_lookup g.S w.j).2
  A_sorted : List.Pairwise (fun p q => g.A.i p < g.A.i q) (g.A.vec w.j)
  S_sorted : List.Pairwise (fun p q => g.S.i p < g.S.i q) (g.S.vec w.j)
  aligned : ∀ a, a ∈ g.A.vec w.j → ∀ s, s ∈ g.S.vec w.j → g.A.i a = g.S.i s →
    ((w.pA ≤ a ∧ a < w.pA_end) ↔ (w.pS ≤ s ∧ s < w.pS_end))

/-- The conditions on the arguments of GB_subassign_method13b: `I` and `J` hold
valid indices without duplicates; the entries of `A` and `S` have indices in
`0 .. nI-1`; `S` is the pattern of `C(I,J)`, each entry holding the position in
`C` of the entry it stands for; `C` holds no duplicate entry and its vectors do
not overlap; and the task list slices the work: each piece is well formed,
every entry of `A` and of `S` is in a piece, and no entry of `A` is in two. -/
structure GB_subassign_valid {α γ μ : Type} (C : GB_Matrix γ) (g : GB_subassign_args α γ μ) :
    Prop where
  I_inj : ∀ i, i < g.nI → ∀ i2, i2 < g.nI → g.iC (i : Int) = g.iC (i2 : Int) → i = i2
  J_inj : ∀ j, j < g.nJ → ∀ j2, j2 < g.nJ → g.jC j = g.jC j2 → j = j2
  I_nonneg : ∀ i, i < g.nI → 0 ≤ g.iC (i : Int)
  J_nonneg : ∀ j, j < g.nJ → 0 ≤ g.jC j
  A_range : ∀ j, j < g.nJ → ∀ a, a ∈ g.A.vec j → 0 ≤ g.A.i a ∧ g.A.i a < g.nI
  S_range : ∀ j, j < g.nJ → ∀ s, s ∈ g.S.vec j → 0 ≤ g.S.i s ∧ g.S.i s < g.nI
  S_sound : ∀ j, j < g.nJ → ∀ s, s ∈ g.S.vec j →
    g.S.x s ∈ C.vec (g.jC j).toNat ∧ GB_UNFLIP (C.i (g.S.x s)) = g.iC (g.S.i s)
  S_complete : ∀ j, j < g.nJ → ∀ i, i < g.nI → ∀ pC, pC ∈ C.vec (g.jC j).toNat →
    GB_UNFLIP (C.i pC) = g.iC (i : Int) → ∃ s, s ∈ g.S.vec j ∧ g.S.i s = i ∧ g.S.x s = pC
  C_nodup : ∀ j, j < g.nJ → ∀ p, p ∈ C.vec (g.jC j).toNat → ∀ q, q ∈ C.vec (g.jC j).toNat →
    GB_UNFLIP (C.i p) = GB_UNFLIP (C.i q) → p = q
  C_cols : ∀ j, j < g.nJ → ∀ j2, j2 < g.nJ → ∀ p, p ∈ C.vec (g.jC j).toNat →
    p ∈ C.vec (g.jC j2).toNat → j = j2
  work_ok : ∀ w, w ∈ g.work → w.j < g.nJ ∧ GB_work_ok g w
  cover_A : ∀ j, j < g.nJ → ∀ a, a ∈ g.A.vec j →
    ∃ w, w ∈ g.work ∧ w.j = j ∧ w.pA ≤ a ∧ a < w.pA_end
  cover_S : ∀ j, j < g.nJ → ∀ s, s ∈ g.S.vec j →
    ∃ w, w ∈ g.work ∧ w.j = j ∧ w.pS ≤ s ∧ s < w.pS_end
  disjoint_A : List.Pairwise (fun w w2 : GB_vector_work => w.j = w2.j →
    ∀ a, a ∈ g.A.vec w.j → ¬ (w.pA ≤ a ∧ a < w.pA_end ∧ w2.pA ≤ a ∧ a < w2.pA_end)) g.work

/-- Modelled from the spec: the entry `(r,c)` of `C` after `wait` (GB_wait is not
among the sources): the pending tuples are assembled, a later tuple
overwriting an earlier one at the same position and a tuple overwriting an
entry of `C`, with the value cast to the type of `C`; the zombies are dropped. -/
def GB_wait_entry {α γ : Type} (C : GB_Matrix γ) (pending : List (Int × Int × α))
    (cast_A_to_C : α → γ) (r c : Int) : Option γ :=
  match (pending.filter (fun t => t.1 == r && t.2.1 == c)).getLast? with
  | some t => some (cast_A_to_C t.2.2)
  | none => C.get r c.toNat

/-- The index that GB_DELETE_ENTRY leaves in a slot: a zombie stays, a live
index is flipped. -/
def deletedIndex (ci : Int) : Int := if ci < 0 then ci else GB_FLIP ci

/-- What the merge of phase 1 makes of the slot `(Ci [pC], Cx [pC])` of an entry
`S(i,j)` with a false mask: live with the value of `A(i,j)`, typecast, when
`A(i,j)` is present, and deleted when it is not. -/
def slotTarget {α γ μ : Type} (g : GB_subassign_args α γ μ) (j : Nat) (s : Nat)
    (c : Int × γ) : Int × γ :=
  match g.A.get (g.S.i s) j with
  | some v => (GB_UNFLIP c.1, g.cast_A_to_C v)
  | none => (deletedIndex c.1, c.2)

/-- Phase 1 on one vector of a task, as a change of the arrays of `C`. -/
def phase1_state {α γ μ : Type} (g : GB_subassign_args α γ μ) (w : GB_vector_work)
    (st : GB_C_state γ) : GB_C_state γ :=
  (phase1_vector g w (st, 0)).1

/-- The pending tuples of one vector of a task: one for each entry of
`A(:,j)` in the task's part that has a false mask and no entry of `S`. -/
def GB_vector_tuples {α γ μ : Type} (g : GB_subassign_args α γ μ) (w : GB_vector_work) :
    List (Int × Int × α) :=
  (insertPositions g w).map (fun a => (g.iC (g.A.i a), g.jC w.j, g.A.x a))

/-- A 4-by-4 matrix with the value 1 at every position. -/
def sub4_C : GB_Matrix Nat :=
  { vlen := 4, vdim := 4, nvec := 4, h := none,
    p := ofList [0, 4, 8, 12, 16] 0,
    i := ofList [0, 1, 2, 3, 0, 1, 2, 3, 0, 1, 2, 3, 0, 1, 2, 3] 0,
    x := fun _ => 1, nzombies := 0 }

/-- The arguments of `C<!M> = A` on all of the 4-by-4 `C`: `I` and `J` are
GB_ALL, `M` is the identity, `A` is empty, `S` is the pattern of `C`, and one
coarse task computes the four vectors. -/
def sub4_g : GB_subassign_args Nat Nat Bool :=
  { I := fun _ => 0, nI := 4, Ikind := GB_Ikind.GB_ALL, Icolon := fun _ => 0,
    J := fun _ => 0, nJ := 4, Jkind := GB_Ikind.GB_ALL, Jcolon := fun _ => 0,
    M := { vlen := 4, vdim := 4, nvec := 4, h := none,
           p := ofList [0, 1, 2, 3, 4] 0, i := ofList [0, 1, 2, 3] 0,
           x := fun _ => true, nzombies := 0 },
    A := { vlen := 4, vdim := 4, nvec := 4, h := none,
           p := fun _ => 0, i := fun _ => 0, x := fun _ => 0, nzombies := 0 },
    S := { vlen := 4, vdim := 4, nvec := 4, h := none,
           p := ofList [0, 4, 8, 12, 16] 0,
           i := ofList [0, 1, 2, 3, 0, 1, 2, 3, 0, 1, 2, 3, 0, 1, 2, 3] 0,
           x := fun q => q, nzombies := 0 },
    cast_A_to_C := fun v => v, cast_M := fun b => b, Zh := none,
    TaskList := [GB_task.coarse 0 3] }

/-- A 3-by-3 matrix: `C(0,0) = 10`, a zombie at `(2,0)` with the value 20, and
`C(1,1) = 30`. -/
def sub3_C : GB_Matrix Nat :=
  { vlen := 3, vdim := 3, nvec := 3, h := none,
    p := ofList [0, 2, 3, 3] 0, i := ofList [0, GB_FLIP 2, 1] 0,
    x := ofList [10, 20, 30] 0, nzombies := 1 }

/-- The arguments of `C(I,J)<!M> = A` with `I = [2, 0]` and `J = [0, 1]`:
`A(0,0) = 7`, `A(0,1) = 8`, `A(1,1) = 9`; `M(0,1)` is true; `S(0,0)` points to
the slot 1 of `C` and `S(1,0)` to the slot 0.  The vector 0 is sliced into two
fine tasks at the row 1, and a coarse task computes the vector 1. -/
def sub3_g : GB_subassign_args Nat Nat Bool :=
  { I := ofList [2, 0] 0, nI := 2, Ikind := GB_Ikind.GB_LIST, Icolon := fun _ => 0,
    J := ofList [0, 1] 0, nJ := 2, Jkind := GB_Ikind.GB_LIST, Jcolon := fun _ => 0,
    M := { vlen := 2, vdim := 2, nvec := 2, h := none,
           p := ofList [0, 0, 1] 0, i := ofList [0] 0, x := fun _ => true, nzombies := 0 },
    A := { vlen := 2, vdim := 2, nvec := 2, h := none,
           p := ofList [0, 1, 3] 0, i := ofList [0, 0, 1] 0,
           x := ofList [7, 8, 9] 0, nzombies := 0 },
    S := { vlen := 2, vdim := 2, nvec := 2, h := none,
           p := ofList [0, 2, 2] 0, i := ofList [0, 1] 0,
           x := ofList [1, 0] 0, nzombies := 0 },
    cast_A_to_C := fun v => v, cast_M := fun b => b, Zh := none,
    TaskList := [GB_task.fine 0 0 1 0 1, GB_task.fine 0 1 1 1 2, GB_task.coarse 1 1] }

/-! ### The dot product and the reduction without their shortcuts -/

/-- The dot product that accumulates over all matching index pairs: the merge of
GB_AxB_dot_cij with GB_DOT_MULT, GB_DOT_COPY and GB_DOT_ADD at every match and
no GB_DOT_TERMINAL. -/
def GB_AxB_dot_cij_all (flipxy : Bool) (Ai : Nat → Int) (Ax : Nat → Nat) (Bi : Nat → Int)
    (Bx : Nat → Nat) (pA_end pB_end : Nat) : Nat → Nat → Nat → Bool → Nat → Bool × Nat
  | 0, _, _, cij_exists, cij => (cij_exists, cij)
  | fuel + 1, pA, pB, cij_exists, cij =>
    if pA < pA_end ∧ pB < pB_end then
      let ia := Ai pA
      let ib := Bi pB
      if ia < ib then
        GB_AxB_dot_cij_all flipxy Ai Ax Bi Bx pA_end pB_end fuel (pA + 1) pB cij_exists cij
      else if ib < ia then
        GB_AxB_dot_cij_all flipxy Ai Ax Bi Bx pA_end pB_end fuel pA (pB + 1) cij_exists cij
      else
        let aki := GB_GETA Ax pA
        let bkj := GB_GETB Bx pB
        let t := GB_DOT_MULT flipxy aki bkj
        let cij1 := if cij_exists then GB_DOT_ADD cij t else GB_DOT_COPY t
        GB_AxB_dot_cij_all flipxy Ai Ax Bi Bx pA_end pB_end fuel (pA + 1) (pB + 1) true cij1
    else (cij_exists, cij)

/-- Modelled from the spec: the parallel part of GB_reduce_to_scalar_template.c
for an arbitrary partition into contiguous slices: thread `tid` gets the slice
`[cut tid, cut (tid+1))`, reduces it from `GB_REDUCE_INIT` and stores the result
with `GB_REDUCE_WRAPUP`; for the threads `tid, tid+1, ..` (`m` of them). -/
def GB_reduce_slices (Ax : Nat → Int) (cut : Nat → Nat) (s : Int) :
    Nat → Nat → (Nat → Int) → (Nat → Int)
  | 0, _, w => w
  | m + 1, tid, w =>
    let t := (GB_reduce_loop Ax (some s) (cut (tid + 1) - cut tid) (cut tid) GB_REDUCE_INIT 0).1
    GB_reduce_slices Ax cut s m (tid + 1) (GB_REDUCE_WRAPUP w tid t)

/-- Modelled from the spec: the reduction by `nthreads` threads over the slices
given by `cut`: `s = INT16_MAX`, each thread reduces its slice, and the slots of
the workspace are combined into `s` with `GB_REDUCE_W`. -/
def GB_reduce_sliced (Ax : Nat → Int) (cut : Nat → Nat) (nthreads : Nat) : Int :=
  let s := INT16_MAX
  let w := GB_reduce_slices Ax cut s nthreads 0 (fun _ => 0)
  GB_reduce_combine w nthreads 0 s

/-! ### The Gustavson worker of `GB_AxB__max_first_uint8.c` -/

/-- The `W`-bit two's complement pattern of the integer `x`: its conversion to
the unsigned type of `W` bits. -/
def toBits (W : Nat) (x : Int) : Nat := (x % 2 ^ W).toNat

/-- The signed value of the `W`-bit two's complement pattern `n`: its conversion
to the signed type of `W` bits. -/
def ofBits (W : Nat) (n : Nat) : Int :=
  if n % 2 ^ W < 2 ^ (W - 1) then ((n % 2 ^ W : Nat) : Int) else ((n % 2 ^ W : Nat) : Int) - 2 ^ W

/-- The conversion `(intW_t) x` of an integer to the signed type of `W` bits. -/
def int_cast (W : Nat) (x : Int) : Int := ofBits W (toBits W x)

/-- The operator `x << k` on a signed operand of `W` bits, `k < W`: the pattern
of `x` shifted left, the bits beyond the word lost (the source: "this
computation assumes x and z are represented in 2's complement"). -/
def int_shl (W : Nat) (x : Int) (k : Nat) : Int := ofBits W (toBits W x <<< k)

/-- The operator `x >> k` on a signed operand of `W` bits, `k < W`.  For `x ≥ 0`
it is the integral part of `x / 2^k`.  For `x < 0` the result is
implementation-defined: `arith = true` is the arithmetic shift, which copies
the sign bit, and `arith = false` the logical shift, which shifts 0-bits into
the pattern of `x`. -/
def int_shr (arith : Bool) (W : Nat) (x : Int) (k : Nat) : Int :=
  if 0 ≤ x then x >>> k
  else if arith then x >>> k
  else ofBits W (toBits W x >>> k)

/-- The operator `a | b` on signed operands of `W` bits. -/
def int_or (W : Nat) (a b : Int) : Int := ofBits W (toBits W a ||| toBits W b)

/-- The operator `~a` on a signed operand of `W` bits. -/
def int_not (W : Nat) (a : Int) : Int := ofBits W (2 ^ W - 1 - toBits W a)

/-- The operator `~n` on an unsigned operand of `W` bits. -/
def uint_not (W : Nat) (n : Nat) : Nat := 2 ^ W - 1 - n % 2 ^ W

/-- The constant UINT16_MAX of `<stdint.h>`. -/
def UINT16_MAX : Nat := 65535

/-- The constant UINT32_MAX of `<stdint.h>`. -/
def UINT32_MAX : Nat := 4294967295

/-- The constant UINT64_MAX of `<stdint.h>`. -/
def UINT64_MAX : Nat := 18446744073709551615

/-! ### `GB_math.h`: bitshift -/

/-- The function `GB_bitshift_uint8 (uint8_t x, int8_t k)`.  `x << k` is computed
in `int`, where it does not overflow, and converted to `uint8_t` on return. -/
def GB_bitshift_uint8 (x : Nat) (k : Int) : Nat :=
  if k = 0 then x
  else if k ≥ 8 ∨ k ≤ -8 then 0
  else if k > 0 then (x <<< k.toNat) % 2 ^ 8
  else
    let k := -k
    x >>> k.toNat

/-- The function `GB_bitshift_uint16 (uint16_t x, int8_t k)`.  `x << k` is
computed in `int`, where it does not overflow, and converted to `uint16_t` on
return. -/
def GB_bitshift_uint16 (x : Nat) (k : Int) : Nat :=
  if k = 0 then x
  else if k ≥ 16 ∨ k ≤ -16 then 0
  else if k > 0 then (x <<< k.toNat) % 2 ^ 16
  else x >>> (-k).toNat

/-- The function `GB_bitshift_uint32 (uint32_t x, int8_t k)`; `x << k` is reduced
modulo `2 ^ 32`. -/
def GB_bitshift_uint32 (x : Nat) (k : Int) : Nat :=
  if k = 0 then x
  else if k ≥ 32 ∨ k ≤ -32 then 0
  else if k > 0 then (x <<< k.toNat) % 2 ^ 32
  else x >>> (-k).toNat

/-- The function `GB_bitshift_uint64 (uint64_t x, int8_t k)`; `x << k` is reduced
modulo `2 ^ 64`. -/
def GB_bitshift_uint64 (x : Nat) (k : Int) : Nat :=
  if k = 0 then x
  else if k ≥ 64 ∨ k ≤ -64 then 0
  else if k > 0 then (x <<< k.toNat) % 2 ^ 64
  else x >>> (-k).toNat

/-- The function `GB_bitshift_int8 (int8_t x, int8_t k)`.  The shifts and the
bitwise operators work on `int`; `UINT8_MAX` is an `int`; the result is
converted to `int8_t` on return. -/
def GB_bitshift_int8 (arith : Bool) (x k : Int) : Int :=
  if k = 0 then x
  else if k ≥ 8 then 0
  else if k ≤ -8 then (if x ≥ 0 then 0 else -1)
  else if k > 0 then int_cast 8 (int_shl 32 x k.toNat)
  else
    let k := -k
    if x ≥ 0 then int_cast 8 (int_shr arith 32 x k.toNat)
    else
      int_cast 8 (int_or 32 (int_shr arith 32 x k.toNat)
        (int_not 32 (int_shr arith 32 (UINT8_MAX : Int) k.toNat)))

/-- The function `GB_bitshift_int16 (int16_t x, int8_t k)`.  The shifts and the
bitwise operators work on `int`; `UINT16_MAX` is an `int`; the result is
converted to `int16_t` on return. -/
def GB_bitshift_int16 (arith : Bool) (x k : Int) : Int :=
  if k = 0 then x
  else if k ≥ 16 then 0
  else if k ≤ -16 then (if x ≥ 0 then 0 else -1)
  else if k > 0 then int_cast 16 (int_shl 32 x k.toNat)
  else
    let k := -k
    if x ≥ 0 then int_cast 16 (int_shr arith 32 x k.toNat)
    else
      int_cast 16 (int_or 32 (int_shr arith 32 x k.toNat)
        (int_not 32 (int_shr arith 32 (UINT16_MAX : Int) k.toNat)))

/-- The function `GB_bitshift_int32 (int32_t x, int8_t k)`.  `UINT32_MAX` is an
`unsigned int`, so `x >> k` is converted to `unsigned int` for the operator `|`,
and the result is converted to `int32_t` on return. -/
def GB_bitshift_int32 (arith : Bool) (x k : Int) : Int :=
  if k = 0 then x
  else if k ≥ 32 then 0
  else if k ≤ -32 then (if x ≥ 0 then 0 else -1)
  else if k > 0 then int_shl 32 x k.toNat
  else
    let k := -k
    if x ≥ 0 then int_shr arith 32 x k.toNat
    else
      ofBits 32 (toBits 32 (int_shr arith 32 x k.toNat) ||| uint_not 32 (UINT32_MAX >>> k.toNat))

/-- The function `GB_bitshift_int64 (int64_t x, int8_t k)`.  `UINT64_MAX` is
unsigned, so `x >> k` is converted to `uint64_t` for the operator `|`, and the
result is converted to `int64_t` on return. -/
def GB_bitshift_int64 (arith : Bool) (x k : Int) : Int :=
  if k = 0 then x
  else if k ≥ 64 then 0
  else if k ≤ -64 then (if x ≥ 0 then 0 else -1)
  else if k > 0 then int_shl 64 x k.toNat
  else
    let k := -k
    if x ≥ 0 then int_shr arith 64 x k.toNat
    else
      ofBits 64 (toBits 64 (int_shr arith 64 x k.toNat) ||| uint_not 64 (UINT64_MAX >>> k.toNat))

/-- The cases of an unsigned shift by `k`, for a word of `w` bits, with `r` the
result: `x`, zero, the product modulo `2 ^ w`, or the integral part of the
quotient. -/
def shiftSpec (w : Nat) (x : Nat) (k : Int) (r : Nat) : Prop :=
  (k = 0 → r = x) ∧
  (k ≥ w ∨ k ≤ -(w : Int) → r = 0) ∧
  (0 < k → k < w → r = (x * 2 ^ k.toNat) % 2 ^ w) ∧
  (-(w : Int) < k → k < 0 → r = x / 2 ^ (-k).toNat)

/-- The cases of a signed shift by `k` outside the word of `w` bits, with `r` the
result: `x`, zero, or the sign of `x`. -/
def shiftOutSpec (w : Nat) (x k r : Int) : Prop :=
  (k = 0 → r = x) ∧
  (k ≥ w → r = 0) ∧
  (k ≤ -(w : Int) → r = if x ≥ 0 then 0 else -1)

/-- The signed right shift by `-k` with `r` the result: the floor of the
quotient `x / 2 ^ (-k)`, which has the sign of `x`. -/
def shiftRightSpec (x k r : Int) : Prop :=
  r = x / 2 ^ (-k).toNat ∧
  r = ⌊(x : ℚ) / 2 ^ (-k).toNat⌋ ∧
  (x < 0 → r < 0) ∧
  (0 ≤ x → 0 ≤ r)

/-! ### `GB_math.h`: bitget -/

/-- The width of the type in which an operand of `bits` bits is computed: the
integer promotions take a narrower operand to `int`. -/
def promoted (bits : Nat) : Nat := if bits < 32 then 32 else bits

/-- The macro `GB_BITGET(x,k,type,bits)`:
`(k >= 1 && k <= bits) ? ((x & (((type) 1) << (k-1))) ? 1 : 0) : 0`.
The argument `type` is the integer type of `bits` bits, signed or unsigned, and
`x` a value of it; the operator `&` works on the promoted patterns of `x` and
of `1 << (k-1)`. -/
def GB_BITGET (x k : Int) (bits : Nat) : Int :=
  if k ≥ 1 ∧ k ≤ bits then
    (if toBits (promoted bits) x &&& (1 <<< (k - 1).toNat) ≠ 0 then 1 else 0)
  else 0

/-! ### `GB_math.h`: the text of bitget, bitset and bitclr -/

/-- A token of the replacement text of a macro: a bracket, one of the two marks
`?` and `:` of a conditional expression, or any other token. -/
inductive CToken
  | lparen
  | rparen
  | lbrace
  | rbrace
  | question
  | colon
  | other (text : String)

/-- The nesting of a sequence of tokens, read from left to right with the stack
of what is open: `(` and `?` open, `)` closes the `(` on top, `:` closes the `?`
on top, and a brace has no place in an expression.  The tokens of a C
expression leave nothing open. -/
def CToken.wellNested : List CToken → List CToken → Bool
  | [], [] => true
  | [], _ :: _ => false
  | .lparen :: ts, stack => CToken.wellNested ts (.lparen :: stack)
  | .question :: ts, stack => CToken.wellNested ts (.question :: stack)
  | .rparen :: ts, .lparen :: stack => CToken.wellNested ts stack
  | .colon :: ts, .question :: stack => CToken.wellNested ts stack
  | .other _ :: ts, stack => CToken.wellNested ts stack
  | _ :: _, _ => false

/-- The tokens `( b )` around the tokens `b`. -/
def CToken.paren (b : List CToken) : List CToken := CToken.lparen :: (b ++ [CToken.rparen])

/-- The tokens of `(k >= 1 && k <= bits)`, the test of the three macros. -/
def CToken.inRange : List CToken :=
  CToken.paren [.other "k", .other ">=", .other "1", .other "&&", .other "k", .other "<=",
    .other "bits"]

/-- The tokens of `(((type) 1) << (k-1))`, the mask of the three macros. -/
def CToken.bitMask : List CToken :=
  CToken.paren (CToken.paren (CToken.paren [.other "type"] ++ [.other "1"]) ++ [.other "<<"] ++
    CToken.paren [.other "k", .other "-", .other "1"])

/-- The replacement text of GB_BITGET:
`( (k >= 1 && k <= bits) ? ( ((x & (((type) 1) << (k-1))) ? 1 : 0) ) : ( 0 ) )`. -/
def GB_BITGET_text : List CToken :=
  CToken.paren (CToken.inRange ++ [.question] ++
    CToken.paren (CToken.paren (CToken.paren ([.other "x", .other "&"] ++ CToken.bitMask) ++
      [.question, .other "1", .colon, .other "0"])) ++
    [.colon] ++ CToken.paren [.other "0"])

/-- The replacement text of GB_BITSET:
`( (k >= 1 && k <= bits) ? ( (x | (((type) 1) << (k-1))) ) : ( x )` and then a
closing brace. -/
def GB_BITSET_text : List CToken :=
  CToken.lparen :: (CToken.inRange ++ [.question] ++
    CToken.paren (CToken.paren ([.other "x", .other "|"] ++ CToken.bitMask)) ++
    [.colon] ++ CToken.paren [.other "x"] ++ [.rbrace])

/-- The replacement text of GB_BITCLR:
`( (k >= 1 && k <= bits) ( (x & ~(((type) 1) << (k-1))) ) : ( x ) )`, with no `?`
after the test. -/
def GB_BITCLR_text : List CToken :=
  CToken.paren (CToken.inRange ++
    CToken.paren (CToken.paren ([.other "x", .other "&", .other "~"] ++ CToken.bitMask)) ++
    [.colon] ++ CToken.paren [.other "x"])

/-! ### `GB_math.h`: complex division -/

/-- The classes that `fpclassify` of `<math.h>` tells apart. -/
inductive FPClass
  | FP_NAN
  | FP_INFINITE
  | FP_ZERO
  | FP_SUBNORMAL
  | FP_NORMAL
  deriving DecidableEq

/-- The macro `fpclassify` of `<math.h>` over exact arithmetic: a number of an
ordered field is zero or it is a normal number; none is a NaN or infinite. -/
def fpclassify {K : Type} [LinearOrderedField K] (x : K) : FPClass :=
  if x = 0 then FPClass.FP_ZERO else FPClass.FP_NORMAL

/-- The macro `signbit` of `<math.h>` over exact arithmetic: the number is
negative. -/
def signbit {K : Type} [LinearOrderedField K] (x : K) : Bool := decide (x < 0)

/-- The function `GB_divcomplex` over exact arithmetic (an ordered field `K` in
the place of `double`): the outputs `(*zr)` and `(*zi)` and the value returned,
in this order. -/
def GB_divcomplex {K : Type} [LinearOrderedField K] (xr xi yr yi : K) : K × K × Int :=
  let yr_class := fpclassify yr
  let yi_class := fpclassify yi
  let out := fun (tr ti den : K) => (tr, ti, if den = 0 then (1 : Int) else 0)
  if yi_class = FPClass.FP_ZERO then
    let den := yr
    if xi = 0 then out (xr / den) 0 den
    else if xr = 0 then out 0 (xi / den) den
    else out (xr / den) (xi / den) den
  else if yr_class = FPClass.FP_ZERO then
    let den := yi
    if xr = 0 then out (xi / den) 0 den
    else if xi = 0 then out 0 (-xr / den) den
    else out (xi / den) (-xr / den) den
  else if yi_class = FPClass.FP_INFINITE ∧ yr_class = FPClass.FP_INFINITE then
    let r : K := if signbit yr = signbit yi then 1 else -1
    let den := yr + r * yi
    out ((xr + xi * r) / den) ((xi - xr * r) / den) den
  else if |yr| ≥ |yi| then
    let r := yi / yr
    let den := yr + r * yi
    out ((xr + xi * r) / den) ((xi - xr * r) / den) den
  else
    let r := yr / yi
    let den := r * yr + yi
    out ((xr * r + xi) / den) ((xi * r - xr) / den) den

/-! ### `GB_math.h`: pow

A `float` or a `double` is given by what `fpclassify` and the comparisons see of
it: a NaN, an infinity or a zero with its sign, or a finite number other than
zero with its value.  The functions `pow`, `powf`, `cpow` and `cpowf` of the C
library are parameters. -/

/-- A floating-point value: a NaN, an infinity with its sign bit, a zero with
its sign bit, or a finite number given by its value. -/
inductive CFloat
  | nan
  | inf (neg : Bool)
  | zero (neg : Bool)
  | finite (q : ℚ)

/-- The macro `fpclassify` of `<math.h>` on a floating-point value.  A finite
number other than zero is FP_NORMAL or FP_SUBNORMAL; the two are not told
apart here, and no function of `GB_math.h` tests for either. -/
def CFloat.fpclassify : CFloat → FPClass
  | CFloat.nan => FPClass.FP_NAN
  | CFloat.inf _ => FPClass.FP_INFINITE
  | CFloat.zero _ => FPClass.FP_ZERO
  | CFloat.finite q => if q = 0 then FPClass.FP_ZERO else FPClass.FP_NORMAL

/-- The macro `NAN` of `<math.h>`. -/
def CFloat.NAN : CFloat := CFloat.nan

/-- The conversion of an integer constant, `0` or `1` in the source, to the
floating-point type. -/
def CFloat.ofInt (n : Int) : CFloat := if n = 0 then CFloat.zero false else CFloat.finite n

/-- The value of a zero or of a finite number. -/
def CFloat.value : CFloat → ℚ
  | CFloat.finite q => q
  | _ => 0

/-- The comparison `x >= 0`: false for a NaN, the sign for an infinity, true for
a zero of either sign. -/
def CFloat.ge_zero : CFloat → Bool
  | CFloat.nan => false
  | CFloat.inf neg => !neg
  | CFloat.zero _ => true
  | CFloat.finite q => decide (0 ≤ q)

/-- The comparison `x == y`: false when one is a NaN; an infinity equals the
infinity of its sign; the zeros are equal whatever their signs. -/
def CFloat.eq : CFloat → CFloat → Bool
  | CFloat.nan, _ => false
  | _, CFloat.nan => false
  | CFloat.inf a, CFloat.inf b => a == b
  | CFloat.inf _, _ => false
  | _, CFloat.inf _ => false
  | x, y => decide (x.value = y.value)

/-- The functions `trunc` and `truncf` of `<math.h>`: the integral part, rounded
toward zero, with the sign of the argument; a NaN, an infinity or a zero is
returned as it is. -/
def CFloat.trunc : CFloat → CFloat
  | CFloat.finite q =>
    if 0 ≤ q then (if ⌊q⌋ = 0 then CFloat.zero false else CFloat.finite ⌊q⌋)
    else (if ⌈q⌉ = 0 then CFloat.zero true else CFloat.finite ⌈q⌉)
  | x => x

/-- The macros `GxB_CMPLX` and `GxB_CMPLXF`: the complex number with the given
real and imaginary parts; `creal` is the first part and `cimag` the second. -/
def GxB_CMPLX (re im : CFloat) : CFloat × CFloat := (re, im)

/-- The function `GB_powf (float x, float y)`, with `powf` of the C library. -/
def GB_powf (powf : CFloat → CFloat → CFloat) (x y : CFloat) : CFloat :=
  let xr_class := x.fpclassify
  let yr_class := y.fpclassify
  if xr_class = FPClass.FP_NAN ∨ yr_class = FPClass.FP_NAN then CFloat.NAN
  else if yr_class = FPClass.FP_ZERO then CFloat.ofInt 1
  else powf x y

/-- The function `GB_pow (double x, double y)`, with `pow` of the C library. -/
def GB_pow (pow : CFloat → CFloat → CFloat) (x y : CFloat) : CFloat :=
  let xr_class := x.fpclassify
  let yr_class := y.fpclassify
  if xr_class = FPClass.FP_NAN ∨ yr_class = FPClass.FP_NAN then CFloat.NAN
  else if yr_class = FPClass.FP_ZERO then CFloat.ofInt 1
  else pow x y

/-- The function `GB_cpowf (GxB_FC32_t x, GxB_FC32_t y)`, with `powf` and `cpowf`
of the C library. -/
def GB_cpowf (powf : CFloat → CFloat → CFloat)
    (cpowf : CFloat × CFloat → CFloat × CFloat → CFloat × CFloat)
    (x y : CFloat × CFloat) : CFloat × CFloat :=
  let xr := x.1
  let yr := y.1
  let xr_class := xr.fpclassify
  let yr_class := yr.fpclassify
  let xi_class := x.2.fpclassify
  let yi_class := y.2.fpclassify
  if (xi_class = FPClass.FP_ZERO ∧ yi_class = FPClass.FP_ZERO) ∧
      (xr.ge_zero = true ∨ yr_class = FPClass.FP_NAN ∨ yr_class = FPClass.FP_INFINITE ∨
        yr.eq yr.trunc = true) then
    GxB_CMPLX (GB_powf powf xr yr) (CFloat.ofInt 0)
  else if xr_class = FPClass.FP_NAN ∨ xi_class = FPClass.FP_NAN ∨
      yr_class = FPClass.FP_NAN ∨ yi_class = FPClass.FP_NAN then
    GxB_CMPLX CFloat.NAN CFloat.NAN
  else if yr_class = FPClass.FP_ZERO ∧ yi_class = FPClass.FP_ZERO then
    GxB_CMPLX (CFloat.ofInt 1) (CFloat.ofInt 0)
  else cpowf x y

/-- The function `GB_cpow (GxB_FC64_t x, GxB_FC64_t y)`, with `pow` and `cpow` of
the C library. -/
def GB_cpow (pow : CFloat → CFloat → CFloat)
    (cpow : CFloat × CFloat → CFloat × CFloat → CFloat × CFloat)
    (x y : CFloat × CFloat) : CFloat × CFloat :=
  let xr := x.1
  let yr := y.1
  let xr_class := xr.fpclassify
  let yr_class := yr.fpclassify
  let xi_class := x.2.fpclassify
  let yi_class := y.2.fpclassify
  if (xi_class = FPClass.FP_ZERO ∧ yi_class = FPClass.FP_ZERO) ∧
      (xr.ge_zero = true ∨ yr_class = FPClass.FP_NAN ∨ yr_class = FPClass.FP_INFINITE ∨
        yr.eq yr.trunc = true) then
    GxB_CMPLX (GB_pow pow xr yr) (CFloat.ofInt 0)
  else if xr_class = FPClass.FP_NAN ∨ xi_class = FPClass.FP_NAN ∨
      yr_class = FPClass.FP_NAN ∨ yi_class = FPClass.FP_NAN then
    GxB_CMPLX CFloat.NAN CFloat.NAN
  else if yr_class = FPClass.FP_ZERO ∧ yi_class = FPClass.FP_ZERO then
    GxB_CMPLX (CFloat.ofInt 1) (CFloat.ofInt 0)
  else cpow x y

/-- A floating-point value is an integer: a zero, or a finite number whose value
is an integer. -/
def CFloat.isInteger : CFloat → Bool
  | CFloat.zero _ => true
  | CFloat.finite q => q.isInt
  | _ => false

/-- The condition of the rule "z is real": both imaginary parts are zero, and
`Re x >= 0` or `Re y` is an integer, a NaN or infinite. -/
def realRule (x y : CFloat × CFloat) : Prop :=
  x.2.fpclassify = FPClass.FP_ZERO ∧ y.2.fpclassify = FPClass.FP_ZERO ∧
  (x.1.ge_zero = true ∨ y.1.isInteger = true ∨ y.1.fpclassify = FPClass.FP_NAN ∨
    y.1.fpclassify = FPClass.FP_INFINITE)

/-- A part of `x` or of `y` is a NaN. -/
def anyNaN (x y : CFloat × CFloat) : Prop :=
  x.1.fpclassify = FPClass.FP_NAN ∨ x.2.fpclassify = FPClass.FP_NAN ∨
  y.1.fpclassify = FPClass.FP_NAN ∨ y.2.fpclassify = FPClass.FP_NAN

/-! ### `GB_AxB_saxpy3_coarseHash_phase1.c`: the count loop alone -/

/-- The count loop of the template for the vector `kk`, with no shortcut:
`mark++ ; cjnz = 0 ;`, the scan of `B(:,j)`, and the count `cjnz` that
`Cp [kk] = cjnz` would store. -/
def hash_count_loop {α : Type} (hashf : Int → Nat) (rehash : Nat → Int → Nat) (fuel : Nat)
    (A B : GB_Matrix α) (kk : Nat) (S : HashTask) : Option Int :=
  (scan_B hashf rehash fuel (S.mark + 1) A B (B.p (kk + 1) - B.p kk) (B.p kk)
    { Hf := S.Hf, Hi := S.Hi, cjnz := 0 }).map (fun T => T.cjnz)

/-! ### `GB_subassign_method13b.c`: the count of the zombies -/

/-- The number of flipped indices among the slots `F` of `Ci`. -/
def zombieSum (Ci : Nat → Int) (F : Finset Nat) : Int :=
  Finset.sum F (fun q => if Ci q < 0 then 1 else 0)

/-- The relation of `nzombies` to the flipped indices that phase 1 keeps: the
difference between `nzombies` and the number of flipped indices among the
slots `F` is `c`, and every slot has the un-flipped index that it has in `Ci0`. -/
def zombieInv {γ : Type} (F : Finset Nat) (Ci0 : Nat → Int) (c : Int) (st : GB_C_state γ) :
    Prop :=
  st.nzombies - zombieSum st.Ci F = c ∧ ∀ q, GB_UNFLIP (st.Ci q) = GB_UNFLIP (Ci0 q)

/-! ### `GB_subassign_method13b.c`: the positions of the three actions -/

/-- The entries `S(i,j)` of the submatrix with `M(i,j)` false, as pairs of the
vector `j` and the position in `S`: the positions where phase 1 acts on `C`. -/
def targets {α γ μ : Type} (g : GB_subassign_args α γ μ) : List (Nat × Nat) :=
  (List.range g.nJ).flatMap (fun j =>
    ((g.S.vec j).filter (fun s => !(g.mask (g.S.i s) j))).map (fun s => (j, s)))

/-- The positions of the action delete whose entry of `C` is live on entry:
`S(i,j)` present, `A(i,j)` absent, `M(i,j)` false, and the index not flipped. -/
def deletedLive {α γ μ : Type} (C : GB_Matrix γ) (g : GB_subassign_args α γ μ) :
    List (Nat × Nat) :=
  (targets g).filter (fun e =>
    (g.A.get (g.S.i e.2) e.1).isNone && GB_IS_NOT_ZOMBIE (C.i (g.S.x e.2)))

/-- The positions of the action overwrite whose entry of `C` is a zombie on
entry: `S(i,j)` and `A(i,j)` present, `M(i,j)` false, and the index flipped. -/
def resurrected {α γ μ : Type} (C : GB_Matrix γ) (g : GB_subassign_args α γ μ) :
    List (Nat × Nat) :=
  (targets g).filter (fun e =>
    (g.A.get (g.S.i e.2) e.1).isSome && GB_IS_ZOMBIE (C.i (g.S.x e.2)))

/-- The qualifying entries of `A`, as pairs of the vector `j` and the position
`pA` in `A`: `A(iA,j)` present, `M(iA,j)` false, and no entry of `S(:,j)` with
the index `iA`; in the order of the vectors and of the positions. -/
def insertEntries {α γ μ : Type} (g : GB_subassign_args α γ μ) : List (Nat × Nat) :=
  (List.range g.nJ).flatMap (fun j =>
    ((g.A.vec j).filter (fun a =>
      !(g.mask (g.A.i a) j) && (g.S.vec j).all (fun s => g.S.i s != g.A.i a))).map
      (fun a => (j, a)))

/-! ## Theorems -/

/-! ### Reduction to a scalar -/

theorem GB_IMIN_eq_min (x y : Int) : GB_IMIN x y = min x y := by
  unfold GB_IMIN
  split_ifs with h
  · exact (min_eq_left (le_of_lt h)).symm
  · exact (min_eq_right (not_lt.mp h)).symm

theorem reduce_all_le (Ax : Nat → Int) (n : Nat) : ∀ (p : Nat) (v : Int),
    reduce_all Ax n p v ≤ v ∧ (∀ q, p ≤ q → q < p + n → reduce_all Ax n p v ≤ Ax q) := by
  induction n with
  | zero => intro p v; exact ⟨le_refl _, fun q h1 h2 => by omega⟩
  | succ n ih =>
    intro p v
    obtain ⟨h1, h2⟩ := ih (p + 1) (GB_REDUCE v Ax p)
    have hm : GB_REDUCE v Ax p = min v (Ax p) := GB_IMIN_eq_min _ _
    refine ⟨?_, ?_⟩
    · show reduce_all Ax n (p + 1) (GB_REDUCE v Ax p) ≤ v
      exact le_trans h1 (hm ▸ min_le_left _ _)
    · intro q hq1 hq2
      show reduce_all Ax n (p + 1) (GB_REDUCE v Ax p) ≤ Ax q
      by_cases hqp : q = p
      · subst hqp
        exact le_trans h1 (hm ▸ min_le_right _ _)
      · exact h2 q (by omega) (by omega)

theorem reduce_all_mem (Ax : Nat → Int) (n : Nat) : ∀ (p : Nat) (v : Int),
    reduce_all Ax n p v = v ∨ ∃ q, p ≤ q ∧ q < p + n ∧ reduce_all Ax n p v = Ax q := by
  induction n with
  | zero => intro p v; exact Or.inl rfl
  | succ n ih =>
    intro p v
    show reduce_all Ax n (p + 1) (GB_REDUCE v Ax p) = v ∨
      ∃ q, p ≤ q ∧ q < p + (n + 1) ∧ reduce_all Ax n (p + 1) (GB_REDUCE v Ax p) = Ax q
    have hm : GB_REDUCE v Ax p = v ∨ GB_REDUCE v Ax p = Ax p := by
      unfold GB_REDUCE GB_IMIN
      split_ifs
      · exact Or.inl rfl
      · exact Or.inr rfl
    rcases ih (p + 1) (GB_REDUCE v Ax p) with h | ⟨q, h1, h2, h3⟩
    · rcases hm with hv | hv
      · exact Or.inl (h.trans hv)
      · exact Or.inr ⟨p, le_refl _, by omega, h.trans hv⟩
    · exact Or.inr ⟨q, by omega, by omega, h3⟩

/-- The loop with the terminal test returns what the loop that reads every
value returns, as long as the test, when it fires, fires on the running value. -/
theorem GB_reduce_loop_eq_all (Ax : Nat → Int) (n : Nat) :
    ∀ (p : Nat) (v : Int) (k : Nat), (∀ q, p ≤ q → q < p + n → INT16_MIN ≤ Ax q) →
      (GB_reduce_loop Ax none n p v k).1 = reduce_all Ax n p v := by
  induction n with
  | zero => intro p v k _; rfl
  | succ n ih =>
    intro p v k hlo
    show (if GB_REDUCE_TERMINAL (GB_REDUCE v Ax p) ((none : Option Int).getD (GB_REDUCE v Ax p))
        then (GB_REDUCE v Ax p, k + 1)
        else GB_reduce_loop Ax none n (p + 1) (GB_REDUCE v Ax p) (k + 1)).1
      = reduce_all Ax n (p + 1) (GB_REDUCE v Ax p)
    by_cases ht : GB_REDUCE_TERMINAL (GB_REDUCE v Ax p)
        ((none : Option Int).getD (GB_REDUCE v Ax p)) = true
    · rw [if_pos ht]
      have hv : GB_REDUCE v Ax p = INT16_MIN := by
        simpa [GB_REDUCE_TERMINAL] using ht
      show GB_REDUCE v Ax p = _
      rw [hv]
      rcases reduce_all_mem Ax n (p + 1) INT16_MIN with h | ⟨q, hq1, hq2, h3⟩
      · exact h.symm
      · have h1 := (reduce_all_le Ax n (p + 1) INT16_MIN).1
        have h2 := hlo q (by omega) (by omega)
        omega
    · rw [if_neg ht]
      exact ih (p + 1) _ (k + 1) (fun q h1 h2 => hlo q (by omega) (by omega))

/-- A thread's loop, whose terminal test reads the scalar `s` of the enclosing
function, reads every value of its slice when `s` is not the terminal value. -/
theorem GB_reduce_loop_thread (Ax : Nat → Int) (s : Int) (hs : s ≠ INT16_MIN) (n : Nat) :
    ∀ (p : Nat) (v : Int) (k : Nat),
      GB_reduce_loop Ax (some s) n p v k = (reduce_all Ax n p v, k + n) := by
  induction n with
  | zero => intro p v k; rfl
  | succ n ih =>
    intro p v k
    show (if GB_REDUCE_TERMINAL (GB_REDUCE v Ax p) ((some s).getD (GB_REDUCE v Ax p))
        then (GB_REDUCE v Ax p, k + 1)
        else GB_reduce_loop Ax (some s) n (p + 1) (GB_REDUCE v Ax p) (k + 1))
      = (reduce_all Ax n (p + 1) (GB_REDUCE v Ax p), k + (n + 1))
    have ht : GB_REDUCE_TERMINAL (GB_REDUCE v Ax p) ((some s).getD (GB_REDUCE v Ax p)) = false := by
      simp [GB_REDUCE_TERMINAL, hs]
    rw [ht, ih (p + 1) _ (k + 1)]
    simp only [Bool.false_eq_true, if_false, Prod.mk.injEq, true_and]
    omega

theorem GB_reduce_threads_spec (Ax : Nat → Int) (anz nthreads : Nat) (s : Int) (m : Nat) :
    ∀ (tid : Nat) (w : Nat → Int) (t : Nat),
      GB_reduce_threads Ax anz nthreads s m tid w t =
        if tid ≤ t ∧ t < tid + m then
          (GB_reduce_loop Ax (some s) ((GB_PARTITION anz t nthreads).2 - (GB_PARTITION anz t nthreads).1)
            (GB_PARTITION anz t nthreads).1 GB_REDUCE_INIT 0).1
        else w t := by
  induction m with
  | zero =>
    intro tid w t
    have : ¬ (tid ≤ t ∧ t < tid + 0) := by omega
    rw [if_neg this]; rfl
  | succ m ih =>
    intro tid w t
    show GB_reduce_threads Ax anz nthreads s m (tid + 1) _ t = _
    rw [ih]
    by_cases h1 : tid + 1 ≤ t ∧ t < tid + 1 + m
    · rw [if_pos h1, if_pos (by omega)]
    · rw [if_neg h1]
      by_cases h2 : t = tid
      · subst h2
        rw [if_pos (by omega)]
        simp [GB_REDUCE_WRAPUP, upd]
      · rw [if_neg (by omega)]
        simp [GB_REDUCE_WRAPUP, upd, h2]

/-- The combination of the threads' results: the scalar is below every value of
the slices combined so far, and it is the initial scalar or one of the values. -/
theorem GB_reduce_combine_spec (Ax : Nat → Int) (anz nthreads : Nat) (s0 : Int)
    (hs0 : s0 ≠ INT16_MIN) (m : Nat) :
    ∀ (tid : Nat) (s : Int),
      (∀ q, q < tid * anz / nthreads → s ≤ Ax q) →
      (s = INT16_MAX ∨ ∃ q, q < tid * anz / nthreads ∧ s = Ax q) →
      let r := GB_reduce_combine
        (GB_reduce_threads Ax anz nthreads s0 nthreads 0 (fun _ => 0)) m tid s
      (tid + m ≤ nthreads →
        (∀ q, q < (tid + m) * anz / nthreads → r ≤ Ax q) ∧
        (r = INT16_MAX ∨ ∃ q, q < (tid + m) * anz / nthreads ∧ r = Ax q)) := by
  induction m with
  | zero => intro tid s h1 h2 r _; exact ⟨h1, h2⟩
  | succ m ih =>
    intro tid s h1 h2 r hle
    have hmono : tid * anz / nthreads ≤ (tid + 1) * anz / nthreads :=
      Nat.div_le_div_right (Nat.mul_le_mul_right _ (Nat.le_succ _))
    have hw : GB_reduce_threads Ax anz nthreads s0 nthreads 0 (fun _ => 0) tid =
        reduce_all Ax ((tid + 1) * anz / nthreads - tid * anz / nthreads)
          (tid * anz / nthreads) INT16_MAX := by
      rw [GB_reduce_threads_spec, if_pos (by omega), GB_reduce_loop_thread Ax s0 hs0]
      rfl
    have key := ih (tid + 1)
      (GB_REDUCE_W s (GB_reduce_threads Ax anz nthreads s0 nthreads 0 (fun _ => 0)) tid) ?_ ?_
    · have := key (by omega)
      have e : tid + 1 + m = tid + (m + 1) := by omega
      rw [e] at this
      exact this
    · intro q hq
      unfold GB_REDUCE_W
      rw [GB_IMIN_eq_min, hw]
      by_cases hq1 : q < tid * anz / nthreads
      · exact le_trans (min_le_left _ _) (h1 q hq1)
      · exact le_trans (min_le_right _ _)
          ((reduce_all_le Ax _ _ _).2 q (by omega) (by omega))
    · unfold GB_REDUCE_W
      rw [GB_IMIN_eq_min, hw]
      rcases min_choice s (reduce_all Ax ((tid + 1) * anz / nthreads - tid * anz / nthreads)
          (tid * anz / nthreads) INT16_MAX) with hc | hc
      · rw [hc]
        rcases h2 with h | ⟨q, hq, h⟩
        · exact Or.inl h
        · exact Or.inr ⟨q, by omega, h⟩
      · rw [hc]
        rcases reduce_all_mem Ax ((tid + 1) * anz / nthreads - tid * anz / nthreads)
          (tid * anz / nthreads) INT16_MAX with h | ⟨q, hq1, hq2, h⟩
        · exact Or.inl h
        · exact Or.inr ⟨q, by omega, h⟩

/-- C4: for a matrix whose `anz` stored values are int16 values, the scalar that
GB_red_scalar__min_int16 stores in `*result` is the minimum of the stored values
(below each of them, and one of them), and it is INT16_MAX, the identity of the
monoid, when the matrix has no entries; for any number of threads. -/
theorem GB_red_scalar__min_int16_is_min (Ax : Nat → Int) (anz nthreads : Nat)
    (hn : 0 < nthreads)
    (h16 : ∀ q, q < anz → INT16_MIN ≤ Ax q ∧ Ax q ≤ INT16_MAX) :
    (∀ q, q < anz → GB_red_scalar__min_int16 Ax anz nthreads ≤ Ax q) ∧
    (0 < anz → ∃ q, q < anz ∧ GB_red_scalar__min_int16 Ax anz nthreads = Ax q) ∧
    (anz = 0 → GB_red_scalar__min_int16 Ax anz nthreads = INT16_MAX) := by
  have main : (∀ q, q < anz → GB_red_scalar__min_int16 Ax anz nthreads ≤ Ax q) ∧
      (GB_red_scalar__min_int16 Ax anz nthreads = INT16_MAX ∨
        ∃ q, q < anz ∧ GB_red_scalar__min_int16 Ax anz nthreads = Ax q) := by
    unfold GB_red_scalar__min_int16
    by_cases h1 : nthreads = 1
    · simp only [h1, if_true]
      rw [GB_reduce_loop_eq_all Ax anz 0 INT16_MAX 0 (fun q _ hq => (h16 q (by omega)).1)]
      refine ⟨fun q hq => (reduce_all_le Ax anz 0 INT16_MAX).2 q (Nat.zero_le _) (by omega), ?_⟩
      rcases reduce_all_mem Ax anz 0 INT16_MAX with h | ⟨q, _, hq, h⟩
      · exact Or.inl h
      · exact Or.inr ⟨q, by omega, h⟩
    · simp only [h1, if_false]
      have key := GB_reduce_combine_spec Ax anz nthreads INT16_MAX (by decide) nthreads 0
        INT16_MAX (fun q hq => by simp at hq) (Or.inl rfl) (by omega)
      simp only [Nat.zero_add] at key
      rw [Nat.mul_div_cancel_left anz hn] at key
      exact key
  refine ⟨main.1, ?_, ?_⟩
  · intro hpos
    rcases main.2 with h | h
    · refine ⟨0, hpos, ?_⟩
      have h1 := main.1 0 hpos
      have h2 := (h16 0 hpos).2
      rw [h] at h1 ⊢
      omega
    · exact h
  · intro h0
    rcases main.2 with h | ⟨q, hq, _⟩
    · exact h
    · omega

/-- Witness of C4: the values 5, -3, 7 reduced by two threads. -/
theorem GB_red_scalar__min_int16_is_min_witness :
    (∀ q, q < 3 → GB_red_scalar__min_int16 (ofList [5, -3, 7] 0) 3 2 ≤ ofList [5, -3, 7] 0 q) ∧
    (0 < 3 → ∃ q, q < 3 ∧ GB_red_scalar__min_int16 (ofList [5, -3, 7] 0) 3 2 = ofList [5, -3, 7] 0 q) ∧
    (3 = 0 → GB_red_scalar__min_int16 (ofList [5, -3, 7] 0) 3 2 = INT16_MAX) :=
  GB_red_scalar__min_int16_is_min (ofList [5, -3, 7] 0) 3 2 (by decide) (by decide)

/-- C10: for every sequence of int16 values and every starting value, the
reduction loop that stops as soon as the running value equals the terminal
INT16_MIN returns the scalar that the loop reading every value returns. -/
theorem GB_reduce_terminal_sound (Ax : Nat → Int) (anz : Nat) (s : Int)
    (h16 : ∀ q, q < anz → INT16_MIN ≤ Ax q ∧ Ax q ≤ INT16_MAX) :
    (GB_reduce_loop Ax none anz 0 s 0).1 = reduce_all Ax anz 0 s :=
  GB_reduce_loop_eq_all Ax anz 0 s 0 (fun q _ hq => (h16 q (by omega)).1)

/-- Witness of C10: the terminal value sits in the middle of the sequence. -/
theorem GB_reduce_terminal_sound_witness :
    (GB_reduce_loop (ofList [4, -32768, -7] 0) none 3 0 INT16_MAX 0).1
      = reduce_all (ofList [4, -32768, -7] 0) 3 0 INT16_MAX :=
  GB_reduce_terminal_sound (ofList [4, -32768, -7] 0) 3 INT16_MAX (by decide)

/-! ### The non-zombie selector -/

theorem GB_sel_count_eq (Ai : Nat → Int) (n : Nat) : ∀ (p s : Nat),
    GB_sel_count Ai n p s = s + ((List.range' p n).filter (GB_SELECT Ai)).length := by
  induction n with
  | zero => intro p s; simp [GB_sel_count]
  | succ n ih =>
    intro p s
    show GB_sel_count Ai n (p + 1) _ = _
    rw [ih, List.range'_succ, List.filter_cons]
    by_cases h : GB_SELECT Ai p = true
    · simp [h]; omega
    · simp [h]

/-- The compaction loop: where the output pointer ends, what it leaves alone,
and what it writes. -/
theorem GB_sel_compact_spec {α : Type} (Ai : Nat → Int) (Ax : Nat → α) (n : Nat) :
    ∀ (pA : Nat) (Ci : Nat → Int) (Cx : Nat → α) (pC : Nat),
      let r := GB_sel_compact Ai Ax n pA Ci Cx pC
      let sel := (List.range' pA n).filter (GB_SELECT Ai)
      r.2.2 = pC + sel.length ∧
      (∀ q, q < pC ∨ pC + sel.length ≤ q → r.1 q = Ci q ∧ r.2.1 q = Cx q) ∧
      (List.range' pC sel.length).map (fun q => (r.1 q, r.2.1 q))
        = sel.map (fun p => (Ai p, Ax p)) := by
  induction n with
  | zero =>
    intro pA Ci Cx pC
    simp [GB_sel_compact]
  | succ n ih =>
    intro pA Ci Cx pC
    by_cases h : GB_SELECT Ai pA = true
    · have e : GB_sel_compact Ai Ax (n + 1) pA Ci Cx pC =
          GB_sel_compact Ai Ax n (pA + 1) (upd Ci pC (Ai pA)) (GB_SELECT_ENTRY Cx pC Ax pA)
            (pC + 1) := by
        simp [GB_sel_compact, h]
      obtain ⟨h1, h2, h3⟩ := ih (pA + 1) (upd Ci pC (Ai pA)) (GB_SELECT_ENTRY Cx pC Ax pA) (pC + 1)
      simp only [e, List.range'_succ, List.filter_cons, h, if_true, List.length_cons,
        List.map_cons]
      refine ⟨by rw [h1]; omega, ?_, ?_⟩
      · intro q hq
        have := h2 q (by omega)
        rw [this.1, this.2]
        have hne : q ≠ pC := by omega
        simp [upd, GB_SELECT_ENTRY, hne]
      · rw [h3]
        have := h2 pC (Or.inl (Nat.lt_succ_self _))
        rw [this.1, this.2]
        simp [upd, GB_SELECT_ENTRY]
    · have e : GB_sel_compact Ai Ax (n + 1) pA Ci Cx pC =
          GB_sel_compact Ai Ax n (pA + 1) Ci Cx pC := by
        simp [GB_sel_compact, h]
      obtain ⟨h1, h2, h3⟩ := ih (pA + 1) Ci Cx pC
      simp only [e, List.range'_succ, List.filter_cons, h]
      exact ⟨h1, h2, h3⟩

theorem GB_SELECT_eq {α : Type} (A : GB_Matrix α) :
    GB_SELECT A.i = fun p => GB_IS_NOT_ZOMBIE (A.i p) := rfl

theorem GB_sel_phase1_succ {α : Type} (A : GB_Matrix α) (k : Nat) :
    GB_sel_phase1 A (k + 1) = GB_sel_phase1 A k + (liveVector A k).length := by
  show GB_sel_phase1 A k + GB_sel_count A.i (A.p (k + 1) - A.p k) (A.p k) 0 = _
  rw [GB_sel_count_eq]
  simp [liveVector, GB_Matrix.vecPos, GB_SELECT_eq]

theorem GB_sel_phase1_mono {α : Type} (A : GB_Matrix α) (k m : Nat) :
    GB_sel_phase1 A k ≤ GB_sel_phase1 A (k + m) := by
  induction m with
  | zero => exact le_refl _
  | succ m ih =>
    have := GB_sel_phase1_succ A (k + m)
    rw [← Nat.add_assoc]
    omega

/-- Phase 2 started at vector `k0` leaves the output below `Cp [k0]` alone. -/
theorem GB_sel_phase2_frame {α : Type} (A : GB_Matrix α) (m : Nat) :
    ∀ (k0 : Nat) (Ci : Nat → Int) (Cx : Nat → α) (q : Nat), q < GB_sel_phase1 A k0 →
      (GB_sel_phase2__nonzombie_fp32 A (GB_sel_phase1 A) m k0 Ci Cx).1 q = Ci q ∧
      (GB_sel_phase2__nonzombie_fp32 A (GB_sel_phase1 A) m k0 Ci Cx).2 q = Cx q := by
  induction m with
  | zero => intro k0 Ci Cx q _; exact ⟨rfl, rfl⟩
  | succ m ih =>
    intro k0 Ci Cx q hq
    show (GB_sel_phase2__nonzombie_fp32 A (GB_sel_phase1 A) m (k0 + 1) _ _).1 q = Ci q ∧
      (GB_sel_phase2__nonzombie_fp32 A (GB_sel_phase1 A) m (k0 + 1) _ _).2 q = Cx q
    have hm := GB_sel_phase1_mono A k0 1
    have h := ih (k0 + 1)
      (GB_sel_compact A.i A.x (A.p (k0 + 1) - A.p k0) (A.p k0) Ci Cx (GB_sel_phase1 A k0)).1
      (GB_sel_compact A.i A.x (A.p (k0 + 1) - A.p k0) (A.p k0) Ci Cx (GB_sel_phase1 A k0)).2.1
      q (by omega)
    have h2 := (GB_sel_compact_spec A.i A.x (A.p (k0 + 1) - A.p k0) (A.p k0) Ci Cx
      (GB_sel_phase1 A k0)).2.1 q (Or.inl hq)
    exact ⟨h.1.trans h2.1, h.2.trans h2.2⟩

/-- Phase 2 writes, as vector `k` of the output, the entries of vector `k` of
`A` whose index is not flipped. -/
theorem GB_sel_phase2_vector {α : Type} (A : GB_Matrix α) (m : Nat) :
    ∀ (k0 : Nat) (Ci : Nat → Int) (Cx : Nat → α) (k : Nat), k0 ≤ k → k < k0 + m →
      outVector (GB_sel_phase1 A)
        (GB_sel_phase2__nonzombie_fp32 A (GB_sel_phase1 A) m k0 Ci Cx) k = liveVector A k := by
  induction m with
  | zero => intro k0 Ci Cx k h1 h2; omega
  | succ m ih =>
    intro k0 Ci Cx k h1 h2
    by_cases hk : k = k0
    · subst hk
      show outVector (GB_sel_phase1 A)
        (GB_sel_phase2__nonzombie_fp32 A (GB_sel_phase1 A) m (k + 1) _ _) k = _
      obtain ⟨_, _, h3⟩ := GB_sel_compact_spec A.i A.x (A.p (k + 1) - A.p k) (A.p k) Ci Cx
        (GB_sel_phase1 A k)
      have hlen : GB_sel_phase1 A (k + 1) - GB_sel_phase1 A k = (liveVector A k).length := by
        rw [GB_sel_phase1_succ]; omega
      unfold outVector
      rw [hlen]
      have hfr : ∀ q ∈ List.range' (GB_sel_phase1 A k) (liveVector A k).length,
          (fun q => ((GB_sel_phase2__nonzombie_fp32 A (GB_sel_phase1 A) m (k + 1)
            (GB_sel_compact A.i A.x (A.p (k + 1) - A.p k) (A.p k) Ci Cx (GB_sel_phase1 A k)).1
            (GB_sel_compact A.i A.x (A.p (k + 1) - A.p k) (A.p k) Ci Cx (GB_sel_phase1 A k)).2.1).1 q,
            (GB_sel_phase2__nonzombie_fp32 A (GB_sel_phase1 A) m (k + 1)
            (GB_sel_compact A.i A.x (A.p (k + 1) - A.p k) (A.p k) Ci Cx (GB_sel_phase1 A k)).1
            (GB_sel_compact A.i A.x (A.p (k + 1) - A.p k) (A.p k) Ci Cx (GB_sel_phase1 A k)).2.1).2 q)) q
          = (fun q => ((GB_sel_compact A.i A.x (A.p (k + 1) - A.p k) (A.p k) Ci Cx
              (GB_sel_phase1 A k)).1 q,
            (GB_sel_compact A.i A.x (A.p (k + 1) - A.p k) (A.p k) Ci Cx
              (GB_sel_phase1 A k)).2.1 q)) q := by
        intro q hq
        rw [List.mem_range'_1] at hq
        have := GB_sel_phase2_frame A m (k + 1)
          (GB_sel_compact A.i A.x (A.p (k + 1) - A.p k) (A.p k) Ci Cx (GB_sel_phase1 A k)).1
          (GB_sel_compact A.i A.x (A.p (k + 1) - A.p k) (A.p k) Ci Cx (GB_sel_phase1 A k)).2.1
          q (by rw [GB_sel_phase1_succ]; omega)
        simp only [this.1, this.2]
      rw [List.map_congr_left hfr]
      have hl : (liveVector A k).length =
          ((List.range' (A.p k) (A.p (k + 1) - A.p k)).filter (GB_SELECT A.i)).length := by
        simp [liveVector, GB_Matrix.vecPos, GB_SELECT_eq]
      rw [hl, h3]
      rfl
    · exact ih (k0 + 1) _ _ k (by omega) (by omega)

theorem countZombies_add_live (Ai : Nat → Int) (n : Nat) :
    countZombies Ai n + ((List.range n).filter (fun p => GB_IS_NOT_ZOMBIE (Ai p))).length = n := by
  induction n with
  | zero => simp [countZombies]
  | succ n ih =>
    unfold countZombies at ih ⊢
    rw [List.range_succ, List.filter_append, List.filter_append]
    simp only [List.length_append, List.filter_cons, List.filter_nil]
    by_cases h : Ai n < 0
    · have h1 : GB_IS_ZOMBIE (Ai n) = true := by simp [GB_IS_ZOMBIE, h]
      have h2 : GB_IS_NOT_ZOMBIE (Ai n) = false := by simp [GB_IS_NOT_ZOMBIE, h]
      simp [h1, h2]; omega
    · have h1 : GB_IS_ZOMBIE (Ai n) = false := by simp [GB_IS_ZOMBIE, h]
      have h2 : GB_IS_NOT_ZOMBIE (Ai n) = true := by
        simp only [GB_IS_NOT_ZOMBIE, decide_eq_true_eq]; omega
      simp [h1, h2]; omega

/-- The phase-1 total counts the entries of `A` that are not zombies. -/
theorem GB_sel_phase1_total {α : Type} (A : GB_Matrix α) (hp0 : A.p 0 = 0)
    (hmono : ∀ k, k < A.nvec → A.p k ≤ A.p (k + 1)) (k : Nat) (hk : k ≤ A.nvec) :
    GB_sel_phase1 A k =
      ((List.range (A.p k)).filter (fun p => GB_IS_NOT_ZOMBIE (A.i p))).length := by
  induction k with
  | zero => simp [GB_sel_phase1, hp0]
  | succ k ih =>
    rw [GB_sel_phase1_succ, ih (by omega)]
    have hle := hmono k (by omega)
    have hsplit : List.range (A.p (k + 1)) =
        List.range (A.p k) ++ List.range' (A.p k) (A.p (k + 1) - A.p k) := by
      have e : A.p (k + 1) = (A.p (k + 1) - A.p k) + A.p k := by omega
      conv_lhs => rw [e]
      rw [List.range_eq_range', List.range_eq_range']
      have := List.range'_append_1 0 (A.p k) (A.p (k + 1) - A.p k)
      simp only [Nat.zero_add] at this
      exact this.symm
    rw [hsplit, List.filter_append, List.length_append]
    simp [liveVector, GB_Matrix.vecPos]

theorem GB_sel_phase1_locate {α : Type} (A : GB_Matrix α) (n : Nat) :
    ∀ q, q < GB_sel_phase1 A n →
      ∃ k, k < n ∧ GB_sel_phase1 A k ≤ q ∧ q < GB_sel_phase1 A (k + 1) := by
  induction n with
  | zero => intro q hq; simp [GB_sel_phase1] at hq
  | succ n ih =>
    intro q hq
    by_cases h : q < GB_sel_phase1 A n
    · obtain ⟨k, hk, h1, h2⟩ := ih q h
      exact ⟨k, by omega, h1, h2⟩
    · exact ⟨n, by omega, by omega, hq⟩

theorem mem_outVector {α : Type} (Cp : Nat → Nat) (C : (Nat → Int) × (Nat → α)) (k q : Nat)
    (h1 : Cp k ≤ q) (h2 : q < Cp (k + 1)) : (C.1 q, C.2 q) ∈ outVector Cp C k := by
  unfold outVector
  rw [List.mem_map]
  exact ⟨q, by rw [List.mem_range'_1]; omega, rfl⟩

theorem liveVector_not_zombie {α : Type} (A : GB_Matrix α) (k : Nat) (e : Int × α)
    (he : e ∈ liveVector A k) : 0 ≤ e.1 := by
  unfold liveVector at he
  rw [List.mem_map] at he
  obtain ⟨p, hp, rfl⟩ := he
  rw [List.mem_filter] at hp
  simpa [GB_IS_NOT_ZOMBIE] using hp.2

theorem unflip_lt_of_adjacent (Ai : Nat → Int) (lo hi : Nat)
    (hadj : ∀ p, lo ≤ p → p + 1 < hi → GB_UNFLIP (Ai p) < GB_UNFLIP (Ai (p + 1))) :
    ∀ (d p : Nat), lo ≤ p → p + d + 1 < hi → GB_UNFLIP (Ai p) < GB_UNFLIP (Ai (p + d + 1)) := by
  intro d
  induction d with
  | zero => intro p h1 h2; exact hadj p h1 h2
  | succ d ih =>
    intro p h1 h2
    have a := ih p h1 (by omega)
    have b := hadj (p + d + 1) (by omega) (by omega)
    exact lt_trans a b

theorem liveVector_sorted {α : Type} (A : GB_Matrix α) (k : Nat)
    (hadj : ∀ p, A.p k ≤ p → p + 1 < A.p (k + 1) →
      GB_UNFLIP (A.i p) < GB_UNFLIP (A.i (p + 1))) :
    List.Pairwise (fun a b => a < b) ((liveVector A k).map Prod.fst) := by
  unfold liveVector
  rw [List.map_map, List.pairwise_map]
  have hpw : List.Pairwise (fun a b => a < b)
      ((A.vecPos k).filter (fun p => GB_IS_NOT_ZOMBIE (A.i p))) :=
    (List.pairwise_lt_range' _ _).sublist (List.filter_sublist _)
  refine hpw.imp_of_mem ?_
  intro a b ha hb hlt
  rw [List.mem_filter] at ha hb
  have ha1 := ha.1
  have hb1 := hb.1
  unfold GB_Matrix.vecPos at ha1 hb1
  rw [List.mem_range'_1] at ha1 hb1
  have hza : 0 ≤ A.i a := by simpa [GB_IS_NOT_ZOMBIE] using ha.2
  have hzb : 0 ≤ A.i b := by simpa [GB_IS_NOT_ZOMBIE] using hb.2
  have key := unflip_lt_of_adjacent A.i (A.p k) (A.p (k + 1)) hadj (b - a - 1) a ha1.1 (by omega)
  have e : a + (b - a - 1) + 1 = b := by omega
  rw [e] at key
  simp only [GB_UNFLIP, not_lt.mpr hza, not_lt.mpr hzb, if_false] at key
  exact key

/-- C2: for every matrix `A` (offsets starting at 0 and non-decreasing), the
non-zombie selector writes as each output vector exactly the entries of that
vector of `A` whose index is not flipped, in their order and with their values
copied; the number of entries written in a vector is the phase-1 count, the sum
of GB_SELECT over the vector; in total that is nnz(A) minus the number of
zombies; and if every entry of `A` is a zombie the output is empty. -/
theorem GB_sel_nonzombie_correct {α : Type} (A : GB_Matrix α) (Ci0 : Nat → Int)
    (Cx0 : Nat → α) (hp0 : A.p 0 = 0) (hmono : ∀ k, k < A.nvec → A.p k ≤ A.p (k + 1)) :
    (∀ k, k < A.nvec →
      outVector (GB_sel_phase1 A) (GB_sel_nonzombie A Ci0 Cx0) k = liveVector A k) ∧
    (∀ k, k < A.nvec →
      (outVector (GB_sel_phase1 A) (GB_sel_nonzombie A Ci0 Cx0) k).length
        = GB_sel_count A.i (A.p (k + 1) - A.p k) (A.p k) 0) ∧
    GB_sel_phase1 A A.nvec + countZombies A.i (A.p A.nvec) = A.p A.nvec ∧
    ((∀ p, p < A.p A.nvec → GB_IS_ZOMBIE (A.i p) = true) →
      GB_sel_phase1 A A.nvec = 0 ∧
      ∀ k, k < A.nvec → outVector (GB_sel_phase1 A) (GB_sel_nonzombie A Ci0 Cx0) k = []) := by
  have hvec : ∀ k, k < A.nvec →
      outVector (GB_sel_phase1 A) (GB_sel_nonzombie A Ci0 Cx0) k = liveVector A k := by
    intro k hk
    exact GB_sel_phase2_vector A A.nvec 0 Ci0 Cx0 k (Nat.zero_le _) (by omega)
  have htot := GB_sel_phase1_total A hp0 hmono A.nvec (le_refl _)
  refine ⟨hvec, ?_, ?_, ?_⟩
  · intro k hk
    rw [hvec k hk]
    have := GB_sel_phase1_succ A k
    show _ = GB_sel_count A.i (A.p (k + 1) - A.p k) (A.p k) 0
    have h2 : GB_sel_phase1 A (k + 1) =
        GB_sel_phase1 A k + GB_sel_count A.i (A.p (k + 1) - A.p k) (A.p k) 0 := rfl
    omega
  · have := countZombies_add_live A.i (A.p A.nvec)
    omega
  · intro hall
    have h0 : GB_sel_phase1 A A.nvec = 0 := by
      rw [htot, List.length_eq_zero, List.filter_eq_nil_iff]
      intro p hp
      rw [List.mem_range] at hp
      have := hall p hp
      simp only [GB_IS_ZOMBIE, decide_eq_true_eq] at this
      simp only [GB_IS_NOT_ZOMBIE, decide_eq_true_eq]
      omega
    refine ⟨h0, ?_⟩
    intro k hk
    have h1 := GB_sel_phase1_mono A k (A.nvec - k)
    have h2 := GB_sel_phase1_mono A (k + 1) (A.nvec - (k + 1))
    have e1 : k + (A.nvec - k) = A.nvec := by omega
    have e2 : k + 1 + (A.nvec - (k + 1)) = A.nvec := by omega
    rw [e1] at h1
    rw [e2] at h2
    unfold outVector
    have : GB_sel_phase1 A (k + 1) - GB_sel_phase1 A k = 0 := by omega
    rw [this]
    rfl

/-- Witness of C2: the matrix `selA`; its output is `[(3,10), (7,30)]` and `[]`. -/
theorem GB_sel_nonzombie_correct_witness :
    ((∀ k, k < selA.nvec →
      outVector (GB_sel_phase1 selA) (GB_sel_nonzombie selA (fun _ => 0) (fun _ => 0)) k
        = liveVector selA k) ∧
    (∀ k, k < selA.nvec →
      (outVector (GB_sel_phase1 selA) (GB_sel_nonzombie selA (fun _ => 0) (fun _ => 0)) k).length
        = GB_sel_count selA.i (selA.p (k + 1) - selA.p k) (selA.p k) 0) ∧
    GB_sel_phase1 selA selA.nvec + countZombies selA.i (selA.p selA.nvec) = selA.p selA.nvec ∧
    ((∀ p, p < selA.p selA.nvec → GB_IS_ZOMBIE (selA.i p) = true) →
      GB_sel_phase1 selA selA.nvec = 0 ∧
      ∀ k, k < selA.nvec →
        outVector (GB_sel_phase1 selA) (GB_sel_nonzombie selA (fun _ => 0) (fun _ => 0)) k = [])) ∧
    outVector (GB_sel_phase1 selA) (GB_sel_nonzombie selA (fun _ => 0) (fun _ => 0)) 0
      = [(3, 10), (7, 30)] ∧
    outVector (GB_sel_phase1 selA) (GB_sel_nonzombie selA (fun _ => 0) (fun _ => 0)) 1 = [] :=
  ⟨GB_sel_nonzombie_correct selA (fun _ => 0) (fun _ => 0) (by decide) (by decide),
    by decide, by decide⟩

/-- C9: for every input matrix in which the un-flipped indices of each vector
are strictly increasing, the output of the non-zombie selector has, in every
vector, strictly increasing indices, and no index of the output is flipped. -/
theorem GB_sel_nonzombie_sorted {α : Type} (A : GB_Matrix α) (Ci0 : Nat → Int)
    (Cx0 : Nat → α)
    (hadj : ∀ k, k < A.nvec → ∀ p, A.p k ≤ p → p + 1 < A.p (k + 1) →
      GB_UNFLIP (A.i p) < GB_UNFLIP (A.i (p + 1))) :
    (∀ k, k < A.nvec → List.Pairwise (fun a b => a < b)
      ((outVector (GB_sel_phase1 A) (GB_sel_nonzombie A Ci0 Cx0) k).map Prod.fst)) ∧
    (∀ q, q < GB_sel_phase1 A A.nvec →
      GB_IS_ZOMBIE ((GB_sel_nonzombie A Ci0 Cx0).1 q) = false) ∧
    countZombies (GB_sel_nonzombie A Ci0 Cx0).1 (GB_sel_phase1 A A.nvec) = 0 := by
  have hvec : ∀ k, k < A.nvec →
      outVector (GB_sel_phase1 A) (GB_sel_nonzombie A Ci0 Cx0) k = liveVector A k := by
    intro k hk
    exact GB_sel_phase2_vector A A.nvec 0 Ci0 Cx0 k (Nat.zero_le _) (by omega)
  have hz : ∀ q, q < GB_sel_phase1 A A.nvec →
      GB_IS_ZOMBIE ((GB_sel_nonzombie A Ci0 Cx0).1 q) = false := by
    intro q hq
    obtain ⟨k, hk, h1, h2⟩ := GB_sel_phase1_locate A A.nvec q hq
    have hm := mem_outVector (GB_sel_phase1 A) (GB_sel_nonzombie A Ci0 Cx0) k q h1 h2
    rw [hvec k hk] at hm
    have := liveVector_not_zombie A k _ hm
    simp only [GB_IS_ZOMBIE, decide_eq_false_iff_not, not_lt]
    exact this
  refine ⟨?_, hz, ?_⟩
  · intro k hk
    rw [hvec k hk]
    exact liveVector_sorted A k (hadj k hk)
  · unfold countZombies
    rw [List.length_eq_zero, List.filter_eq_nil_iff]
    intro q hq
    rw [List.mem_range] at hq
    simp [hz q hq]

/-- Witness of C9: the matrix `selA`, whose un-flipped indices are 3, 5, 7 and 0. -/
theorem GB_sel_nonzombie_sorted_witness :
    (∀ k, k < selA.nvec → List.Pairwise (fun a b => a < b)
      ((outVector (GB_sel_phase1 selA)
        (GB_sel_nonzombie selA (fun _ => 0) (fun _ => 0)) k).map Prod.fst)) ∧
    (∀ q, q < GB_sel_phase1 selA selA.nvec →
      GB_IS_ZOMBIE ((GB_sel_nonzombie selA (fun _ => 0) (fun _ => 0)).1 q) = false) ∧
    countZombies (GB_sel_nonzombie selA (fun _ => 0) (fun _ => 0)).1
      (GB_sel_phase1 selA selA.nvec) = 0 :=
  GB_sel_nonzombie_sorted selA (fun _ => 0) (fun _ => 0)
    (fun k hk p h1 h2 =>
      (by decide : ∀ k, k < selA.nvec → ∀ p, p < selA.p (k + 1) → selA.p k ≤ p →
        p + 1 < selA.p (k + 1) → GB_UNFLIP (selA.i p) < GB_UNFLIP (selA.i (p + 1)))
        k hk p (by omega) h1 h2)

/-! ### The dot product of MAX_FIRST_UINT8 -/

theorem lt_of_adjacent (f : Nat → Int) (lo hi : Nat)
    (hadj : ∀ p, lo ≤ p → p + 1 < hi → f p < f (p + 1)) :
    ∀ (p q : Nat), lo ≤ p → p < q → q < hi → f p < f q := by
  intro p q h1 h2 h3
  have key : ∀ d : Nat, p + d + 1 < hi → f p < f (p + d + 1) := by
    intro d
    induction d with
    | zero => intro h; exact hadj p h1 h
    | succ d ih =>
      intro h
      exact lt_trans (ih (by omega)) (hadj (p + d + 1) (by omega) (by omega))
  have := key (q - p - 1) (by omega)
  have e : p + (q - p - 1) + 1 = q := by omega
  rw [e] at this
  exact this

theorem GB_IMAX_eq_max (x y : Nat) : GB_IMAX x y = max x y := by
  unfold GB_IMAX
  split_ifs with h
  · exact (max_eq_left (le_of_lt h)).symm
  · exact (max_eq_right (not_lt.mp h)).symm

/-- The merge loop of the dot product from the state `(pA, pB, cij_exists, cij)`:
`C(i,j)` exists iff it existed or a match remains, and `cij` is the maximum of
the old `cij` and the values of `A` at the remaining matches. -/
theorem GB_AxB_dot_cij_spec (flipxy : Bool) (Ai : Nat → Int) (Ax : Nat → Nat)
    (Bi : Nat → Int) (Bx : Nat → Nat) (pA_end pB_end : Nat) (fuel : Nat) :
    ∀ (pA pB : Nat) (ex : Bool) (c : Nat),
      (∀ p q, pA ≤ p → p < q → q < pA_end → Ai p < Ai q) →
      (∀ p q, pB ≤ p → p < q → q < pB_end → Bi p < Bi q) →
      (∀ p, pA ≤ p → p < pA_end → Ax p ≤ UINT8_MAX) →
      (pA_end - pA) + (pB_end - pB) ≤ fuel →
      let r := GB_AxB_dot_cij flipxy Ai Ax Bi Bx pA_end pB_end fuel pA pB ex c
      let Mt := fun a => pA ≤ a ∧ a < pA_end ∧ ∃ b, pB ≤ b ∧ b < pB_end ∧ Bi b = Ai a
      (r.1 = true ↔ (ex = true ∨ ∃ a, Mt a)) ∧
      (∀ a, Mt a → Ax a ≤ r.2) ∧
      (ex = true → c ≤ r.2) ∧
      ((ex = true ∧ r.2 = c) ∨ (∃ a, Mt a ∧ r.2 = Ax a) ∨ (ex = false ∧ ¬ ∃ a, Mt a)) := by
  induction fuel with
  | zero =>
    intro pA pB ex c _ _ _ hf
    have hnone : ¬ ∃ a, pA ≤ a ∧ a < pA_end ∧ ∃ b, pB ≤ b ∧ b < pB_end ∧ Bi b = Ai a := by
      rintro ⟨a, h1, h2, b, h3, h4, _⟩
      omega
    simp only [GB_AxB_dot_cij]
    refine ⟨?_, ?_, ?_, ?_⟩
    · constructor
      · intro h; exact Or.inl h
      · rintro (h | h)
        · exact h
        · exact absurd h hnone
    · intro a ha; exact absurd ⟨a, ha⟩ hnone
    · intro _; exact le_refl _
    · cases ex
      · exact Or.inr (Or.inr ⟨rfl, hnone⟩)
      · exact Or.inl ⟨rfl, trivial⟩
  | succ fuel ih =>
    intro pA pB ex c hA hB h8 hf
    by_cases hin : pA < pA_end ∧ pB < pB_end
    · by_cases h1 : Ai pA < Bi pB
      · -- A(:,i) advances
        have e : GB_AxB_dot_cij flipxy Ai Ax Bi Bx pA_end pB_end (fuel + 1) pA pB ex c =
            GB_AxB_dot_cij flipxy Ai Ax Bi Bx pA_end pB_end fuel (pA + 1) pB ex c := by
          simp [GB_AxB_dot_cij, hin, h1]
        have hM : ∀ a, (pA ≤ a ∧ a < pA_end ∧ ∃ b, pB ≤ b ∧ b < pB_end ∧ Bi b = Ai a) ↔
            (pA + 1 ≤ a ∧ a < pA_end ∧ ∃ b, pB ≤ b ∧ b < pB_end ∧ Bi b = Ai a) := by
          intro a
          constructor
          · rintro ⟨ha1, ha2, b, hb1, hb2, hb3⟩
            refine ⟨?_, ha2, b, hb1, hb2, hb3⟩
            by_contra hne
            have hap : a = pA := by omega
            subst hap
            have : Bi pB ≤ Bi b := by
              by_cases hbp : b = pB
              · subst hbp; exact le_refl _
              · exact le_of_lt (hB pB b (le_refl _) (by omega) hb2)
            omega
          · rintro ⟨ha1, ha2, hb⟩
            exact ⟨by omega, ha2, hb⟩
        have key := ih (pA + 1) pB ex c (fun p q h1 h2 h3 => hA p q (by omega) h2 h3) hB
          (fun p h1 h2 => h8 p (by omega) h2) (by omega)
        simp only [e]
        simp only [hM]
        exact key
      · by_cases h2 : Bi pB < Ai pA
        · -- B(:,j) advances
          have e : GB_AxB_dot_cij flipxy Ai Ax Bi Bx pA_end pB_end (fuel + 1) pA pB ex c =
              GB_AxB_dot_cij flipxy Ai Ax Bi Bx pA_end pB_end fuel pA (pB + 1) ex c := by
            simp [GB_AxB_dot_cij, hin, h1, h2]
          have hM : ∀ a, (pA ≤ a ∧ a < pA_end ∧ ∃ b, pB ≤ b ∧ b < pB_end ∧ Bi b = Ai a) ↔
              (pA ≤ a ∧ a < pA_end ∧ ∃ b, pB + 1 ≤ b ∧ b < pB_end ∧ Bi b = Ai a) := by
            intro a
            constructor
            · rintro ⟨ha1, ha2, b, hb1, hb2, hb3⟩
              refine ⟨ha1, ha2, b, ?_, hb2, hb3⟩
              by_contra hne
              have hbp : b = pB := by omega
              subst hbp
              have : Ai pA ≤ Ai a := by
                by_cases hap : a = pA
                · subst hap; exact le_refl _
                · exact le_of_lt (hA pA a (le_refl _) (by omega) ha2)
              omega
            · rintro ⟨ha1, ha2, b, hb1, hb2, hb3⟩
              exact ⟨ha1, ha2, b, by omega, hb2, hb3⟩
          have key := ih pA (pB + 1) ex c hA (fun p q h1 h2 h3 => hB p q (by omega) h2 h3)
            h8 (by omega)
          simp only [e]
          simp only [hM]
          exact key
        · -- equal indices: a match
          have heq : Bi pB = Ai pA := by omega
          have hmatch : pA ≤ pA ∧ pA < pA_end ∧ ∃ b, pB ≤ b ∧ b < pB_end ∧ Bi b = Ai pA :=
            ⟨le_refl _, hin.1, pB, le_refl _, hin.2, heq⟩
          have hM : ∀ a, (pA ≤ a ∧ a < pA_end ∧ ∃ b, pB ≤ b ∧ b < pB_end ∧ Bi b = Ai a) ↔
              (a = pA ∨ (pA + 1 ≤ a ∧ a < pA_end ∧ ∃ b, pB + 1 ≤ b ∧ b < pB_end ∧ Bi b = Ai a)) := by
            intro a
            constructor
            · rintro ⟨ha1, ha2, b, hb1, hb2, hb3⟩
              by_cases hap : a = pA
              · exact Or.inl hap
              · refine Or.inr ⟨by omega, ha2, b, ?_, hb2, hb3⟩
                by_contra hne
                have hbp : b = pB := by omega
                subst hbp
                have := hA pA a (le_refl _) (by omega) ha2
                omega
            · rintro (h | ⟨ha1, ha2, b, hb1, hb2, hb3⟩)
              · subst h; exact hmatch
              · exact ⟨by omega, ha2, b, by omega, hb2, hb3⟩
          have hc1 : (if ex = true then GB_DOT_ADD c (GB_DOT_MULT flipxy (GB_GETA Ax pA) (GB_GETB Bx pB))
              else GB_DOT_COPY (GB_DOT_MULT flipxy (GB_GETA Ax pA) (GB_GETB Bx pB)))
              = if ex = true then max c (Ax pA) else Ax pA := by
            simp [GB_DOT_ADD, GB_DOT_COPY, GB_DOT_MULT, GB_MULTIPLY, GB_MULTOP, GB_GETA,
              GB_IMAX_eq_max]
          by_cases ht : GB_DOT_TERMINAL (if ex = true then max c (Ax pA) else Ax pA) = true
          · have e : GB_AxB_dot_cij flipxy Ai Ax Bi Bx pA_end pB_end (fuel + 1) pA pB ex c =
                (true, if ex = true then max c (Ax pA) else Ax pA) := by
              simp only [GB_AxB_dot_cij, hin, h1, h2, hc1, ht]
              simp
            have hv : (if ex = true then max c (Ax pA) else Ax pA) = UINT8_MAX := by
              simpa [GB_DOT_TERMINAL] using ht
            simp only [e]
            refine ⟨?_, ?_, ?_, ?_⟩
            · exact ⟨fun _ => Or.inr ⟨pA, hmatch⟩, fun _ => by first | rfl | trivial⟩
            · intro a ha
              rw [hv]
              exact h8 a ha.1 ha.2.1
            · intro hex
              simp only [hex, if_true]
              exact le_max_left _ _
            · cases ex
              · exact Or.inr (Or.inl ⟨pA, hmatch, by simp⟩)
              · simp only [if_true]
                rcases max_choice c (Ax pA) with hm | hm
                · exact Or.inl ⟨by first | rfl | trivial, hm⟩
                · exact Or.inr (Or.inl ⟨pA, hmatch, hm⟩)
          · have e : GB_AxB_dot_cij flipxy Ai Ax Bi Bx pA_end pB_end (fuel + 1) pA pB ex c =
                GB_AxB_dot_cij flipxy Ai Ax Bi Bx pA_end pB_end fuel (pA + 1) (pB + 1) true
                  (if ex = true then max c (Ax pA) else Ax pA) := by
              simp only [GB_AxB_dot_cij, hin, h1, h2, hc1, ht]
              simp
            obtain ⟨k1, k2, k3, k4⟩ := ih (pA + 1) (pB + 1) true
              (if ex = true then max c (Ax pA) else Ax pA)
              (fun p q h1 h2 h3 => hA p q (by omega) h2 h3)
              (fun p q h1 h2 h3 => hB p q (by omega) h2 h3)
              (fun p h1 h2 => h8 p (by omega) h2) (by omega)
            simp only [e]
            simp only [hM]
            have hge : Ax pA ≤ (GB_AxB_dot_cij flipxy Ai Ax Bi Bx pA_end pB_end fuel (pA + 1)
                (pB + 1) true (if ex = true then max c (Ax pA) else Ax pA)).2 := by
              refine le_trans ?_ (k3 rfl)
              split_ifs
              · exact le_max_right _ _
              · exact le_refl _
            refine ⟨?_, ?_, ?_, ?_⟩
            · exact ⟨fun _ => Or.inr ⟨pA, Or.inl rfl⟩, fun _ => k1.2 (Or.inl rfl)⟩
            · rintro a (ha | ha)
              · subst ha; exact hge
              · exact k2 a ha
            · intro hex
              refine le_trans ?_ (k3 rfl)
              simp only [hex, if_true]
              exact le_max_left _ _
            · rcases k4 with ⟨_, k⟩ | ⟨a, ha, k⟩ | ⟨k, _⟩
              · rw [k]
                cases ex
                · exact Or.inr (Or.inl ⟨pA, Or.inl rfl, by simp⟩)
                · simp only [if_true]
                  rcases max_choice c (Ax pA) with hm | hm
                  · exact Or.inl ⟨by first | rfl | trivial, hm⟩
                  · exact Or.inr (Or.inl ⟨pA, Or.inl rfl, hm⟩)
              · exact Or.inr (Or.inl ⟨a, Or.inr ha, k⟩)
              · exact absurd k (by simp)
    · -- one of the two vectors is exhausted
      have e : GB_AxB_dot_cij flipxy Ai Ax Bi Bx pA_end pB_end (fuel + 1) pA pB ex c = (ex, c) := by
        simp [GB_AxB_dot_cij, hin]
      have hnone : ¬ ∃ a, pA ≤ a ∧ a < pA_end ∧ ∃ b, pB ≤ b ∧ b < pB_end ∧ Bi b = Ai a := by
        rintro ⟨a, h1, h2, b, h3, h4, _⟩
        exact hin ⟨by omega, by omega⟩
      simp only [e]
      refine ⟨?_, ?_, ?_, ?_⟩
      · constructor
        · intro h; exact Or.inl h
        · rintro (h | h)
          · exact h
          · exact absurd h hnone
      · intro a ha; exact absurd ⟨a, ha⟩ hnone
      · intro _; exact le_refl _
      · cases ex
        · exact Or.inr (Or.inr ⟨rfl, hnone⟩)
        · exact Or.inl ⟨rfl, trivial⟩

/-- The values of `B` are never read by the dot product. -/
theorem GB_AxB_dot_cij_Bx (flipxy : Bool) (Ai : Nat → Int) (Ax : Nat → Nat) (Bi : Nat → Int)
    (Bx Bx2 : Nat → Nat) (pA_end pB_end : Nat) (fuel : Nat) :
    ∀ (pA pB : Nat) (ex : Bool) (c : Nat),
      GB_AxB_dot_cij flipxy Ai Ax Bi Bx pA_end pB_end fuel pA pB ex c =
      GB_AxB_dot_cij flipxy Ai Ax Bi Bx2 pA_end pB_end fuel pA pB ex c := by
  induction fuel with
  | zero => intro pA pB ex c; rfl
  | succ fuel ih =>
    intro pA pB ex c
    simp only [GB_AxB_dot_cij, GB_GETB, ih]

/-- C3: for `A(:,i)` and `B(:,j)` with strictly increasing indices (and uint8
values in `A`), the dot product of MAX_FIRST_UINT8 makes `C(i,j)` present if
and only if the two vectors share an index `k`; then `C(i,j)` is the maximum of
`A(k,i)` over the shared `k`; and the values of `B` do not influence the result. -/
theorem GB_AdotB__max_first_uint8_correct (A B : GB_Matrix Nat) (flipxy : Bool) (i j : Nat)
    (hA : ∀ p, A.p i ≤ p → p + 1 < A.p (i + 1) → A.i p < A.i (p + 1))
    (hB : ∀ p, B.p j ≤ p → p + 1 < B.p (j + 1) → B.i p < B.i (p + 1))
    (h8 : ∀ p, A.p i ≤ p → p < A.p (i + 1) → A.x p ≤ UINT8_MAX) :
    ((GB_AdotB__max_first_uint8 A B flipxy i j).isSome = true ↔ ∃ a, sharedAt A B i j a) ∧
    (∀ c, GB_AdotB__max_first_uint8 A B flipxy i j = some c →
      (∀ a, sharedAt A B i j a → A.x a ≤ c) ∧ ∃ a, sharedAt A B i j a ∧ c = A.x a) ∧
    (∀ Bx2 : Nat → Nat,
      GB_AdotB__max_first_uint8 A { B with x := Bx2 } flipxy i j
        = GB_AdotB__max_first_uint8 A B flipxy i j) := by
  obtain ⟨k1, k2, _, k4⟩ := GB_AxB_dot_cij_spec flipxy A.i A.x B.i B.x (A.p (i + 1)) (B.p (j + 1))
    ((A.p (i + 1) - A.p i) + (B.p (j + 1) - B.p j)) (A.p i) (B.p j) false 0
    (lt_of_adjacent A.i (A.p i) (A.p (i + 1)) hA)
    (lt_of_adjacent B.i (B.p j) (B.p (j + 1)) hB) h8 (le_refl _)
  simp only [Bool.false_eq_true, false_or, false_and] at k1 k4
  refine ⟨?_, ?_, ?_⟩
  · unfold GB_AdotB__max_first_uint8 sharedAt
    simp only []
    rw [← k1]
    split_ifs with h
    · simp [h]
    · simp [h]
  · intro c hc
    unfold GB_AdotB__max_first_uint8 at hc
    simp only [] at hc
    split_ifs at hc with h
    have hc2 := Option.some.inj hc
    refine ⟨fun a ha => ?_, ?_⟩
    · rw [← hc2]; exact k2 a ha
    · rcases k4 with ⟨a, ha, k⟩ | ⟨_, hno⟩
      · exact ⟨a, ha, by rw [← hc2]; exact k⟩
      · exact absurd (k1.1 h) hno
  · intro Bx2
    unfold GB_AdotB__max_first_uint8
    simp only []
    rw [GB_AxB_dot_cij_Bx flipxy A.i A.x B.i Bx2 B.x]

/-- Witness of C3: `A(:,0)` holds the indices 1, 3, 4 with the values 7, 9, 2 and
`B(:,0)` holds the indices 0, 3, 4; the shared indices are 3 and 4 and
`C(0,0)` is 9. -/
theorem GB_AdotB__max_first_uint8_correct_witness :
    (((GB_AdotB__max_first_uint8 dotA dotB false 0 0).isSome = true ↔
        ∃ a, sharedAt dotA dotB 0 0 a) ∧
      (∀ c, GB_AdotB__max_first_uint8 dotA dotB false 0 0 = some c →
        (∀ a, sharedAt dotA dotB 0 0 a → dotA.x a ≤ c) ∧
          ∃ a, sharedAt dotA dotB 0 0 a ∧ c = dotA.x a) ∧
      (∀ Bx2 : Nat → Nat,
        GB_AdotB__max_first_uint8 dotA { dotB with x := Bx2 } false 0 0
          = GB_AdotB__max_first_uint8 dotA dotB false 0 0)) ∧
    GB_AdotB__max_first_uint8 dotA dotB false 0 0 = some 9 :=
  ⟨GB_AdotB__max_first_uint8_correct dotA dotB false 0 0
    (fun p h1 h2 => (by decide : ∀ p, p < dotA.p (0 + 1) → dotA.p 0 ≤ p →
      p + 1 < dotA.p (0 + 1) → dotA.i p < dotA.i (p + 1)) p (by omega) h1 h2)
    (fun p h1 h2 => (by decide : ∀ p, p < dotB.p (0 + 1) → dotB.p 0 ≤ p →
      p + 1 < dotB.p (0 + 1) → dotB.i p < dotB.i (p + 1)) p (by omega) h1 h2)
    (fun p h1 h2 => (by decide : ∀ p, p < dotA.p (0 + 1) → dotA.p 0 ≤ p →
      dotA.x p ≤ UINT8_MAX) p h2 h1),
    by decide⟩

/-! ### The coarse hash task, phase 1 -/

theorem probeSeq_lt (hashf : Int → Nat) (rehash : Nat → Int → Nat) (n : Nat)
    (hrange : ∀ i, hashf i < n) (hre : ∀ h i, h < n → rehash h i < n) (i : Int) :
    ∀ t, probeSeq hashf rehash i t < n := by
  intro t
  induction t with
  | zero => exact hrange i
  | succ t ih => exact hre _ i ih

/-- The probe entered at step `t0` of the probe sequence stops `d` steps later,
at the first slot that is unmarked or holds `i`. -/
theorem hash_probe_spec (hashf : Int → Nat) (rehash : Nat → Int → Nat) (Hf Hi : Nat → Int)
    (mark i : Int) (d : Nat) :
    ∀ (fuel t0 : Nat), d < fuel →
      (∀ t', t0 ≤ t' → t' < t0 + d →
        Hf (probeSeq hashf rehash i t') = mark ∧ Hi (probeSeq hashf rehash i t') ≠ i) →
      (Hf (probeSeq hashf rehash i (t0 + d)) ≠ mark ∨ Hi (probeSeq hashf rehash i (t0 + d)) = i) →
      hash_probe rehash Hf Hi mark i fuel (probeSeq hashf rehash i t0) =
        some (probeSeq hashf rehash i (t0 + d),
          decide (Hf (probeSeq hashf rehash i (t0 + d)) = mark)) := by
  induction d with
  | zero =>
    intro fuel t0 hf _ hstop
    obtain ⟨f, rfl⟩ : ∃ f, fuel = f + 1 := ⟨fuel - 1, by omega⟩
    simp only [Nat.add_zero] at hstop ⊢
    unfold hash_probe
    rcases hstop with h | h
    · simp [h]
    · simp [h]
  | succ d ih =>
    intro fuel t0 hf hbefore hstop
    obtain ⟨f, rfl⟩ : ∃ f, fuel = f + 1 := ⟨fuel - 1, by omega⟩
    have h0 := hbefore t0 (le_refl _) (by omega)
    unfold hash_probe
    simp only [h0.1, h0.2, decide_True, decide_False, Bool.and_false, Bool.not_true,
      Bool.or_self, Bool.false_eq_true, if_false]
    have := ih f (t0 + 1) (by omega) (fun t' h1 h2 => hbefore t' (by omega) (by omega))
      (by rw [show t0 + 1 + d = t0 + (d + 1) by omega]; exact hstop)
    rw [show t0 + 1 + d = t0 + (d + 1) by omega] at this
    exact this

/-- One row index through the hash table: the probe ends, and the invariant
holds for the set with the index added. -/
theorem hash_insert_spec (hashf : Int → Nat) (rehash : Nat → Int → Nat) (n N fuel : Nat)
    (mark : Int) (T : HashTable) (S : Finset Int) (i : Int)
    (hrange : ∀ i, hashf i < n) (hre : ∀ h i, h < n → rehash h i < n)
    (hcover : ∀ i h, h < n → ∃ t, t < N ∧ probeSeq hashf rehash i t = h)
    (hfuel : N ≤ fuel) (hinv : HashInv hashf rehash n N mark T S)
    (hcard : (insert i S).card < n) :
    ∃ T1, hash_insert hashf rehash fuel mark T i = some T1 ∧
      HashInv hashf rehash n N mark T1 (insert i S) ∧
      (∀ h, T1.Hf h = T.Hf h ∨ T1.Hf h = mark) := by
  obtain ⟨hc, hocc, hmem, hslot⟩ := hinv
  by_cases hi : i ∈ S
  · -- the index is in the table: the probe finds it
    obtain ⟨t, htN, h1, h2, h3⟩ := hmem i hi
    have hp := hash_probe_spec hashf rehash T.Hf T.Hi mark i t fuel 0 (by omega)
      (fun t' _ ht' => h3 t' (by omega)) (by rw [Nat.zero_add]; exact Or.inr h2)
    simp only [Nat.zero_add, h1, decide_True] at hp
    refine ⟨T, ?_, ?_, fun h => Or.inl rfl⟩
    · unfold hash_insert
      have e : probeSeq hashf rehash i 0 = hashf i := rfl
      rw [← e, hp]
      simp
    · rw [Finset.insert_eq_of_mem hi]
      exact ⟨hc, hocc, hmem, hslot⟩
  · -- the index is new: the probe ends at the first unmarked slot
    have hScard : S.card + 1 < n + 1 := by
      rw [Finset.card_insert_of_not_mem hi] at hcard; omega
    have hfree : ∃ h, h < n ∧ T.Hf h ≠ mark := by
      by_contra hall
      push_neg at hall
      have : (Finset.range n).filter (fun h => T.Hf h = mark) = Finset.range n := by
        apply Finset.filter_true_of_mem
        intro h hh
        exact hall h (Finset.mem_range.mp hh)
      rw [this, Finset.card_range] at hocc
      omega
    obtain ⟨hf0, hf0n, hf0free⟩ := hfree
    obtain ⟨ts, htsN, hts⟩ := hcover i hf0 hf0n
    have hex : ∃ t, T.Hf (probeSeq hashf rehash i t) ≠ mark := ⟨ts, by rw [hts]; exact hf0free⟩
    classical
    let t := Nat.find hex
    have htfree : T.Hf (probeSeq hashf rehash i t) ≠ mark := Nat.find_spec hex
    have htle : t ≤ ts := Nat.find_min' hex (by rw [hts]; exact hf0free)
    have hbefore : ∀ t', t' < t → T.Hf (probeSeq hashf rehash i t') = mark ∧
        T.Hi (probeSeq hashf rehash i t') ≠ i := by
      intro t' ht'
      have hm : T.Hf (probeSeq hashf rehash i t') = mark := by
        by_contra hne
        exact Nat.find_min hex ht' hne
      refine ⟨hm, ?_⟩
      intro heq
      have := hslot _ (probeSeq_lt hashf rehash n hrange hre i t') hm
      rw [heq] at this
      exact hi this
    have hp := hash_probe_spec hashf rehash T.Hf T.Hi mark i t fuel 0 (by omega)
      (fun t' _ ht' => hbefore t' (by omega)) (by rw [Nat.zero_add]; exact Or.inl htfree)
    simp only [Nat.zero_add, htfree, decide_False] at hp
    have hh0n : probeSeq hashf rehash i t < n := probeSeq_lt hashf rehash n hrange hre i t
    refine ⟨{ Hf := upd T.Hf (probeSeq hashf rehash i t) mark,
              Hi := upd T.Hi (probeSeq hashf rehash i t) i, cjnz := T.cjnz + 1 }, ?_, ?_, ?_⟩
    · unfold hash_insert
      have e : probeSeq hashf rehash i 0 = hashf i := rfl
      rw [← e, hp]
      simp
    · refine ⟨?_, ?_, ?_, ?_⟩
      · show T.cjnz + 1 = ((insert i S).card : Int)
        rw [Finset.card_insert_of_not_mem hi, hc]
        push_cast
        rfl
      · show ((Finset.range n).filter
            (fun h => upd T.Hf (probeSeq hashf rehash i t) mark h = mark)).card = _
        have hset : (Finset.range n).filter
            (fun h => upd T.Hf (probeSeq hashf rehash i t) mark h = mark)
            = insert (probeSeq hashf rehash i t)
              ((Finset.range n).filter (fun h => T.Hf h = mark)) := by
          ext h
          simp only [Finset.mem_filter, Finset.mem_range, Finset.mem_insert, upd]
          by_cases hh : h = probeSeq hashf rehash i t
          · subst hh; simp [hh0n]
          · simp [hh]
        rw [hset, Finset.card_insert_of_not_mem, hocc, Finset.card_insert_of_not_mem hi]
        simp only [Finset.mem_filter, Finset.mem_range, not_and]
        intro _
        exact htfree
      · intro j hj
        rw [Finset.mem_insert] at hj
        by_cases hji : j = i
        · subst hji
          refine ⟨t, by omega, ?_, ?_, ?_⟩
          · simp [upd]
          · simp [upd]
          · intro t' ht'
            have hb := hbefore t' ht'
            have hne : probeSeq hashf rehash j t' ≠ probeSeq hashf rehash j t := by
              intro heq
              rw [heq] at hb
              exact htfree hb.1
            simp only [upd, hne, if_false]
            exact hb
        · have hjS : j ∈ S := by
            rcases hj with h | h
            · exact absurd h hji
            · exact h
          obtain ⟨tj, htjN, g1, g2, g3⟩ := hmem j hjS
          have hne : ∀ t', T.Hf (probeSeq hashf rehash j t') = mark →
              probeSeq hashf rehash j t' ≠ probeSeq hashf rehash i t := by
            intro t' hm heq
            rw [heq] at hm
            exact htfree hm
          refine ⟨tj, htjN, ?_, ?_, ?_⟩
          · simp only [upd, hne tj g1, if_false]; exact g1
          · simp only [upd, hne tj g1, if_false]; exact g2
          · intro t' ht'
            simp only [upd, hne t' (g3 t' ht').1, if_false]
            exact g3 t' ht'
      · intro h hn hm
        show upd T.Hi (probeSeq hashf rehash i t) i h ∈ insert i S
        by_cases hh : h = probeSeq hashf rehash i t
        · simp [upd, hh]
        · have hm2 : T.Hf h = mark := by simpa [upd, hh] using hm
          simp only [upd, hh, if_false]
          exact Finset.mem_insert_of_mem (hslot h hn hm2)
    · intro h
      show upd T.Hf (probeSeq hashf rehash i t) mark h = T.Hf h ∨ _ = mark
      by_cases hh : h = probeSeq hashf rehash i t
      · right; simp [upd, hh]
      · left; simp [upd, hh]

theorem insertAll_spec (hashf : Int → Nat) (rehash : Nat → Int → Nat) (n N fuel : Nat)
    (mark : Int) (hrange : ∀ i, hashf i < n) (hre : ∀ h i, h < n → rehash h i < n)
    (hcover : ∀ i h, h < n → ∃ t, t < N ∧ probeSeq hashf rehash i t = h)
    (hfuel : N ≤ fuel) (l : List Int) :
    ∀ (T : HashTable) (S : Finset Int), HashInv hashf rehash n N mark T S →
      (S ∪ l.toFinset).card < n →
      ∃ T1, insertAll hashf rehash fuel mark l T = some T1 ∧
        HashInv hashf rehash n N mark T1 (S ∪ l.toFinset) ∧
        (∀ h, T1.Hf h = T.Hf h ∨ T1.Hf h = mark) := by
  induction l with
  | nil =>
    intro T S hinv _
    refine ⟨T, rfl, ?_, fun h => Or.inl rfl⟩
    simpa using hinv
  | cons i l ih =>
    intro T S hinv hcard
    have hsub : insert i S ⊆ S ∪ (i :: l).toFinset := by
      intro x hx
      rw [Finset.mem_insert] at hx
      rw [Finset.mem_union, List.mem_toFinset]
      rcases hx with h | h
      · right; rw [h]; exact List.mem_cons_self _ _
      · left; exact h
    have hc1 : (insert i S).card < n := lt_of_le_of_lt (Finset.card_le_card hsub) hcard
    obtain ⟨T1, e1, inv1, fr1⟩ := hash_insert_spec hashf rehash n N fuel mark T S i hrange hre
      hcover hfuel hinv hc1
    have hset : insert i S ∪ l.toFinset = S ∪ (i :: l).toFinset := by
      ext x
      simp only [Finset.mem_union, Finset.mem_insert, List.mem_toFinset, List.mem_cons]
      tauto
    obtain ⟨T2, e2, inv2, fr2⟩ := ih T1 (insert i S) inv1 (by rw [hset]; exact hcard)
    refine ⟨T2, ?_, ?_, ?_⟩
    · show (match hash_insert hashf rehash fuel mark T i with
        | none => none
        | some T1 => insertAll hashf rehash fuel mark l T1) = some T2
      rw [e1]
      exact e2
    · rw [← hset]; exact inv2
    · intro h
      rcases fr2 h with a | a
      · rcases fr1 h with b | b
        · left; rw [a, b]
        · right; rw [a, b]
      · right; exact a

theorem insertAll_append (hashf : Int → Nat) (rehash : Nat → Int → Nat) (fuel : Nat)
    (mark : Int) (l1 l2 : List Int) :
    ∀ T, insertAll hashf rehash fuel mark (l1 ++ l2) T =
      (insertAll hashf rehash fuel mark l1 T).bind (insertAll hashf rehash fuel mark l2) := by
  induction l1 with
  | nil => intro T; rfl
  | cons i l ih =>
    intro T
    show (match hash_insert hashf rehash fuel mark T i with
        | none => none
        | some T1 => insertAll hashf rehash fuel mark (l ++ l2) T1) =
      (match hash_insert hashf rehash fuel mark T i with
        | none => none
        | some T1 => insertAll hashf rehash fuel mark l T1).bind _
    cases hash_insert hashf rehash fuel mark T i with
    | none => rfl
    | some T1 => exact ih T1

theorem scan_A_eq (hashf : Int → Nat) (rehash : Nat → Int → Nat) (fuel : Nat) (mark : Int)
    (Ai : Nat → Int) (n : Nat) :
    ∀ (pA : Nat) (T : HashTable),
      scan_A hashf rehash fuel mark Ai n pA T =
        insertAll hashf rehash fuel mark ((List.range' pA n).map Ai) T := by
  induction n with
  | zero => intro pA T; rfl
  | succ n ih =>
    intro pA T
    rw [List.range'_succ, List.map_cons]
    show (match hash_insert hashf rehash fuel mark T (Ai pA) with
        | none => none
        | some T1 => scan_A hashf rehash fuel mark Ai n (pA + 1) T1) =
      (match hash_insert hashf rehash fuel mark T (Ai pA) with
        | none => none
        | some T1 => insertAll hashf rehash fuel mark ((List.range' (pA + 1) n).map Ai) T1)
    cases hash_insert hashf rehash fuel mark T (Ai pA) with
    | none => rfl
    | some T1 => exact ih (pA + 1) T1

theorem scan_B_eq {α : Type} (hashf : Int → Nat) (rehash : Nat → Int → Nat) (fuel : Nat)
    (mark : Int) (A B : GB_Matrix α) (m : Nat) :
    ∀ (pB : Nat) (T : HashTable),
      scan_B hashf rehash fuel mark A B m pB T =
        insertAll hashf rehash fuel mark
          ((List.range' pB m).flatMap (fun pB => rowsOf A (B.i pB).toNat)) T := by
  induction m with
  | zero => intro pB T; rfl
  | succ m ih =>
    intro pB T
    rw [List.range'_succ, List.flatMap_cons, insertAll_append]
    show (match scan_A hashf rehash fuel mark A.i
          ((GB_lookup A (B.i pB).toNat).2 - (GB_lookup A (B.i pB).toNat).1)
          (GB_lookup A (B.i pB).toNat).1 T with
        | none => none
        | some T1 => scan_B hashf rehash fuel mark A B m (pB + 1) T1) = _
    rw [scan_A_eq]
    unfold rowsOf
    cases insertAll hashf rehash fuel mark
        ((List.range' (GB_lookup A (B.i pB).toNat).1
          ((GB_lookup A (B.i pB).toNat).2 - (GB_lookup A (B.i pB).toNat).1)).map A.i) T with
    | none => rfl
    | some T1 => exact ih (pB + 1) T1

theorem HashInv_empty (hashf : Int → Nat) (rehash : Nat → Int → Nat) (n N : Nat) (mark : Int)
    (Hf Hi : Nat → Int) (hHf : ∀ h, h < n → Hf h < mark) :
    HashInv hashf rehash n N mark { Hf := Hf, Hi := Hi, cjnz := 0 } ∅ := by
  refine ⟨by simp, ?_, ?_, ?_⟩
  · rw [Finset.card_empty, Finset.card_eq_zero, Finset.filter_eq_empty_iff]
    intro h hh
    have := hHf h (Finset.mem_range.mp hh)
    show ¬ Hf h = mark
    omega
  · intro i hi
    simp at hi
  · intro h hn hm
    have := hHf h hn
    have hm2 : Hf h = mark := hm
    omega

/-- The loop over the vectors `kk, kk+1, ..` of a coarse hash task: it ends, and
`Cp [k]` is the number of distinct row indices of the product pattern. -/
theorem coarseHash_phase1_spec {α : Type} (hashf : Int → Nat) (rehash : Nat → Int → Nat)
    (n N fuel : Nat) (A B : GB_Matrix α)
    (hrange : ∀ i, hashf i < n) (hre : ∀ h i, h < n → rehash h i < n)
    (hcover : ∀ i h, h < n → ∃ t, t < N ∧ probeSeq hashf rehash i t = h)
    (hfuel : N ≤ fuel) (cnt : Nat) :
    ∀ (kk : Nat) (S : HashTask), (∀ h, h < n → S.Hf h ≤ S.mark) →
      (∀ k, kk ≤ k → k < kk + cnt → patternCount A B k < n) →
      (∀ k, kk ≤ k → k < kk + cnt → ∀ pB, pB ∈ B.vecPos k →
        (rowsOf A (B.i pB).toNat).Nodup ∧
          (GB_lookup A (B.i pB).toNat).1 ≤ (GB_lookup A (B.i pB).toNat).2) →
      ∃ S1, GB_AxB_saxpy3_coarseHash_phase1 hashf rehash fuel A B cnt kk S = some S1 ∧
        (∀ k, kk ≤ k → k < kk + cnt → S1.Cp k = patternCount A B k) ∧
        (∀ k, k < kk → S1.Cp k = S.Cp k) := by
  induction cnt with
  | zero =>
    intro kk S _ _ _
    exact ⟨S, rfl, fun k h1 h2 => by omega, fun k _ => rfl⟩
  | succ cnt ih =>
    intro kk S hHf hsize hA
    by_cases h0 : ((B.p (kk + 1) : Int) - (B.p kk : Int)) = 0
    · -- B(:,j) is empty
      obtain ⟨S1, e1, c1, f1⟩ := ih (kk + 1) { S with Cp := upd S.Cp kk 0 } hHf
        (fun k h1 h2 => hsize k (by omega) (by omega))
        (fun k h1 h2 => hA k (by omega) (by omega))
      refine ⟨S1, ?_, ?_, ?_⟩
      · unfold GB_AxB_saxpy3_coarseHash_phase1
        simp only [h0, if_true]
        exact e1
      · intro k h1 h2
        by_cases hk : k = kk
        · subst hk
          rw [f1 k (by omega)]
          have hv : B.vecPos k = [] := by
            unfold GB_Matrix.vecPos
            have : B.p (k + 1) - B.p k = 0 := by omega
            rw [this]; rfl
          simp [upd, patternCount, rowsOfProduct, hv]
        · exact c1 k (by omega) (by omega)
      · intro k hk
        rw [f1 k (by omega)]
        have : k ≠ kk := by omega
        simp [upd, this]
    · by_cases h1 : ((B.p (kk + 1) : Int) - (B.p kk : Int)) = 1
      · -- B(:,j) has one entry: nnz (C (:,j)) = nnz (A (:,k))
        obtain ⟨S1, e1, c1, f1⟩ := ih (kk + 1)
          { S with Cp := (upd S.Cp kk (((GB_lookup A (B.i (B.p kk)).toNat).2 : Int) -
              ((GB_lookup A (B.i (B.p kk)).toNat).1 : Int))) }
          hHf (fun k h1 h2 => hsize k (by omega) (by omega))
          (fun k h1 h2 => hA k (by omega) (by omega))
        refine ⟨S1, ?_, ?_, ?_⟩
        · unfold GB_AxB_saxpy3_coarseHash_phase1
          simp only [h0, h1, if_true, if_false]
          exact e1
        · intro k hk1 hk2
          by_cases hk : k = kk
          · subst hk
            rw [f1 k (by omega)]
            have hv : B.vecPos k = [B.p k] := by
              unfold GB_Matrix.vecPos
              have : B.p (k + 1) - B.p k = 1 := by omega
              rw [this]; rfl
            have hmemB : B.p k ∈ B.vecPos k := by rw [hv]; exact List.mem_singleton_self _
            have hnd := (hA k (le_refl _) (by omega) (B.p k) hmemB).1
            have hle := (hA k (le_refl _) (by omega) (B.p k) hmemB).2
            have hlen : (rowsOf A (B.i (B.p k)).toNat).length =
                (GB_lookup A (B.i (B.p k)).toNat).2 - (GB_lookup A (B.i (B.p k)).toNat).1 := by
              simp [rowsOf]
            simp only [upd, if_true, patternCount, rowsOfProduct, hv, List.flatMap_cons,
              List.flatMap_nil, List.append_nil]
            rw [List.Nodup.dedup hnd, hlen]
            omega
          · exact c1 k (by omega) (by omega)
        · intro k hk
          rw [f1 k (by omega)]
          have : k ≠ kk := by omega
          simp [upd, this]
      · -- the hash loop
        have hinv0 := HashInv_empty hashf rehash n N (S.mark + 1) S.Hf S.Hi
          (fun h hh => by have := hHf h hh; omega)
        have hpc : (∅ ∪ (rowsOfProduct A B kk).toFinset).card < n := by
          rw [Finset.empty_union, List.card_toFinset]
          exact hsize kk (le_refl _) (by omega)
        obtain ⟨T, eT, invT, frT⟩ := insertAll_spec hashf rehash n N fuel (S.mark + 1) hrange hre
          hcover hfuel (rowsOfProduct A B kk) _ ∅ hinv0 hpc
        have hscan : scan_B hashf rehash fuel (S.mark + 1) A B (B.p (kk + 1) - B.p kk) (B.p kk)
            { Hf := S.Hf, Hi := S.Hi, cjnz := 0 } = some T := by
          rw [scan_B_eq]
          exact eT
        obtain ⟨S1, e1, c1, f1⟩ := ih (kk + 1)
          { Hf := T.Hf, Hi := T.Hi, mark := S.mark + 1, Cp := upd S.Cp kk T.cjnz }
          (fun h hh => by
            show T.Hf h ≤ S.mark + 1
            rcases frT h with a | a
            · have a2 : T.Hf h = S.Hf h := a
              rw [a2]
              have : S.Hf h ≤ S.mark := hHf h hh
              omega
            · rw [a])
          (fun k h1 h2 => hsize k (by omega) (by omega))
          (fun k h1 h2 => hA k (by omega) (by omega))
        refine ⟨S1, ?_, ?_, ?_⟩
        · unfold GB_AxB_saxpy3_coarseHash_phase1
          simp only [h0, h1, if_false, hscan]
          exact e1
        · intro k hk1 hk2
          by_cases hk : k = kk
          · subst hk
            rw [f1 k (by omega)]
            simp only [upd, if_true]
            rw [invT.1, Finset.empty_union, List.card_toFinset]
            rfl
          · exact c1 k (by omega) (by omega)
        · intro k hk
          rw [f1 k (by omega)]
          have : k ≠ kk := by omega
          simp [upd, this]

/-- C5: for every coarse hash task (variant without GB_CHECK_MASK_ij) on
matrices `A` and `B` (the vectors of `A` that the task reads hold no duplicate
index and have ordered offsets), assuming that on entry `Hf [h] < mark` for every slot, that
the probe sequence of GB_HASHF and GB_REHASH stays in the table and visits
every slot (within `N` steps), and that the table has more slots than the
number of distinct row indices of each vector: the task ends, given `N` probe
steps or more, and on exit `Cp [kk]` is, for every `kk` in `kfirst..klast`, the
number of distinct row indices `i` with `A(i,k)` present for a `k` with
`B(k,j)` present. -/
theorem GB_AxB_saxpy3_coarseHash_phase1_count {α : Type} (hashf : Int → Nat)
    (rehash : Nat → Int → Nat) (n N fuel : Nat) (A B : GB_Matrix α)
    (kfirst klast : Nat) (S : HashTask)
    (hHf : ∀ h, h < n → S.Hf h < S.mark)
    (hrange : ∀ i, hashf i < n) (hre : ∀ h i, h < n → rehash h i < n)
    (hcover : ∀ i h, h < n → ∃ t, t < N ∧ probeSeq hashf rehash i t = h)
    (hsize : ∀ kk, kfirst ≤ kk → kk ≤ klast → patternCount A B kk < n)
    (hA : ∀ kk, kfirst ≤ kk → kk ≤ klast → ∀ pB, pB ∈ B.vecPos kk →
      (rowsOf A (B.i pB).toNat).Nodup ∧
        (GB_lookup A (B.i pB).toNat).1 ≤ (GB_lookup A (B.i pB).toNat).2)
    (hfuel : N ≤ fuel) :
    ∃ S1, GB_AxB_saxpy3_coarseHash_phase1 hashf rehash fuel A B (klast + 1 - kfirst) kfirst S
        = some S1 ∧
      ∀ kk, kfirst ≤ kk → kk ≤ klast → S1.Cp kk = patternCount A B kk := by
  obtain ⟨S1, e1, c1, _⟩ := coarseHash_phase1_spec hashf rehash n N fuel A B hrange hre hcover
    hfuel (klast + 1 - kfirst) kfirst S (fun h hh => le_of_lt (hHf h hh))
    (fun k h1 h2 => hsize k h1 (by omega)) (fun k h1 h2 => hA k h1 (by omega))
  exact ⟨S1, e1, fun kk h1 h2 => c1 kk h1 (by omega)⟩

theorem probeSeq_linear (i : Int) (t : Nat) :
    probeSeq (fun i => i.toNat % 4) (fun h _ => (h + 1) % 4) i t = (i.toNat % 4 + t) % 4 := by
  induction t with
  | zero => show i.toNat % 4 = _; omega
  | succ t ih =>
    show (probeSeq (fun i => i.toNat % 4) (fun h _ => (h + 1) % 4) i t + 1) % 4 = _
    rw [ih]; omega

/-- Witness of C5: a table of 4 slots with linear probing; `B(:,0)` selects the
columns 0 and 1 of `A`, whose rows are 0, 2 and 2, 3 (3 distinct indices);
`B(:,1)` has one entry; `B(:,2)` is empty. -/
theorem GB_AxB_saxpy3_coarseHash_phase1_count_witness :
    (∃ S1, GB_AxB_saxpy3_coarseHash_phase1 (fun i => i.toNat % 4) (fun h _ => (h + 1) % 4) 4
        hashA hashB (2 + 1 - 0) 0 hashS0 = some S1 ∧
      ∀ kk, 0 ≤ kk → kk ≤ 2 → S1.Cp kk = patternCount hashA hashB kk) ∧
    (GB_AxB_saxpy3_coarseHash_phase1 (fun i => i.toNat % 4) (fun h _ => (h + 1) % 4) 4
        hashA hashB (2 + 1 - 0) 0 hashS0).map (fun S => [S.Cp 0, S.Cp 1, S.Cp 2])
      = some [3, 1, 0] :=
  ⟨GB_AxB_saxpy3_coarseHash_phase1_count (fun i => i.toNat % 4) (fun h _ => (h + 1) % 4)
    4 4 4 hashA hashB 0 2 hashS0
    (by decide)
    (fun i => Nat.mod_lt _ (by decide))
    (fun h _ _ => Nat.mod_lt _ (by decide))
    (fun i h hh => ⟨(h + 4 - i.toNat % 4) % 4, Nat.mod_lt _ (by decide), by
      rw [probeSeq_linear]; omega⟩)
    (fun kk _ h2 => (by decide : ∀ kk, kk < 3 → patternCount hashA hashB kk < 4) kk (by omega))
    (fun kk _ h2 => (by decide : ∀ kk, kk < 3 → ∀ pB, pB ∈ hashB.vecPos kk →
      (rowsOf hashA (hashB.i pB).toNat).Nodup ∧
        (GB_lookup hashA (hashB.i pB).toNat).1 ≤ (GB_lookup hashA (hashB.i pB).toNat).2)
      kk (by omega))
    (le_refl _),
   by decide⟩

/-! ### Submatrix assignment, method 13b: the merge of `S(:,j)` and `A(:,j)` -/

theorem range'_of_lt (p e : Nat) (h : p < e) :
    List.range' p (e - p) = p :: List.range' (p + 1) (e - (p + 1)) := by
  have : e - p = (e - (p + 1)) + 1 := by omega
  rw [this, List.range'_succ]

theorem range'_of_not_lt (p e : Nat) (h : ¬ p < e) : List.range' p (e - p) = [] := by
  have : e - p = 0 := by omega
  rw [this]; rfl

theorem pairwise_range' (R : Nat → Nat → Prop) (s n : Nat)
    (h : List.Pairwise R (List.range' s n)) :
    ∀ p q, s ≤ p → p < q → q < s + n → R p q := by
  intro p q h1 h2 h3
  rw [List.pairwise_iff_getElem] at h
  have := h (p - s) (q - s) (by simp; omega) (by simp; omega) (by omega)
  simp only [List.getElem_range'] at this
  have e1 : s + 1 * (p - s) = p := by omega
  have e2 : s + 1 * (q - s) = q := by omega
  rw [e1, e2] at this
  exact this

theorem phase1_merge_exit {α γ μ : Type} (g : GB_subassign_args α γ μ)
    (pM_start pM_end pS_end pA_end fuel pS pA : Nat) (st : GB_C_state γ) (tp : Int)
    (h : ¬ (pS < pS_end ∧ pA < pA_end)) :
    phase1_merge g pM_start pM_end pS_end pA_end fuel pS pA st tp =
      (phase1_S_tail g pM_start pM_end (pS_end - pS) pS st,
       phase1_A_tail g pM_start pM_end (pA_end - pA) pA tp) := by
  unfold phase1_merge
  cases fuel with
  | zero => rfl
  | succ fuel => simp [phase1_both, h]

theorem phase1_merge_lt {α γ μ : Type} (g : GB_subassign_args α γ μ)
    (pM_start pM_end pS_end pA_end fuel pS pA : Nat) (st : GB_C_state γ) (tp : Int)
    (h : pS < pS_end ∧ pA < pA_end) (h1 : g.S.i pS < g.A.i pA) :
    phase1_merge g pM_start pM_end pS_end pA_end (fuel + 1) pS pA st tp =
      phase1_merge g pM_start pM_end pS_end pA_end fuel (pS + 1) pA
        (if (!(GB_MIJ_BINARY_SEARCH g.M g.cast_M pM_start pM_end (g.S.i pS))) = true
          then GB_DELETE_ENTRY st (GB_C_S_LOOKUP g.S.x st.Ci pS) else st) tp := by
  unfold phase1_merge
  simp [phase1_both, h, h1]

theorem phase1_merge_gt {α γ μ : Type} (g : GB_subassign_args α γ μ)
    (pM_start pM_end pS_end pA_end fuel pS pA : Nat) (st : GB_C_state γ) (tp : Int)
    (h : pS < pS_end ∧ pA < pA_end) (h1 : ¬ g.S.i pS < g.A.i pA) (h2 : g.A.i pA < g.S.i pS) :
    phase1_merge g pM_start pM_end pS_end pA_end (fuel + 1) pS pA st tp =
      phase1_merge g pM_start pM_end pS_end pA_end fuel pS (pA + 1) st
        (if (!(GB_MIJ_BINARY_SEARCH g.M g.cast_M pM_start pM_end (g.A.i pA))) = true
          then tp + 1 else tp) := by
  unfold phase1_merge
  simp [phase1_both, h, h1, h2]

theorem phase1_merge_eq {α γ μ : Type} (g : GB_subassign_args α γ μ)
    (pM_start pM_end pS_end pA_end fuel pS pA : Nat) (st : GB_C_state γ) (tp : Int)
    (h : pS < pS_end ∧ pA < pA_end) (h1 : ¬ g.S.i pS < g.A.i pA) (h2 : ¬ g.A.i pA < g.S.i pS) :
    phase1_merge g pM_start pM_end pS_end pA_end (fuel + 1) pS pA st tp =
      phase1_merge g pM_start pM_end pS_end pA_end fuel (pS + 1) (pA + 1)
        (if (!(GB_MIJ_BINARY_SEARCH g.M g.cast_M pM_start pM_end (g.A.i pA))) = true
          then GB_noaccum_C_A_1_matrix g.cast_A_to_C st (GB_C_S_LOOKUP g.S.x st.Ci pS) g.A.x pA
          else st) tp := by
  unfold phase1_merge
  simp [phase1_both, h, h1, h2]

theorem phase2_merge_exit {α γ μ : Type} (g : GB_subassign_args α γ μ)
    (pM_start pM_end pS_end pA_end : Nat) (jC : Int) (fuel pS pA : Nat)
    (pd : List (Int × Int × α)) (h : ¬ (pS < pS_end ∧ pA < pA_end)) :
    phase2_merge g pM_start pM_end pS_end pA_end jC fuel pS pA pd =
      phase2_A_tail g pM_start pM_end jC (pA_end - pA) pA pd := by
  unfold phase2_merge
  cases fuel with
  | zero => rfl
  | succ fuel => simp [phase2_both, h]

theorem phase2_merge_lt {α γ μ : Type} (g : GB_subassign_args α γ μ)
    (pM_start pM_end pS_end pA_end : Nat) (jC : Int) (fuel pS pA : Nat)
    (pd : List (Int × Int × α)) (h : pS < pS_end ∧ pA < pA_end) (h1 : g.S.i pS < g.A.i pA) :
    phase2_merge g pM_start pM_end pS_end pA_end jC (fuel + 1) pS pA pd =
      phase2_merge g pM_start pM_end pS_end pA_end jC fuel (pS + 1) pA pd := by
  unfold phase2_merge
  simp [phase2_both, h, h1]

theorem phase2_merge_gt {α γ μ : Type} (g : GB_subassign_args α γ μ)
    (pM_start pM_end pS_end pA_end : Nat) (jC : Int) (fuel pS pA : Nat)
    (pd : List (Int × Int × α)) (h : pS < pS_end ∧ pA < pA_end)
    (h1 : ¬ g.S.i pS < g.A.i pA) (h2 : g.A.i pA < g.S.i pS) :
    phase2_merge g pM_start pM_end pS_end pA_end jC (fuel + 1) pS pA pd =
      phase2_merge g pM_start pM_end pS_end pA_end jC fuel pS (pA + 1)
        (if (!(GB_MIJ_BINARY_SEARCH g.M g.cast_M pM_start pM_end (g.A.i pA))) = true
          then GB_PENDING_INSERT pd (GB_ijlist g.I (g.A.i pA) g.Ikind g.Icolon) jC (g.A.x pA)
          else pd) := by
  unfold phase2_merge
  simp [phase2_both, h, h1, h2]

theorem phase2_merge_eq {α γ μ : Type} (g : GB_subassign_args α γ μ)
    (pM_start pM_end pS_end pA_end : Nat) (jC : Int) (fuel pS pA : Nat)
    (pd : List (Int × Int × α)) (h : pS < pS_end ∧ pA < pA_end)
    (h1 : ¬ g.S.i pS < g.A.i pA) (h2 : ¬ g.A.i pA < g.S.i pS) :
    phase2_merge g pM_start pM_end pS_end pA_end jC (fuel + 1) pS pA pd =
      phase2_merge g pM_start pM_end pS_end pA_end jC fuel (pS + 1) (pA + 1) pd := by
  unfold phase2_merge
  simp [phase2_both, h, h1, h2]

/-- The steps of `newEntries` along the merge. -/
theorem newEntries_exit_S {α γ μ : Type} (g : GB_subassign_args α γ μ)
    (pM_start pM_end pS pS_end pA pA_end : Nat) (h : ¬ pS < pS_end) :
    newEntries g pM_start pM_end pS pS_end pA pA_end =
      (List.range' pA (pA_end - pA)).filter (fun a =>
        !(GB_MIJ_BINARY_SEARCH g.M g.cast_M pM_start pM_end (g.A.i a))) := by
  unfold newEntries
  rw [range'_of_not_lt pS pS_end h]
  simp

theorem newEntries_exit_A {α γ μ : Type} (g : GB_subassign_args α γ μ)
    (pM_start pM_end pS pS_end pA pA_end : Nat) (h : ¬ pA < pA_end) :
    newEntries g pM_start pM_end pS pS_end pA pA_end = [] := by
  unfold newEntries
  rw [range'_of_not_lt pA pA_end h]
  rfl

theorem newEntries_lt {α γ μ : Type} (g : GB_subassign_args α γ μ)
    (pM_start pM_end pS pS_end pA pA_end : Nat)
    (hA : ∀ p q, pA ≤ p → p < q → q < pA_end → g.A.i p < g.A.i q)
    (h : pS < pS_end) (h1 : g.S.i pS < g.A.i pA) :
    newEntries g pM_start pM_end pS pS_end pA pA_end =
      newEntries g pM_start pM_end (pS + 1) pS_end pA pA_end := by
  unfold newEntries
  apply List.filter_congr
  intro a ha
  rw [List.mem_range'_1] at ha
  rw [range'_of_lt pS pS_end h, List.all_cons]
  have hle : g.A.i pA ≤ g.A.i a := by
    by_cases e : a = pA
    · rw [e]
    · exact le_of_lt (hA pA a (le_refl _) (by omega) (by omega))
  have hne : (g.S.i pS != g.A.i a) = true := by
    simp only [bne_iff_ne, ne_eq]; omega
  rw [hne, Bool.true_and]

theorem newEntries_gt {α γ μ : Type} (g : GB_subassign_args α γ μ)
    (pM_start pM_end pS pS_end pA pA_end : Nat)
    (hS : ∀ p q, pS ≤ p → p < q → q < pS_end → g.S.i p < g.S.i q)
    (h : pA < pA_end) (h2 : g.A.i pA < g.S.i pS) :
    newEntries g pM_start pM_end pS pS_end pA pA_end =
      (if (!(GB_MIJ_BINARY_SEARCH g.M g.cast_M pM_start pM_end (g.A.i pA))) = true
        then [pA] else []) ++ newEntries g pM_start pM_end pS pS_end (pA + 1) pA_end := by
  unfold newEntries
  rw [range'_of_lt pA pA_end h, List.filter_cons]
  have hall : (List.range' pS (pS_end - pS)).all (fun s => g.S.i s != g.A.i pA) = true := by
    rw [List.all_eq_true]
    intro s hs
    rw [List.mem_range'_1] at hs
    have hle : g.S.i pS ≤ g.S.i s := by
      by_cases e : s = pS
      · rw [e]
      · exact le_of_lt (hS pS s (le_refl _) (by omega) (by omega))
    simp only [bne_iff_ne, ne_eq]; omega
  rw [hall, Bool.and_true]
  by_cases hm : (!(GB_MIJ_BINARY_SEARCH g.M g.cast_M pM_start pM_end (g.A.i pA))) = true
  · simp [hm]
  · simp [hm]

theorem newEntries_eq {α γ μ : Type} (g : GB_subassign_args α γ μ)
    (pM_start pM_end pS pS_end pA pA_end : Nat)
    (hA : ∀ p q, pA ≤ p → p < q → q < pA_end → g.A.i p < g.A.i q)
    (hs : pS < pS_end) (h : pA < pA_end) (he : g.A.i pA = g.S.i pS) :
    newEntries g pM_start pM_end pS pS_end pA pA_end =
      newEntries g pM_start pM_end (pS + 1) pS_end (pA + 1) pA_end := by
  unfold newEntries
  rw [range'_of_lt pA pA_end h, List.filter_cons]
  have hhead : (!(GB_MIJ_BINARY_SEARCH g.M g.cast_M pM_start pM_end (g.A.i pA)) &&
      (List.range' pS (pS_end - pS)).all (fun s => g.S.i s != g.A.i pA)) = false := by
    rw [range'_of_lt pS pS_end hs, List.all_cons]
    simp [he]
  rw [hhead]
  simp only [Bool.false_eq_true, if_false]
  apply List.filter_congr
  intro a ha
  rw [List.mem_range'_1] at ha
  rw [range'_of_lt pS pS_end hs, List.all_cons]
  have hlt : g.A.i pA < g.A.i a := hA pA a (le_refl _) (by omega) (by omega)
  have hne : (g.S.i pS != g.A.i a) = true := by
    simp only [bne_iff_ne, ne_eq]; omega
  rw [hne, Bool.true_and]

theorem phase1_A_tail_count {α γ μ : Type} (g : GB_subassign_args α γ μ)
    (pM_start pM_end : Nat) (n : Nat) : ∀ (pA : Nat) (tp : Int),
    phase1_A_tail g pM_start pM_end n pA tp = tp +
      (((List.range' pA n).filter (fun a =>
        !(GB_MIJ_BINARY_SEARCH g.M g.cast_M pM_start pM_end (g.A.i a)))).length : Int) := by
  induction n with
  | zero => intro pA tp; simp [phase1_A_tail]
  | succ n ih =>
    intro pA tp
    show phase1_A_tail g pM_start pM_end n (pA + 1) _ = _
    rw [ih, List.range'_succ, List.filter_cons]
    by_cases hm : (!(GB_MIJ_BINARY_SEARCH g.M g.cast_M pM_start pM_end (g.A.i pA))) = true
    · simp only [hm, if_true, List.length_cons]
      push_cast
      omega
    · simp only [hm, if_false]
      simp

theorem phase2_A_tail_list {α γ μ : Type} (g : GB_subassign_args α γ μ)
    (pM_start pM_end : Nat) (jC : Int) (n : Nat) : ∀ (pA : Nat) (pd : List (Int × Int × α)),
    phase2_A_tail g pM_start pM_end jC n pA pd = pd ++
      ((List.range' pA n).filter (fun a =>
        !(GB_MIJ_BINARY_SEARCH g.M g.cast_M pM_start pM_end (g.A.i a)))).map
        (fun a => (GB_ijlist g.I (g.A.i a) g.Ikind g.Icolon, jC, g.A.x a)) := by
  induction n with
  | zero => intro pA pd; simp [phase2_A_tail]
  | succ n ih =>
    intro pA pd
    show phase2_A_tail g pM_start pM_end jC n (pA + 1) _ = _
    rw [ih, List.range'_succ, List.filter_cons]
    by_cases hm : (!(GB_MIJ_BINARY_SEARCH g.M g.cast_M pM_start pM_end (g.A.i pA))) = true
    · simp [hm, GB_PENDING_INSERT]
    · simp [hm]

/-- Phase 1 counts in `task_pending` the entries of `newEntries`. -/
theorem phase1_merge_count {α γ μ : Type} (g : GB_subassign_args α γ μ)
    (pM_start pM_end pS_end pA_end : Nat) (fuel : Nat) :
    ∀ (pS pA : Nat) (st : GB_C_state γ) (tp : Int),
      (∀ p q, pS ≤ p → p < q → q < pS_end → g.S.i p < g.S.i q) →
      (∀ p q, pA ≤ p → p < q → q < pA_end → g.A.i p < g.A.i q) →
      (pS_end - pS) + (pA_end - pA) ≤ fuel →
      (phase1_merge g pM_start pM_end pS_end pA_end fuel pS pA st tp).2 =
        tp + ((newEntries g pM_start pM_end pS pS_end pA pA_end).length : Int) := by
  induction fuel with
  | zero =>
    intro pS pA st tp _ _ hf
    have h : ¬ (pS < pS_end ∧ pA < pA_end) := by omega
    rw [phase1_merge_exit g _ _ _ _ _ _ _ _ _ h]
    have hA : ¬ pA < pA_end := by omega
    rw [newEntries_exit_A g _ _ _ _ _ _ hA]
    have e0 : pA_end - pA = 0 := by omega
    rw [e0]
    simp [phase1_A_tail]
  | succ fuel ih =>
    intro pS pA st tp hS hA hf
    by_cases h : pS < pS_end ∧ pA < pA_end
    · by_cases h1 : g.S.i pS < g.A.i pA
      · rw [phase1_merge_lt g _ _ _ _ _ _ _ _ _ h h1,
          ih (pS + 1) pA _ tp (fun p q a b c => hS p q (by omega) b c) hA (by omega),
          newEntries_lt g _ _ _ _ _ _ hA h.1 h1]
      · by_cases h2 : g.A.i pA < g.S.i pS
        · rw [phase1_merge_gt g _ _ _ _ _ _ _ _ _ h h1 h2,
            ih pS (pA + 1) st _ hS (fun p q a b c => hA p q (by omega) b c) (by omega),
            newEntries_gt g _ _ _ _ _ _ hS h.2 h2]
          by_cases hm : (!(GB_MIJ_BINARY_SEARCH g.M g.cast_M pM_start pM_end (g.A.i pA))) = true
          · simp only [hm, if_true, List.length_append, List.length_singleton]
            push_cast
            omega
          · simp [hm]
        · rw [phase1_merge_eq g _ _ _ _ _ _ _ _ _ h h1 h2,
            ih (pS + 1) (pA + 1) _ tp (fun p q a b c => hS p q (by omega) b c)
              (fun p q a b c => hA p q (by omega) b c) (by omega),
            newEntries_eq g _ _ _ _ _ _ hA h.1 h.2 (by omega)]
    · rw [phase1_merge_exit g _ _ _ _ _ _ _ _ _ h, phase1_A_tail_count]
      by_cases hs : pS < pS_end
      · have hA' : ¬ pA < pA_end := fun x => h ⟨hs, x⟩
        rw [newEntries_exit_A g _ _ _ _ _ _ hA', range'_of_not_lt pA pA_end hA']
        simp
      · rw [newEntries_exit_S g _ _ _ _ _ _ hs]

/-- Phase 2 appends one pending tuple for each entry of `newEntries`, in order. -/
theorem phase2_merge_list {α γ μ : Type} (g : GB_subassign_args α γ μ)
    (pM_start pM_end pS_end pA_end : Nat) (jC : Int) (fuel : Nat) :
    ∀ (pS pA : Nat) (pd : List (Int × Int × α)),
      (∀ p q, pS ≤ p → p < q → q < pS_end → g.S.i p < g.S.i q) →
      (∀ p q, pA ≤ p → p < q → q < pA_end → g.A.i p < g.A.i q) →
      (pS_end - pS) + (pA_end - pA) ≤ fuel →
      phase2_merge g pM_start pM_end pS_end pA_end jC fuel pS pA pd =
        pd ++ (newEntries g pM_start pM_end pS pS_end pA pA_end).map
          (fun a => (GB_ijlist g.I (g.A.i a) g.Ikind g.Icolon, jC, g.A.x a)) := by
  induction fuel with
  | zero =>
    intro pS pA pd _ _ hf
    have h : ¬ (pS < pS_end ∧ pA < pA_end) := by omega
    have hA : ¬ pA < pA_end := by omega
    rw [phase2_merge_exit g _ _ _ _ _ _ _ _ _ h, newEntries_exit_A g _ _ _ _ _ _ hA]
    have : pA_end - pA = 0 := by omega
    rw [this]
    simp [phase2_A_tail]
  | succ fuel ih =>
    intro pS pA pd hS hA hf
    by_cases h : pS < pS_end ∧ pA < pA_end
    · by_cases h1 : g.S.i pS < g.A.i pA
      · rw [phase2_merge_lt g _ _ _ _ _ _ _ _ _ h h1,
          ih (pS + 1) pA pd (fun p q a b c => hS p q (by omega) b c) hA (by omega),
          newEntries_lt g _ _ _ _ _ _ hA h.1 h1]
      · by_cases h2 : g.A.i pA < g.S.i pS
        · rw [phase2_merge_gt g _ _ _ _ _ _ _ _ _ h h1 h2,
            ih pS (pA + 1) _ hS (fun p q a b c => hA p q (by omega) b c) (by omega),
            newEntries_gt g _ _ _ _ _ _ hS h.2 h2]
          by_cases hm : (!(GB_MIJ_BINARY_SEARCH g.M g.cast_M pM_start pM_end (g.A.i pA))) = true
          · simp [hm, GB_PENDING_INSERT]
          · simp [hm]
        · rw [phase2_merge_eq g _ _ _ _ _ _ _ _ _ h h1 h2,
            ih (pS + 1) (pA + 1) pd (fun p q a b c => hS p q (by omega) b c)
              (fun p q a b c => hA p q (by omega) b c) (by omega),
            newEntries_eq g _ _ _ _ _ _ hA h.1 h.2 (by omega)]
    · rw [phase2_merge_exit g _ _ _ _ _ _ _ _ _ h, phase2_A_tail_list]
      by_cases hs : pS < pS_end
      · have hA' : ¬ pA < pA_end := fun x => h ⟨hs, x⟩
        rw [newEntries_exit_A g _ _ _ _ _ _ hA', range'_of_not_lt pA pA_end hA']
        simp
      · rw [newEntries_exit_S g _ _ _ _ _ _ hs]


theorem GB_DELETE_ENTRY_Ci {γ : Type} (st : GB_C_state γ) (Sx : Nat → Nat) (pS q : Nat) :
    (GB_DELETE_ENTRY st (GB_C_S_LOOKUP Sx st.Ci pS)).Ci q =
      if q = Sx pS then deletedIndex (st.Ci (Sx pS)) else st.Ci q := by
  unfold GB_DELETE_ENTRY GB_C_S_LOOKUP deletedIndex GB_IS_ZOMBIE
  by_cases hz : st.Ci (Sx pS) < 0
  · by_cases hq : q = Sx pS
    · simp [hz, hq]
    · simp [hz, hq]
  · by_cases hq : q = Sx pS
    · simp [hz, hq, upd]
    · simp [hz, hq, upd]

theorem GB_DELETE_ENTRY_Cx {γ : Type} (st : GB_C_state γ) (Sx : Nat → Nat) (pS : Nat) :
    (GB_DELETE_ENTRY st (GB_C_S_LOOKUP Sx st.Ci pS)).Cx = st.Cx := by
  unfold GB_DELETE_ENTRY
  split_ifs <;> rfl

theorem GB_noaccum_Ci {α γ : Type} (cast : α → γ) (st : GB_C_state γ) (Sx : Nat → Nat)
    (Ax : Nat → α) (pS pA q : Nat) :
    (GB_noaccum_C_A_1_matrix cast st (GB_C_S_LOOKUP Sx st.Ci pS) Ax pA).Ci q =
      if q = Sx pS then GB_UNFLIP (st.Ci (Sx pS)) else st.Ci q := by
  unfold GB_noaccum_C_A_1_matrix GB_COPY_aij_to_C GB_UNDELETE GB_C_S_LOOKUP GB_UNFLIP GB_IS_ZOMBIE
  by_cases hz : st.Ci (Sx pS) < 0
  · by_cases hq : q = Sx pS
    · simp [hz, hq, upd]
    · simp [hz, hq, upd]
  · by_cases hq : q = Sx pS
    · simp [hz, hq]
    · simp [hz, hq]

theorem GB_noaccum_Cx {α γ : Type} (cast : α → γ) (st : GB_C_state γ) (Sx : Nat → Nat)
    (Ax : Nat → α) (pS pA q : Nat) :
    (GB_noaccum_C_A_1_matrix cast st (GB_C_S_LOOKUP Sx st.Ci pS) Ax pA).Cx q =
      if q = Sx pS then cast (Ax pA) else st.Cx q := by
  unfold GB_noaccum_C_A_1_matrix GB_COPY_aij_to_C GB_UNDELETE GB_C_S_LOOKUP
  by_cases hz : GB_IS_ZOMBIE (st.Ci (Sx pS)) = true
  · by_cases hq : q = Sx pS
    · simp [hz, hq, upd]
    · simp [hz, hq, upd]
  · by_cases hq : q = Sx pS
    · simp [hz, hq, upd]
    · simp [hz, hq, upd]

/-- The loop over the rest of `S(:,j)`: a slot that no entry with a false mask
points to is left alone, and every entry with a false mask is deleted. -/
theorem phase1_S_tail_spec {α γ μ : Type} (g : GB_subassign_args α γ μ)
    (pM_start pM_end : Nat) (n : Nat) :
    ∀ (pS : Nat) (st : GB_C_state γ),
      (∀ q, (∀ s, pS ≤ s → s < pS + n →
          (!(GB_MIJ_BINARY_SEARCH g.M g.cast_M pM_start pM_end (g.S.i s))) = true →
          g.S.x s ≠ q) →
        (phase1_S_tail g pM_start pM_end n pS st).Ci q = st.Ci q ∧
        (phase1_S_tail g pM_start pM_end n pS st).Cx q = st.Cx q) ∧
      ((∀ s s2, pS ≤ s → s < s2 → s2 < pS + n → g.S.x s ≠ g.S.x s2) →
        ∀ s, pS ≤ s → s < pS + n →
          (!(GB_MIJ_BINARY_SEARCH g.M g.cast_M pM_start pM_end (g.S.i s))) = true →
          (phase1_S_tail g pM_start pM_end n pS st).Ci (g.S.x s) = deletedIndex (st.Ci (g.S.x s)) ∧
          (phase1_S_tail g pM_start pM_end n pS st).Cx (g.S.x s) = st.Cx (g.S.x s)) := by
  induction n with
  | zero =>
    intro pS st
    exact ⟨fun q _ => ⟨rfl, rfl⟩, fun _ s h1 h2 => by omega⟩
  | succ n ih =>
    intro pS st
    have hunf : phase1_S_tail g pM_start pM_end (n + 1) pS st =
        phase1_S_tail g pM_start pM_end n (pS + 1)
          (if (!(GB_MIJ_BINARY_SEARCH g.M g.cast_M pM_start pM_end (g.S.i pS))) = true
            then GB_DELETE_ENTRY st (GB_C_S_LOOKUP g.S.x st.Ci pS) else st) := rfl
    rw [hunf]
    obtain ⟨iha, ihb⟩ := ih (pS + 1)
      (if (!(GB_MIJ_BINARY_SEARCH g.M g.cast_M pM_start pM_end (g.S.i pS))) = true
        then GB_DELETE_ENTRY st (GB_C_S_LOOKUP g.S.x st.Ci pS) else st)
    -- the state after the step on `pS`, at a slot other than its own
    have hstep : ∀ q, ((!(GB_MIJ_BINARY_SEARCH g.M g.cast_M pM_start pM_end (g.S.i pS))) = true →
        g.S.x pS ≠ q) →
        (if (!(GB_MIJ_BINARY_SEARCH g.M g.cast_M pM_start pM_end (g.S.i pS))) = true
          then GB_DELETE_ENTRY st (GB_C_S_LOOKUP g.S.x st.Ci pS) else st).Ci q = st.Ci q ∧
        (if (!(GB_MIJ_BINARY_SEARCH g.M g.cast_M pM_start pM_end (g.S.i pS))) = true
          then GB_DELETE_ENTRY st (GB_C_S_LOOKUP g.S.x st.Ci pS) else st).Cx q = st.Cx q := by
      intro q hq
      by_cases hm : (!(GB_MIJ_BINARY_SEARCH g.M g.cast_M pM_start pM_end (g.S.i pS))) = true
      · rw [if_pos hm, GB_DELETE_ENTRY_Ci, GB_DELETE_ENTRY_Cx]
        have : q ≠ g.S.x pS := fun e => hq hm e.symm
        simp [this]
      · rw [if_neg hm]
        exact ⟨rfl, rfl⟩
    refine ⟨?_, ?_⟩
    · intro q hq
      have h1 := iha q (fun s a b c => hq s (by omega) (by omega) c)
      have h2 := hstep q (fun hm => hq pS (le_refl _) (by omega) hm)
      exact ⟨h1.1.trans h2.1, h1.2.trans h2.2⟩
    · intro hinj s hs1 hs2 hm
      by_cases hsp : s = pS
      · subst hsp
        have h1 := iha (g.S.x s) (fun s2 a b _ => (hinj s s2 (le_refl _) (by omega) (by omega)).symm)
        rw [h1.1, h1.2, if_pos hm, GB_DELETE_ENTRY_Ci, GB_DELETE_ENTRY_Cx]
        simp
      · have h1 := ihb (fun a b c d e => hinj a b (by omega) d (by omega)) s (by omega)
          (by omega) hm
        have h2 := hstep (g.S.x s) (fun _ => hinj pS s (le_refl _) (by omega) (by omega))
        rw [h1.1, h1.2, h2.1, h2.2]
        exact ⟨rfl, rfl⟩

/-- The merge of phase 1 from the positions `pS`, `pA` on, slot by slot:
(a) a slot that no entry of `S` with a false mask points to is left alone;
(b) an entry of `S` with a false mask and no entry of `A` at its index is
deleted; (c) an entry of `S` with a false mask and an entry of `A` at its index
becomes live with the value of `A`, typecast. -/
theorem phase1_merge_state {α γ μ : Type} (g : GB_subassign_args α γ μ)
    (pM_start pM_end pS_end pA_end : Nat) (fuel : Nat) :
    ∀ (pS pA : Nat) (st : GB_C_state γ) (tp : Int),
      (∀ p q, pS ≤ p → p < q → q < pS_end → g.S.i p < g.S.i q) →
      (∀ p q, pA ≤ p → p < q → q < pA_end → g.A.i p < g.A.i q) →
      (∀ s s2, pS ≤ s → s < s2 → s2 < pS_end → g.S.x s ≠ g.S.x s2) →
      (pS_end - pS) + (pA_end - pA) ≤ fuel →
      (∀ q, (∀ s, pS ≤ s → s < pS_end →
          (!(GB_MIJ_BINARY_SEARCH g.M g.cast_M pM_start pM_end (g.S.i s))) = true →
          g.S.x s ≠ q) →
        (phase1_merge g pM_start pM_end pS_end pA_end fuel pS pA st tp).1.Ci q = st.Ci q ∧
        (phase1_merge g pM_start pM_end pS_end pA_end fuel pS pA st tp).1.Cx q = st.Cx q) ∧
      (∀ s, pS ≤ s → s < pS_end →
        (!(GB_MIJ_BINARY_SEARCH g.M g.cast_M pM_start pM_end (g.S.i s))) = true →
        (∀ a, pA ≤ a → a < pA_end → g.A.i a ≠ g.S.i s) →
        (phase1_merge g pM_start pM_end pS_end pA_end fuel pS pA st tp).1.Ci (g.S.x s)
          = deletedIndex (st.Ci (g.S.x s)) ∧
        (phase1_merge g pM_start pM_end pS_end pA_end fuel pS pA st tp).1.Cx (g.S.x s)
          = st.Cx (g.S.x s)) ∧
      (∀ s a, pS ≤ s → s < pS_end → pA ≤ a → a < pA_end →
        (!(GB_MIJ_BINARY_SEARCH g.M g.cast_M pM_start pM_end (g.S.i s))) = true →
        g.A.i a = g.S.i s →
        (phase1_merge g pM_start pM_end pS_end pA_end fuel pS pA st tp).1.Ci (g.S.x s)
          = GB_UNFLIP (st.Ci (g.S.x s)) ∧
        (phase1_merge g pM_start pM_end pS_end pA_end fuel pS pA st tp).1.Cx (g.S.x s)
          = g.cast_A_to_C (g.A.x a)) := by
  -- the exit of the first loop: the rest of `S(:,j)` is deleted
  have hexit : ∀ (fuel pS pA : Nat) (st : GB_C_state γ) (tp : Int),
      ¬ (pS < pS_end ∧ pA < pA_end) →
      (∀ s s2, pS ≤ s → s < s2 → s2 < pS_end → g.S.x s ≠ g.S.x s2) →
      (∀ q, (∀ s, pS ≤ s → s < pS_end →
          (!(GB_MIJ_BINARY_SEARCH g.M g.cast_M pM_start pM_end (g.S.i s))) = true →
          g.S.x s ≠ q) →
        (phase1_merge g pM_start pM_end pS_end pA_end fuel pS pA st tp).1.Ci q = st.Ci q ∧
        (phase1_merge g pM_start pM_end pS_end pA_end fuel pS pA st tp).1.Cx q = st.Cx q) ∧
      (∀ s, pS ≤ s → s < pS_end →
        (!(GB_MIJ_BINARY_SEARCH g.M g.cast_M pM_start pM_end (g.S.i s))) = true →
        (∀ a, pA ≤ a → a < pA_end → g.A.i a ≠ g.S.i s) →
        (phase1_merge g pM_start pM_end pS_end pA_end fuel pS pA st tp).1.Ci (g.S.x s)
          = deletedIndex (st.Ci (g.S.x s)) ∧
        (phase1_merge g pM_start pM_end pS_end pA_end fuel pS pA st tp).1.Cx (g.S.x s)
          = st.Cx (g.S.x s)) ∧
      (∀ s a, pS ≤ s → s < pS_end → pA ≤ a → a < pA_end →
        (!(GB_MIJ_BINARY_SEARCH g.M g.cast_M pM_start pM_end (g.S.i s))) = true →
        g.A.i a = g.S.i s →
        (phase1_merge g pM_start pM_end pS_end pA_end fuel pS pA st tp).1.Ci (g.S.x s)
          = GB_UNFLIP (st.Ci (g.S.x s)) ∧
        (phase1_merge g pM_start pM_end pS_end pA_end fuel pS pA st tp).1.Cx (g.S.x s)
          = g.cast_A_to_C (g.A.x a)) := by
    intro fuel pS pA st tp h hinj
    rw [phase1_merge_exit g _ _ _ _ _ _ _ _ _ h]
    obtain ⟨ta, tb⟩ := phase1_S_tail_spec g pM_start pM_end (pS_end - pS) pS st
    refine ⟨?_, ?_, ?_⟩
    · intro q hq
      exact ta q (fun s a b c => hq s a (by omega) c)
    · intro s hs1 hs2 hm _
      exact tb (fun a b c d e => hinj a b c d (by omega)) s hs1 (by omega) hm
    · intro s a hs1 hs2 ha1 ha2 _ _
      exact absurd ⟨hs2 |> lt_of_le_of_lt hs1, lt_of_le_of_lt ha1 ha2⟩ h
  induction fuel with
  | zero =>
    intro pS pA st tp _ _ hinj hf
    exact hexit 0 pS pA st tp (by omega) hinj
  | succ fuel ih =>
    intro pS pA st tp hS hA hinj hf
    by_cases h : pS < pS_end ∧ pA < pA_end
    · -- the state after a step on `pS`, at a slot other than its own
      have hAle : ∀ a, pA ≤ a → a < pA_end → g.A.i pA ≤ g.A.i a := by
        intro a h1 h2
        by_cases e : a = pA
        · rw [e]
        · exact le_of_lt (hA pA a (le_refl _) (by omega) h2)
      have hSle : ∀ s, pS ≤ s → s < pS_end → g.S.i pS ≤ g.S.i s := by
        intro s h1 h2
        by_cases e : s = pS
        · rw [e]
        · exact le_of_lt (hS pS s (le_refl _) (by omega) h2)
      by_cases h1 : g.S.i pS < g.A.i pA
      · -- S (i,j) is present but A (i,j) is not
        rw [phase1_merge_lt g _ _ _ _ _ _ _ _ _ h h1]
        obtain ⟨iha, ihb, ihc⟩ := ih (pS + 1) pA
          (if (!(GB_MIJ_BINARY_SEARCH g.M g.cast_M pM_start pM_end (g.S.i pS))) = true
            then GB_DELETE_ENTRY st (GB_C_S_LOOKUP g.S.x st.Ci pS) else st) tp
          (fun p q a b c => hS p q (by omega) b c) hA
          (fun p q a b c => hinj p q (by omega) b c) (by omega)
        have hstep : ∀ q, ((!(GB_MIJ_BINARY_SEARCH g.M g.cast_M pM_start pM_end (g.S.i pS))) = true →
            g.S.x pS ≠ q) →
            (if (!(GB_MIJ_BINARY_SEARCH g.M g.cast_M pM_start pM_end (g.S.i pS))) = true
              then GB_DELETE_ENTRY st (GB_C_S_LOOKUP g.S.x st.Ci pS) else st).Ci q = st.Ci q ∧
            (if (!(GB_MIJ_BINARY_SEARCH g.M g.cast_M pM_start pM_end (g.S.i pS))) = true
              then GB_DELETE_ENTRY st (GB_C_S_LOOKUP g.S.x st.Ci pS) else st).Cx q = st.Cx q := by
          intro q hq
          by_cases hm : (!(GB_MIJ_BINARY_SEARCH g.M g.cast_M pM_start pM_end (g.S.i pS))) = true
          · rw [if_pos hm, GB_DELETE_ENTRY_Ci, GB_DELETE_ENTRY_Cx]
            have : q ≠ g.S.x pS := fun e => hq hm e.symm
            simp [this]
          · rw [if_neg hm]
            exact ⟨rfl, rfl⟩
        refine ⟨?_, ?_, ?_⟩
        · intro q hq
          have e1 := iha q (fun s a b c => hq s (by omega) b c)
          have e2 := hstep q (fun hm => hq pS (le_refl _) h.1 hm)
          exact ⟨e1.1.trans e2.1, e1.2.trans e2.2⟩
        · intro s hs1 hs2 hm hno
          by_cases hsp : s = pS
          · subst hsp
            have e1 := iha (g.S.x s) (fun s2 a b _ => (hinj s s2 (le_refl _) (by omega) b).symm)
            rw [e1.1, e1.2, if_pos hm, GB_DELETE_ENTRY_Ci, GB_DELETE_ENTRY_Cx]
            simp
          · have e1 := ihb s (by omega) hs2 hm hno
            have e2 := hstep (g.S.x s) (fun _ => hinj pS s (le_refl _) (by omega) hs2)
            rw [e1.1, e1.2, e2.1, e2.2]
            exact ⟨rfl, rfl⟩
        · intro s a hs1 hs2 ha1 ha2 hm he
          by_cases hsp : s = pS
          · subst hsp
            have := hAle a ha1 ha2
            omega
          · have e1 := ihc s a (by omega) hs2 ha1 ha2 hm he
            have e2 := hstep (g.S.x s) (fun _ => hinj pS s (le_refl _) (by omega) hs2)
            rw [e1.1, e1.2, e2.1]
            exact ⟨rfl, rfl⟩
      · by_cases h2 : g.A.i pA < g.S.i pS
        · -- S (i,j) is not present, A (i,j) is present
          rw [phase1_merge_gt g _ _ _ _ _ _ _ _ _ h h1 h2]
          obtain ⟨iha, ihb, ihc⟩ := ih pS (pA + 1) st
            (if (!(GB_MIJ_BINARY_SEARCH g.M g.cast_M pM_start pM_end (g.A.i pA))) = true
              then tp + 1 else tp)
            hS (fun p q a b c => hA p q (by omega) b c) hinj (by omega)
          refine ⟨iha, ?_, ?_⟩
          · intro s hs1 hs2 hm hno
            exact ihb s hs1 hs2 hm (fun a x y => hno a (by omega) y)
          · intro s a hs1 hs2 ha1 ha2 hm he
            have hap : a ≠ pA := by
              intro e
              rw [e] at he
              have := hSle s hs1 hs2
              omega
            exact ihc s a hs1 hs2 (by omega) ha2 hm he
        · -- both S (i,j) and A (i,j) present
          have heq : g.A.i pA = g.S.i pS := by omega
          rw [phase1_merge_eq g _ _ _ _ _ _ _ _ _ h h1 h2]
          obtain ⟨iha, ihb, ihc⟩ := ih (pS + 1) (pA + 1)
            (if (!(GB_MIJ_BINARY_SEARCH g.M g.cast_M pM_start pM_end (g.A.i pA))) = true
              then GB_noaccum_C_A_1_matrix g.cast_A_to_C st (GB_C_S_LOOKUP g.S.x st.Ci pS) g.A.x pA
              else st) tp
            (fun p q a b c => hS p q (by omega) b c) (fun p q a b c => hA p q (by omega) b c)
            (fun p q a b c => hinj p q (by omega) b c) (by omega)
          have hstep : ∀ q, ((!(GB_MIJ_BINARY_SEARCH g.M g.cast_M pM_start pM_end (g.S.i pS))) = true →
              g.S.x pS ≠ q) →
              (if (!(GB_MIJ_BINARY_SEARCH g.M g.cast_M pM_start pM_end (g.A.i pA))) = true
                then GB_noaccum_C_A_1_matrix g.cast_A_to_C st (GB_C_S_LOOKUP g.S.x st.Ci pS)
                  g.A.x pA else st).Ci q = st.Ci q ∧
              (if (!(GB_MIJ_BINARY_SEARCH g.M g.cast_M pM_start pM_end (g.A.i pA))) = true
                then GB_noaccum_C_A_1_matrix g.cast_A_to_C st (GB_C_S_LOOKUP g.S.x st.Ci pS)
                  g.A.x pA else st).Cx q = st.Cx q := by
            intro q hq
            rw [heq]
            by_cases hm : (!(GB_MIJ_BINARY_SEARCH g.M g.cast_M pM_start pM_end (g.S.i pS))) = true
            · rw [if_pos hm, GB_noaccum_Ci, GB_noaccum_Cx]
              have : q ≠ g.S.x pS := fun e => hq hm e.symm
              simp [this]
            · rw [if_neg hm]
              exact ⟨rfl, rfl⟩
          refine ⟨?_, ?_, ?_⟩
          · intro q hq
            have e1 := iha q (fun s a b c => hq s (by omega) b c)
            have e2 := hstep q (fun hm => hq pS (le_refl _) h.1 hm)
            exact ⟨e1.1.trans e2.1, e1.2.trans e2.2⟩
          · intro s hs1 hs2 hm hno
            by_cases hsp : s = pS
            · subst hsp
              exact absurd heq (hno pA (le_refl _) h.2)
            · have e1 := ihb s (by omega) hs2 hm (fun a x y => hno a (by omega) y)
              have e2 := hstep (g.S.x s) (fun _ => hinj pS s (le_refl _) (by omega) hs2)
              rw [e1.1, e1.2, e2.1, e2.2]
              exact ⟨rfl, rfl⟩
          · intro s a hs1 hs2 ha1 ha2 hm he
            by_cases hsp : s = pS
            · subst hsp
              have hap : a = pA := by
                by_contra hne
                have := hA pA a (le_refl _) (by omega) ha2
                omega
              subst hap
              have e1 := iha (g.S.x s) (fun s2 a b _ => (hinj s s2 (le_refl _) (by omega) b).symm)
              rw [e1.1, e1.2, heq, if_pos hm, GB_noaccum_Ci, GB_noaccum_Cx]
              simp
            · have hap : a ≠ pA := by
                intro e
                rw [e] at he
                have := hS pS s (le_refl _) (by omega) hs2
                omega
              have e1 := ihc s a (by omega) hs2 (by omega) ha2 hm he
              have e2 := hstep (g.S.x s) (fun _ => hinj pS s (le_refl _) (by omega) hs2)
              rw [e1.1, e1.2, e2.1]
              exact ⟨rfl, rfl⟩
    · exact hexit (fuel + 1) pS pA st tp h hinj


/-! ### Submatrix assignment, method 13b: the tasks -/

theorem phase1_merge_fst {α γ μ : Type} (g : GB_subassign_args α γ μ)
    (pM_start pM_end pS_end pA_end : Nat) (fuel : Nat) :
    ∀ (pS pA : Nat) (st : GB_C_state γ) (tp : Int),
      (phase1_merge g pM_start pM_end pS_end pA_end fuel pS pA st tp).1 =
      (phase1_merge g pM_start pM_end pS_end pA_end fuel pS pA st 0).1 := by
  induction fuel with
  | zero =>
    intro pS pA st tp
    rfl
  | succ fuel ih =>
    intro pS pA st tp
    by_cases h : pS < pS_end ∧ pA < pA_end
    · by_cases h1 : g.S.i pS < g.A.i pA
      · rw [phase1_merge_lt g _ _ _ _ _ _ _ _ _ h h1, phase1_merge_lt g _ _ _ _ _ _ _ _ _ h h1]
        exact ih _ _ _ _
      · by_cases h2 : g.A.i pA < g.S.i pS
        · rw [phase1_merge_gt g _ _ _ _ _ _ _ _ _ h h1 h2,
            phase1_merge_gt g _ _ _ _ _ _ _ _ _ h h1 h2, ih, ih pS (pA + 1) st
              (if (!(GB_MIJ_BINARY_SEARCH g.M g.cast_M pM_start pM_end (g.A.i pA))) = true
                then (0 : Int) + 1 else 0)]
        · rw [phase1_merge_eq g _ _ _ _ _ _ _ _ _ h h1 h2,
            phase1_merge_eq g _ _ _ _ _ _ _ _ _ h h1 h2]
          exact ih _ _ _ _
    · rw [phase1_merge_exit g _ _ _ _ _ _ _ _ _ h, phase1_merge_exit g _ _ _ _ _ _ _ _ _ h]

theorem phase1_vector_fst {α γ μ : Type} (g : GB_subassign_args α γ μ) (w : GB_vector_work)
    (s : GB_C_state γ × Int) : (phase1_vector g w s).1 = phase1_state g w s.1 :=
  phase1_merge_fst g _ _ _ _ _ _ _ _ _

theorem phase1_foldl_fst {α γ μ : Type} (g : GB_subassign_args α γ μ)
    (Ws : List GB_vector_work) :
    ∀ (s : GB_C_state γ × Int),
      (Ws.foldl (fun s w => phase1_vector g w s) s).1 =
        Ws.foldl (fun st w => phase1_state g w st) s.1 := by
  induction Ws with
  | nil => intro s; rfl
  | cons w Ws ih =>
    intro s
    simp only [List.foldl_cons]
    rw [ih, phase1_vector_fst]

/-- The arrays of `C` after phase 1: the pieces of work applied one after the
other, in the order of the tasks. -/
theorem phase1_fst {α γ μ : Type} (g : GB_subassign_args α γ μ) (ts : List GB_task) :
    ∀ (st : GB_C_state γ),
      (phase1 g ts st).1 =
        (ts.flatMap (GB_task_work g)).foldl (fun st w => phase1_state g w st) st := by
  induction ts with
  | nil => intro st; rfl
  | cons t ts ih =>
    intro st
    show (phase1 g ts (phase1_task g t st).1).1 = _
    rw [ih, List.flatMap_cons, List.foldl_append]
    unfold phase1_task
    rw [phase1_foldl_fst]

theorem mem_vec {α : Type} (A : GB_Matrix α) (j p : Nat) :
    p ∈ A.vec j ↔ (GB_lookup A j).1 ≤ p ∧ p < (GB_lookup A j).2 := by
  unfold GB_Matrix.vec
  rw [List.mem_range'_1]
  omega

theorem vec_sorted {α : Type} (A : GB_Matrix α) (j : Nat)
    (h : List.Pairwise (fun p q => A.i p < A.i q) (A.vec j)) :
    ∀ p q, (GB_lookup A j).1 ≤ p → p < q → q < (GB_lookup A j).2 → A.i p < A.i q := by
  intro p q h1 h2 h3
  exact pairwise_range' _ _ _ h p q h1 h2 (by omega)

theorem vec_index_inj {α : Type} (A : GB_Matrix α) (j : Nat)
    (h : List.Pairwise (fun p q => A.i p < A.i q) (A.vec j)) (p q : Nat)
    (hp : p ∈ A.vec j) (hq : q ∈ A.vec j) (he : A.i p = A.i q) : p = q := by
  rw [mem_vec] at hp hq
  by_contra hne
  rcases Nat.lt_or_gt_of_ne hne with hlt | hlt
  · have := vec_sorted A j h p q hp.1 hlt hq.2
    omega
  · have := vec_sorted A j h q p hq.1 hlt hp.2
    omega

theorem get_eq_none {α : Type} (A : GB_Matrix α) (i : Int) (j : Nat)
    (hnn : ∀ a, a ∈ A.vec j → 0 ≤ A.i a) :
    A.get i j = none ↔ ∀ a, a ∈ A.vec j → A.i a ≠ i := by
  unfold GB_Matrix.get
  rw [Option.map_eq_none', List.find?_eq_none]
  constructor
  · intro h a ha he
    apply h a ha
    have := hnn a ha
    simp [GB_IS_NOT_ZOMBIE, he, this]
    rw [← he]; exact this
  · intro h a ha hc
    simp only [Bool.and_eq_true, beq_iff_eq] at hc
    exact h a ha hc.2

theorem get_eq_some {α : Type} (A : GB_Matrix α) (i : Int) (j : Nat) (v : α)
    (h : A.get i j = some v) : ∃ a, a ∈ A.vec j ∧ A.i a = i ∧ 0 ≤ A.i a ∧ A.x a = v := by
  unfold GB_Matrix.get at h
  rw [Option.map_eq_some'] at h
  obtain ⟨a, ha, hv⟩ := h
  have hm := List.mem_of_find?_eq_some ha
  have hp := List.find?_some ha
  simp only [Bool.and_eq_true, beq_iff_eq, GB_IS_NOT_ZOMBIE, decide_eq_true_eq] at hp
  exact ⟨a, hm, hp.2, hp.1, hv⟩

/-- The entry `(r,c)` of a matrix, when one slot only of the vector `c` can
hold it: the value of that slot when it is live. -/
theorem get_of_unique {α : Type} (A : GB_Matrix α) (r : Int) (c q : Nat)
    (hq : q ∈ A.vec c)
    (huniq : ∀ p, p ∈ A.vec c → 0 ≤ A.i p → A.i p = r → p = q) :
    A.get r c = if 0 ≤ A.i q ∧ A.i q = r then some (A.x q) else none := by
  by_cases hc : 0 ≤ A.i q ∧ A.i q = r
  · rw [if_pos hc]
    cases hg : A.get r c with
    | none =>
      unfold GB_Matrix.get at hg
      rw [Option.map_eq_none', List.find?_eq_none] at hg
      have := hg q hq
      simp [GB_IS_NOT_ZOMBIE, hc.1, hc.2] at this
      have h1 := hc.1
      have h2 := hc.2
      omega
    | some v =>
      obtain ⟨a, ha, h1, h2, h3⟩ := get_eq_some A r c v hg
      have := huniq a ha h2 h1
      rw [this] at h3
      rw [h3]
  · rw [if_neg hc]
    cases hg : A.get r c with
    | none => rfl
    | some v =>
      obtain ⟨a, ha, h1, h2, h3⟩ := get_eq_some A r c v hg
      have := huniq a ha h2 h1
      rw [this] at h1 h2
      exact absurd ⟨h2, h1⟩ hc

theorem deletedIndex_idem (ci : Int) : deletedIndex (deletedIndex ci) = deletedIndex ci := by
  unfold deletedIndex GB_FLIP
  split_ifs <;> omega

theorem deletedIndex_neg (ci : Int) : deletedIndex ci < 0 := by
  unfold deletedIndex GB_FLIP
  split_ifs <;> omega

theorem GB_UNFLIP_idem (ci : Int) : GB_UNFLIP (GB_UNFLIP ci) = GB_UNFLIP ci := by
  unfold GB_UNFLIP GB_FLIP
  split_ifs <;> omega

theorem GB_UNFLIP_deletedIndex (ci : Int) : GB_UNFLIP (deletedIndex ci) = GB_UNFLIP ci := by
  unfold GB_UNFLIP deletedIndex GB_FLIP
  split_ifs <;> omega

theorem slotTarget_idem {α γ μ : Type} (g : GB_subassign_args α γ μ) (j s : Nat)
    (c : Int × γ) : slotTarget g j s (slotTarget g j s c) = slotTarget g j s c := by
  unfold slotTarget
  cases g.A.get (g.S.i s) j with
  | none => simp [deletedIndex_idem]
  | some v => simp [GB_UNFLIP_idem]

theorem slotTarget_unflip {α γ μ : Type} (g : GB_subassign_args α γ μ) (j s : Nat)
    (c : Int × γ) : GB_UNFLIP (slotTarget g j s c).1 = GB_UNFLIP c.1 := by
  unfold slotTarget
  cases g.A.get (g.S.i s) j with
  | none => simp [GB_UNFLIP_deletedIndex]
  | some v => simp [GB_UNFLIP_idem]

/-- One piece of work in phase 1, slot by slot: a slot that no entry of the
piece with a false mask points to is left alone, and the slot of an entry
with a false mask gets its target. -/
theorem phase1_state_spec {α γ μ : Type} (g : GB_subassign_args α γ μ) (w : GB_vector_work)
    (hok : GB_work_ok g w)
    (hnn : ∀ a, a ∈ g.A.vec w.j → 0 ≤ g.A.i a)
    (hinj : ∀ s, s ∈ g.S.vec w.j → ∀ s2, s2 ∈ g.S.vec w.j → g.S.x s = g.S.x s2 → s = s2)
    (st : GB_C_state γ) :
    (∀ q, (∀ s, w.pS ≤ s → s < w.pS_end → g.mask (g.S.i s) w.j = false → g.S.x s ≠ q) →
      (phase1_state g w st).Ci q = st.Ci q ∧ (phase1_state g w st).Cx q = st.Cx q) ∧
    (∀ s, w.pS ≤ s → s < w.pS_end → g.mask (g.S.i s) w.j = false →
      ((phase1_state g w st).Ci (g.S.x s), (phase1_state g w st).Cx (g.S.x s)) =
        slotTarget g w.j s (st.Ci (g.S.x s), st.Cx (g.S.x s))) := by
  have hS := vec_sorted g.S w.j hok.S_sorted
  have hA := vec_sorted g.A w.j hok.A_sorted
  obtain ⟨ma, mb, mc⟩ := phase1_merge_state g (GB_lookup g.M w.j).1 (GB_lookup g.M w.j).2
    w.pS_end w.pA_end ((w.pS_end - w.pS) + (w.pA_end - w.pA)) w.pS w.pA st 0
    (fun p q a b c => hS p q (by have := hok.S_in; omega) b (by have := hok.S_in; omega))
    (fun p q a b c => hA p q (by have := hok.A_in; omega) b (by have := hok.A_in; omega))
    (fun s s2 a b c e => by
      have h1 : s ∈ g.S.vec w.j := by rw [mem_vec]; have := hok.S_in; omega
      have h2 : s2 ∈ g.S.vec w.j := by rw [mem_vec]; have := hok.S_in; omega
      have := hinj s h1 s2 h2 e
      omega)
    (le_refl _)
  have hmf : ∀ i, ((!(GB_MIJ_BINARY_SEARCH g.M g.cast_M (GB_lookup g.M w.j).1
      (GB_lookup g.M w.j).2 i)) = true) ↔ g.mask i w.j = false := by
    intro i
    unfold GB_subassign_args.mask
    simp
  refine ⟨?_, ?_⟩
  · intro q hq
    exact ma q (fun s a b c => hq s a b ((hmf _).1 c))
  · intro s hs1 hs2 hm
    have hsv : s ∈ g.S.vec w.j := by rw [mem_vec]; have := hok.S_in; omega
    unfold slotTarget
    cases hg : g.A.get (g.S.i s) w.j with
    | none =>
      have hno := (get_eq_none g.A (g.S.i s) w.j hnn).1 hg
      have := mb s hs1 hs2 ((hmf _).2 hm) (fun a a1 a2 => hno a (by
        rw [mem_vec]; have := hok.A_in; omega))
      show ((phase1_merge g _ _ _ _ _ _ _ st 0).1.Ci (g.S.x s),
        (phase1_merge g _ _ _ _ _ _ _ st 0).1.Cx (g.S.x s)) = _
      rw [this.1, this.2]
    | some v =>
      obtain ⟨a, ha, h1, _, h3⟩ := get_eq_some g.A (g.S.i s) w.j v hg
      have hin := (hok.aligned a ha s hsv h1).2 ⟨hs1, hs2⟩
      have := mc s a hs1 hs2 hin.1 hin.2 ((hmf _).2 hm) h1
      show ((phase1_merge g _ _ _ _ _ _ _ st 0).1.Ci (g.S.x s),
        (phase1_merge g _ _ _ _ _ _ _ st 0).1.Cx (g.S.x s)) = _
      rw [this.1, this.2, h3]


theorem valid_S_sorted {α γ μ : Type} (C : GB_Matrix γ) (g : GB_subassign_args α γ μ)
    (hv : GB_subassign_valid C g) (j : Nat) (hj : j < g.nJ) (s : Nat) (hs : s ∈ g.S.vec j) :
    List.Pairwise (fun p q => g.S.i p < g.S.i q) (g.S.vec j) := by
  obtain ⟨w, hw, hwj, _, _⟩ := hv.cover_S j hj s hs
  have := (hv.work_ok w hw).2.S_sorted
  rw [hwj] at this
  exact this

theorem valid_A_sorted {α γ μ : Type} (C : GB_Matrix γ) (g : GB_subassign_args α γ μ)
    (hv : GB_subassign_valid C g) (j : Nat) (hj : j < g.nJ) (a : Nat) (ha : a ∈ g.A.vec j) :
    List.Pairwise (fun p q => g.A.i p < g.A.i q) (g.A.vec j) := by
  obtain ⟨w, hw, hwj, _, _⟩ := hv.cover_A j hj a ha
  have := (hv.work_ok w hw).2.A_sorted
  rw [hwj] at this
  exact this

/-- The index list `I` maps distinct rows of the submatrix to distinct rows of `C`. -/
theorem valid_iC_inj {α γ μ : Type} (C : GB_Matrix γ) (g : GB_subassign_args α γ μ)
    (hv : GB_subassign_valid C g) (x y : Int) (hx : 0 ≤ x ∧ x < g.nI) (hy : 0 ≤ y ∧ y < g.nI)
    (he : g.iC x = g.iC y) : x = y := by
  have ex : x = ((x.toNat : Nat) : Int) := (Int.toNat_of_nonneg hx.1).symm
  have ey : y = ((y.toNat : Nat) : Int) := (Int.toNat_of_nonneg hy.1).symm
  have hxn : x.toNat < g.nI := by omega
  have hyn : y.toNat < g.nI := by omega
  rw [ex, ey] at he
  have := hv.I_inj x.toNat hxn y.toNat hyn he
  omega

/-- Two entries of `S` that point to the same slot of `C` are the same entry. -/
theorem valid_S_inj {α γ μ : Type} (C : GB_Matrix γ) (g : GB_subassign_args α γ μ)
    (hv : GB_subassign_valid C g) (j : Nat) (hj : j < g.nJ) (s : Nat) (hs : s ∈ g.S.vec j)
    (j2 : Nat) (hj2 : j2 < g.nJ) (s2 : Nat) (hs2 : s2 ∈ g.S.vec j2)
    (he : g.S.x s = g.S.x s2) : j = j2 ∧ s = s2 := by
  have h1 := hv.S_sound j hj s hs
  have h2 := hv.S_sound j2 hj2 s2 hs2
  rw [← he] at h2
  have hjj : j = j2 := hv.C_cols j hj j2 hj2 _ h1.1 h2.1
  subst hjj
  refine ⟨rfl, ?_⟩
  have hi : g.S.i s = g.S.i s2 :=
    valid_iC_inj C g hv _ _ (hv.S_range j hj s hs) (hv.S_range j hj s2 hs2)
      (h1.2.symm.trans h2.2)
  exact vec_index_inj g.S j (valid_S_sorted C g hv j hj s hs) s s2 hs hs2 hi

theorem work_S_mem {α γ μ : Type} (g : GB_subassign_args α γ μ) (w : GB_vector_work)
    (hok : GB_work_ok g w) (s : Nat) (h1 : w.pS ≤ s) (h2 : s < w.pS_end) : s ∈ g.S.vec w.j := by
  rw [mem_vec]
  have := hok.S_in
  omega

theorem work_A_mem {α γ μ : Type} (g : GB_subassign_args α γ μ) (w : GB_vector_work)
    (hok : GB_work_ok g w) (a : Nat) (h1 : w.pA ≤ a) (h2 : a < w.pA_end) : a ∈ g.A.vec w.j := by
  rw [mem_vec]
  have := hok.A_in
  omega

/-- Phase 1 over a list of pieces of work, slot by slot: a slot that no entry
with a false mask points to is left alone; the slot of an entry of `S` with a
false mask, in one of the pieces, gets its target. -/
theorem phase1_run_spec {α γ μ : Type} (C : GB_Matrix γ) (g : GB_subassign_args α γ μ)
    (hv : GB_subassign_valid C g) (Ws : List GB_vector_work) :
    (∀ w, w ∈ Ws → w ∈ g.work) → ∀ (st : GB_C_state γ),
      (∀ q, (∀ w, w ∈ Ws → ∀ s, w.pS ≤ s → s < w.pS_end →
          g.mask (g.S.i s) w.j = false → g.S.x s ≠ q) →
        (Ws.foldl (fun st w => phase1_state g w st) st).Ci q = st.Ci q ∧
        (Ws.foldl (fun st w => phase1_state g w st) st).Cx q = st.Cx q) ∧
      (∀ w, w ∈ Ws → ∀ s, w.pS ≤ s → s < w.pS_end → g.mask (g.S.i s) w.j = false →
        ((Ws.foldl (fun st w => phase1_state g w st) st).Ci (g.S.x s),
         (Ws.foldl (fun st w => phase1_state g w st) st).Cx (g.S.x s)) =
          slotTarget g w.j s (st.Ci (g.S.x s), st.Cx (g.S.x s))) := by
  induction Ws with
  | nil =>
    intro _ st
    exact ⟨fun q _ => ⟨rfl, rfl⟩, fun w hw => absurd hw (List.not_mem_nil _)⟩
  | cons w Ws ih =>
    intro hsub st
    have hwk : w ∈ g.work := hsub w (List.mem_cons_self _ _)
    have hok := (hv.work_ok w hwk).2
    have hwj := (hv.work_ok w hwk).1
    obtain ⟨ha, hb⟩ := phase1_state_spec g w hok
      (fun a ha => (hv.A_range w.j hwj a ha).1)
      (fun s hs s2 hs2 he => (valid_S_inj C g hv w.j hwj s hs w.j hwj s2 hs2 he).2) st
    obtain ⟨iha, ihb⟩ := ih (fun w2 h2 => hsub w2 (List.mem_cons_of_mem _ h2))
      (phase1_state g w st)
    simp only [List.foldl_cons]
    refine ⟨?_, ?_⟩
    · intro q hq
      have e1 := iha q (fun w2 h2 => hq w2 (List.mem_cons_of_mem _ h2))
      have e2 := ha q (hq w (List.mem_cons_self _ _))
      exact ⟨e1.1.trans e2.1, e1.2.trans e2.2⟩
    · intro w0 hw0 s hs1 hs2 hm
      have hw0k : w0 ∈ g.work := hsub w0 hw0
      have hok0 := (hv.work_ok w0 hw0k).2
      have hw0j := (hv.work_ok w0 hw0k).1
      have hsv : s ∈ g.S.vec w0.j := work_S_mem g w0 hok0 s hs1 hs2
      -- what the head piece makes of the slot
      have hX : ((phase1_state g w st).Ci (g.S.x s), (phase1_state g w st).Cx (g.S.x s)) =
            (st.Ci (g.S.x s), st.Cx (g.S.x s)) ∨
          ((phase1_state g w st).Ci (g.S.x s), (phase1_state g w st).Cx (g.S.x s)) =
            slotTarget g w0.j s (st.Ci (g.S.x s), st.Cx (g.S.x s)) := by
        by_cases hh : ∃ s2, w.pS ≤ s2 ∧ s2 < w.pS_end ∧ g.mask (g.S.i s2) w.j = false ∧
            g.S.x s2 = g.S.x s
        · obtain ⟨s2, a1, a2, a3, a4⟩ := hh
          have := valid_S_inj C g hv w.j hwj s2 (work_S_mem g w hok s2 a1 a2) w0.j hw0j s hsv a4
          have e := hb s2 a1 a2 a3
          rw [this.1, this.2] at e
          exact Or.inr e
        · have e := ha (g.S.x s) (fun s2 a1 a2 a3 a4 => hh ⟨s2, a1, a2, a3, a4⟩)
          exact Or.inl (by rw [e.1, e.2])
      by_cases hr : ∃ w2, w2 ∈ Ws ∧ ∃ s2, w2.pS ≤ s2 ∧ s2 < w2.pS_end ∧
          g.mask (g.S.i s2) w2.j = false ∧ g.S.x s2 = g.S.x s
      · obtain ⟨w2, hw2, s2, a1, a2, a3, a4⟩ := hr
        have hw2k : w2 ∈ g.work := hsub w2 (List.mem_cons_of_mem _ hw2)
        have := valid_S_inj C g hv w2.j (hv.work_ok w2 hw2k).1 s2
          (work_S_mem g w2 (hv.work_ok w2 hw2k).2 s2 a1 a2) w0.j hw0j s hsv a4
        have e := ihb w2 hw2 s2 a1 a2 a3
        rw [this.1, this.2] at e
        rw [e]
        rcases hX with h | h
        · rw [h]
        · rw [h, slotTarget_idem]
      · have e := iha (g.S.x s) (fun w2 h2 s2 a1 a2 a3 a4 => hr ⟨w2, h2, s2, a1, a2, a3, a4⟩)
        rw [e.1, e.2]
        rcases List.mem_cons.1 hw0 with h | h
        · subst h
          exact hb s hs1 hs2 hm
        · exact absurd ⟨w0, h, s, hs1, hs2, hm, rfl⟩ hr


theorem mem_insertPositions {α γ μ : Type} (g : GB_subassign_args α γ μ) (w : GB_vector_work)
    (a : Nat) :
    a ∈ insertPositions g w ↔ (w.pA ≤ a ∧ a < w.pA_end) ∧ g.mask (g.A.i a) w.j = false ∧
      ∀ s, s ∈ g.S.vec w.j → g.S.i s ≠ g.A.i a := by
  unfold insertPositions
  rw [List.mem_filter, List.mem_range'_1]
  simp only [Bool.and_eq_true, Bool.not_eq_true', List.all_eq_true, bne_iff_ne, ne_eq]
  constructor
  · rintro ⟨h1, h2, h3⟩
    exact ⟨⟨h1.1, by omega⟩, h2, h3⟩
  · rintro ⟨h1, h2, h3⟩
    exact ⟨⟨h1.1, by omega⟩, h2, h3⟩

/-- In a well-formed piece of work, an entry of `A` has no entry of `S` at its
index in the piece exactly when it has none in all of `S(:,j)`. -/
theorem newEntries_eq_insertPositions {α γ μ : Type} (g : GB_subassign_args α γ μ)
    (w : GB_vector_work) (hok : GB_work_ok g w) :
    newEntries g (GB_lookup g.M w.j).1 (GB_lookup g.M w.j).2 w.pS w.pS_end w.pA w.pA_end =
      insertPositions g w := by
  unfold newEntries insertPositions
  apply List.filter_congr
  intro a ha
  rw [List.mem_range'_1] at ha
  have hav : a ∈ g.A.vec w.j := work_A_mem g w hok a ha.1 (by omega)
  have hall : (List.range' w.pS (w.pS_end - w.pS)).all (fun s => g.S.i s != g.A.i a) =
      (g.S.vec w.j).all (fun s => g.S.i s != g.A.i a) := by
    rw [Bool.eq_iff_iff, List.all_eq_true, List.all_eq_true]
    constructor
    · intro h s hs
      by_cases he : g.A.i a = g.S.i s
      · have hin := (hok.aligned a hav s hs he).1 ⟨ha.1, by omega⟩
        have := h s (by rw [List.mem_range'_1]; omega)
        simp [he] at this
      · simp only [bne_iff_ne, ne_eq]
        exact fun e => he e.symm
    · intro h s hs
      rw [List.mem_range'_1] at hs
      exact h s (work_S_mem g w hok s hs.1 (by omega))
  rw [hall]
  rfl

theorem phase1_vector_snd {α γ μ : Type} (g : GB_subassign_args α γ μ) (w : GB_vector_work)
    (hok : GB_work_ok g w) (s : GB_C_state γ × Int) :
    (phase1_vector g w s).2 = s.2 + ((insertPositions g w).length : Int) := by
  have hS := vec_sorted g.S w.j hok.S_sorted
  have hA := vec_sorted g.A w.j hok.A_sorted
  unfold phase1_vector
  rw [phase1_merge_count g _ _ _ _ _ _ _ _ _
    (fun p q a b c => hS p q (by have := hok.S_in; omega) b (by have := hok.S_in; omega))
    (fun p q a b c => hA p q (by have := hok.A_in; omega) b (by have := hok.A_in; omega))
    (le_refl _), newEntries_eq_insertPositions g w hok]

theorem phase2_vector_eq {α γ μ : Type} (g : GB_subassign_args α γ μ) (w : GB_vector_work)
    (hok : GB_work_ok g w) (pd : List (Int × Int × α)) :
    phase2_vector g w pd = pd ++ GB_vector_tuples g w := by
  have hS := vec_sorted g.S w.j hok.S_sorted
  have hA := vec_sorted g.A w.j hok.A_sorted
  unfold phase2_vector
  rw [phase2_merge_list g _ _ _ _ _ _ _ _ _
    (fun p q a b c => hS p q (by have := hok.S_in; omega) b (by have := hok.S_in; omega))
    (fun p q a b c => hA p q (by have := hok.A_in; omega) b (by have := hok.A_in; omega))
    (le_refl _), newEntries_eq_insertPositions g w hok]
  rfl

theorem phase1_foldl_snd {α γ μ : Type} (g : GB_subassign_args α γ μ)
    (Ws : List GB_vector_work) : (∀ w, w ∈ Ws → GB_work_ok g w) →
    ∀ (s : GB_C_state γ × Int),
      (Ws.foldl (fun s w => phase1_vector g w s) s).2 =
        s.2 + ((Ws.flatMap (insertPositions g)).length : Int) := by
  induction Ws with
  | nil => intro _ s; simp
  | cons w Ws ih =>
    intro hok s
    simp only [List.foldl_cons, List.flatMap_cons, List.length_append]
    rw [ih (fun w2 h2 => hok w2 (List.mem_cons_of_mem _ h2)),
      phase1_vector_snd g w (hok w (List.mem_cons_self _ _))]
    push_cast
    omega

theorem phase2_foldl_eq {α γ μ : Type} (g : GB_subassign_args α γ μ)
    (Ws : List GB_vector_work) : (∀ w, w ∈ Ws → GB_work_ok g w) →
    ∀ (pd : List (Int × Int × α)),
      Ws.foldl (fun pd w => phase2_vector g w pd) pd = pd ++ Ws.flatMap (GB_vector_tuples g) := by
  induction Ws with
  | nil => intro _ pd; simp
  | cons w Ws ih =>
    intro hok pd
    simp only [List.foldl_cons, List.flatMap_cons]
    rw [ih (fun w2 h2 => hok w2 (List.mem_cons_of_mem _ h2)),
      phase2_vector_eq g w (hok w (List.mem_cons_self _ _)), List.append_assoc]

/-- The pending tuples of phase 2: those of the pieces of work, in order. -/
theorem phase2_eq {α γ μ : Type} (g : GB_subassign_args α γ μ) (ts : List GB_task)
    (hok : ∀ w, w ∈ ts.flatMap (GB_task_work g) → GB_work_ok g w) :
    phase2 g ts = (ts.flatMap (GB_task_work g)).flatMap (GB_vector_tuples g) := by
  unfold phase2
  rw [List.flatMap_assoc]
  apply List.flatMap_congr
  intro t ht
  unfold phase2_task
  rw [phase2_foldl_eq g _ (fun w hw => hok w (List.mem_flatMap.2 ⟨t, ht, hw⟩))]
  rfl

/-- The two phases walk the merge alike: phase 2 inserts as many tuples as
phase 1 counts, for any matrices. -/
theorem phase_counts_agree {α γ μ : Type} (g : GB_subassign_args α γ μ)
    (pM_start pM_end pS_end pA_end : Nat) (jC : Int) (fuel : Nat) :
    ∀ (pS pA : Nat) (st : GB_C_state γ) (tp : Int) (pd : List (Int × Int × α)),
      ((phase2_merge g pM_start pM_end pS_end pA_end jC fuel pS pA pd).length : Int) - pd.length =
        (phase1_merge g pM_start pM_end pS_end pA_end fuel pS pA st tp).2 - tp := by
  have hexit : ∀ (fuel pS pA : Nat) (st : GB_C_state γ) (tp : Int) (pd : List (Int × Int × α)),
      ¬ (pS < pS_end ∧ pA < pA_end) →
      ((phase2_merge g pM_start pM_end pS_end pA_end jC fuel pS pA pd).length : Int) - pd.length =
        (phase1_merge g pM_start pM_end pS_end pA_end fuel pS pA st tp).2 - tp := by
    intro fuel pS pA st tp pd h
    rw [phase2_merge_exit g _ _ _ _ _ _ _ _ _ h, phase1_merge_exit g _ _ _ _ _ _ _ _ _ h,
      phase2_A_tail_list, phase1_A_tail_count]
    simp only [List.length_append, List.length_map]
    push_cast
    omega
  induction fuel with
  | zero =>
    intro pS pA st tp pd
    by_cases h : pS < pS_end ∧ pA < pA_end
    · have e1 : phase1_merge g pM_start pM_end pS_end pA_end 0 pS pA st tp =
          (phase1_S_tail g pM_start pM_end (pS_end - pS) pS st,
           phase1_A_tail g pM_start pM_end (pA_end - pA) pA tp) := rfl
      have e2 : phase2_merge g pM_start pM_end pS_end pA_end jC 0 pS pA pd =
          phase2_A_tail g pM_start pM_end jC (pA_end - pA) pA pd := rfl
      rw [e1, e2, phase2_A_tail_list, phase1_A_tail_count]
      simp only [List.length_append, List.length_map]
      push_cast
      omega
    · exact hexit 0 pS pA st tp pd h
  | succ fuel ih =>
    intro pS pA st tp pd
    by_cases h : pS < pS_end ∧ pA < pA_end
    · by_cases h1 : g.S.i pS < g.A.i pA
      · rw [phase2_merge_lt g _ _ _ _ _ _ _ _ _ h h1, phase1_merge_lt g _ _ _ _ _ _ _ _ _ h h1]
        exact ih _ _ _ _ _
      · by_cases h2 : g.A.i pA < g.S.i pS
        · rw [phase2_merge_gt g _ _ _ _ _ _ _ _ _ h h1 h2,
            phase1_merge_gt g _ _ _ _ _ _ _ _ _ h h1 h2]
          by_cases hm : (!(GB_MIJ_BINARY_SEARCH g.M g.cast_M pM_start pM_end (g.A.i pA))) = true
          · simp only [hm, if_true]
            have := ih pS (pA + 1) st (tp + 1)
              (GB_PENDING_INSERT pd (GB_ijlist g.I (g.A.i pA) g.Ikind g.Icolon) jC (g.A.x pA))
            simp only [GB_PENDING_INSERT, List.length_append, List.length_singleton] at this ⊢
            push_cast at this
            omega
          · simp only [hm, if_false]
            exact ih _ _ _ _ _
        · rw [phase2_merge_eq g _ _ _ _ _ _ _ _ _ h h1 h2,
            phase1_merge_eq g _ _ _ _ _ _ _ _ _ h h1 h2]
          exact ih _ _ _ _ _
    · exact hexit (fuel + 1) pS pA st tp pd h

theorem phase_counts_agree_foldl {α γ μ : Type} (g : GB_subassign_args α γ μ)
    (Ws : List GB_vector_work) :
    ∀ (s : GB_C_state γ × Int) (pd : List (Int × Int × α)),
      ((Ws.foldl (fun pd w => phase2_vector g w pd) pd).length : Int) - pd.length =
        (Ws.foldl (fun s w => phase1_vector g w s) s).2 - s.2 := by
  induction Ws with
  | nil => intro s pd; simp
  | cons w Ws ih =>
    intro s pd
    simp only [List.foldl_cons]
    have h1 := ih (phase1_vector g w s) (phase2_vector g w pd)
    have h2 : ((phase2_vector g w pd).length : Int) - pd.length = (phase1_vector g w s).2 - s.2 :=
      phase_counts_agree g _ _ _ _ _ _ _ _ _ _ _
    omega

/-- C6: for every task and every input (`A`, `S`, `M`, and any state of `C`),
the number of GB_PENDING_INSERT calls (pending tuples) of the task in phase 2
equals the `task_pending` that the task counted in phase 1; and when the
pieces of work of the task are well formed (sorted vectors, aligned slices)
both equal the number of positions of the task with `A(i,j)` present, `S(i,j)`
absent and `M(i,j)` false. -/
theorem GB_subassign_method13b_pending_count {α γ μ : Type} (g : GB_subassign_args α γ μ)
    (t : GB_task) (st : GB_C_state γ) :
    ((phase2_task g t).length : Int) = (phase1_task g t st).2 ∧
    ((∀ w, w ∈ GB_task_work g t → GB_work_ok g w) →
      (phase1_task g t st).2 =
        (((GB_task_work g t).flatMap (insertPositions g)).length : Int)) := by
  refine ⟨?_, ?_⟩
  · have := phase_counts_agree_foldl g (GB_task_work g t) (st, 0) []
    unfold phase1_task phase2_task
    simp only [List.length_nil] at this
    push_cast at this
    omega
  · intro hok
    unfold phase1_task
    rw [phase1_foldl_snd g _ hok]
    simp

theorem method13b_vec {α γ μ : Type} (C : GB_Matrix γ) (g : GB_subassign_args α γ μ)
    (c : Nat) : (GB_subassign_method13b C g).1.vec c = C.vec c := rfl

theorem valid_work_ok {α γ μ : Type} (C : GB_Matrix γ) (g : GB_subassign_args α γ μ)
    (hv : GB_subassign_valid C g) :
    ∀ w, w ∈ g.TaskList.flatMap (GB_task_work g) → GB_work_ok g w :=
  fun w hw => (hv.work_ok w hw).2

/-- The slots of `C` after the method: a slot that no entry of `S` with a false
mask points to is as before, and the slot of an entry of `S` with a false mask
has its target. -/
theorem method13b_slots {α γ μ : Type} (C : GB_Matrix γ) (g : GB_subassign_args α γ μ)
    (hv : GB_subassign_valid C g) :
    (∀ q, (∀ w, w ∈ g.work → ∀ s, w.pS ≤ s → s < w.pS_end →
        g.mask (g.S.i s) w.j = false → g.S.x s ≠ q) →
      (GB_subassign_method13b C g).1.i q = C.i q ∧
      (GB_subassign_method13b C g).1.x q = C.x q) ∧
    (∀ w, w ∈ g.work → ∀ s, w.pS ≤ s → s < w.pS_end → g.mask (g.S.i s) w.j = false →
      ((GB_subassign_method13b C g).1.i (g.S.x s), (GB_subassign_method13b C g).1.x (g.S.x s)) =
        slotTarget g w.j s (C.i (g.S.x s), C.x (g.S.x s))) := by
  have key := phase1_run_spec C g hv g.work (fun w hw => hw)
    { Ci := C.i, Cx := C.x, nzombies := C.nzombies }
  have e : (phase1 g g.TaskList { Ci := C.i, Cx := C.x, nzombies := C.nzombies }).1 =
      g.work.foldl (fun st w => phase1_state g w st)
        { Ci := C.i, Cx := C.x, nzombies := C.nzombies } := phase1_fst g g.TaskList _
  unfold GB_subassign_method13b
  simp only []
  rw [e]
  exact key

/-- The un-flipped index of every slot of `C` is kept by the method. -/
theorem method13b_unflip {α γ μ : Type} (C : GB_Matrix γ) (g : GB_subassign_args α γ μ)
    (hv : GB_subassign_valid C g) (q : Nat) :
    GB_UNFLIP ((GB_subassign_method13b C g).1.i q) = GB_UNFLIP (C.i q) := by
  obtain ⟨ha, hb⟩ := method13b_slots C g hv
  by_cases ht : ∃ w, w ∈ g.work ∧ ∃ s, w.pS ≤ s ∧ s < w.pS_end ∧
      g.mask (g.S.i s) w.j = false ∧ g.S.x s = q
  · obtain ⟨w, hw, s, a1, a2, a3, a4⟩ := ht
    have := hb w hw s a1 a2 a3
    rw [a4] at this
    have e1 : (GB_subassign_method13b C g).1.i q = (slotTarget g w.j s (C.i q, C.x q)).1 := by
      rw [← this]
    rw [e1, slotTarget_unflip]
  · have := ha q (fun w hw s a1 a2 a3 a4 => ht ⟨w, hw, s, a1, a2, a3, a4⟩)
    rw [this.1]

/-- A pending tuple of the method comes from an entry of `A` with a false mask
and no entry of `S` at its position. -/
theorem method13b_tuple {α γ μ : Type} (C : GB_Matrix γ) (g : GB_subassign_args α γ μ)
    (hv : GB_subassign_valid C g) (t : Int × Int × α)
    (ht : t ∈ (GB_subassign_method13b C g).2) :
    ∃ w, w ∈ g.work ∧ ∃ a, a ∈ insertPositions g w ∧
      t = (g.iC (g.A.i a), g.jC w.j, g.A.x a) := by
  have e : (GB_subassign_method13b C g).2 = g.work.flatMap (GB_vector_tuples g) :=
    phase2_eq g g.TaskList (valid_work_ok C g hv)
  rw [e, List.mem_flatMap] at ht
  obtain ⟨w, hw, htw⟩ := ht
  unfold GB_vector_tuples at htw
  rw [List.mem_map] at htw
  obtain ⟨a, ha, rfl⟩ := htw
  exact ⟨w, hw, a, ha, rfl⟩

/-- A pending tuple at the position `(i,j)` of the submatrix: the mask is false
there, `A(i,j)` is present and is the value of the tuple, `S(i,j)` is absent. -/
theorem method13b_tuple_at {α γ μ : Type} (C : GB_Matrix γ) (g : GB_subassign_args α γ μ)
    (hv : GB_subassign_valid C g) (i j : Nat) (hi : i < g.nI) (hj : j < g.nJ)
    (t : Int × Int × α) (ht : t ∈ (GB_subassign_method13b C g).2)
    (h1 : t.1 = g.iC (i : Int)) (h2 : t.2.1 = g.jC j) :
    g.mask (i : Int) j = false ∧ g.A.get (i : Int) j = some t.2.2 ∧
      ∀ s, s ∈ g.S.vec j → g.S.i s ≠ (i : Int) := by
  obtain ⟨w, hw, a, ha, rfl⟩ := method13b_tuple C g hv t ht
  rw [mem_insertPositions] at ha
  obtain ⟨hsl, hm, hno⟩ := ha
  have hwj := (hv.work_ok w hw).1
  have hok := (hv.work_ok w hw).2
  have hjj : w.j = j := hv.J_inj w.j hwj j hj h2
  have hav : a ∈ g.A.vec w.j := work_A_mem g w hok a hsl.1 hsl.2
  have hii : g.A.i a = (i : Int) :=
    valid_iC_inj C g hv _ _ (hv.A_range w.j hwj a hav) ⟨by omega, by omega⟩ h1
  rw [hjj] at hm hno hav
  rw [hii] at hm hno
  refine ⟨hm, ?_, hno⟩
  have hsorted := valid_A_sorted C g hv j hj a hav
  rw [get_of_unique g.A (i : Int) j a hav
    (fun p hp _ hpi => vec_index_inj g.A j hsorted p a hp hav (hpi.trans hii.symm))]
  have : 0 ≤ g.A.i a ∧ g.A.i a = (i : Int) := ⟨by omega, hii⟩
  rw [if_pos this]

/-- An entry `A(i,j)` with a false mask and no entry `S(i,j)` gets a pending tuple. -/
theorem method13b_tuple_exists {α γ μ : Type} (C : GB_Matrix γ) (g : GB_subassign_args α γ μ)
    (hv : GB_subassign_valid C g) (i j : Nat) (hj : j < g.nJ)
    (hm : g.mask (i : Int) j = false) (a : Nat) (ha : a ∈ g.A.vec j) (hai : g.A.i a = (i : Int))
    (hno : ∀ s, s ∈ g.S.vec j → g.S.i s ≠ (i : Int)) :
    (g.iC (i : Int), g.jC j, g.A.x a) ∈ (GB_subassign_method13b C g).2 := by
  have e : (GB_subassign_method13b C g).2 = g.work.flatMap (GB_vector_tuples g) :=
    phase2_eq g g.TaskList (valid_work_ok C g hv)
  obtain ⟨w, hw, hwj, a1, a2⟩ := hv.cover_A j hj a ha
  rw [e, List.mem_flatMap]
  refine ⟨w, hw, ?_⟩
  unfold GB_vector_tuples
  rw [List.mem_map]
  refine ⟨a, ?_, by rw [hai, hwj]⟩
  rw [mem_insertPositions, hwj, hai]
  exact ⟨⟨a1, a2⟩, hm, hno⟩

theorem get_none_of_no_slot {α : Type} (A : GB_Matrix α) (r : Int) (c : Nat)
    (h : ∀ p, p ∈ A.vec c → GB_UNFLIP (A.i p) ≠ r) : A.get r c = none := by
  unfold GB_Matrix.get
  rw [Option.map_eq_none', List.find?_eq_none]
  intro p hp hc
  simp only [Bool.and_eq_true, beq_iff_eq, GB_IS_NOT_ZOMBIE, decide_eq_true_eq] at hc
  apply h p hp
  unfold GB_UNFLIP
  rw [if_neg (by omega)]
  exact hc.2

theorem unflip_of_live (ci r : Int) (h1 : 0 ≤ ci) (h2 : ci = r) : GB_UNFLIP ci = r := by
  unfold GB_UNFLIP
  rw [if_neg (by omega)]
  exact h2

/-- C1: GB_subassign_method13b computes `C(I,J)<!M> = A`.  For arguments that
meet the conditions of the method (`I` and `J` without duplicates, `S` the
pattern of `C(I,J)`, a task list that slices the work) and every position
`(i,j)` of the submatrix, after the pending tuples are assembled and the
zombies are dropped: if `M(i,j)` is true, `C(I[i],J[j])` is as before; if it is
false, `C(I[i],J[j])` is `A(i,j)` typecast when `A(i,j)` is present and is
absent when `A(i,j)` is absent. -/
theorem GB_subassign_method13b_correct {α γ μ : Type} (C : GB_Matrix γ)
    (g : GB_subassign_args α γ μ) (hv : GB_subassign_valid C g) (i j : Nat)
    (hi : i < g.nI) (hj : j < g.nJ) :
    GB_wait_entry (GB_subassign_method13b C g).1 (GB_subassign_method13b C g).2
        g.cast_A_to_C (g.iC (i : Int)) (g.jC j) =
      if g.mask (i : Int) j = true then C.get (g.iC (i : Int)) (g.jC j).toNat
      else (g.A.get (i : Int) j).map g.cast_A_to_C := by
  have hr : 0 ≤ g.iC (i : Int) := hv.I_nonneg i hi
  obtain ⟨hsa, hsb⟩ := method13b_slots C g hv
  unfold GB_wait_entry
  cases hl : (List.filter (fun t => t.1 == g.iC (i : Int) && t.2.1 == g.jC j)
      (GB_subassign_method13b C g).2).getLast? with
  | some t =>
    -- a pending tuple at the position
    have hmem : t ∈ List.filter (fun t => t.1 == g.iC (i : Int) && t.2.1 == g.jC j)
        (GB_subassign_method13b C g).2 := List.mem_of_mem_getLast? hl
    rw [List.mem_filter] at hmem
    simp only [Bool.and_eq_true, beq_iff_eq] at hmem
    obtain ⟨hm, hg, _⟩ := method13b_tuple_at C g hv i j hi hj t hmem.1 hmem.2.1 hmem.2.2
    simp only [hm, Bool.false_eq_true, if_false, hg, Option.map_some']
  | none =>
    -- no pending tuple at the position
    rw [List.getLast?_eq_none_iff, List.filter_eq_nil_iff] at hl
    have hnot : ∀ t, t ∈ (GB_subassign_method13b C g).2 →
        ¬ (t.1 = g.iC (i : Int) ∧ t.2.1 = g.jC j) := by
      intro t ht hc
      have := hl t ht
      simp [hc.1, hc.2] at this
    simp only []
    by_cases hS : ∃ s, s ∈ g.S.vec j ∧ g.S.i s = (i : Int)
    · -- `S(i,j)` is present: one slot of `C` stands for the position
      obtain ⟨s, hs, hsi⟩ := hS
      obtain ⟨hq, hqi⟩ := hv.S_sound j hj s hs
      rw [hsi] at hqi
      have huniq : ∀ p, p ∈ C.vec (g.jC j).toNat → GB_UNFLIP (C.i p) = g.iC (i : Int) →
          p = g.S.x s := fun p hp he => hv.C_nodup j hj p hp _ hq (he.trans hqi.symm)
      rw [get_of_unique (GB_subassign_method13b C g).1 (g.iC (i : Int)) (g.jC j).toNat (g.S.x s)
        hq (fun p hp h0 he => huniq p hp (by
          rw [← method13b_unflip C g hv p]; exact unflip_of_live _ _ h0 he))]
      by_cases hm : g.mask (i : Int) j = true
      · -- the mask is true: the slot is as before
        have hun := hsa (g.S.x s) (fun w hw s2 a1 a2 a3 a4 => by
          have hok := (hv.work_ok w hw).2
          have := valid_S_inj C g hv w.j (hv.work_ok w hw).1 s2 (work_S_mem g w hok s2 a1 a2)
            j hj s hs a4
          rw [this.1, this.2, hsi, hm] at a3
          exact absurd a3 (by simp))
        rw [if_pos hm, hun.1, hun.2,
          get_of_unique C (g.iC (i : Int)) (g.jC j).toNat (g.S.x s) hq
            (fun p hp h0 he => huniq p hp (unflip_of_live _ _ h0 he))]
      · -- the mask is false: the slot has its target
        rw [if_neg hm]
        have hmf : g.mask (i : Int) j = false := by simpa using hm
        obtain ⟨w, hw, hwj, a1, a2⟩ := hv.cover_S j hj s hs
        have htg := hsb w hw s a1 a2 (by rw [hwj, hsi]; exact hmf)
        rw [hwj] at htg
        have e1 : (GB_subassign_method13b C g).1.i (g.S.x s) =
            (slotTarget g j s (C.i (g.S.x s), C.x (g.S.x s))).1 := by rw [← htg]
        have e2 : (GB_subassign_method13b C g).1.x (g.S.x s) =
            (slotTarget g j s (C.i (g.S.x s), C.x (g.S.x s))).2 := by rw [← htg]
        rw [e1, e2]
        unfold slotTarget
        rw [hsi]
        cases hg : g.A.get (i : Int) j with
        | none =>
          have := deletedIndex_neg (C.i (g.S.x s))
          simp only [Option.map_none']
          rw [if_neg (by omega)]
        | some v =>
          simp only [Option.map_some']
          rw [hqi, if_pos ⟨hr, rfl⟩]
    · -- `S(i,j)` is absent: no slot of `C` stands for the position
      have hnoS : ∀ s, s ∈ g.S.vec j → g.S.i s ≠ (i : Int) := fun s hs he => hS ⟨s, hs, he⟩
      have hnoC : ∀ p, p ∈ C.vec (g.jC j).toNat → GB_UNFLIP (C.i p) ≠ g.iC (i : Int) := by
        intro p hp he
        obtain ⟨s, hs, hsi, _⟩ := hv.S_complete j hj i hi p hp he
        exact hnoS s hs hsi
      rw [get_none_of_no_slot (GB_subassign_method13b C g).1 (g.iC (i : Int)) (g.jC j).toNat
        (fun p hp => by rw [method13b_unflip C g hv p]; exact hnoC p hp)]
      by_cases hm : g.mask (i : Int) j = true
      · rw [if_pos hm, get_none_of_no_slot C _ _ hnoC]
      · rw [if_neg hm]
        have hmf : g.mask (i : Int) j = false := by simpa using hm
        cases hg : g.A.get (i : Int) j with
        | none => rfl
        | some v =>
          obtain ⟨a, ha, hai, _, _⟩ := get_eq_some g.A (i : Int) j v hg
          have := method13b_tuple_exists C g hv i j hj hmf a ha hai hnoS
          exact absurd ⟨rfl, rfl⟩ (hnot _ this)


/-- C7: disjointness is maintained by GB_subassign_method13b.  For arguments
that meet the conditions of the method (`I` and `J` without duplicates, `S`
the pattern of `C(I,J)`), every pending tuple `(iC, jC, v)` that the method
appends targets a vector `jC = J [j]` of `C` none of whose slots, live or
zombie, before or after the method, has the un-flipped index `iC`; and no two
appended tuples share the same `(iC, jC)`. -/
theorem GB_subassign_method13b_disjoint {α γ μ : Type} (C : GB_Matrix γ)
    (g : GB_subassign_args α γ μ) (hv : GB_subassign_valid C g) :
    (∀ t, t ∈ (GB_subassign_method13b C g).2 →
      ∃ j, j < g.nJ ∧ t.2.1 = g.jC j ∧
        ∀ p, p ∈ C.vec (g.jC j).toNat →
          GB_UNFLIP (C.i p) ≠ t.1 ∧ GB_UNFLIP ((GB_subassign_method13b C g).1.i p) ≠ t.1) ∧
    ((GB_subassign_method13b C g).2.map (fun t => (t.1, t.2.1))).Nodup := by
  refine ⟨?_, ?_⟩
  · intro t ht
    obtain ⟨w, hw, a, ha, rfl⟩ := method13b_tuple C g hv t ht
    rw [mem_insertPositions] at ha
    obtain ⟨hsl, _, hno⟩ := ha
    have hwj := (hv.work_ok w hw).1
    have hok := (hv.work_ok w hw).2
    have hav : a ∈ g.A.vec w.j := work_A_mem g w hok a hsl.1 hsl.2
    have hr := hv.A_range w.j hwj a hav
    refine ⟨w.j, hwj, rfl, ?_⟩
    intro p hp
    have hne : GB_UNFLIP (C.i p) ≠ g.iC (g.A.i a) := by
      intro he
      have ei : g.A.i a = (((g.A.i a).toNat : Nat) : Int) := (Int.toNat_of_nonneg hr.1).symm
      rw [ei] at he
      obtain ⟨s, hs, hsi, _⟩ := hv.S_complete w.j hwj (g.A.i a).toNat (by omega) p hp he
      exact hno s hs (by rw [hsi, ← ei])
    exact ⟨hne, by rw [method13b_unflip C g hv p]; exact hne⟩
  · have e : (GB_subassign_method13b C g).2 = g.work.flatMap (GB_vector_tuples g) :=
      phase2_eq g g.TaskList (valid_work_ok C g hv)
    rw [e, List.map_flatMap, List.nodup_flatMap]
    refine ⟨?_, ?_⟩
    · intro w hw
      have hwj := (hv.work_ok w hw).1
      have hok := (hv.work_ok w hw).2
      unfold GB_vector_tuples
      rw [List.map_map]
      apply List.Nodup.map_on
      · intro a ha a2 ha2 he
        rw [mem_insertPositions] at ha ha2
        have hav : a ∈ g.A.vec w.j := work_A_mem g w hok a ha.1.1 ha.1.2
        have hav2 : a2 ∈ g.A.vec w.j := work_A_mem g w hok a2 ha2.1.1 ha2.1.2
        simp only [Function.comp_apply, Prod.mk.injEq] at he
        have hi := valid_iC_inj C g hv _ _ (hv.A_range w.j hwj a hav)
          (hv.A_range w.j hwj a2 hav2) he.1
        exact vec_index_inj g.A w.j hok.A_sorted a a2 hav hav2 hi
      · unfold insertPositions
        exact (List.nodup_range' _ _).filter _
    · refine hv.disjoint_A.imp_of_mem ?_
      intro w w2 hw hw2 hR
      show List.Disjoint _ _
      intro x hx hx2
      unfold GB_vector_tuples at hx hx2
      simp only [List.map_map, List.mem_map, Function.comp_apply] at hx hx2
      obtain ⟨a, ha, rfl⟩ := hx
      obtain ⟨a2, ha2, he⟩ := hx2
      rw [mem_insertPositions] at ha ha2
      simp only [Prod.mk.injEq] at he
      have hwj := (hv.work_ok w hw).1
      have hok := (hv.work_ok w hw).2
      have hwj2 := (hv.work_ok w2 hw2).1
      have hok2 := (hv.work_ok w2 hw2).2
      have hjj : w2.j = w.j := hv.J_inj w2.j hwj2 w.j hwj he.2
      have hav : a ∈ g.A.vec w.j := work_A_mem g w hok a ha.1.1 ha.1.2
      have hav2 : a2 ∈ g.A.vec w.j := by
        rw [← hjj]; exact work_A_mem g w2 hok2 a2 ha2.1.1 ha2.1.2
      have hi := valid_iC_inj C g hv _ _ (hv.A_range w.j hwj a2 hav2)
        (hv.A_range w.j hwj a hav) he.1
      have haa : a2 = a := vec_index_inj g.A w.j hok.A_sorted a2 a hav2 hav hi
      rw [haa] at ha2
      exact hR hjj.symm a hav ⟨ha.1.1, ha.1.2, ha2.1.1, ha2.1.2⟩

/-- C8: GB_subassign_method13b leaves the stored pattern of `C` in place.  For
arguments that meet the conditions of the method: `C->p`, `C->h` and `C->nvec`
are unchanged; the un-flipped index of every slot of `C->i` is the same before
and after; a slot outside `C(I,J)` keeps its index and its value; and so does
a slot that stands for a position `(i,j)` of the submatrix with `M(i,j)` true. -/
theorem GB_subassign_method13b_frame {α γ μ : Type} (C : GB_Matrix γ)
    (g : GB_subassign_args α γ μ) (hv : GB_subassign_valid C g) :
    (GB_subassign_method13b C g).1.p = C.p ∧
    (GB_subassign_method13b C g).1.h = C.h ∧
    (GB_subassign_method13b C g).1.nvec = C.nvec ∧
    (∀ q, GB_UNFLIP ((GB_subassign_method13b C g).1.i q) = GB_UNFLIP (C.i q)) ∧
    (∀ q, (¬ ∃ i j, i < g.nI ∧ j < g.nJ ∧ q ∈ C.vec (g.jC j).toNat ∧
        GB_UNFLIP (C.i q) = g.iC (i : Int)) →
      (GB_subassign_method13b C g).1.i q = C.i q ∧ (GB_subassign_method13b C g).1.x q = C.x q) ∧
    (∀ q i j, i < g.nI → j < g.nJ → q ∈ C.vec (g.jC j).toNat →
      GB_UNFLIP (C.i q) = g.iC (i : Int) → g.mask (i : Int) j = true →
      (GB_subassign_method13b C g).1.i q = C.i q ∧ (GB_subassign_method13b C g).1.x q = C.x q) := by
  obtain ⟨hsa, _⟩ := method13b_slots C g hv
  refine ⟨rfl, rfl, rfl, method13b_unflip C g hv, ?_, ?_⟩
  · intro q hout
    apply hsa q
    intro w hw s a1 a2 _ a4
    have hwj := (hv.work_ok w hw).1
    have hok := (hv.work_ok w hw).2
    have hsv := work_S_mem g w hok s a1 a2
    have hsd := hv.S_sound w.j hwj s hsv
    have hrg := hv.S_range w.j hwj s hsv
    apply hout
    refine ⟨(g.S.i s).toNat, w.j, by omega, hwj, by rw [← a4]; exact hsd.1, ?_⟩
    rw [← a4, hsd.2, Int.toNat_of_nonneg hrg.1]
  · intro q i j hi hj hq hqi hm
    apply hsa q
    intro w hw s a1 a2 a3 a4
    have hwj := (hv.work_ok w hw).1
    have hok := (hv.work_ok w hw).2
    have hsv := work_S_mem g w hok s a1 a2
    have hsd := hv.S_sound w.j hwj s hsv
    have hrg := hv.S_range w.j hwj s hsv
    rw [a4] at hsd
    have hjj : w.j = j := hv.C_cols w.j hwj j hj q hsd.1 hq
    have hii : g.S.i s = (i : Int) :=
      valid_iC_inj C g hv _ _ hrg ⟨by omega, by omega⟩ (hsd.2.symm.trans hqi)
    rw [hjj, hii, hm] at a3
    exact absurd a3 (by simp)


/-! ### Examples of the submatrix assignment -/

theorem GB_work_ok_of {α γ μ : Type} (g : GB_subassign_args α γ μ) (w : GB_vector_work)
    (h : ((GB_lookup g.A w.j).1 ≤ w.pA ∧ w.pA_end ≤ (GB_lookup g.A w.j).2) ∧
      ((GB_lookup g.S w.j).1 ≤ w.pS ∧ w.pS_end ≤ (GB_lookup g.S w.j).2) ∧
      List.Pairwise (fun p q => g.A.i p < g.A.i q) (g.A.vec w.j) ∧
      List.Pairwise (fun p q => g.S.i p < g.S.i q) (g.S.vec w.j) ∧
      (∀ a, a ∈ g.A.vec w.j → ∀ s, s ∈ g.S.vec w.j → g.A.i a = g.S.i s →
        ((w.pA ≤ a ∧ a < w.pA_end) ↔ (w.pS ≤ s ∧ s < w.pS_end)))) :
    GB_work_ok g w :=
  ⟨h.1, h.2.1, h.2.2.1, h.2.2.2.1, h.2.2.2.2⟩

theorem sub4_valid : GB_subassign_valid sub4_C sub4_g where
  I_inj := by decide
  J_inj := by decide
  I_nonneg := by decide
  J_nonneg := by decide
  A_range := by decide
  S_range := by decide
  S_sound := by decide
  S_complete := by decide
  C_nodup := by decide
  C_cols := by decide
  work_ok := fun w hw =>
    have h := (by decide : ∀ w, w ∈ sub4_g.work → w.j < sub4_g.nJ ∧
      ((GB_lookup sub4_g.A w.j).1 ≤ w.pA ∧ w.pA_end ≤ (GB_lookup sub4_g.A w.j).2) ∧
      ((GB_lookup sub4_g.S w.j).1 ≤ w.pS ∧ w.pS_end ≤ (GB_lookup sub4_g.S w.j).2) ∧
      List.Pairwise (fun p q => sub4_g.A.i p < sub4_g.A.i q) (sub4_g.A.vec w.j) ∧
      List.Pairwise (fun p q => sub4_g.S.i p < sub4_g.S.i q) (sub4_g.S.vec w.j) ∧
      (∀ a, a ∈ sub4_g.A.vec w.j → ∀ s, s ∈ sub4_g.S.vec w.j → sub4_g.A.i a = sub4_g.S.i s →
        ((w.pA ≤ a ∧ a < w.pA_end) ↔ (w.pS ≤ s ∧ s < w.pS_end)))) w hw
    ⟨h.1, GB_work_ok_of sub4_g w h.2⟩
  cover_A := by decide
  cover_S := by decide
  disjoint_A := by decide

theorem sub3_valid : GB_subassign_valid sub3_C sub3_g where
  I_inj := by decide
  J_inj := by decide
  I_nonneg := by decide
  J_nonneg := by decide
  A_range := by decide
  S_range := by decide
  S_sound := by decide
  S_complete := by decide
  C_nodup := by decide
  C_cols := by decide
  work_ok := fun w hw =>
    have h := (by decide : ∀ w, w ∈ sub3_g.work → w.j < sub3_g.nJ ∧
      ((GB_lookup sub3_g.A w.j).1 ≤ w.pA ∧ w.pA_end ≤ (GB_lookup sub3_g.A w.j).2) ∧
      ((GB_lookup sub3_g.S w.j).1 ≤ w.pS ∧ w.pS_end ≤ (GB_lookup sub3_g.S w.j).2) ∧
      List.Pairwise (fun p q => sub3_g.A.i p < sub3_g.A.i q) (sub3_g.A.vec w.j) ∧
      List.Pairwise (fun p q => sub3_g.S.i p < sub3_g.S.i q) (sub3_g.S.vec w.j) ∧
      (∀ a, a ∈ sub3_g.A.vec w.j → ∀ s, s ∈ sub3_g.S.vec w.j → sub3_g.A.i a = sub3_g.S.i s →
        ((w.pA ≤ a ∧ a < w.pA_end) ↔ (w.pS ≤ s ∧ s < w.pS_end)))) w hw
    ⟨h.1, GB_work_ok_of sub3_g w h.2⟩
  cover_A := by decide
  cover_S := by decide
  disjoint_A := by decide

set_option maxRecDepth 100000

/-- Witness of C1: `C` is 4-by-4 with the value 1 everywhere, `I` and `J` are
all, `M` is the identity and `A` is empty: the theorem at the positions `(1,1)`
and `(1,2)`, and the result at every position: only the diagonal of `C`
remains. -/
theorem GB_subassign_method13b_correct_witness :
    (GB_wait_entry (GB_subassign_method13b sub4_C sub4_g).1 (GB_subassign_method13b sub4_C sub4_g).2
        sub4_g.cast_A_to_C (sub4_g.iC ((1 : Nat) : Int)) (sub4_g.jC 1) =
      if sub4_g.mask ((1 : Nat) : Int) 1 = true
        then sub4_C.get (sub4_g.iC ((1 : Nat) : Int)) (sub4_g.jC 1).toNat
        else (sub4_g.A.get ((1 : Nat) : Int) 1).map sub4_g.cast_A_to_C) ∧
    (GB_wait_entry (GB_subassign_method13b sub4_C sub4_g).1 (GB_subassign_method13b sub4_C sub4_g).2
        sub4_g.cast_A_to_C (sub4_g.iC ((1 : Nat) : Int)) (sub4_g.jC 2) =
      if sub4_g.mask ((1 : Nat) : Int) 2 = true
        then sub4_C.get (sub4_g.iC ((1 : Nat) : Int)) (sub4_g.jC 2).toNat
        else (sub4_g.A.get ((1 : Nat) : Int) 2).map sub4_g.cast_A_to_C) ∧
    (∀ i, i < 4 → ∀ j, j < 4 →
      GB_wait_entry (GB_subassign_method13b sub4_C sub4_g).1
        (GB_subassign_method13b sub4_C sub4_g).2 sub4_g.cast_A_to_C
        (sub4_g.iC ((i : Nat) : Int)) (sub4_g.jC j) = if i = j then some 1 else none) :=
  ⟨GB_subassign_method13b_correct sub4_C sub4_g sub4_valid 1 1 (by decide) (by decide),
   GB_subassign_method13b_correct sub4_C sub4_g sub4_valid 1 2 (by decide) (by decide),
   by decide⟩

/-- Witness of C6: the coarse task on the vector 1 of the 2-by-2 example, where
`A(0,1)` is masked and `A(1,1)` is inserted: one pending tuple. -/
theorem GB_subassign_method13b_pending_count_witness :
    (((phase2_task sub3_g (GB_task.coarse 1 1)).length : Int) =
        (phase1_task sub3_g (GB_task.coarse 1 1)
          { Ci := sub3_C.i, Cx := sub3_C.x, nzombies := sub3_C.nzombies }).2 ∧
      (phase1_task sub3_g (GB_task.coarse 1 1)
          { Ci := sub3_C.i, Cx := sub3_C.x, nzombies := sub3_C.nzombies }).2 =
        (((GB_task_work sub3_g (GB_task.coarse 1 1)).flatMap (insertPositions sub3_g)).length
          : Int)) ∧
    (phase2_task sub3_g (GB_task.coarse 1 1)).length = 1 :=
  ⟨⟨(GB_subassign_method13b_pending_count sub3_g (GB_task.coarse 1 1)
      { Ci := sub3_C.i, Cx := sub3_C.x, nzombies := sub3_C.nzombies }).1,
    (GB_subassign_method13b_pending_count sub3_g (GB_task.coarse 1 1)
      { Ci := sub3_C.i, Cx := sub3_C.x, nzombies := sub3_C.nzombies }).2
      (fun w hw => (sub3_valid.work_ok w
        (List.mem_flatMap.2 ⟨GB_task.coarse 1 1, by simp [sub3_g], hw⟩)).2)⟩,
   by decide⟩

/-- Witness of C7: the 2-by-2 example appends the one tuple `(0, 1, 9)`, for
`A(1,1)`, and `C(0,1)` is not stored. -/
theorem GB_subassign_method13b_disjoint_witness :
    ((∀ t, t ∈ (GB_subassign_method13b sub3_C sub3_g).2 →
      ∃ j, j < sub3_g.nJ ∧ t.2.1 = sub3_g.jC j ∧
        ∀ p, p ∈ sub3_C.vec (sub3_g.jC j).toNat →
          GB_UNFLIP (sub3_C.i p) ≠ t.1 ∧
            GB_UNFLIP ((GB_subassign_method13b sub3_C sub3_g).1.i p) ≠ t.1) ∧
    ((GB_subassign_method13b sub3_C sub3_g).2.map (fun t => (t.1, t.2.1))).Nodup) ∧
    (GB_subassign_method13b sub3_C sub3_g).2 = [(0, 1, 9)] :=
  ⟨GB_subassign_method13b_disjoint sub3_C sub3_g sub3_valid, by decide⟩

/-- Witness of C8: in the 2-by-2 example the slot 0 of `C`, `C(0,0)`, becomes a
zombie, the slot 1, the zombie at `(2,0)`, becomes live with the value 7, and
the slot 2, `C(1,1)`, which is outside `C(I,J)`, is as before. -/
theorem GB_subassign_method13b_frame_witness :
    ((GB_subassign_method13b sub3_C sub3_g).1.p = sub3_C.p ∧
    (GB_subassign_method13b sub3_C sub3_g).1.h = sub3_C.h ∧
    (GB_subassign_method13b sub3_C sub3_g).1.nvec = sub3_C.nvec ∧
    (∀ q, GB_UNFLIP ((GB_subassign_method13b sub3_C sub3_g).1.i q) = GB_UNFLIP (sub3_C.i q)) ∧
    (∀ q, (¬ ∃ i j, i < sub3_g.nI ∧ j < sub3_g.nJ ∧ q ∈ sub3_C.vec (sub3_g.jC j).toNat ∧
        GB_UNFLIP (sub3_C.i q) = sub3_g.iC (i : Int)) →
      (GB_subassign_method13b sub3_C sub3_g).1.i q = sub3_C.i q ∧
        (GB_subassign_method13b sub3_C sub3_g).1.x q = sub3_C.x q) ∧
    (∀ q i j, i < sub3_g.nI → j < sub3_g.nJ → q ∈ sub3_C.vec (sub3_g.jC j).toNat →
      GB_UNFLIP (sub3_C.i q) = sub3_g.iC (i : Int) → sub3_g.mask (i : Int) j = true →
      (GB_subassign_method13b sub3_C sub3_g).1.i q = sub3_C.i q ∧
        (GB_subassign_method13b sub3_C sub3_g).1.x q = sub3_C.x q)) ∧
    [0, 1, 2].map (fun q => ((GB_subassign_method13b sub3_C sub3_g).1.i q,
      (GB_subassign_method13b sub3_C sub3_g).1.x q)) = [(GB_FLIP 0, 10), (2, 7), (1, 30)] :=
  ⟨GB_subassign_method13b_frame sub3_C sub3_g sub3_valid, by decide⟩

/-! ### The terminal short-circuit of the dot product -/

/-- Once the running value is UINT8_MAX, the accumulation over all matching
pairs keeps it. -/
theorem GB_AxB_dot_cij_all_terminal (flipxy : Bool) (Ai : Nat → Int) (Ax : Nat → Nat)
    (Bi : Nat → Int) (Bx : Nat → Nat) (pA_end pB_end : Nat)
    (h8 : ∀ p, p < pA_end → Ax p ≤ UINT8_MAX) (fuel : Nat) :
    ∀ (pA pB : Nat),
      GB_AxB_dot_cij_all flipxy Ai Ax Bi Bx pA_end pB_end fuel pA pB true UINT8_MAX
        = (true, UINT8_MAX) := by
  induction fuel with
  | zero => intro pA pB; rfl
  | succ fuel ih =>
    intro pA pB
    unfold GB_AxB_dot_cij_all
    by_cases hc : pA < pA_end ∧ pB < pB_end
    · rw [if_pos hc]
      simp only
      by_cases h1 : Ai pA < Bi pB
      · rw [if_pos h1]; exact ih _ _
      · rw [if_neg h1]
        by_cases h2 : Bi pB < Ai pA
        · rw [if_pos h2]; exact ih _ _
        · rw [if_neg h2]
          have ht : GB_DOT_ADD UINT8_MAX (GB_DOT_MULT flipxy (GB_GETA Ax pA) (GB_GETB Bx pB))
              = UINT8_MAX := by
            have := h8 pA hc.1
            unfold GB_DOT_ADD GB_DOT_MULT GB_MULTIPLY GB_MULTOP GB_GETA GB_IMAX
            split_ifs <;> omega
          simp only [if_true, ht]
          exact ih _ _
    · rw [if_neg hc]

/-- C11: for every pair of index/value streams with uint8 values, and from every
state of the accumulation, the dot product that breaks as soon as cij equals
UINT8_MAX (GB_DOT_TERMINAL) returns the same C(i,j), presence and value, as the
accumulation over all matching index pairs; and UINT8_MAX absorbs: GB_IMAX
(UINT8_MAX, t) is UINT8_MAX for every uint8 t. -/
theorem GB_DOT_TERMINAL_sound (flipxy : Bool) (Ai : Nat → Int) (Ax : Nat → Nat)
    (Bi : Nat → Int) (Bx : Nat → Nat) (pA_end pB_end : Nat)
    (h8 : ∀ p, p < pA_end → Ax p ≤ UINT8_MAX) :
    (∀ (fuel pA pB : Nat) (cij_exists : Bool) (cij : Nat),
      GB_AxB_dot_cij flipxy Ai Ax Bi Bx pA_end pB_end fuel pA pB cij_exists cij
        = GB_AxB_dot_cij_all flipxy Ai Ax Bi Bx pA_end pB_end fuel pA pB cij_exists cij) ∧
    (∀ t, t ≤ UINT8_MAX → GB_IMAX UINT8_MAX t = UINT8_MAX) := by
  refine ⟨?_, ?_⟩
  · intro fuel
    induction fuel with
    | zero => intro pA pB e c; rfl
    | succ fuel ih =>
      intro pA pB e c
      unfold GB_AxB_dot_cij GB_AxB_dot_cij_all
      by_cases hc : pA < pA_end ∧ pB < pB_end
      · rw [if_pos hc, if_pos hc]
        simp only
        by_cases h1 : Ai pA < Bi pB
        · rw [if_pos h1, if_pos h1]; exact ih _ _ _ _
        · rw [if_neg h1, if_neg h1]
          by_cases h2 : Bi pB < Ai pA
          · rw [if_pos h2, if_pos h2]; exact ih _ _ _ _
          · rw [if_neg h2, if_neg h2]
            by_cases ht : GB_DOT_TERMINAL (if e = true then
                GB_DOT_ADD c (GB_DOT_MULT flipxy (GB_GETA Ax pA) (GB_GETB Bx pB))
                else GB_DOT_COPY (GB_DOT_MULT flipxy (GB_GETA Ax pA) (GB_GETB Bx pB))) = true
            · rw [if_pos ht]
              have hv : (if e = true then
                  GB_DOT_ADD c (GB_DOT_MULT flipxy (GB_GETA Ax pA) (GB_GETB Bx pB))
                  else GB_DOT_COPY (GB_DOT_MULT flipxy (GB_GETA Ax pA) (GB_GETB Bx pB)))
                  = UINT8_MAX := by
                simpa [GB_DOT_TERMINAL] using ht
              rw [hv]
              exact (GB_AxB_dot_cij_all_terminal flipxy Ai Ax Bi Bx pA_end pB_end h8 fuel _ _).symm
            · rw [if_neg ht]; exact ih _ _ _ _
      · rw [if_neg hc, if_neg hc]
  · intro t ht
    unfold GB_IMAX
    split_ifs <;> omega

/-- Witness of C11: the streams 1, 3, 4 and 0, 3, 4 with the values 7, 255, 2:
the break at index 3 and the full accumulation both give 255. -/
theorem GB_DOT_TERMINAL_sound_witness :
    GB_AxB_dot_cij false (ofList [1, 3, 4] 0) (ofList [7, 255, 2] 0) (ofList [0, 3, 4] 0)
        (ofList [1, 1, 1] 0) 3 3 6 0 0 false 0 = (true, 255) ∧
    GB_AxB_dot_cij_all false (ofList [1, 3, 4] 0) (ofList [7, 255, 2] 0) (ofList [0, 3, 4] 0)
        (ofList [1, 1, 1] 0) 3 3 6 0 0 false 0 = (true, 255) :=
  have h := (GB_DOT_TERMINAL_sound false (ofList [1, 3, 4] 0) (ofList [7, 255, 2] 0)
    (ofList [0, 3, 4] 0) (ofList [1, 1, 1] 0) 3 3 (by decide)).1 6 0 0 false 0
  ⟨by decide, h ▸ by decide⟩

/-! ### The reduction over an arbitrary slicing -/

theorem reduce_all_append (Ax : Nat → Int) (n1 n2 : Nat) : ∀ (p : Nat) (v : Int),
    reduce_all Ax (n1 + n2) p v = reduce_all Ax n2 (p + n1) (reduce_all Ax n1 p v) := by
  induction n1 with
  | zero => intro p v; simp [reduce_all]
  | succ n1 ih =>
    intro p v
    have e : n1 + 1 + n2 = (n1 + n2) + 1 := by omega
    rw [e]
    show reduce_all Ax (n1 + n2) (p + 1) (GB_REDUCE v Ax p) = _
    rw [ih]
    have e2 : p + 1 + n1 = p + (n1 + 1) := by omega
    rw [e2]
    rfl

/-- Reducing from a running value below the identity is the minimum of that
value and the reduction from the identity. -/
theorem reduce_all_from (Ax : Nat → Int) (n : Nat) : ∀ (p : Nat) (v : Int), v ≤ INT16_MAX →
    reduce_all Ax n p v = GB_IMIN v (reduce_all Ax n p INT16_MAX) := by
  induction n with
  | zero =>
    intro p v hv
    show v = GB_IMIN v INT16_MAX
    unfold GB_IMIN
    split_ifs <;> omega
  | succ n ih =>
    intro p v hv
    show reduce_all Ax n (p + 1) (GB_REDUCE v Ax p)
      = GB_IMIN v (reduce_all Ax n (p + 1) (GB_REDUCE INT16_MAX Ax p))
    have h1 : GB_REDUCE v Ax p ≤ INT16_MAX := by
      unfold GB_REDUCE GB_IMIN; split_ifs <;> omega
    have h2 : GB_REDUCE INT16_MAX Ax p ≤ INT16_MAX := by
      unfold GB_REDUCE GB_IMIN; split_ifs <;> omega
    rw [ih (p + 1) _ h1, ih (p + 1) _ h2]
    unfold GB_REDUCE GB_IMIN
    split_ifs <;> omega

theorem GB_reduce_slices_spec (Ax : Nat → Int) (cut : Nat → Nat) (s : Int) (m : Nat) :
    ∀ (tid : Nat) (w : Nat → Int) (t : Nat),
      GB_reduce_slices Ax cut s m tid w t =
        if tid ≤ t ∧ t < tid + m then
          (GB_reduce_loop Ax (some s) (cut (t + 1) - cut t) (cut t) GB_REDUCE_INIT 0).1
        else w t := by
  induction m with
  | zero =>
    intro tid w t
    have : ¬ (tid ≤ t ∧ t < tid + 0) := by omega
    rw [if_neg this]; rfl
  | succ m ih =>
    intro tid w t
    show GB_reduce_slices Ax cut s m (tid + 1) _ t = _
    rw [ih]
    by_cases h1 : tid + 1 ≤ t ∧ t < tid + 1 + m
    · rw [if_pos h1, if_pos (by omega)]
    · rw [if_neg h1]
      by_cases h2 : t = tid
      · subst h2
        rw [if_pos (by omega)]
        simp [GB_REDUCE_WRAPUP, upd]
      · rw [if_neg (by omega)]
        simp [GB_REDUCE_WRAPUP, upd, h2]

/-- The slices of GB_PARTITION are the slices cut at `tid * anz / nthreads`. -/
theorem GB_reduce_threads_eq_slices (Ax : Nat → Int) (anz nthreads : Nat) (s : Int) (m : Nat) :
    ∀ (tid : Nat) (w : Nat → Int),
      GB_reduce_threads Ax anz nthreads s m tid w
        = GB_reduce_slices Ax (fun t => t * anz / nthreads) s m tid w := by
  induction m with
  | zero => intro tid w; rfl
  | succ m ih =>
    intro tid w
    show GB_reduce_threads Ax anz nthreads s m (tid + 1) _ = GB_reduce_slices Ax _ s m (tid + 1) _
    rw [ih]
    rfl

/-- The combination of the first slices is the reduction of the values they
hold, left to right. -/
theorem GB_reduce_combine_slices (Ax : Nat → Int) (cut : Nat → Nat) (nthreads : Nat)
    (hmono : ∀ t, t < nthreads → cut t ≤ cut (t + 1)) (m : Nat) :
    ∀ (tid : Nat), tid + m ≤ nthreads →
      GB_reduce_combine (GB_reduce_slices Ax cut INT16_MAX nthreads 0 (fun _ => 0)) m tid
          (reduce_all Ax (cut tid - cut 0) (cut 0) INT16_MAX)
        = reduce_all Ax (cut (tid + m) - cut 0) (cut 0) INT16_MAX := by
  have hle : ∀ t, t ≤ nthreads → cut 0 ≤ cut t := by
    intro t
    induction t with
    | zero => intro _; exact le_refl _
    | succ t iht => intro h; exact le_trans (iht (by omega)) (hmono t (by omega))
  induction m with
  | zero => intro tid _; rfl
  | succ m ih =>
    intro tid hle2
    show GB_reduce_combine _ m (tid + 1) (GB_REDUCE_W _ _ tid) = _
    have hw : GB_reduce_slices Ax cut INT16_MAX nthreads 0 (fun _ => 0) tid =
        reduce_all Ax (cut (tid + 1) - cut tid) (cut tid) INT16_MAX := by
      rw [GB_reduce_slices_spec, if_pos (by omega),
        GB_reduce_loop_thread Ax INT16_MAX (by decide)]
      rfl
    have hstep : GB_REDUCE_W (reduce_all Ax (cut tid - cut 0) (cut 0) INT16_MAX)
        (GB_reduce_slices Ax cut INT16_MAX nthreads 0 (fun _ => 0)) tid
        = reduce_all Ax (cut (tid + 1) - cut 0) (cut 0) INT16_MAX := by
      unfold GB_REDUCE_W
      rw [hw, ← reduce_all_from Ax _ _ _ (reduce_all_le Ax _ _ _).1]
      have h0 := hle tid (by omega)
      have h1 := hmono tid (by omega)
      have e : cut (tid + 1) - cut 0 = (cut tid - cut 0) + (cut (tid + 1) - cut tid) := by omega
      have e2 : cut tid = cut 0 + (cut tid - cut 0) := by omega
      rw [e, reduce_all_append, ← e2]
    rw [hstep]
    have := ih (tid + 1) (by omega)
    have e3 : tid + 1 + m = tid + (m + 1) := by omega
    rw [e3] at this
    exact this

/-- C12: for every array of int16 values and every partition of its `anz`
entries into `nthreads` contiguous slices (cut points `cut 0 = 0 ≤ cut 1 ≤ .. ≤
cut nthreads = anz`), reducing each slice from GB_REDUCE_INIT, storing it with
GB_REDUCE_WRAPUP and combining the slots with GB_REDUCE_W gives the scalar of
the single-threaded left-to-right reduction; so GB_red_scalar__min_int16, whose
slices are those of GB_PARTITION, returns the same scalar for every number of
threads. -/
theorem GB_red_scalar__min_int16_slicing (Ax : Nat → Int) (anz nthreads : Nat)
    (cut : Nat → Nat) (h0 : cut 0 = 0) (hn : cut nthreads = anz)
    (hmono : ∀ t, t < nthreads → cut t ≤ cut (t + 1))
    (h16 : ∀ q, q < anz → INT16_MIN ≤ Ax q ∧ Ax q ≤ INT16_MAX) :
    GB_reduce_sliced Ax cut nthreads = GB_red_scalar__min_int16 Ax anz 1 ∧
    (0 < nthreads → GB_red_scalar__min_int16 Ax anz nthreads = GB_red_scalar__min_int16 Ax anz 1) := by
  have h1 : GB_red_scalar__min_int16 Ax anz 1 = reduce_all Ax anz 0 INT16_MAX := by
    unfold GB_red_scalar__min_int16
    simp only [if_true]
    exact GB_reduce_loop_eq_all Ax anz 0 INT16_MAX 0 (fun q _ hq => (h16 q (by omega)).1)
  have gen : ∀ (c : Nat → Nat), c 0 = 0 → c nthreads = anz →
      (∀ t, t < nthreads → c t ≤ c (t + 1)) →
      GB_reduce_sliced Ax c nthreads = reduce_all Ax anz 0 INT16_MAX := by
    intro c c0 cn cm
    have key := GB_reduce_combine_slices Ax c nthreads cm nthreads 0 (by omega)
    simp only [Nat.zero_add, c0, cn, Nat.sub_zero, Nat.sub_self] at key
    exact key
  refine ⟨(gen cut h0 hn hmono).trans h1.symm, ?_⟩
  intro hpos
  by_cases hone : nthreads = 1
  · rw [hone]
  · have e : GB_red_scalar__min_int16 Ax anz nthreads
        = GB_reduce_sliced Ax (fun t => t * anz / nthreads) nthreads := by
      unfold GB_red_scalar__min_int16 GB_reduce_sliced
      simp only [hone, if_false]
      rw [GB_reduce_threads_eq_slices]
    rw [e, h1]
    apply gen
    · simp
    · exact Nat.mul_div_cancel_left anz hpos
    · intro t _
      exact Nat.div_le_div_right (Nat.mul_le_mul_right _ (Nat.le_succ _))

/-- Witness of C12: the values 5, -3, 7, -3, 9 cut into the slices [0,1), [1,1),
[1,4), [4,5). -/
theorem GB_red_scalar__min_int16_slicing_witness :
    GB_reduce_sliced (ofList [5, -3, 7, -3, 9] 0) (ofList [0, 1, 1, 4, 5] 0) 4
      = GB_red_scalar__min_int16 (ofList [5, -3, 7, -3, 9] 0) 5 1 ∧
    (0 < 4 → GB_red_scalar__min_int16 (ofList [5, -3, 7, -3, 9] 0) 5 4
      = GB_red_scalar__min_int16 (ofList [5, -3, 7, -3, 9] 0) 5 1) :=
  GB_red_scalar__min_int16_slicing (ofList [5, -3, 7, -3, 9] 0) 5 4 (ofList [0, 1, 1, 4, 5] 0)
    (by decide) (by decide) (by decide) (by decide)

/-! ### The Gustavson worker and flipxy -/

theorem toBits_nonneg (W : Nat) (n : Nat) (h : n < 2 ^ W) : toBits W (n : Int) = n := by
  unfold toBits
  have : ((n : Int) % 2 ^ W) = ((n % 2 ^ W : Nat) : Int) := by push_cast; rfl
  rw [this, Int.toNat_ofNat, Nat.mod_eq_of_lt h]

theorem toBits_neg (W : Nat) (m : Nat) (h1 : 1 ≤ m) (h2 : m ≤ 2 ^ W) :
    toBits W (-(m : Int)) = 2 ^ W - m := by
  unfold toBits
  have e : (-(m : Int)) % 2 ^ W = ((2 ^ W - m : Nat) : Int) := by
    have h3 : (-(m : Int)) % 2 ^ W = (-(m : Int) + 2 ^ W) % 2 ^ W := by
      rw [Int.add_emod_self]
    rw [h3]
    rw [Nat.cast_sub h2]
    push_cast
    by_cases hm : m = 2 ^ W
    · subst hm; push_cast; simp
    · have hlt : m < 2 ^ W := lt_of_le_of_ne h2 hm
      have hlt2 : (m : Int) < 2 ^ W := by exact_mod_cast hlt
      rw [Int.emod_eq_of_lt (by omega) (by omega)]
      ring
  rw [e, Int.toNat_ofNat]

theorem toBits_ofBits (W : Nat) (n : Nat) : toBits W (ofBits W n) = n % 2 ^ W := by
  unfold toBits ofBits
  have hpos : (0 : Int) < 2 ^ W := by positivity
  have hlt : ((n % 2 ^ W : Nat) : Int) < 2 ^ W := by
    have := Nat.mod_lt n (Nat.two_pow_pos W)
    exact_mod_cast this
  have hnn : (0 : Int) ≤ ((n % 2 ^ W : Nat) : Int) := Int.natCast_nonneg _
  split_ifs with h
  · rw [Int.emod_eq_of_lt hnn hlt, Int.toNat_ofNat]
  · have e : (((n % 2 ^ W : Nat) : Int) - 2 ^ W) % 2 ^ W = ((n % 2 ^ W : Nat) : Int) % 2 ^ W := by
      have := Int.add_mul_emod_self (a := ((n % 2 ^ W : Nat) : Int)) (b := -1) (c := 2 ^ W)
      rw [← this]
      congr 1
      ring
    rw [e, Int.emod_eq_of_lt hnn hlt, Int.toNat_ofNat]

theorem ofBits_small (W : Nat) (n : Nat) (h : n < 2 ^ (W - 1)) : ofBits W n = n := by
  unfold ofBits
  have hle : 2 ^ (W - 1) ≤ 2 ^ W := Nat.pow_le_pow_right (by norm_num) (Nat.sub_le W 1)
  rw [Nat.mod_eq_of_lt (lt_of_lt_of_le h hle), if_pos h]

theorem ofBits_neg (W : Nat) (hW : 0 < W) (m : Nat) (h1 : 1 ≤ m) (h2 : m ≤ 2 ^ (W - 1)) :
    ofBits W (2 ^ W - m) = -(m : Int) := by
  unfold ofBits
  have e : 2 ^ W = 2 ^ (W - 1) + 2 ^ (W - 1) := by
    have : W = (W - 1) + 1 := by omega
    conv_lhs => rw [this, Nat.pow_succ]
    omega
  have hpos : 0 < 2 ^ (W - 1) := Nat.two_pow_pos _
  rw [Nat.mod_eq_of_lt (by omega), if_neg (by omega)]
  rw [Nat.cast_sub (by omega)]
  push_cast
  ring

theorem int_cast_id (W : Nat) (hW : 0 < W) (x : Int) (h1 : -(2 ^ (W - 1) : Int) ≤ x)
    (h2 : x < 2 ^ (W - 1)) : int_cast W x = x := by
  unfold int_cast
  have e : (2 : Int) ^ W = 2 ^ (W - 1) + 2 ^ (W - 1) := by
    have : W = (W - 1) + 1 := by omega
    conv_lhs => rw [this, pow_succ]
    ring
  by_cases hx : 0 ≤ x
  · obtain ⟨n, rfl⟩ := Int.eq_ofNat_of_zero_le hx
    have hn : n < 2 ^ (W - 1) := by exact_mod_cast h2
    have hle : 2 ^ (W - 1) ≤ 2 ^ W := Nat.pow_le_pow_right (by norm_num) (Nat.sub_le W 1)
    rw [toBits_nonneg W n (lt_of_lt_of_le hn hle), ofBits_small W n hn]
  · obtain ⟨m, hm⟩ : ∃ m : Nat, x = -(m : Int) := ⟨(-x).toNat, by omega⟩
    subst hm
    have hm1 : 1 ≤ m := by omega
    have hm2 : m ≤ 2 ^ (W - 1) := by
      have : (m : Int) ≤ 2 ^ (W - 1) := by omega
      exact_mod_cast this
    have hle : 2 ^ (W - 1) ≤ 2 ^ W := Nat.pow_le_pow_right (by norm_num) (Nat.sub_le W 1)
    rw [toBits_neg W m hm1 (le_trans hm2 hle), ofBits_neg W hW m hm1 hm2]

/-- The word whose bits `j .. W-1` are set, combined with the complement of
`m - 1` in `N` bits: the complement of `m - 1` in `W` bits. -/
theorem or_fill (W j N m : Nat) (hjN : j ≤ N) (hNW : N ≤ W) (hm1 : 1 ≤ m) (hm2 : m ≤ 2 ^ j) :
    (2 ^ N - m) ||| (2 ^ W - 2 ^ j) = 2 ^ W - m := by
  have hjW : j ≤ W := le_trans hjN hNW
  have p1 : 2 ^ j ≤ 2 ^ N := Nat.pow_le_pow_right (by norm_num) hjN
  have p2 : 2 ^ N ≤ 2 ^ W := Nat.pow_le_pow_right (by norm_num) hNW
  have pj : 0 < 2 ^ j := Nat.two_pow_pos j
  apply Nat.eq_of_testBit_eq
  intro i
  have e1 : 2 ^ N - m = 2 ^ N - ((m - 1) + 1) := by omega
  have e2 : 2 ^ W - m = 2 ^ W - ((m - 1) + 1) := by omega
  have e3 : 2 ^ W - 2 ^ j = 2 ^ W - ((2 ^ j - 1) + 1) := by omega
  rw [Nat.testBit_or, e1, e2, e3,
    Nat.testBit_two_pow_sub_succ (by omega : m - 1 < 2 ^ N),
    Nat.testBit_two_pow_sub_succ (by omega : m - 1 < 2 ^ W),
    Nat.testBit_two_pow_sub_succ (by omega : 2 ^ j - 1 < 2 ^ W),
    Nat.testBit_two_pow_sub_one]
  by_cases hij : i < j
  · have : i < N := by omega
    have : i < W := by omega
    simp [*]
  · have hb : (m - 1).testBit i = false := by
      apply Nat.testBit_lt_two_pow
      have : 2 ^ j ≤ 2 ^ i := Nat.pow_le_pow_right (by norm_num) (by omega)
      omega
    by_cases hiW : i < W
    · simp [hb, hij, hiW]
    · have : ¬ i < N := by omega
      simp [hb, hiW, this]

theorem two_pow_sub_one_shiftRight (w k : Nat) : (2 ^ w - 1) >>> k = 2 ^ (w - k) - 1 := by
  apply Nat.eq_of_testBit_eq
  intro i
  rw [Nat.testBit_shiftRight, Nat.testBit_two_pow_sub_one, Nat.testBit_two_pow_sub_one]
  congr 1
  apply propext
  omega

/-- The quotient of a negative `w`-bit value by `2 ^ k`. -/
theorem neg_div_two_pow (w k : Nat) (x : Int) (hkw : k < w)
    (hx1 : -(2 ^ (w - 1) : Int) ≤ x) (hx2 : x < 0) :
    ∃ m : Nat, x / 2 ^ k = -(m : Int) ∧ 1 ≤ m ∧ m ≤ 2 ^ (w - 1 - k) := by
  have hpos : (0 : Int) < 2 ^ k := by positivity
  have hq1 : x / 2 ^ k < 0 := Int.ediv_lt_of_lt_mul hpos (by simpa using hx2)
  have hq2 : -(2 ^ (w - 1 - k) : Int) ≤ x / 2 ^ k := by
    apply Int.le_ediv_of_mul_le hpos
    have e : (2 : Int) ^ (w - 1) = 2 ^ (w - 1 - k) * 2 ^ k := by
      rw [← pow_add]; congr 1; omega
    rw [e] at hx1
    linarith
  refine ⟨(-(x / 2 ^ k)).toNat, by omega, by omega, ?_⟩
  have : ((-(x / 2 ^ k)).toNat : Int) ≤ ((2 ^ (w - 1 - k) : Nat) : Int) := by
    push_cast; omega
  exact_mod_cast this

/-- The pattern of `x >> k` for a negative `x`: the complement of `m - 1` in `W`
bits (arithmetic shift) or in `W - k` bits (logical shift), where `-m` is the
quotient. -/
theorem int_shr_neg_bits (arith : Bool) (w W k : Nat) (x : Int) (hk0 : 0 < k) (hkw : k < w)
    (hwW : w ≤ W) (hx1 : -(2 ^ (w - 1) : Int) ≤ x) (hx2 : x < 0) (m : Nat)
    (hm : x / 2 ^ k = -(m : Int)) (hm1 : 1 ≤ m) (hm2 : m ≤ 2 ^ (w - 1 - k)) :
    ∃ N, w - k ≤ N ∧ N ≤ W ∧ toBits W (int_shr arith W x k) = 2 ^ N - m := by
  have hmW : m ≤ 2 ^ W := le_trans hm2 (Nat.pow_le_pow_right (by norm_num) (by omega))
  have hnx : ¬ (0 ≤ x) := by omega
  unfold int_shr
  rw [if_neg hnx]
  cases arith with
  | true =>
    refine ⟨W, by omega, le_refl _, ?_⟩
    simp only [if_true]
    rw [Int.shiftRight_eq_div_pow]
    have : x / ((2 ^ k : Nat) : Int) = -(m : Int) := by push_cast; exact hm
    rw [this, toBits_neg W m hm1 hmW]
  | false =>
    refine ⟨W - k, by omega, by omega, ?_⟩
    simp only [Bool.false_eq_true, if_false]
    obtain ⟨mx, hmx⟩ : ∃ mx : Nat, x = -(mx : Int) := ⟨(-x).toNat, by omega⟩
    have hmx1 : 1 ≤ mx := by omega
    have hmx2 : mx ≤ 2 ^ W := by
      have h1 : (mx : Int) ≤ 2 ^ (w - 1) := by omega
      have h2 : mx ≤ 2 ^ (w - 1) := by exact_mod_cast h1
      exact le_trans h2 (Nat.pow_le_pow_right (by norm_num) (by omega))
    have hm3 : m ≤ 2 ^ (W - k) :=
      le_trans hm2 (Nat.pow_le_pow_right (by norm_num) (by omega))
    have hval : (2 ^ W - mx) >>> k = 2 ^ (W - k) - m := by
      rw [Nat.shiftRight_eq_div_pow]
      have hI : (((2 ^ W - mx) / 2 ^ k : Nat) : Int) = ((2 ^ (W - k) - m : Nat) : Int) := by
        rw [Int.natCast_div, Nat.cast_sub hmx2, Nat.cast_sub hm3]
        push_cast
        have e : (2 : Int) ^ W = 2 ^ (W - k) * 2 ^ k := by
          rw [← pow_add]; congr 1; omega
        have hne : (2 : Int) ^ k ≠ 0 := by positivity
        have h3 : ((2 : Int) ^ W - mx) = x + 2 ^ (W - k) * 2 ^ k := by rw [hmx, ← e]; ring
        rw [h3, Int.add_mul_ediv_right _ _ hne, hm]
        ring
      exact_mod_cast hI
    have hsmall : 2 ^ (W - k) - m < 2 ^ (W - 1) := by
      have : 2 ^ (W - k) ≤ 2 ^ (W - 1) := Nat.pow_le_pow_right (by norm_num) (by omega)
      have : 0 < 2 ^ (W - k) := Nat.two_pow_pos _
      omega
    have hlt : 2 ^ (W - k) - m < 2 ^ W :=
      lt_of_lt_of_le hsmall (Nat.pow_le_pow_right (by norm_num) (by omega))
    rw [hmx, toBits_neg W mx hmx1 hmx2, hval, ofBits_small W _ hsmall, toBits_nonneg W _ hlt]

/-- The right shift of a negative value, with the bits `w - k .. W - 1` set: the
floor of the quotient, whichever shift the implementation has. -/
theorem int_shr_fill (arith : Bool) (w W k : Nat) (x : Int) (hk0 : 0 < k) (hkw : k < w)
    (hwW : w ≤ W) (hx1 : -(2 ^ (w - 1) : Int) ≤ x) (hx2 : x < 0) :
    ofBits W (toBits W (int_shr arith W x k) ||| (2 ^ W - 2 ^ (w - k))) = x / 2 ^ k := by
  obtain ⟨m, hm, hm1, hm2⟩ := neg_div_two_pow w k x hkw hx1 hx2
  obtain ⟨N, hN1, hN2, hb⟩ := int_shr_neg_bits arith w W k x hk0 hkw hwW hx1 hx2 m hm hm1 hm2
  have hm3 : m ≤ 2 ^ (w - k) :=
    le_trans hm2 (Nat.pow_le_pow_right (by norm_num) (by omega))
  have hm4 : m ≤ 2 ^ (W - 1) :=
    le_trans hm2 (Nat.pow_le_pow_right (by norm_num) (by omega))
  rw [hb, or_fill W (w - k) N m hN1 hN2 hm1 hm3, ofBits_neg W (by omega) m hm1 hm4, hm]

/-- The pattern of `~(UINTw_MAX >> k)` computed in `int`. -/
theorem int_mask_bits (arith : Bool) (w W k : Nat) (hkw : k < w) (hwW : w < W) :
    toBits W (int_not W (int_shr arith W ((2 ^ w - 1 : Nat) : Int) k)) = 2 ^ W - 2 ^ (w - k) := by
  have h1 : int_shr arith W ((2 ^ w - 1 : Nat) : Int) k = ((2 ^ (w - k) - 1 : Nat) : Int) := by
    unfold int_shr
    rw [if_pos (Int.natCast_nonneg _), Int.shiftRight_eq_div_pow, ← Int.natCast_div,
      ← Nat.shiftRight_eq_div_pow, two_pow_sub_one_shiftRight]
  have hp : 0 < 2 ^ (w - k) := Nat.two_pow_pos _
  have hle : 2 ^ (w - k) ≤ 2 ^ W := Nat.pow_le_pow_right (by norm_num) (by omega)
  have hW : 0 < 2 ^ W := Nat.two_pow_pos _
  rw [h1]
  unfold int_not
  rw [toBits_ofBits, toBits_nonneg W _ (by omega), Nat.mod_eq_of_lt (by omega)]
  omega

/-- The pattern `~(UINTW_MAX >> k)` computed in the unsigned type. -/
theorem uint_mask_bits (W k : Nat) :
    uint_not W ((2 ^ W - 1) >>> k) = 2 ^ W - 2 ^ (W - k) := by
  unfold uint_not
  have hp : 0 < 2 ^ (W - k) := Nat.two_pow_pos _
  have hle : 2 ^ (W - k) ≤ 2 ^ W := Nat.pow_le_pow_right (by norm_num) (by omega)
  rw [two_pow_sub_one_shiftRight, Nat.mod_eq_of_lt (by omega)]
  omega

/-- The right shift of a non-negative value is the quotient, and fits the type. -/
theorem int_shr_nonneg (arith : Bool) (W k : Nat) (x : Int) (hx : 0 ≤ x) :
    int_shr arith W x k = x / 2 ^ k ∧ 0 ≤ x / 2 ^ k ∧ x / 2 ^ k ≤ x := by
  have hpos : (0 : Int) < 2 ^ k := by positivity
  refine ⟨?_, Int.ediv_nonneg hx (le_of_lt hpos), Int.ediv_le_self _ hx⟩
  unfold int_shr
  rw [if_pos hx, Int.shiftRight_eq_div_pow]
  push_cast
  rfl

theorem shiftRightSpec_of_div (x r : Int) (k : Int) (h : r = x / 2 ^ (-k).toNat) :
    shiftRightSpec x k r := by
  have hpos : (0 : Int) < 2 ^ (-k).toNat := by positivity
  refine ⟨h, ?_, ?_, ?_⟩
  · rw [h]
    have := Rat.floor_intCast_div_natCast x (2 ^ (-k).toNat)
    push_cast at this
    exact this.symm
  · intro hx
    rw [h]
    exact Int.ediv_lt_of_lt_mul hpos (by simpa using hx)
  · intro hx
    rw [h]
    exact Int.ediv_nonneg hx (le_of_lt hpos)

theorem GB_bitshift_int8_right (arith : Bool) (x k : Int)
    (hx : -(2 ^ 7 : Int) ≤ x ∧ x < 2 ^ 7) (hk1 : -8 < k) (hk2 : k < 0) :
    GB_bitshift_int8 arith x k = x / 2 ^ (-k).toNat := by
  have h0 : k ≠ 0 := by omega
  simp only [GB_bitshift_int8, if_neg h0]
  rw [if_neg (by omega), if_neg (by omega), if_neg (by omega)]
  have hn0 : 0 < (-k).toNat := by omega
  have hn8 : (-k).toNat < 8 := by omega
  by_cases hx0 : x ≥ 0
  · rw [if_pos hx0]
    obtain ⟨e, h1, h2⟩ := int_shr_nonneg arith 32 (-k).toNat x hx0
    rw [e]
    exact int_cast_id 8 (by norm_num) _ (by norm_num; omega) (by norm_num; omega)
  · rw [if_neg hx0]
    unfold int_or
    have hm := int_mask_bits arith 8 32 (-k).toNat hn8 (by norm_num)
    have e255 : ((2 ^ 8 - 1 : Nat) : Int) = ((UINT8_MAX : Nat) : Int) := by
      unfold UINT8_MAX; norm_num
    rw [e255] at hm
    rw [hm, int_shr_fill arith 8 32 (-k).toNat x hn0 hn8 (by norm_num) (by norm_num; omega)
      (by omega)]
    obtain ⟨m, hq, hm1, hm2⟩ := neg_div_two_pow 8 (-k).toNat x hn8 (by norm_num; omega) (by omega)
    have hm3 : m ≤ 2 ^ 7 := le_trans hm2 (Nat.pow_le_pow_right (by norm_num) (by omega))
    rw [hq]
    exact int_cast_id 8 (by norm_num) _ (by norm_num; omega) (by norm_num; omega)

/-! ### Bit shifts: the functions of `GB_math.h` -/

/-- C14: for each width w in 8, 16, 32, 64, every w-bit unsigned x and every
int8 k, GB_bitshift_uint<w> (x,k) is x when k = 0, is 0 when k >= w or k <= -w,
is (x * 2^k) mod 2^w when 0 < k < w, and is the integral part of x / 2^(-k)
when -w < k < 0. -/
theorem GB_bitshift_uint_correct (x : Nat) (k : Int) (hk : -128 ≤ k ∧ k ≤ 127) :
    (x < 2 ^ 8 → shiftSpec 8 x k (GB_bitshift_uint8 x k)) ∧
    (x < 2 ^ 16 → shiftSpec 16 x k (GB_bitshift_uint16 x k)) ∧
    (x < 2 ^ 32 → shiftSpec 32 x k (GB_bitshift_uint32 x k)) ∧
    (x < 2 ^ 64 → shiftSpec 64 x k (GB_bitshift_uint64 x k)) := by
  refine ⟨?_, ?_, ?_, ?_⟩
  · intro _
    refine ⟨?_, ?_, ?_, ?_⟩
    · intro h; simp [GB_bitshift_uint8, h]
    · intro h
      have h0 : k ≠ 0 := by omega
      simp only [GB_bitshift_uint8, if_neg h0]
      rw [if_pos (by simpa using h)]
    · intro h1 h2
      have h0 : k ≠ 0 := by omega
      simp only [GB_bitshift_uint8, if_neg h0]
      rw [if_neg (by omega), if_pos (by omega), Nat.shiftLeft_eq]
    · intro h1 h2
      have h0 : k ≠ 0 := by omega
      simp only [GB_bitshift_uint8, if_neg h0]
      rw [if_neg (by omega), if_neg (by omega), Nat.shiftRight_eq_div_pow]
  · intro _
    refine ⟨?_, ?_, ?_, ?_⟩
    · intro h; simp [GB_bitshift_uint16, h]
    · intro h
      have h0 : k ≠ 0 := by omega
      simp only [GB_bitshift_uint16, if_neg h0]
      rw [if_pos (by simpa using h)]
    · intro h1 h2
      have h0 : k ≠ 0 := by omega
      simp only [GB_bitshift_uint16, if_neg h0]
      rw [if_neg (by omega), if_pos (by omega), Nat.shiftLeft_eq]
    · intro h1 h2
      have h0 : k ≠ 0 := by omega
      simp only [GB_bitshift_uint16, if_neg h0]
      rw [if_neg (by omega), if_neg (by omega), Nat.shiftRight_eq_div_pow]
  · intro _
    refine ⟨?_, ?_, ?_, ?_⟩
    · intro h; simp [GB_bitshift_uint32, h]
    · intro h
      have h0 : k ≠ 0 := by omega
      simp only [GB_bitshift_uint32, if_neg h0]
      rw [if_pos (by simpa using h)]
    · intro h1 h2
      have h0 : k ≠ 0 := by omega
      simp only [GB_bitshift_uint32, if_neg h0]
      rw [if_neg (by omega), if_pos (by omega), Nat.shiftLeft_eq]
    · intro h1 h2
      have h0 : k ≠ 0 := by omega
      simp only [GB_bitshift_uint32, if_neg h0]
      rw [if_neg (by omega), if_neg (by omega), Nat.shiftRight_eq_div_pow]
  · intro _
    refine ⟨?_, ?_, ?_, ?_⟩
    · intro h; simp [GB_bitshift_uint64, h]
    · intro h
      have h0 : k ≠ 0 := by omega
      simp only [GB_bitshift_uint64, if_neg h0]
      rw [if_pos (by simpa using h)]
    · intro h1 h2
      have h0 : k ≠ 0 := by omega
      simp only [GB_bitshift_uint64, if_neg h0]
      rw [if_neg (by omega), if_pos (by omega), Nat.shiftLeft_eq]
    · intro h1 h2
      have h0 : k ≠ 0 := by omega
      simp only [GB_bitshift_uint64, if_neg h0]
      rw [if_neg (by omega), if_neg (by omega), Nat.shiftRight_eq_div_pow]

theorem GB_bitshift_int16_right (arith : Bool) (x k : Int)
    (hx : -(2 ^ 15 : Int) ≤ x ∧ x < 2 ^ 15) (hk1 : -16 < k) (hk2 : k < 0) :
    GB_bitshift_int16 arith x k = x / 2 ^ (-k).toNat := by
  have h0 : k ≠ 0 := by omega
  simp only [GB_bitshift_int16, if_neg h0]
  rw [if_neg (by omega), if_neg (by omega), if_neg (by omega)]
  have hn0 : 0 < (-k).toNat := by omega
  have hn8 : (-k).toNat < 16 := by omega
  by_cases hx0 : x ≥ 0
  · rw [if_pos hx0]
    obtain ⟨e, h1, h2⟩ := int_shr_nonneg arith 32 (-k).toNat x hx0
    rw [e]
    exact int_cast_id 16 (by norm_num) _ (by norm_num; omega) (by norm_num; omega)
  · rw [if_neg hx0]
    unfold int_or
    have hm := int_mask_bits arith 16 32 (-k).toNat hn8 (by norm_num)
    have emax : ((2 ^ 16 - 1 : Nat) : Int) = ((UINT16_MAX : Nat) : Int) := by
      unfold UINT16_MAX; norm_num
    rw [emax] at hm
    rw [hm, int_shr_fill arith 16 32 (-k).toNat x hn0 hn8 (by norm_num) (by norm_num; omega)
      (by omega)]
    obtain ⟨m, hq, hm1, hm2⟩ := neg_div_two_pow 16 (-k).toNat x hn8 (by norm_num; omega) (by omega)
    have hm3 : m ≤ 2 ^ 15 := le_trans hm2 (Nat.pow_le_pow_right (by norm_num) (by omega))
    rw [hq]
    exact int_cast_id 16 (by norm_num) _ (by norm_num; omega) (by norm_num; omega)

theorem GB_bitshift_int32_right (arith : Bool) (x k : Int)
    (hx : -(2 ^ 31 : Int) ≤ x ∧ x < 2 ^ 31) (hk1 : -32 < k) (hk2 : k < 0) :
    GB_bitshift_int32 arith x k = x / 2 ^ (-k).toNat := by
  have h0 : k ≠ 0 := by omega
  simp only [GB_bitshift_int32, if_neg h0]
  rw [if_neg (by omega), if_neg (by omega), if_neg (by omega)]
  have hn0 : 0 < (-k).toNat := by omega
  have hn8 : (-k).toNat < 32 := by omega
  by_cases hx0 : x ≥ 0
  · rw [if_pos hx0]
    exact (int_shr_nonneg arith 32 (-k).toNat x hx0).1
  · rw [if_neg hx0]
    have hm := uint_mask_bits 32 (-k).toNat
    have emax : (2 ^ 32 - 1 : Nat) = UINT32_MAX := by
      unfold UINT32_MAX; norm_num
    rw [emax] at hm
    rw [hm]
    exact int_shr_fill arith 32 32 (-k).toNat x hn0 hn8 (le_refl _) (by norm_num; omega)
      (by omega)

theorem GB_bitshift_int64_right (arith : Bool) (x k : Int)
    (hx : -(2 ^ 63 : Int) ≤ x ∧ x < 2 ^ 63) (hk1 : -64 < k) (hk2 : k < 0) :
    GB_bitshift_int64 arith x k = x / 2 ^ (-k).toNat := by
  have h0 : k ≠ 0 := by omega
  simp only [GB_bitshift_int64, if_neg h0]
  rw [if_neg (by omega), if_neg (by omega), if_neg (by omega)]
  have hn0 : 0 < (-k).toNat := by omega
  have hn8 : (-k).toNat < 64 := by omega
  by_cases hx0 : x ≥ 0
  · rw [if_pos hx0]
    exact (int_shr_nonneg arith 64 (-k).toNat x hx0).1
  · rw [if_neg hx0]
    have hm := uint_mask_bits 64 (-k).toNat
    have emax : (2 ^ 64 - 1 : Nat) = UINT64_MAX := by
      unfold UINT64_MAX; norm_num
    rw [emax] at hm
    rw [hm]
    exact int_shr_fill arith 64 64 (-k).toNat x hn0 hn8 (le_refl _) (by norm_num; omega)
      (by omega)

/-- C15: for each width w in 8, 16, 32, 64, every w-bit signed x and every int8
k, GB_bitshift_int<w> (x,k) is x when k = 0, is 0 when k >= w, and is the sign
of x (0 if x >= 0, -1 if x < 0) when k <= -w; whichever right shift the
implementation has for negative values. -/
theorem GB_bitshift_int_outside (arith : Bool) (x k : Int) (hk : -128 ≤ k ∧ k ≤ 127) :
    (-(2 ^ 7 : Int) ≤ x ∧ x < 2 ^ 7 → shiftOutSpec 8 x k (GB_bitshift_int8 arith x k)) ∧
    (-(2 ^ 15 : Int) ≤ x ∧ x < 2 ^ 15 → shiftOutSpec 16 x k (GB_bitshift_int16 arith x k)) ∧
    (-(2 ^ 31 : Int) ≤ x ∧ x < 2 ^ 31 → shiftOutSpec 32 x k (GB_bitshift_int32 arith x k)) ∧
    (-(2 ^ 63 : Int) ≤ x ∧ x < 2 ^ 63 → shiftOutSpec 64 x k (GB_bitshift_int64 arith x k)) := by
  refine ⟨?_, ?_, ?_, ?_⟩
  · intro _
    refine ⟨?_, ?_, ?_⟩
    · intro h; simp [GB_bitshift_int8, h]
    · intro h
      have h0 : k ≠ 0 := by have := h; push_cast at this; omega
      simp only [GB_bitshift_int8, if_neg h0]
      rw [if_pos (by simpa using h)]
    · intro h
      have h1 : k ≤ -8 := by simpa using h
      have h0 : k ≠ 0 := by omega
      simp only [GB_bitshift_int8, if_neg h0]
      rw [if_neg (by omega), if_pos h1]
  · intro _
    refine ⟨?_, ?_, ?_⟩
    · intro h; simp [GB_bitshift_int16, h]
    · intro h
      have h0 : k ≠ 0 := by have := h; push_cast at this; omega
      simp only [GB_bitshift_int16, if_neg h0]
      rw [if_pos (by simpa using h)]
    · intro h
      have h1 : k ≤ -16 := by simpa using h
      have h0 : k ≠ 0 := by omega
      simp only [GB_bitshift_int16, if_neg h0]
      rw [if_neg (by omega), if_pos h1]
  · intro _
    refine ⟨?_, ?_, ?_⟩
    · intro h; simp [GB_bitshift_int32, h]
    · intro h
      have h0 : k ≠ 0 := by have := h; push_cast at this; omega
      simp only [GB_bitshift_int32, if_neg h0]
      rw [if_pos (by simpa using h)]
    · intro h
      have h1 : k ≤ -32 := by simpa using h
      have h0 : k ≠ 0 := by omega
      simp only [GB_bitshift_int32, if_neg h0]
      rw [if_neg (by omega), if_pos h1]
  · intro _
    refine ⟨?_, ?_, ?_⟩
    · intro h; simp [GB_bitshift_int64, h]
    · intro h
      have h0 : k ≠ 0 := by have := h; push_cast at this; omega
      simp only [GB_bitshift_int64, if_neg h0]
      rw [if_pos (by simpa using h)]
    · intro h
      have h1 : k ≤ -64 := by simpa using h
      have h0 : k ≠ 0 := by omega
      simp only [GB_bitshift_int64, if_neg h0]
      rw [if_neg (by omega), if_pos h1]

/-- C16: for each width w in 8, 16, 32, 64, every w-bit signed x and every k
with -w < k < 0, GB_bitshift_int<w> (x,k) is floor (x / 2^(-k)): negative
whenever x is negative, and the integral part of the quotient when x >= 0;
whether the right shift of the implementation is arithmetic or logical for a
negative value. -/
theorem GB_bitshift_int_right (arith : Bool) (x k : Int) (hk : k < 0) :
    (-(2 ^ 7 : Int) ≤ x ∧ x < 2 ^ 7 → -8 < k →
      shiftRightSpec x k (GB_bitshift_int8 arith x k)) ∧
    (-(2 ^ 15 : Int) ≤ x ∧ x < 2 ^ 15 → -16 < k →
      shiftRightSpec x k (GB_bitshift_int16 arith x k)) ∧
    (-(2 ^ 31 : Int) ≤ x ∧ x < 2 ^ 31 → -32 < k →
      shiftRightSpec x k (GB_bitshift_int32 arith x k)) ∧
    (-(2 ^ 63 : Int) ≤ x ∧ x < 2 ^ 63 → -64 < k →
      shiftRightSpec x k (GB_bitshift_int64 arith x k)) :=
  ⟨fun hx h => shiftRightSpec_of_div x _ k (GB_bitshift_int8_right arith x k hx h hk),
   fun hx h => shiftRightSpec_of_div x _ k (GB_bitshift_int16_right arith x k hx h hk),
   fun hx h => shiftRightSpec_of_div x _ k (GB_bitshift_int32_right arith x k hx h hk),
   fun hx h => shiftRightSpec_of_div x _ k (GB_bitshift_int64_right arith x k hx h hk)⟩

/-- Witness of C14: 200 shifted by 3 and by -3 in 8 bits, and the largest
64-bit value shifted by 63 and by -63. -/
theorem GB_bitshift_uint_correct_witness :
    GB_bitshift_uint8 200 3 = 64 ∧ GB_bitshift_uint8 200 (-3) = 25 ∧
    GB_bitshift_uint64 (2 ^ 64 - 1) 63 = 2 ^ 63 ∧ GB_bitshift_uint64 (2 ^ 64 - 1) (-63) = 1 :=
  ⟨(((GB_bitshift_uint_correct 200 3 (by decide)).1 (by decide)).2.2.1
      (by decide) (by decide)).trans (by decide),
   (((GB_bitshift_uint_correct 200 (-3) (by decide)).1 (by decide)).2.2.2
      (by decide) (by decide)).trans (by decide),
   (((GB_bitshift_uint_correct (2 ^ 64 - 1) 63 (by decide)).2.2.2 (by decide)).2.2.1
      (by decide) (by decide)).trans (by decide),
   (((GB_bitshift_uint_correct (2 ^ 64 - 1) (-63) (by decide)).2.2.2 (by decide)).2.2.2
      (by decide) (by decide)).trans (by decide)⟩

/-- Witness of C15: -5 shifted by -100 in 8 bits is -1, and shifted by 64 in 64
bits is 0. -/
theorem GB_bitshift_int_outside_witness :
    GB_bitshift_int8 true (-5) (-100) = -1 ∧ GB_bitshift_int64 false (-5) 64 = 0 :=
  ⟨(((GB_bitshift_int_outside true (-5) (-100) (by decide)).1 (by decide)).2.2
      (by decide)).trans (by decide),
   ((GB_bitshift_int_outside false (-5) 64 (by decide)).2.2.2 (by decide)).2.1 (by decide)⟩

/-- Witness of C16: -5 shifted right by one bit is -3, in 8 bits with a logical
shift and in 64 bits with an arithmetic shift. -/
theorem GB_bitshift_int_right_witness :
    GB_bitshift_int8 false (-5) (-1) = -3 ∧ GB_bitshift_int64 true (-5) (-1) = -3 :=
  ⟨((GB_bitshift_int_right false (-5) (-1) (by decide)).1 (by decide) (by decide)).1.trans
      (by decide),
   ((GB_bitshift_int_right true (-5) (-1) (by decide)).2.2.2 (by decide) (by decide)).1.trans
      (by decide)⟩

/-! ### bitget -/

theorem toBits_mod (W bits : Nat) (h : bits ≤ W) (x : Int) :
    toBits W x % 2 ^ bits = toBits bits x := by
  unfold toBits
  have hW : (0 : Int) ≤ x % 2 ^ W := Int.emod_nonneg _ (by positivity)
  have hb : (0 : Int) ≤ x % 2 ^ bits := Int.emod_nonneg _ (by positivity)
  have hd : (2 : Int) ^ bits ∣ 2 ^ W := pow_dvd_pow 2 h
  have e : (((x % 2 ^ W).toNat % 2 ^ bits : Nat) : Int) = (((x % 2 ^ bits).toNat : Nat) : Int) := by
    push_cast
    rw [Int.toNat_of_nonneg hW, Int.toNat_of_nonneg hb, Int.emod_emod_of_dvd x hd]
  exact_mod_cast e

theorem and_one_shiftLeft_ne_zero (n j : Nat) : n &&& (1 <<< j) ≠ 0 ↔ n.testBit j = true := by
  rw [Nat.one_shiftLeft, Nat.and_two_pow]
  have hp : 0 < 2 ^ j := Nat.two_pow_pos j
  cases h : n.testBit j
  · simp
  · simp

/-- C17: for every x of the integer type of `bits` bits and every integer k,
GB_BITGET (x,k,type,bits) is 1 if 1 <= k <= bits and bit number k of x is set
(k = 1 the least significant bit of the pattern of x, k = bits the most
significant), and 0 in every other case, every k outside 1..bits included. -/
theorem GB_BITGET_correct (x k : Int) (bits : Nat) :
    GB_BITGET x k bits =
      if 1 ≤ k ∧ k ≤ bits ∧ (toBits bits x).testBit (k.toNat - 1) = true then 1 else 0 := by
  unfold GB_BITGET
  by_cases hk : k ≥ 1 ∧ k ≤ bits
  · rw [if_pos hk]
    have hj : (k - 1).toNat = k.toNat - 1 := by omega
    have hlt : k.toNat - 1 < bits := by omega
    have hW : bits ≤ promoted bits := by unfold promoted; split_ifs <;> omega
    have hbit : (toBits bits x).testBit (k.toNat - 1)
        = (toBits (promoted bits) x).testBit (k.toNat - 1) := by
      rw [← toBits_mod (promoted bits) bits hW x, Nat.testBit_mod_two_pow]
      simp [hlt]
    rw [hj, hbit]
    by_cases hb : (toBits (promoted bits) x).testBit (k.toNat - 1) = true
    · rw [if_pos ((and_one_shiftLeft_ne_zero _ _).2 hb), if_pos ⟨hk.1, hk.2, hb⟩]
    · rw [if_neg (fun h => hb ((and_one_shiftLeft_ne_zero _ _).1 h)), if_neg (fun h => hb h.2.2)]
  · rw [if_neg hk, if_neg (fun h => hk ⟨h.1, h.2.1⟩)]

/-! ### The text of bitget, bitset and bitclr -/

/-- The replacement text of GB_BITGET is well nested. -/
theorem GB_BITGET_text_wellNested : CToken.wellNested GB_BITGET_text [] = true := by
  decide

/-- C18: the replacement text of GB_BITSET is not an expression: it ends in a
closing brace where the closing parenthesis of the macro belongs, so the
macro, used with any x and k, does not compute the value that its comment and
the claim describe; with that one token a closing parenthesis the text is well
nested. -/
theorem GB_BITSET_text_not_wellNested :
    CToken.wellNested GB_BITSET_text [] = false ∧
    CToken.wellNested (GB_BITSET_text.dropLast ++ [CToken.rparen]) [] = true := by
  decide

/-- C19: the replacement text of GB_BITCLR is not an expression: the `?` of the
conditional is missing after the test `(k >= 1 && k <= bits)`, so the `:` that
follows closes nothing, and the macro, used with any x and k, does not compute
the value that its comment and the claim describe; with a `?` after the test
(the first ten tokens) the text is well nested. -/
theorem GB_BITCLR_text_not_wellNested :
    CToken.wellNested GB_BITCLR_text [] = false ∧
    CToken.wellNested
      (GB_BITCLR_text.take 10 ++ [CToken.question] ++ GB_BITCLR_text.drop 10) [] = true := by
  decide

/-! ### Complex division -/

/-- C20: over exact arithmetic (any ordered field, the rationals and the reals
among them), for all xr, xi and every (yr, yi) other than (0,0), the outputs zr
and zi of GB_divcomplex satisfy (zr + i*zi) * (yr + i*yi) = xr + i*xi, real part
and imaginary part; in whichever branch the inputs take. -/
theorem GB_divcomplex_quotient {K : Type} [LinearOrderedField K] (xr xi yr yi : K)
    (hy : yr ≠ 0 ∨ yi ≠ 0) :
    (GB_divcomplex xr xi yr yi).1 * yr - (GB_divcomplex xr xi yr yi).2.1 * yi = xr ∧
    (GB_divcomplex xr xi yr yi).1 * yi + (GB_divcomplex xr xi yr yi).2.1 * yr = xi := by
  unfold GB_divcomplex fpclassify
  by_cases hi : yi = 0
  · have hr : yr ≠ 0 := by
      rcases hy with h | h
      · exact h
      · exact absurd hi h
    subst hi
    simp only [if_true]
    split_ifs with h1 h2 <;> simp_all
  · by_cases hr : yr = 0
    · subst hr
      simp only [if_neg hi, if_true, reduceCtorEq, if_false]
      split_ifs with h1 h2 <;> simp_all
    · have hsq : yr * yr + yi * yi ≠ 0 := by
        have h1 : 0 < yr * yr := mul_self_pos.mpr hr
        have h2 : 0 < yi * yi := mul_self_pos.mpr hi
        exact ne_of_gt (add_pos h1 h2)
      simp only [if_neg hi, if_neg hr, reduceCtorEq, if_false, false_and]
      by_cases h1 : |yr| ≥ |yi|
      · have hden : yr + yi / yr * yi ≠ 0 := by
          have : yr + yi / yr * yi = (yr * yr + yi * yi) / yr := by field_simp
          rw [this]
          exact div_ne_zero hsq hr
        rw [if_pos h1]
        dsimp only
        constructor
        · field_simp; ring
        · field_simp; ring
      · have hden : yr / yi * yr + yi ≠ 0 := by
          have : yr / yi * yr + yi = (yr * yr + yi * yi) / yi := by field_simp
          rw [this]
          exact div_ne_zero hsq hi
        rw [if_neg h1]
        dsimp only
        constructor
        · field_simp; ring
        · field_simp; ring

/-- Witness of C20: (1 + 2i) / (3 + 4i) over the rationals. -/
theorem GB_divcomplex_quotient_witness :
    (GB_divcomplex (1 : ℚ) 2 3 4).1 * 3 - (GB_divcomplex (1 : ℚ) 2 3 4).2.1 * 4 = 1 ∧
    (GB_divcomplex (1 : ℚ) 2 3 4).1 * 4 + (GB_divcomplex (1 : ℚ) 2 3 4).2.1 * 3 = 2 :=
  GB_divcomplex_quotient 1 2 3 4 (Or.inl (by norm_num))

/-! ### Complex division: the value returned -/

/-- C21: over exact arithmetic (any ordered field in the place of double, so
every input is finite), the value that GB_divcomplex returns is 1 exactly when
the denominator is zero, yr = 0 and yi = 0, and it is 0 otherwise. -/
theorem GB_divcomplex_return {K : Type} [LinearOrderedField K] (xr xi yr yi : K) :
    (GB_divcomplex xr xi yr yi).2.2 = if yr = 0 ∧ yi = 0 then 1 else 0 := by
  unfold GB_divcomplex fpclassify
  by_cases hi : yi = 0
  · subst hi
    simp only [if_true]
    by_cases hr : yr = 0
    · subst hr
      split_ifs <;> simp_all
    · split_ifs <;> simp_all
  · by_cases hr : yr = 0
    · subst hr
      simp only [if_neg hi, if_true, reduceCtorEq, if_false]
      split_ifs <;> simp_all
    · have hsq : yr * yr + yi * yi ≠ 0 := by
        have h1 : 0 < yr * yr := mul_self_pos.mpr hr
        have h2 : 0 < yi * yi := mul_self_pos.mpr hi
        exact ne_of_gt (add_pos h1 h2)
      simp only [if_neg hi, if_neg hr, reduceCtorEq, if_false, false_and]
      by_cases h1 : |yr| ≥ |yi|
      · have hden : yr + yi / yr * yi ≠ 0 := by
          have : yr + yi / yr * yi = (yr * yr + yi * yi) / yr := by field_simp
          rw [this]
          exact div_ne_zero hsq hr
        rw [if_pos h1]
        simp [hden, hr, hi]
      · have hden : yr / yi * yr + yi ≠ 0 := by
          have : yr / yi * yr + yi = (yr * yr + yi * yi) / yi := by field_simp
          rw [this]
          exact div_ne_zero hsq hi
        rw [if_neg h1]
        simp [hden, hr, hi]

/-! ### pow -/

theorem isInt_iff (q : ℚ) : q.isInt = true ↔ ∃ n : ℤ, (n : ℚ) = q := by
  unfold Rat.isInt
  rw [beq_iff_eq]
  constructor
  · intro h
    exact ⟨q.num, (Rat.den_eq_one_iff q).1 h⟩
  · rintro ⟨n, rfl⟩
    exact Rat.den_intCast n

/-- The test `yr == trunc (yr)` of the source holds for the integers and for the
infinities. -/
theorem eq_trunc_iff (y : CFloat) :
    y.eq y.trunc = true ↔ (y.isInteger = true ∨ y.fpclassify = FPClass.FP_INFINITE) := by
  cases y with
  | nan => simp [CFloat.eq, CFloat.trunc, CFloat.isInteger, CFloat.fpclassify]
  | inf b => simp [CFloat.eq, CFloat.trunc, CFloat.isInteger, CFloat.fpclassify]
  | zero b => simp [CFloat.eq, CFloat.trunc, CFloat.isInteger, CFloat.fpclassify]
  | finite q =>
    have hcls : CFloat.fpclassify (CFloat.finite q) ≠ FPClass.FP_INFINITE := by
      simp only [CFloat.fpclassify]; split_ifs <;> simp
    simp only [CFloat.isInteger, hcls, or_false]
    rw [isInt_iff]
    unfold CFloat.trunc
    by_cases h0 : 0 ≤ q
    · simp only [if_pos h0]
      by_cases hf : ⌊q⌋ = 0
      · simp only [if_pos hf, CFloat.eq, CFloat.value, decide_eq_true_eq]
        constructor
        · intro h; exact ⟨0, by simp [h]⟩
        · rintro ⟨n, rfl⟩
          rw [Int.floor_intCast] at hf
          simp [hf]
      · simp only [if_neg hf, CFloat.eq, CFloat.value, decide_eq_true_eq]
        constructor
        · intro h; exact ⟨⌊q⌋, h.symm⟩
        · rintro ⟨n, rfl⟩
          rw [Int.floor_intCast]
    · simp only [if_neg h0]
      by_cases hf : ⌈q⌉ = 0
      · simp only [if_pos hf, CFloat.eq, CFloat.value, decide_eq_true_eq]
        constructor
        · intro h; exact ⟨0, by simp [h]⟩
        · rintro ⟨n, rfl⟩
          rw [Int.ceil_intCast] at hf
          simp [hf]
      · simp only [if_neg hf, CFloat.eq, CFloat.value, decide_eq_true_eq]
        constructor
        · intro h; exact ⟨⌈q⌉, h.symm⟩
        · rintro ⟨n, rfl⟩
          rw [Int.ceil_intCast]

/-- C22: for every pair of floating-point arguments, classified as by
fpclassify, GB_pow and GB_powf return a NaN if x or y is a NaN; otherwise 1 if
y is a zero of either sign, whatever x is, zero and the infinities included;
and otherwise what pow (x,y), or powf (x,y), of the C library returns. -/
theorem GB_pow_rules (pow powf : CFloat → CFloat → CFloat) (x y : CFloat) :
    ((x.fpclassify = FPClass.FP_NAN ∨ y.fpclassify = FPClass.FP_NAN) →
      (GB_pow pow x y).fpclassify = FPClass.FP_NAN ∧
      (GB_powf powf x y).fpclassify = FPClass.FP_NAN) ∧
    (¬ (x.fpclassify = FPClass.FP_NAN ∨ y.fpclassify = FPClass.FP_NAN) →
      y.fpclassify = FPClass.FP_ZERO →
      GB_pow pow x y = CFloat.ofInt 1 ∧ GB_powf powf x y = CFloat.ofInt 1) ∧
    (¬ (x.fpclassify = FPClass.FP_NAN ∨ y.fpclassify = FPClass.FP_NAN) →
      y.fpclassify ≠ FPClass.FP_ZERO →
      GB_pow pow x y = pow x y ∧ GB_powf powf x y = powf x y) := by
  refine ⟨?_, ?_, ?_⟩
  · intro h
    simp only [GB_pow, GB_powf, if_pos h]
    exact ⟨rfl, rfl⟩
  · intro h hz
    simp only [GB_pow, GB_powf, if_neg h, if_pos hz, and_self]
  · intro h hz
    simp only [GB_pow, GB_powf, if_neg h, if_neg hz, and_self]

/-- Witness of C22: a NaN to the power 2, infinity to the power -0, and 3 to
the power 2, with a library `pow` that returns its first argument. -/
theorem GB_pow_rules_witness :
    (GB_pow (fun a _ => a) CFloat.nan (CFloat.finite 2)).fpclassify = FPClass.FP_NAN ∧
    GB_pow (fun a _ => a) (CFloat.inf false) (CFloat.zero true) = CFloat.ofInt 1 ∧
    GB_powf (fun a _ => a) (CFloat.finite 3) (CFloat.finite 2) = CFloat.finite 3 :=
  ⟨((GB_pow_rules (fun a _ => a) (fun a _ => a) CFloat.nan (CFloat.finite 2)).1
      (Or.inl rfl)).1,
   ((GB_pow_rules (fun a _ => a) (fun a _ => a) (CFloat.inf false) (CFloat.zero true)).2.1
      (by simp [CFloat.fpclassify]) rfl).1,
   ((GB_pow_rules (fun a _ => a) (fun a _ => a) (CFloat.finite 3) (CFloat.finite 2)).2.2
      (by simp [CFloat.fpclassify]) (by simp [CFloat.fpclassify])).2⟩

/-- The rule "z is real" of GB_cpow and GB_cpowf, for both functions. -/
theorem GB_cpow_real_rule (pow powf : CFloat → CFloat → CFloat)
    (cpow cpowf : CFloat × CFloat → CFloat × CFloat → CFloat × CFloat)
    (x y : CFloat × CFloat) (h : realRule x y) :
    GB_cpow pow cpow x y = (GB_pow pow x.1 y.1, CFloat.zero false) ∧
    GB_cpowf powf cpowf x y = (GB_powf powf x.1 y.1, CFloat.zero false) := by
  obtain ⟨h1, h2, h3⟩ := h
  have hc : (x.2.fpclassify = FPClass.FP_ZERO ∧ y.2.fpclassify = FPClass.FP_ZERO) ∧
      (x.1.ge_zero = true ∨ y.1.fpclassify = FPClass.FP_NAN ∨
        y.1.fpclassify = FPClass.FP_INFINITE ∨ y.1.eq y.1.trunc = true) := by
    refine ⟨⟨h1, h2⟩, ?_⟩
    rw [eq_trunc_iff]
    tauto
  simp only [GB_cpow, GB_cpowf, if_pos hc]
  exact ⟨rfl, rfl⟩

/-- C23: for all complex x and y whose imaginary parts are zero, with Re x >= 0
or Re y an integer, a NaN or infinite, GB_cpow and GB_cpowf return a real
result: the imaginary part is the constant 0 and the real part is GB_pow (Re x,
Re y), or GB_powf (Re x, Re y) for the single-precision function. -/
theorem GB_cpow_real (pow powf : CFloat → CFloat → CFloat)
    (cpow cpowf : CFloat × CFloat → CFloat × CFloat → CFloat × CFloat)
    (x y : CFloat × CFloat)
    (hx : x.2.fpclassify = FPClass.FP_ZERO) (hy : y.2.fpclassify = FPClass.FP_ZERO)
    (h : x.1.ge_zero = true ∨ y.1.isInteger = true ∨ y.1.fpclassify = FPClass.FP_NAN ∨
      y.1.fpclassify = FPClass.FP_INFINITE) :
    ((GB_cpow pow cpow x y).2 = CFloat.zero false ∧
      (GB_cpow pow cpow x y).1 = GB_pow pow x.1 y.1) ∧
    ((GB_cpowf powf cpowf x y).2 = CFloat.zero false ∧
      (GB_cpowf powf cpowf x y).1 = GB_powf powf x.1 y.1) := by
  obtain ⟨e1, e2⟩ := GB_cpow_real_rule pow powf cpow cpowf x y ⟨hx, hy, h⟩
  rw [e1, e2]
  exact ⟨⟨rfl, rfl⟩, ⟨rfl, rfl⟩⟩

/-- Witness of C23: (-8 + 0i) to the power (3 - 0i), with library functions that
return their first argument. -/
theorem GB_cpow_real_witness :
    ((GB_cpow (fun a _ => a) (fun a _ => a) (CFloat.finite (-8), CFloat.zero false)
        (CFloat.finite 3, CFloat.zero true)).2 = CFloat.zero false ∧
      (GB_cpow (fun a _ => a) (fun a _ => a) (CFloat.finite (-8), CFloat.zero false)
        (CFloat.finite 3, CFloat.zero true)).1
        = GB_pow (fun a _ => a) (CFloat.finite (-8)) (CFloat.finite 3)) ∧
    ((GB_cpowf (fun a _ => a) (fun a _ => a) (CFloat.finite (-8), CFloat.zero false)
        (CFloat.finite 3, CFloat.zero true)).2 = CFloat.zero false ∧
      (GB_cpowf (fun a _ => a) (fun a _ => a) (CFloat.finite (-8), CFloat.zero false)
        (CFloat.finite 3, CFloat.zero true)).1
        = GB_powf (fun a _ => a) (CFloat.finite (-8)) (CFloat.finite 3)) :=
  GB_cpow_real (fun a _ => a) (fun a _ => a) (fun a _ => a) (fun a _ => a)
    (CFloat.finite (-8), CFloat.zero false) (CFloat.finite 3, CFloat.zero true) rfl rfl
    (Or.inr (Or.inl (by simp [CFloat.isInteger, Rat.isInt])))

/-- The first test of GB_cpow and GB_cpowf is the condition of the rule "z is
real". -/
theorem realRule_iff (x y : CFloat × CFloat) :
    ((x.2.fpclassify = FPClass.FP_ZERO ∧ y.2.fpclassify = FPClass.FP_ZERO) ∧
      (x.1.ge_zero = true ∨ y.1.fpclassify = FPClass.FP_NAN ∨
        y.1.fpclassify = FPClass.FP_INFINITE ∨ y.1.eq y.1.trunc = true)) ↔ realRule x y := by
  unfold realRule
  rw [eq_trunc_iff]
  tauto

/-- C24, as the code has it: for all complex x and y of which a part is a NaN,
GB_cpow and GB_cpowf return (NaN, NaN) unless the rule for a real result
applies (both imaginary parts zero, and Re x >= 0 or Re y an integer, a NaN or
infinite); when it applies the result is real: its real part is a NaN and its
imaginary part is the constant 0. -/
theorem GB_cpow_nan (pow powf : CFloat → CFloat → CFloat)
    (cpow cpowf : CFloat × CFloat → CFloat × CFloat → CFloat × CFloat)
    (x y : CFloat × CFloat) (h : anyNaN x y) :
    (¬ realRule x y →
      GB_cpow pow cpow x y = (CFloat.nan, CFloat.nan) ∧
      GB_cpowf powf cpowf x y = (CFloat.nan, CFloat.nan)) ∧
    (realRule x y →
      ((GB_cpow pow cpow x y).1.fpclassify = FPClass.FP_NAN ∧
        (GB_cpow pow cpow x y).2 = CFloat.zero false) ∧
      ((GB_cpowf powf cpowf x y).1.fpclassify = FPClass.FP_NAN ∧
        (GB_cpowf powf cpowf x y).2 = CFloat.zero false)) := by
  refine ⟨?_, ?_⟩
  · intro hr
    have hc := mt (realRule_iff x y).1 hr
    have hn : x.1.fpclassify = FPClass.FP_NAN ∨ x.2.fpclassify = FPClass.FP_NAN ∨
        y.1.fpclassify = FPClass.FP_NAN ∨ y.2.fpclassify = FPClass.FP_NAN := h
    simp only [GB_cpow, GB_cpowf, if_neg hc, if_pos hn]
    exact ⟨rfl, rfl⟩
  · intro hr
    obtain ⟨e1, e2⟩ := GB_cpow_real_rule pow powf cpow cpowf x y hr
    obtain ⟨h1, h2, _⟩ := hr
    have hn : x.1.fpclassify = FPClass.FP_NAN ∨ y.1.fpclassify = FPClass.FP_NAN := by
      rcases h with h | h | h | h
      · exact Or.inl h
      · rw [h1] at h; exact absurd h (by decide)
      · exact Or.inr h
      · rw [h2] at h; exact absurd h (by decide)
    rw [e1, e2]
    have := (GB_pow_rules pow powf x.1 y.1).1 hn
    exact ⟨⟨this.1, rfl⟩, ⟨this.2, rfl⟩⟩

/-- Witness of C24: (NaN + 0i) to the power (1/2 + 0i), where the rule for a real
result does not apply: the result is (NaN, NaN). -/
theorem GB_cpow_nan_witness :
    GB_cpow (fun a _ => a) (fun a _ => a) (CFloat.nan, CFloat.zero false)
        (CFloat.finite (1 / 2), CFloat.zero false) = (CFloat.nan, CFloat.nan) ∧
    GB_cpowf (fun a _ => a) (fun a _ => a) (CFloat.nan, CFloat.zero false)
        (CFloat.finite (1 / 2), CFloat.zero false) = (CFloat.nan, CFloat.nan) :=
  (GB_cpow_nan (fun a _ => a) (fun a _ => a) (fun a _ => a) (fun a _ => a)
    (CFloat.nan, CFloat.zero false) (CFloat.finite (1 / 2), CFloat.zero false)
    (Or.inl rfl)).1
    (by simp [realRule, CFloat.fpclassify, CFloat.ge_zero, CFloat.isInteger, Rat.isInt])

/-- Counterexample of C24: (NaN + 0i) to the power (2 + 0i).  The real part of x
is a NaN, and GB_cpow returns (NaN, 0): the imaginary part of the result is the
constant 0 and not a NaN, even with library functions that return NaN always. -/
theorem GB_cpow_nan_counterexample :
    anyNaN (CFloat.nan, CFloat.zero false) (CFloat.finite 2, CFloat.zero false) ∧
    GB_cpow (fun _ _ => CFloat.nan) (fun _ _ => (CFloat.nan, CFloat.nan))
        (CFloat.nan, CFloat.zero false) (CFloat.finite 2, CFloat.zero false)
      = (CFloat.nan, CFloat.zero false) ∧
    (GB_cpow (fun _ _ => CFloat.nan) (fun _ _ => (CFloat.nan, CFloat.nan))
        (CFloat.nan, CFloat.zero false) (CFloat.finite 2, CFloat.zero false)).2.fpclassify
      ≠ FPClass.FP_NAN := by
  have hr : realRule (CFloat.nan, CFloat.zero false) (CFloat.finite 2, CFloat.zero false) := by
    simp [realRule, CFloat.fpclassify, CFloat.isInteger, Rat.isInt]
  have e := (GB_cpow_real_rule (fun _ _ => CFloat.nan) (fun _ _ => CFloat.nan)
    (fun _ _ => (CFloat.nan, CFloat.nan)) (fun _ _ => (CFloat.nan, CFloat.nan))
    (CFloat.nan, CFloat.zero false) (CFloat.finite 2, CFloat.zero false) hr).1
  refine ⟨Or.inl rfl, ?_, ?_⟩
  · rw [e]; rfl
  · rw [e]; simp [CFloat.fpclassify]

/-! ### The coarse hash task, phase 1: the shortcuts -/

/-- C25: the shortcuts of GB_AxB_saxpy3_coarseHash_phase1 agree with the count
loop.  Under the assumptions on the hash table of C5, for a vector `kk` of `B`
with exactly one entry `B(k,j)`, where `A(:,k)` holds no duplicate row index
and fits the table, the template stores `Cp [kk] = aknz = nnz (A(:,k))`, and the
count loop, run on the same vector, ends with `cjnz = aknz`; for a vector with
no entry the template stores `Cp [kk] = 0`, and the count loop ends with
`cjnz = 0`. -/
theorem GB_AxB_saxpy3_coarseHash_phase1_shortcut {α : Type} (hashf : Int → Nat)
    (rehash : Nat → Int → Nat) (n N fuel : Nat) (A B : GB_Matrix α) (kk : Nat) (S : HashTask)
    (hHf : ∀ h, h < n → S.Hf h ≤ S.mark)
    (hrange : ∀ i, hashf i < n) (hre : ∀ h i, h < n → rehash h i < n)
    (hcover : ∀ i h, h < n → ∃ t, t < N ∧ probeSeq hashf rehash i t = h)
    (hfuel : N ≤ fuel) :
    (B.p (kk + 1) = B.p kk + 1 →
      (rowsOf A (B.i (B.p kk)).toNat).Nodup →
      (GB_lookup A (B.i (B.p kk)).toNat).1 ≤ (GB_lookup A (B.i (B.p kk)).toNat).2 →
      (GB_lookup A (B.i (B.p kk)).toNat).2 - (GB_lookup A (B.i (B.p kk)).toNat).1 < n →
      (∃ S1, GB_AxB_saxpy3_coarseHash_phase1 hashf rehash fuel A B 1 kk S = some S1 ∧
        S1.Cp kk = ((GB_lookup A (B.i (B.p kk)).toNat).2 : Int)
          - ((GB_lookup A (B.i (B.p kk)).toNat).1 : Int)) ∧
      hash_count_loop hashf rehash fuel A B kk S =
        some (((GB_lookup A (B.i (B.p kk)).toNat).2 : Int)
          - ((GB_lookup A (B.i (B.p kk)).toNat).1 : Int))) ∧
    (B.p (kk + 1) = B.p kk →
      (∃ S1, GB_AxB_saxpy3_coarseHash_phase1 hashf rehash fuel A B 1 kk S = some S1 ∧
        S1.Cp kk = 0) ∧
      hash_count_loop hashf rehash fuel A B kk S = some 0) := by
  refine ⟨?_, ?_⟩
  · intro h1 hnd hle hsz
    refine ⟨?_, ?_⟩
    · have hb : ((B.p (kk + 1) : Int) - (B.p kk : Int)) = 1 := by rw [h1]; push_cast; ring
      have e : GB_AxB_saxpy3_coarseHash_phase1 hashf rehash fuel A B 1 kk S =
          some { S with Cp := upd S.Cp kk (((GB_lookup A (B.i (B.p kk)).toNat).2 : Int)
            - ((GB_lookup A (B.i (B.p kk)).toNat).1 : Int)) } := by
        unfold GB_AxB_saxpy3_coarseHash_phase1
        simp only [hb]
        rw [if_neg (by decide), if_pos trivial]
        unfold GB_AxB_saxpy3_coarseHash_phase1
        rfl
      exact ⟨_, e, by simp [upd]⟩
    · unfold hash_count_loop
      have e1 : B.p (kk + 1) - B.p kk = 1 := by omega
      rw [e1, scan_B_eq]
      have hl : (List.range' (B.p kk) 1).flatMap (fun pB => rowsOf A (B.i pB).toNat)
          = rowsOf A (B.i (B.p kk)).toNat := by
        simp [List.range']
      rw [hl]
      have hinv := HashInv_empty hashf rehash n N (S.mark + 1) S.Hf S.Hi
        (fun h hh => by have := hHf h hh; omega)
      have hlen : (rowsOf A (B.i (B.p kk)).toNat).length
          = (GB_lookup A (B.i (B.p kk)).toNat).2 - (GB_lookup A (B.i (B.p kk)).toNat).1 := by
        simp [rowsOf]
      have hcard : (∅ ∪ (rowsOf A (B.i (B.p kk)).toNat).toFinset).card
          = (GB_lookup A (B.i (B.p kk)).toNat).2 - (GB_lookup A (B.i (B.p kk)).toNat).1 := by
        rw [Finset.empty_union, List.toFinset_card_of_nodup hnd, hlen]
      obtain ⟨T1, e, hT, _⟩ := insertAll_spec hashf rehash n N fuel (S.mark + 1) hrange hre
        hcover hfuel (rowsOf A (B.i (B.p kk)).toNat) _ ∅ hinv (by rw [hcard]; exact hsz)
      rw [e]
      simp only [Option.map_some']
      rw [hT.1, hcard]
      congr 1
      omega
  · intro h0
    refine ⟨?_, ?_⟩
    · have hb : ((B.p (kk + 1) : Int) - (B.p kk : Int)) = 0 := by rw [h0]; ring
      have e : GB_AxB_saxpy3_coarseHash_phase1 hashf rehash fuel A B 1 kk S =
          some { S with Cp := upd S.Cp kk 0 } := by
        unfold GB_AxB_saxpy3_coarseHash_phase1
        simp only [hb]
        rw [if_pos trivial]
        unfold GB_AxB_saxpy3_coarseHash_phase1
        rfl
      exact ⟨_, e, by simp [upd]⟩
    · unfold hash_count_loop
      have e1 : B.p (kk + 1) - B.p kk = 0 := by omega
      rw [e1]
      rfl

/-- Witness of C25: the table of 4 slots with linear probing of the witness of
C5; `B(:,1)` has the single entry `B(2,1)` and `A(:,2)` has one entry; `B(:,2)`
is empty. -/
theorem GB_AxB_saxpy3_coarseHash_phase1_shortcut_witness :
    ((∃ S1, GB_AxB_saxpy3_coarseHash_phase1 (fun i => i.toNat % 4) (fun h _ => (h + 1) % 4) 4
        hashA hashB 1 1 hashS0 = some S1 ∧ S1.Cp 1 = 1) ∧
      hash_count_loop (fun i => i.toNat % 4) (fun h _ => (h + 1) % 4) 4 hashA hashB 1 hashS0
        = some 1) ∧
    ((∃ S1, GB_AxB_saxpy3_coarseHash_phase1 (fun i => i.toNat % 4) (fun h _ => (h + 1) % 4) 4
        hashA hashB 1 2 hashS0 = some S1 ∧ S1.Cp 2 = 0) ∧
      hash_count_loop (fun i => i.toNat % 4) (fun h _ => (h + 1) % 4) 4 hashA hashB 2 hashS0
        = some 0) :=
  ⟨(GB_AxB_saxpy3_coarseHash_phase1_shortcut (fun i => i.toNat % 4) (fun h _ => (h + 1) % 4)
      4 4 4 hashA hashB 1 hashS0 (by decide)
      (fun i => Nat.mod_lt _ (by decide))
      (fun h _ _ => Nat.mod_lt _ (by decide))
      (fun i h hh => ⟨(h + 4 - i.toNat % 4) % 4, Nat.mod_lt _ (by decide), by
        rw [probeSeq_linear]; omega⟩)
      (le_refl _)).1 (by decide) (by decide) (by decide) (by decide),
   (GB_AxB_saxpy3_coarseHash_phase1_shortcut (fun i => i.toNat % 4) (fun h _ => (h + 1) % 4)
      4 4 4 hashA hashB 2 hashS0 (by decide)
      (fun i => Nat.mod_lt _ (by decide))
      (fun h _ _ => Nat.mod_lt _ (by decide))
      (fun i h hh => ⟨(h + 4 - i.toNat % 4) % 4, Nat.mod_lt _ (by decide), by
        rw [probeSeq_linear]; omega⟩)
      (le_refl _)).2 (by decide)⟩

/-! ### The terminal test of the reduction in a thread -/

/-- C30: the code at the failing input.  The values INT16_MIN, 5, 7, 9 are
reduced by two threads; thread 0 has the slice [0,2).  GB_REDUCE_TERMINAL (t)
tests the scalar `s` of the function, which is INT16_MAX, and not the running
value `t` of the thread: with `t` equal to INT16_MIN the test is false, so the
thread reads both entries of its slice, the one after INT16_MIN included.  The
loop of a single thread, whose running value is `s` itself, stops after the
first entry. -/
theorem GB_REDUCE_TERMINAL_ignores_t :
    GB_REDUCE_TERMINAL INT16_MIN INT16_MAX = false ∧
    GB_PARTITION 4 0 2 = (0, 2) ∧
    GB_reduce_loop (ofList [-32768, 5, 7, 9] 0) (some INT16_MAX) 2 0 GB_REDUCE_INIT 0
      = (INT16_MIN, 2) ∧
    GB_reduce_loop (ofList [-32768, 5, 7, 9] 0) none 4 0 INT16_MAX 0 = (INT16_MIN, 1) := by
  decide

/-! ### Submatrix assignment, method 13b: the count of the zombies -/

theorem zombieSum_upd (Ci : Nat → Int) (F : Finset Nat) (q0 : Nat) (v : Int) (h : q0 ∈ F) :
    zombieSum (upd Ci q0 v) F =
      zombieSum Ci F + ((if v < 0 then 1 else 0) - (if Ci q0 < 0 then 1 else 0)) := by
  unfold zombieSum
  rw [← Finset.add_sum_erase F _ h, ← Finset.add_sum_erase F (fun q => if Ci q < 0 then 1 else 0) h]
  have e : Finset.sum (F.erase q0) (fun q => if upd Ci q0 v q < 0 then (1 : Int) else 0)
      = Finset.sum (F.erase q0) (fun q => if Ci q < 0 then (1 : Int) else 0) := by
    apply Finset.sum_congr rfl
    intro q hq
    have hne : q ≠ q0 := Finset.ne_of_mem_erase hq
    simp [upd, hne]
  rw [e]
  simp only [upd, if_true]
  ring

theorem zombieSum_range (Ci : Nat → Int) (N : Nat) :
    zombieSum Ci (Finset.range N) = (countZombies Ci N : Int) := by
  induction N with
  | zero => simp [zombieSum, countZombies]
  | succ N ih =>
    unfold zombieSum countZombies at ih ⊢
    rw [Finset.sum_range_succ, ih, List.range_succ, List.filter_append]
    by_cases h : Ci N < 0
    · simp [GB_IS_ZOMBIE, h]
    · simp [GB_IS_ZOMBIE, h]

/-- The action GB_DELETE_ENTRY on `nzombies`: one more when the entry was live,
no change when it was a zombie. -/
theorem GB_DELETE_ENTRY_nzombies {γ : Type} (st : GB_C_state γ) (Sx : Nat → Nat) (pS : Nat) :
    (GB_DELETE_ENTRY st (GB_C_S_LOOKUP Sx st.Ci pS)).nzombies =
      st.nzombies + (if st.Ci (Sx pS) < 0 then 0 else 1) := by
  unfold GB_DELETE_ENTRY GB_C_S_LOOKUP GB_IS_ZOMBIE
  by_cases h : st.Ci (Sx pS) < 0
  · simp [h]
  · simp [h]

/-- The action GB_noaccum_C_A_1_matrix on `nzombies`: one less when the entry was
a zombie, no change when it was live. -/
theorem GB_noaccum_nzombies {α γ : Type} (cast : α → γ) (st : GB_C_state γ) (Sx : Nat → Nat)
    (Ax : Nat → α) (pS pA : Nat) :
    (GB_noaccum_C_A_1_matrix cast st (GB_C_S_LOOKUP Sx st.Ci pS) Ax pA).nzombies =
      st.nzombies - (if st.Ci (Sx pS) < 0 then 1 else 0) := by
  unfold GB_noaccum_C_A_1_matrix GB_COPY_aij_to_C GB_UNDELETE GB_C_S_LOOKUP GB_IS_ZOMBIE
  by_cases h : st.Ci (Sx pS) < 0
  · simp [h]
  · simp [h]

theorem GB_DELETE_ENTRY_inv {γ : Type} (F : Finset Nat) (Ci0 : Nat → Int) (c : Int)
    (st : GB_C_state γ) (Sx : Nat → Nat) (pS : Nat) (hF : Sx pS ∈ F)
    (hinv : zombieInv F Ci0 c st) :
    zombieInv F Ci0 c (GB_DELETE_ENTRY st (GB_C_S_LOOKUP Sx st.Ci pS)) := by
  have hCi : (GB_DELETE_ENTRY st (GB_C_S_LOOKUP Sx st.Ci pS)).Ci
      = upd st.Ci (Sx pS) (deletedIndex (st.Ci (Sx pS))) := by
    funext q
    rw [GB_DELETE_ENTRY_Ci]
    rfl
  refine ⟨?_, ?_⟩
  · rw [GB_DELETE_ENTRY_nzombies, hCi, zombieSum_upd _ _ _ _ hF, ← hinv.1]
    have hneg := deletedIndex_neg (st.Ci (Sx pS))
    rw [if_pos hneg]
    split_ifs <;> ring
  · intro q
    rw [← hinv.2 q, GB_DELETE_ENTRY_Ci]
    split_ifs with hq
    · rw [hq, GB_UNFLIP_deletedIndex]
    · rfl

theorem GB_noaccum_inv {α γ : Type} (F : Finset Nat) (Ci0 : Nat → Int) (c : Int)
    (cast : α → γ) (st : GB_C_state γ) (Sx : Nat → Nat) (Ax : Nat → α) (pS pA : Nat)
    (hF : Sx pS ∈ F) (hnn : 0 ≤ GB_UNFLIP (Ci0 (Sx pS)))
    (hinv : zombieInv F Ci0 c st) :
    zombieInv F Ci0 c (GB_noaccum_C_A_1_matrix cast st (GB_C_S_LOOKUP Sx st.Ci pS) Ax pA) := by
  have hCi : (GB_noaccum_C_A_1_matrix cast st (GB_C_S_LOOKUP Sx st.Ci pS) Ax pA).Ci
      = upd st.Ci (Sx pS) (GB_UNFLIP (st.Ci (Sx pS))) := by
    funext q
    rw [GB_noaccum_Ci]
    rfl
  have hnn2 : 0 ≤ GB_UNFLIP (st.Ci (Sx pS)) := by rw [hinv.2]; exact hnn
  refine ⟨?_, ?_⟩
  · rw [GB_noaccum_nzombies, hCi, zombieSum_upd _ _ _ _ hF, ← hinv.1]
    rw [if_neg (by omega : ¬ GB_UNFLIP (st.Ci (Sx pS)) < 0)]
    split_ifs <;> ring
  · intro q
    rw [← hinv.2 q, GB_noaccum_Ci]
    split_ifs with hq
    · rw [hq, GB_UNFLIP_idem]
    · rfl

theorem phase1_S_tail_inv {α γ μ : Type} (g : GB_subassign_args α γ μ) (F : Finset Nat)
    (Ci0 : Nat → Int) (c : Int) (pM_start pM_end : Nat) (n : Nat) :
    ∀ (pS : Nat) (st : GB_C_state γ), (∀ s, pS ≤ s → s < pS + n → g.S.x s ∈ F) →
      zombieInv F Ci0 c st → zombieInv F Ci0 c (phase1_S_tail g pM_start pM_end n pS st) := by
  induction n with
  | zero => intro pS st _ h; exact h
  | succ n ih =>
    intro pS st hF h
    show zombieInv F Ci0 c (phase1_S_tail g pM_start pM_end n (pS + 1) _)
    apply ih (pS + 1) _ (fun s h1 h2 => hF s (by omega) (by omega))
    split_ifs
    · exact GB_DELETE_ENTRY_inv F Ci0 c st g.S.x pS (hF pS (le_refl _) (by omega)) h
    · exact h

/-- The merge of phase 1 keeps the relation of `nzombies` to the flipped indices. -/
theorem phase1_merge_inv {α γ μ : Type} (g : GB_subassign_args α γ μ) (F : Finset Nat)
    (Ci0 : Nat → Int) (c : Int) (pM_start pM_end pS_end pA_end : Nat) (fuel : Nat) :
    ∀ (pS pA : Nat) (st : GB_C_state γ) (tp : Int),
      (∀ s, pS ≤ s → s < pS_end → g.S.x s ∈ F ∧ 0 ≤ GB_UNFLIP (Ci0 (g.S.x s))) →
      zombieInv F Ci0 c st →
      zombieInv F Ci0 c (phase1_merge g pM_start pM_end pS_end pA_end fuel pS pA st tp).1 := by
  have htail : ∀ (pS : Nat) (st : GB_C_state γ),
      (∀ s, pS ≤ s → s < pS_end → g.S.x s ∈ F ∧ 0 ≤ GB_UNFLIP (Ci0 (g.S.x s))) →
      zombieInv F Ci0 c st →
      zombieInv F Ci0 c (phase1_S_tail g pM_start pM_end (pS_end - pS) pS st) := by
    intro pS st hF h
    exact phase1_S_tail_inv g F Ci0 c pM_start pM_end _ pS st
      (fun s h1 h2 => (hF s h1 (by omega)).1) h
  induction fuel with
  | zero =>
    intro pS pA st tp hF h
    exact htail pS st hF h
  | succ fuel ih =>
    intro pS pA st tp hF h
    by_cases hc : pS < pS_end ∧ pA < pA_end
    · by_cases h1 : g.S.i pS < g.A.i pA
      · rw [phase1_merge_lt g _ _ _ _ _ _ _ _ _ hc h1]
        apply ih _ _ _ _ (fun s a b => hF s (by omega) b)
        split_ifs
        · exact GB_DELETE_ENTRY_inv F Ci0 c st g.S.x pS (hF pS (le_refl _) hc.1).1 h
        · exact h
      · by_cases h2 : g.A.i pA < g.S.i pS
        · rw [phase1_merge_gt g _ _ _ _ _ _ _ _ _ hc h1 h2]
          exact ih _ _ _ _ hF h
        · rw [phase1_merge_eq g _ _ _ _ _ _ _ _ _ hc h1 h2]
          apply ih _ _ _ _ (fun s a b => hF s (by omega) b)
          split_ifs
          · exact GB_noaccum_inv F Ci0 c g.cast_A_to_C st g.S.x g.A.x pS pA
              (hF pS (le_refl _) hc.1).1 (hF pS (le_refl _) hc.1).2 h
          · exact h
    · rw [phase1_merge_exit g _ _ _ _ _ _ _ _ _ hc]
      exact htail pS st hF h

theorem phase1_foldl_inv {α γ μ : Type} (g : GB_subassign_args α γ μ) (F : Finset Nat)
    (Ci0 : Nat → Int) (c : Int) (Ws : List GB_vector_work) :
    (∀ w, w ∈ Ws → ∀ s, w.pS ≤ s → s < w.pS_end →
      g.S.x s ∈ F ∧ 0 ≤ GB_UNFLIP (Ci0 (g.S.x s))) →
    ∀ (st : GB_C_state γ), zombieInv F Ci0 c st →
      zombieInv F Ci0 c (Ws.foldl (fun st w => phase1_state g w st) st) := by
  induction Ws with
  | nil => intro _ st h; exact h
  | cons w Ws ih =>
    intro hF st h
    rw [List.foldl_cons]
    apply ih (fun w2 hw2 => hF w2 (List.mem_cons_of_mem _ hw2))
    exact phase1_merge_inv g F Ci0 c _ _ _ _ _ _ _ _ _
      (hF w (List.mem_cons_self _ _)) h

/-- GB_subassign_method13b changes `nzombies` by as much as it changes the number
of flipped indices, among any slots `F` that hold the slots it visits. -/
theorem method13b_zombieInv {α γ μ : Type} (C : GB_Matrix γ) (g : GB_subassign_args α γ μ)
    (F : Finset Nat)
    (hS : ∀ w, w ∈ g.work → ∀ s, w.pS ≤ s → s < w.pS_end →
      g.S.x s ∈ F ∧ 0 ≤ GB_UNFLIP (C.i (g.S.x s))) :
    (GB_subassign_method13b C g).1.nzombies - zombieSum (GB_subassign_method13b C g).1.i F
      = C.nzombies - zombieSum C.i F := by
  have h := phase1_foldl_inv g F C.i (C.nzombies - zombieSum C.i F) g.work hS
    { Ci := C.i, Cx := C.x, nzombies := C.nzombies } ⟨rfl, fun _ => rfl⟩
  have e := phase1_fst g g.TaskList { Ci := C.i, Cx := C.x, nzombies := C.nzombies }
  show (phase1 g g.TaskList _).1.nzombies - zombieSum (phase1 g g.TaskList _).1.Ci F = _
  rw [e]
  exact h.1

/-- C29: the zombie-count invariant.  For any mask, any `A`, any task list, and
any `S` whose entries in the pieces of work point to slots of `C` below `N` that
hold an index or a flipped index: if on entry `C->nzombies` is the number of
flipped indices among the `N` slots of `C->i`, then the `nzombies` that
GB_subassign_method13b writes back to `C` is again the number of flipped
indices among the `N` slots of `C->i`. -/
theorem GB_subassign_method13b_nzombies {α γ μ : Type} (C : GB_Matrix γ)
    (g : GB_subassign_args α γ μ) (N : Nat)
    (hS : ∀ w, w ∈ g.work → ∀ s, w.pS ≤ s → s < w.pS_end →
      g.S.x s < N ∧ 0 ≤ GB_UNFLIP (C.i (g.S.x s)))
    (h0 : C.nzombies = (countZombies C.i N : Int)) :
    (GB_subassign_method13b C g).1.nzombies
      = (countZombies (GB_subassign_method13b C g).1.i N : Int) := by
  have h := method13b_zombieInv C g (Finset.range N)
    (fun w hw s h1 h2 => ⟨Finset.mem_range.2 (hS w hw s h1 h2).1, (hS w hw s h1 h2).2⟩)
  rw [zombieSum_range, zombieSum_range] at h
  omega

/-- Witness of C29: the 3-by-3 example, where one entry is deleted and one zombie
is resurrected: one zombie before and one after. -/
theorem GB_subassign_method13b_nzombies_witness :
    (GB_subassign_method13b sub3_C sub3_g).1.nzombies
      = (countZombies (GB_subassign_method13b sub3_C sub3_g).1.i 3 : Int) ∧
    (GB_subassign_method13b sub3_C sub3_g).1.nzombies = 1 :=
  ⟨GB_subassign_method13b_nzombies sub3_C sub3_g 3 (by decide) (by decide), by decide⟩

/-! ### Submatrix assignment, method 13b: the actions on the entries of `C` -/

theorem mem_targets {α γ μ : Type} (g : GB_subassign_args α γ μ) (e : Nat × Nat) :
    e ∈ targets g ↔ e.1 < g.nJ ∧ e.2 ∈ g.S.vec e.1 ∧ g.mask (g.S.i e.2) e.1 = false := by
  unfold targets
  simp only [List.mem_flatMap, List.mem_range, List.mem_map, List.mem_filter,
    Bool.not_eq_true']
  constructor
  · rintro ⟨j, hj, s, ⟨hs, hm⟩, rfl⟩
    exact ⟨hj, hs, hm⟩
  · rintro ⟨hj, hs, hm⟩
    exact ⟨e.1, hj, e.2, ⟨hs, hm⟩, rfl⟩

theorem targets_nodup {α γ μ : Type} (g : GB_subassign_args α γ μ) : (targets g).Nodup := by
  unfold targets
  rw [List.nodup_flatMap]
  refine ⟨?_, ?_⟩
  · intro j _
    apply List.Nodup.map
    · intro a b h
      exact (Prod.mk.inj h).2
    · exact (List.nodup_range' _ _).filter _
  · have h : List.Pairwise (fun a b : Nat => a ≠ b) (List.range g.nJ) := List.nodup_range _
    refine h.imp ?_
    intro j j2 hne
    show List.Disjoint _ _
    intro x hx hx2
    simp only [List.mem_map] at hx hx2
    obtain ⟨s, _, rfl⟩ := hx
    obtain ⟨s2, _, he⟩ := hx2
    exact hne (Prod.mk.inj he).1.symm

theorem sum_map_ite {β : Type} (l : List β) (p : β → Bool) :
    (l.map (fun e => if p e = true then (1 : Int) else 0)).sum = ((l.filter p).length : Int) := by
  induction l with
  | nil => rfl
  | cons a l ih =>
    rw [List.map_cons, List.sum_cons, ih, List.filter_cons]
    by_cases h : p a = true
    · simp [h]; ring
    · simp [h]

/-- A target of phase 1 is in a piece of work, and its slot of `C` holds the
index that `I` gives to its row, flipped or not. -/
theorem target_facts {α γ μ : Type} (C : GB_Matrix γ) (g : GB_subassign_args α γ μ)
    (hv : GB_subassign_valid C g) (e : Nat × Nat) (he : e ∈ targets g) :
    (∃ w, w ∈ g.work ∧ w.j = e.1 ∧ w.pS ≤ e.2 ∧ e.2 < w.pS_end) ∧
    GB_UNFLIP (C.i (g.S.x e.2)) = g.iC (g.S.i e.2) ∧ 0 ≤ g.iC (g.S.i e.2) := by
  rw [mem_targets] at he
  obtain ⟨hj, hs, _⟩ := he
  refine ⟨hv.cover_S e.1 hj e.2 hs, (hv.S_sound e.1 hj e.2 hs).2, ?_⟩
  have hr := hv.S_range e.1 hj e.2 hs
  have ei : g.S.i e.2 = (((g.S.i e.2).toNat : Nat) : Int) := (Int.toNat_of_nonneg hr.1).symm
  rw [ei]
  exact hv.I_nonneg _ (by omega)

/-- The slot of a target after the method: a zombie when `A(i,j)` is absent, and
live with the value of `A(i,j)`, typecast, when it is present. -/
theorem target_slot {α γ μ : Type} (C : GB_Matrix γ) (g : GB_subassign_args α γ μ)
    (hv : GB_subassign_valid C g) (e : Nat × Nat) (he : e ∈ targets g) :
    (g.A.get (g.S.i e.2) e.1 = none →
      (GB_subassign_method13b C g).1.i (g.S.x e.2) < 0 ∧
      (GB_subassign_method13b C g).1.x (g.S.x e.2) = C.x (g.S.x e.2)) ∧
    (∀ v, g.A.get (g.S.i e.2) e.1 = some v →
      (GB_subassign_method13b C g).1.i (g.S.x e.2) = g.iC (g.S.i e.2) ∧
      0 ≤ (GB_subassign_method13b C g).1.i (g.S.x e.2) ∧
      (GB_subassign_method13b C g).1.x (g.S.x e.2) = g.cast_A_to_C v) := by
  obtain ⟨⟨w, hw, hwj, h1, h2⟩, hu, hnn⟩ := target_facts C g hv e he
  have hm := ((mem_targets g e).1 he).2.2
  have hsl := (method13b_slots C g hv).2 w hw e.2 h1 h2 (by rw [hwj]; exact hm)
  rw [hwj] at hsl
  refine ⟨?_, ?_⟩
  · intro hnone
    simp only [slotTarget, hnone, Prod.mk.injEq] at hsl
    exact ⟨by rw [hsl.1]; exact deletedIndex_neg _, hsl.2⟩
  · intro v hsome
    simp only [slotTarget, hsome, Prod.mk.injEq] at hsl
    refine ⟨by rw [hsl.1, hu], by rw [hsl.1, hu]; exact hnn, hsl.2⟩

theorem sum_map_filter_sub {β : Type} (l : List β) (h : β → Int) (p r : β → Bool)
    (hh : ∀ e, e ∈ l → h e = (if p e = true then 1 else 0) - (if r e = true then 1 else 0)) :
    (l.map h).sum = ((l.filter p).length : Int) - ((l.filter r).length : Int) := by
  rw [← sum_map_ite, ← sum_map_ite]
  induction l with
  | nil => rfl
  | cons a l ih =>
    simp only [List.map_cons, List.sum_cons]
    rw [ih (fun e he => hh e (List.mem_cons_of_mem _ he)), hh a (List.mem_cons_self _ _)]
    ring

/-- The change of `nzombies` over the method: the live entries deleted, less the
zombies brought back. -/
theorem method13b_nzombies_net {α γ μ : Type} (C : GB_Matrix γ) (g : GB_subassign_args α γ μ)
    (hv : GB_subassign_valid C g) :
    (GB_subassign_method13b C g).1.nzombies =
      C.nzombies + ((deletedLive C g).length : Int) - ((resurrected C g).length : Int) := by
  let F : Finset Nat :=
    (g.work.flatMap (fun w => (List.range' w.pS (w.pS_end - w.pS)).map g.S.x)).toFinset
  have hF : ∀ w, w ∈ g.work → ∀ s, w.pS ≤ s → s < w.pS_end → g.S.x s ∈ F := by
    intro w hw s h1 h2
    simp only [F, List.mem_toFinset, List.mem_flatMap, List.mem_map, List.mem_range']
    exact ⟨w, hw, s, ⟨s - w.pS, by omega, by omega⟩, rfl⟩
  have hS : ∀ w, w ∈ g.work → ∀ s, w.pS ≤ s → s < w.pS_end →
      g.S.x s ∈ F ∧ 0 ≤ GB_UNFLIP (C.i (g.S.x s)) := by
    intro w hw s h1 h2
    refine ⟨hF w hw s h1 h2, ?_⟩
    have hok := hv.work_ok w hw
    have hs := work_S_mem g w hok.2 s h1 h2
    have hj : w.j < g.nJ := hok.1
    rw [(hv.S_sound w.j hj s hs).2]
    have hr := hv.S_range w.j hj s hs
    have ei : g.S.i s = (((g.S.i s).toNat : Nat) : Int) := (Int.toNat_of_nonneg hr.1).symm
    rw [ei]
    exact hv.I_nonneg _ (by omega)
  have hinv := method13b_zombieInv C g F hS
  have hsum : zombieSum (GB_subassign_method13b C g).1.i F - zombieSum C.i F =
      ((deletedLive C g).length : Int) - ((resurrected C g).length : Int) := by
    unfold zombieSum
    rw [← Finset.sum_sub_distrib]
    have hTF : (targets g).toFinset.image (fun e => g.S.x e.2) ⊆ F := by
      intro q hq
      simp only [Finset.mem_image, List.mem_toFinset] at hq
      obtain ⟨e, he, rfl⟩ := hq
      obtain ⟨⟨w, hw, _, h1, h2⟩, _⟩ := target_facts C g hv e he
      exact hF w hw e.2 h1 h2
    rw [← Finset.sum_subset hTF]
    · rw [Finset.sum_image]
      · rw [List.sum_toFinset _ (targets_nodup g)]
        unfold deletedLive resurrected
        apply sum_map_filter_sub
        intro e he
        have hsl := target_slot C g hv e he
        cases hA : g.A.get (g.S.i e.2) e.1 with
        | none =>
          have h1 := (hsl.1 hA).1
          by_cases hc : C.i (g.S.x e.2) < 0
          · simp [GB_IS_ZOMBIE, GB_IS_NOT_ZOMBIE, hc, h1, not_le.2 hc]
          · simp [GB_IS_ZOMBIE, GB_IS_NOT_ZOMBIE, hc, h1, not_lt.1 hc]
        | some v =>
          have h1 := (hsl.2 v hA).2.1
          by_cases hc : C.i (g.S.x e.2) < 0
          · simp [GB_IS_ZOMBIE, GB_IS_NOT_ZOMBIE, hc, not_lt.2 h1]
          · simp [GB_IS_ZOMBIE, GB_IS_NOT_ZOMBIE, hc, not_lt.2 h1]
      · intro e he e2 he2 hee
        have m1 := (mem_targets g e).1 (List.mem_toFinset.1 (Finset.mem_coe.1 he))
        have m2 := (mem_targets g e2).1 (List.mem_toFinset.1 (Finset.mem_coe.1 he2))
        have := valid_S_inj C g hv e.1 m1.1 e.2 m1.2.1 e2.1 m2.1 e2.2 m2.2.1 hee
        exact Prod.ext this.1 this.2
    · intro q _ hq
      have hun := (method13b_slots C g hv).1 q (by
        intro w hw s h1 h2 hm hsq
        apply hq
        simp only [Finset.mem_image, List.mem_toFinset]
        refine ⟨(w.j, s), ?_, hsq⟩
        rw [mem_targets]
        have hok := hv.work_ok w hw
        exact ⟨hok.1, work_S_mem g w hok.2 s h1 h2, hm⟩)
      rw [hun.1]
      simp
  omega

/-- C26: the action delete of GB_subassign_method13b (`[C . 1]` and `[X . 1]`).
For arguments that meet the conditions of the method: at every position `(i,j)`
of the submatrix with `S(i,j)` present, `A(i,j)` absent and `M(i,j)` false, the
entry of `C` that `S(i,j)` points to is a zombie after phase 1; the action
GB_DELETE_ENTRY leaves a zombie in any state, adds one to `nzombies` when the
entry was live and leaves `nzombies` alone when it was a zombie; and over the
method `nzombies` grows by the number of such positions whose entry was live
on entry, less the number of zombies that the overwrites bring back. -/
theorem GB_subassign_method13b_delete {α γ μ : Type} (C : GB_Matrix γ)
    (g : GB_subassign_args α γ μ) (hv : GB_subassign_valid C g) :
    (∀ j, j < g.nJ → ∀ s, s ∈ g.S.vec j → g.mask (g.S.i s) j = false →
      g.A.get (g.S.i s) j = none →
      GB_IS_ZOMBIE ((GB_subassign_method13b C g).1.i (g.S.x s)) = true) ∧
    (∀ (st : GB_C_state γ) (Sx : Nat → Nat) (pS : Nat),
      GB_IS_ZOMBIE ((GB_DELETE_ENTRY st (GB_C_S_LOOKUP Sx st.Ci pS)).Ci (Sx pS)) = true ∧
      (GB_DELETE_ENTRY st (GB_C_S_LOOKUP Sx st.Ci pS)).nzombies =
        st.nzombies + (if GB_IS_ZOMBIE (st.Ci (Sx pS)) = true then 0 else 1)) ∧
    (GB_subassign_method13b C g).1.nzombies =
      C.nzombies + ((deletedLive C g).length : Int) - ((resurrected C g).length : Int) := by
  refine ⟨?_, ?_, method13b_nzombies_net C g hv⟩
  · intro j hj s hs hm hA
    have he : (j, s) ∈ targets g := (mem_targets g (j, s)).2 ⟨hj, hs, hm⟩
    have h := ((target_slot C g hv (j, s) he).1 hA).1
    simp only [GB_IS_ZOMBIE, decide_eq_true_eq]
    exact h
  · intro st Sx pS
    refine ⟨?_, ?_⟩
    · rw [GB_DELETE_ENTRY_Ci, if_pos rfl]
      simp only [GB_IS_ZOMBIE, decide_eq_true_eq]
      exact deletedIndex_neg _
    · simp only [GB_IS_ZOMBIE, decide_eq_true_eq]
      exact GB_DELETE_ENTRY_nzombies st Sx pS

/-- Witness of C26: in the 3-by-3 example `S(1,0)` is present, `A(1,0)` is absent
and `M(1,0)` is false: the slot 0 of `C`, live on entry, is a zombie after the
method; one live entry is deleted and one zombie is brought back, so that
`nzombies` is `1 + 1 - 1`. -/
theorem GB_subassign_method13b_delete_witness :
    GB_IS_ZOMBIE ((GB_subassign_method13b sub3_C sub3_g).1.i (sub3_g.S.x 1)) = true ∧
    GB_IS_ZOMBIE (sub3_C.i (sub3_g.S.x 1)) = false ∧
    deletedLive sub3_C sub3_g = [(0, 1)] ∧
    resurrected sub3_C sub3_g = [(0, 0)] ∧
    (GB_subassign_method13b sub3_C sub3_g).1.nzombies =
      sub3_C.nzombies + ((deletedLive sub3_C sub3_g).length : Int)
        - ((resurrected sub3_C sub3_g).length : Int) :=
  ⟨(GB_subassign_method13b_delete sub3_C sub3_g sub3_valid).1 0 (by decide) 1 (by decide)
      (by decide) (by decide),
    by decide, by decide, by decide,
    (GB_subassign_method13b_delete sub3_C sub3_g sub3_valid).2.2⟩

/-- C27: the actions overwrite and resurrect of GB_subassign_method13b (`[C A 1]`
and `[X A 1]`).  For arguments that meet the conditions of the method: at every
position `(i,j)` of the submatrix with `S(i,j)` and `A(i,j)` present and
`M(i,j)` false, the entry of `C` that `S(i,j)` points to is live after phase 1,
its index is the un-flipped index it had, and its value is `A(i,j)` typecast to
the type of `C`; the action GB_noaccum_C_A_1_matrix takes one from `nzombies`
when the entry was a zombie and leaves `nzombies` alone when it was live; and
over the method `nzombies` falls by the number of such positions whose entry
was a zombie on entry, less the number of live entries that are deleted. -/
theorem GB_subassign_method13b_overwrite {α γ μ : Type} (C : GB_Matrix γ)
    (g : GB_subassign_args α γ μ) (hv : GB_subassign_valid C g) :
    (∀ j, j < g.nJ → ∀ s, s ∈ g.S.vec j → g.mask (g.S.i s) j = false →
      ∀ v, g.A.get (g.S.i s) j = some v →
      GB_IS_NOT_ZOMBIE ((GB_subassign_method13b C g).1.i (g.S.x s)) = true ∧
      (GB_subassign_method13b C g).1.i (g.S.x s) = GB_UNFLIP (C.i (g.S.x s)) ∧
      (GB_subassign_method13b C g).1.x (g.S.x s) = g.cast_A_to_C v) ∧
    (∀ (st : GB_C_state γ) (Sx : Nat → Nat) (Ax : Nat → α) (pS pA : Nat),
      (GB_noaccum_C_A_1_matrix g.cast_A_to_C st (GB_C_S_LOOKUP Sx st.Ci pS) Ax pA).Ci (Sx pS) =
        GB_UNFLIP (st.Ci (Sx pS)) ∧
      (GB_noaccum_C_A_1_matrix g.cast_A_to_C st (GB_C_S_LOOKUP Sx st.Ci pS) Ax pA).Cx (Sx pS) =
        g.cast_A_to_C (Ax pA) ∧
      (GB_noaccum_C_A_1_matrix g.cast_A_to_C st (GB_C_S_LOOKUP Sx st.Ci pS) Ax pA).nzombies =
        st.nzombies - (if GB_IS_ZOMBIE (st.Ci (Sx pS)) = true then 1 else 0)) ∧
    C.nzombies - (GB_subassign_method13b C g).1.nzombies =
      ((resurrected C g).length : Int) - ((deletedLive C g).length : Int) := by
  refine ⟨?_, ?_, ?_⟩
  · intro j hj s hs hm v hA
    have he : (j, s) ∈ targets g := (mem_targets g (j, s)).2 ⟨hj, hs, hm⟩
    have h := (target_slot C g hv (j, s) he).2 v hA
    have hu := (target_facts C g hv (j, s) he).2.1
    refine ⟨?_, ?_, h.2.2⟩
    · simp only [GB_IS_NOT_ZOMBIE, decide_eq_true_eq]
      exact h.2.1
    · rw [h.1, hu]
  · intro st Sx Ax pS pA
    refine ⟨?_, ?_, ?_⟩
    · rw [GB_noaccum_Ci, if_pos rfl]
    · rw [GB_noaccum_Cx, if_pos rfl]
    · simp only [GB_IS_ZOMBIE, decide_eq_true_eq]
      exact GB_noaccum_nzombies g.cast_A_to_C st Sx Ax pS pA
  · have := method13b_nzombies_net C g hv
    omega

/-- Witness of C27: in the 3-by-3 example `S(0,0)` and `A(0,0) = 7` are present
and `M(0,0)` is false: the slot 1 of `C`, a zombie with the flipped index 2 on
entry, is live after the method with the index 2 and the value 7. -/
theorem GB_subassign_method13b_overwrite_witness :
    (GB_IS_NOT_ZOMBIE ((GB_subassign_method13b sub3_C sub3_g).1.i (sub3_g.S.x 0)) = true ∧
      (GB_subassign_method13b sub3_C sub3_g).1.i (sub3_g.S.x 0) =
        GB_UNFLIP (sub3_C.i (sub3_g.S.x 0)) ∧
      (GB_subassign_method13b sub3_C sub3_g).1.x (sub3_g.S.x 0) = sub3_g.cast_A_to_C 7) ∧
    GB_IS_ZOMBIE (sub3_C.i (sub3_g.S.x 0)) = true ∧
    GB_UNFLIP (sub3_C.i (sub3_g.S.x 0)) = 2 :=
  ⟨(GB_subassign_method13b_overwrite sub3_C sub3_g sub3_valid).1 0 (by decide) 0 (by decide)
      (by decide) 7 (by decide),
    by decide, by decide⟩

/-! ### Submatrix assignment, method 13b: the pending tuples as a multiset -/

theorem mem_insertEntries {α γ μ : Type} (g : GB_subassign_args α γ μ) (e : Nat × Nat) :
    e ∈ insertEntries g ↔ e.1 < g.nJ ∧ e.2 ∈ g.A.vec e.1 ∧ g.mask (g.A.i e.2) e.1 = false ∧
      ∀ s, s ∈ g.S.vec e.1 → g.S.i s ≠ g.A.i e.2 := by
  unfold insertEntries
  simp only [List.mem_flatMap, List.mem_range, List.mem_map, List.mem_filter,
    Bool.and_eq_true, Bool.not_eq_true', List.all_eq_true, bne_iff_ne, ne_eq]
  constructor
  · rintro ⟨j, hj, a, ⟨ha, hm, hs⟩, rfl⟩
    exact ⟨hj, ha, hm, hs⟩
  · rintro ⟨hj, ha, hm, hs⟩
    exact ⟨e.1, hj, e.2, ⟨ha, hm, hs⟩, rfl⟩

theorem insertEntries_nodup {α γ μ : Type} (g : GB_subassign_args α γ μ) :
    (insertEntries g).Nodup := by
  unfold insertEntries
  rw [List.nodup_flatMap]
  refine ⟨?_, ?_⟩
  · intro j _
    apply List.Nodup.map
    · intro a b h
      exact (Prod.mk.inj h).2
    · exact (List.nodup_range' _ _).filter _
  · have h : List.Pairwise (fun a b : Nat => a ≠ b) (List.range g.nJ) := List.nodup_range _
    refine h.imp ?_
    intro j j2 hne
    show List.Disjoint _ _
    intro x hx hx2
    simp only [List.mem_map] at hx hx2
    obtain ⟨s, _, rfl⟩ := hx
    obtain ⟨s2, _, he⟩ := hx2
    exact hne (Prod.mk.inj he).1.symm

/-- The positions that the pieces of work insert, each with its vector: the
qualifying entries of `A`, each once, in the order of the tasks. -/
theorem work_positions_perm {α γ μ : Type} (C : GB_Matrix γ) (g : GB_subassign_args α γ μ)
    (hv : GB_subassign_valid C g) :
    List.Perm (g.work.flatMap (fun w => (insertPositions g w).map (fun a => (w.j, a))))
      (insertEntries g) := by
  rw [List.perm_ext_iff_of_nodup _ (insertEntries_nodup g)]
  · intro e
    rw [mem_insertEntries]
    simp only [List.mem_flatMap, List.mem_map]
    constructor
    · rintro ⟨w, hw, a, ha, rfl⟩
      rw [mem_insertPositions] at ha
      have hok := hv.work_ok w hw
      exact ⟨hok.1, work_A_mem g w hok.2 a ha.1.1 ha.1.2, ha.2.1, ha.2.2⟩
    · rintro ⟨hj, ha, hm, hs⟩
      obtain ⟨w, hw, hwj, a1, a2⟩ := hv.cover_A e.1 hj e.2 ha
      refine ⟨w, hw, e.2, ?_, by rw [hwj]⟩
      rw [mem_insertPositions, hwj]
      exact ⟨⟨a1, a2⟩, hm, hs⟩
  · rw [List.nodup_flatMap]
    refine ⟨?_, ?_⟩
    · intro w _
      apply List.Nodup.map
      · intro a b h
        exact (Prod.mk.inj h).2
      · unfold insertPositions
        exact (List.nodup_range' _ _).filter _
    · refine List.Pairwise.imp_of_mem ?_ hv.disjoint_A
      intro w w2 hw hw2 hR
      show List.Disjoint _ _
      intro x hx hx2
      simp only [List.mem_map] at hx hx2
      obtain ⟨a, ha, rfl⟩ := hx
      obtain ⟨a2, ha2, he⟩ := hx2
      have hj : w2.j = w.j := (Prod.mk.inj he).1
      have haa : a2 = a := (Prod.mk.inj he).2
      subst haa
      rw [mem_insertPositions] at ha ha2
      have hok := hv.work_ok w hw
      exact hR hj.symm a2 (work_A_mem g w hok.2 a2 ha.1.1 ha.1.2)
        ⟨ha.1.1, ha.1.2, ha2.1.1, ha2.1.2⟩

/-- C28: the action insert of GB_subassign_method13b (`[. A 1]`).  For arguments
that meet the conditions of the method, the pending tuples appended in phase 2
are, as a multiset, the tuples `(GB_ijlist (I, iA), GB_ijlist (J, j), Ax [pA])`
of the entries `A(iA,j)` at the positions `pA` of `A` with `M(iA,j)` false and
`S(iA,j)` absent: each qualifying entry of `A` is appended once, and nothing
else is. -/
theorem GB_subassign_method13b_insert {α γ μ : Type} (C : GB_Matrix γ)
    (g : GB_subassign_args α γ μ) (hv : GB_subassign_valid C g) :
    List.Perm (GB_subassign_method13b C g).2
      ((insertEntries g).map (fun e =>
        (GB_ijlist g.I (g.A.i e.2) g.Ikind g.Icolon,
          GB_ijlist g.J (e.1 : Int) g.Jkind g.Jcolon, g.A.x e.2))) ∧
    (insertEntries g).Nodup ∧
    (∀ j a, (j, a) ∈ insertEntries g ↔
      j < g.nJ ∧ a ∈ g.A.vec j ∧ g.mask (g.A.i a) j = false ∧
        ∀ s, s ∈ g.S.vec j → g.S.i s ≠ g.A.i a) := by
  refine ⟨?_, insertEntries_nodup g, fun j a => mem_insertEntries g (j, a)⟩
  have e : (GB_subassign_method13b C g).2 = g.work.flatMap (GB_vector_tuples g) :=
    phase2_eq g g.TaskList (valid_work_ok C g hv)
  have e2 : g.work.flatMap (GB_vector_tuples g) =
      (g.work.flatMap (fun w => (insertPositions g w).map (fun a => (w.j, a)))).map
        (fun e => (GB_ijlist g.I (g.A.i e.2) g.Ikind g.Icolon,
          GB_ijlist g.J (e.1 : Int) g.Jkind g.Jcolon, g.A.x e.2)) := by
    rw [List.map_flatMap]
    apply List.flatMap_congr
    intro w _
    unfold GB_vector_tuples
    rw [List.map_map]
    rfl
  rw [e, e2]
  exact (work_positions_perm C g hv).map _

/-- Witness of C28: in the 3-by-3 example only `A(1,1) = 9`, at the position 2
of `A`, qualifies (`A(0,0)` has `S(0,0)`, `A(0,1)` has `M(0,1)` true): the
method appends the one tuple `(I [1], J [1], 9) = (0, 1, 9)`. -/
theorem GB_subassign_method13b_insert_witness :
    List.Perm (GB_subassign_method13b sub3_C sub3_g).2
      ((insertEntries sub3_g).map (fun e =>
        (GB_ijlist sub3_g.I (sub3_g.A.i e.2) sub3_g.Ikind sub3_g.Icolon,
          GB_ijlist sub3_g.J (e.1 : Int) sub3_g.Jkind sub3_g.Jcolon, sub3_g.A.x e.2))) ∧
    insertEntries sub3_g = [(1, 2)] ∧
    (GB_subassign_method13b sub3_C sub3_g).2 = [(0, 1, 9)] :=
  ⟨(GB_subassign_method13b_insert sub3_C sub3_g sub3_valid).1, by decide, by decide⟩

end GraphBLAS
